import Mathlib

/-!
# Canny edge detector (MPI version): shallow embedding of `canny.c`

Conventions of the embedding.

* A C array is a total function `Int → α` from the index; `setAt` is a store.
  `calloc` gives the constantly-zero array.  The theorems either establish
  that the indices used are inside the allocated block or do not depend on
  what lies outside it.
* `int` loop counters that only take non-negative values are `Nat`;
  `for (i = a; i < a + n; i++)` is `forLoop body a n`.
* `float`/`double` computations are carried out exactly, in a linearly ordered
  field `K` with a floor function (`ℚ` to run the definitions, `ℝ` for the
  mathematical reading).  The libm functions `pow` and `sqrt` are parameters.
* A worker of the MPI group is its `rank : Nat`; a stage takes `rank` and
  `size` and gives the buffer that worker hands to the collective operation,
  the collective operation combines the buffers of ranks `0 .. size-1`.
* Locals that the C code reads before it has written them (`gx`, `gy`,
  `xperp`, `yperp` in `non_max_supp`, `maximum_mag` in `apply_hysteresis`)
  are parameters of the embedding.
-/

namespace Canny

/-! ## Constants of the source -/

/-- `#define NOEDGE 255` -/
def NOEDGE : Nat := 255

/-- `#define POSSIBLE_EDGE 128` -/
def POSSIBLE_EDGE : Nat := 128

/-- `#define EDGE 0` -/
def EDGE : Nat := 0

/-! ## Loops, stores, partition bounds -/

/-- The C loop `for (i = a; i < a + n; i++) s = body i s`. -/
def forLoop {σ : Type} (body : Nat → σ → σ) : Nat → Nat → σ → σ
  | _, 0, s => s
  | i, n + 1, s => forLoop body (i + 1) n (body i s)

/-- The store `f[i] = v`. -/
def setAt {α : Type} (f : Int → α) (i : Int) (v : α) : Int → α :=
  fun j => if j = i then v else f j

/-- First row (column) of a worker: `rank*n/size`. -/
def lo (rank n size : Nat) : Nat := rank * n / size

/-- One past the last row (column) of a worker: `(rank+1)*n/size`. -/
def hi (rank n size : Nat) : Nat := (rank + 1) * n / size

/-! ## Kernel builder -/

section Kernel

variable {K : Type} [LinearOrderedField K] [FloorRing K]

/-- The `*windowsize = 1 + 2 * ceil(2.5 * sigma)` of `make_gaussian_kernel`. -/
def windowsize (sigma : K) : Int := 1 + 2 * ⌈(2.5 : K) * sigma⌉

/-- The value `fx` of the first loop of `make_gaussian_kernel` at index `i`. -/
def gaussFx (powf : K → K → K) (sqrtf : K → K) (sigma : K) (center : Int) (i : Nat) : K :=
  let x : K := (((i : Int) - center : Int) : K)
  powf 2.71828 (-0.5 * x * x / (sigma * sigma)) / (sigma * sqrtf 6.2831853)

/-- The procedure `make_gaussian_kernel`: the kernel array and `windowsize`.
The first loop stores the unnormalised weights and accumulates `sum`, the
second divides every weight by `sum`. -/
def make_gaussian_kernel (powf : K → K → K) (sqrtf : K → K) (sigma : K) :
    (Int → K) × Int :=
  let ws : Int := windowsize sigma
  let center : Int := Int.tdiv ws 2
  let first : (Int → K) × K :=
    forLoop (fun i (ks : (Int → K) × K) =>
        let fx := gaussFx powf sqrtf sigma center i
        (setAt ks.1 (i : Int) fx, ks.2 + fx))
      0 ws.toNat (fun _ => 0, 0)
  let kernel : Int → K :=
    forLoop (fun i (k : Int → K) => setAt k (i : Int) (k (i : Int) / first.2))
      0 ws.toNat first.1
  (kernel, ws)

end Kernel

/-! ## Casts and collective operations -/

/-- Conversion of an `int` to `short` (and of a sum of `short`s to `short`):
the value modulo `2^16` in `[-32768, 32767]`. -/
def wrap16 (x : Int) : Int := (x + 32768) % 65536 - 32768

section Casts

variable {K : Type} [LinearOrderedField K] [FloorRing K]

/-- The C conversion of a floating value to an integer type, `(int) x` or
`(short) x`: truncation toward zero.  (The conversion of a value outside the
range of the target has no defined result in C; the embedding keeps the
truncated value.) -/
def truncCast (x : K) : Int := if 0 ≤ x then ⌊x⌋ else ⌈x⌉

/-- Rounding to the nearest integer, ties to the even one. -/
def roundHalfEven (y : K) : Int :=
  if y - (⌊y⌋ : K) < 1 / 2 then ⌊y⌋
  else if 1 / 2 < y - (⌊y⌋ : K) then ⌊y⌋ + 1
  else if ⌊y⌋ % 2 = 0 then ⌊y⌋ else ⌊y⌋ + 1

/-- The rounding of a number to `float` (IEEE 754 binary32, round to nearest,
ties to even): 24 significant bits, with the fixed spacing `2^-149` below
`2^-126`.  Overflow beyond the largest `float` is not modelled. -/
def float32 (x : K) : K :=
  if x = 0 then 0
  else (roundHalfEven (x / (2 : K) ^ (max (Int.log 2 |x|) (-126) - 23)) : K)
    * (2 : K) ^ (max (Int.log 2 |x|) (-126) - 23)

/-- The C expression `(int)(n * x + 0.5)` for an `int n` and a `float x`, as
in `highcount = (int)(numedges * thigh + 0.5)`: `n` is converted to `float`,
the product is rounded to `float`, `0.5` is added in `double` (where the sum
of a `float` below `2^31` and `0.5` is exact) and the sum is truncated. -/
def roundProd (n : Int) (x : K) : Int := truncCast (float32 (float32 (n : K) * x) + 0.5)

end Casts

/-- Sum of the contributions `f 0 + ... + f (size-1)` of the workers. -/
def sumRanks {M : Type} [AddCommMonoid M] (size : Nat) (f : Nat → M) : M :=
  forLoop (fun r (s : M) => s + f r) 0 size 0

/-- The call `MPI_Allgather (send, count, T, recv, count, T, MPI_COMM_WORLD)`:
block `rank` of `recv` is the first `count` elements of `send rank`. -/
def allgather {α : Type} (count size : Nat) (send : Nat → Int → α) (recv : Int → α) :
    Int → α :=
  fun k => if 0 ≤ k ∧ k < ((size * count : Nat) : Int)
    then send (k / (count : Int)).toNat (k % (count : Int)) else recv k

/-- The call `MPI_Allreduce (send, recv, n, MPI_SHORT, MPI_SUM, MPI_COMM_WORLD)`. -/
def allreduceShort (n size : Nat) (send : Nat → Int → Int) (recv : Int → Int) : Int → Int :=
  fun k => if 0 ≤ k ∧ k < (n : Int) then wrap16 (sumRanks size (fun r => send r k)) else recv k

/-- The call `MPI_Allreduce (send, recv, n, MPI_UNSIGNED_CHAR, MPI_SUM, MPI_COMM_WORLD)`. -/
def allreduceUChar (n size : Nat) (send : Nat → Int → Nat) (recv : Int → Nat) : Int → Nat :=
  fun k => if 0 ≤ k ∧ k < (n : Int) then sumRanks size (fun r => send r k) % 256 else recv k

/-- The call `MPI_Allreduce (send, recv, n, MPI_INT, MPI_SUM, MPI_COMM_WORLD)`
(the counts of a histogram: no overflow of `int` is modelled). -/
def allreduceInt (n size : Nat) (send : Nat → Int → Int) (recv : Int → Int) : Int → Int :=
  fun k => if 0 ≤ k ∧ k < (n : Int) then sumRanks size (fun r => send r k) else recv k

/-- The call `MPI_Reduce (send, recv, n, MPI_UNSIGNED_CHAR, MPI_SUM, 0, MPI_COMM_WORLD)`
as seen by rank 0; `none` when some worker did not deliver its buffer. -/
def reduceUChar (n size : Nat) (send : Nat → Option (Int → Nat)) (recv : Int → Nat) :
    Option (Int → Nat) :=
  (forLoop (fun r (acc : Option (Int → Nat)) =>
      acc.bind (fun a => (send r).map (fun b => fun k => a k + b k)))
    0 size (some (fun _ => 0))).map
    (fun total => fun k => if 0 ≤ k ∧ k < (n : Int) then total k % 256 else recv k)

/-- The loop nest
`pos = p0; for (r = r0; r < r1; r++) for (c = 0; c < cols; c++, pos++) body`
of `apply_hysteresis`, whose body uses `pos` only. -/
def rasterLoop {σ : Type} (body : Int → σ → σ) (p0 : Int) (r0 r1 cols : Nat) (s : σ) : σ :=
  (forLoop (fun _ (st : Int × σ) =>
      forLoop (fun _ (st : Int × σ) => (st.1 + 1, body st.1 st.2)) 0 cols st)
    r0 (r1 - r0) (p0, s)).2

/-! ## Separable smoother -/

section Smoother

variable {K : Type} [LinearOrderedField K] [FloorRing K]

/-- The body of the pixel loop of the x-direction blur of `gaussian_smooth`:
the value `dot/sum` stored for the pixel `(r, c)`. -/
def blur_x_pixel (image : Int → Nat) (cols : Nat) (kernel : Int → K) (center : Int)
    (r c : Nat) : K :=
  let ds : K × K :=
    forLoop (fun j (ds : K × K) =>
        if 0 ≤ (c : Int) + (-center + (j : Int)) ∧ (c : Int) + (-center + (j : Int)) < (cols : Int)
        then
          (ds.1 + ((image ((r : Int) * cols + ((c : Int) + (-center + (j : Int)))) : Nat) : K)
              * kernel (center + (-center + (j : Int))),
           ds.2 + kernel (center + (-center + (j : Int))))
        else ds)
      0 (2 * center + 1).toNat (0, 0)
  ds.1 / ds.2

/-- The x-direction blur of `gaussian_smooth` as done by one worker: its
`tempbuffer`.  The state of the row loop is `(index, tempbuffer)`; the loop
variable `cc` of the source is `-center + j`. -/
def gaussian_smooth_blur_x (image : Int → Nat) (rows cols : Nat) (kernel : Int → K)
    (center : Int) (rank size : Nat) : Int → K :=
  (forLoop (fun r (st : Int × (Int → K)) =>
      (st.1 + 1,
       forLoop (fun c (tb : Int → K) =>
          setAt tb (st.1 * cols + c) (blur_x_pixel image cols kernel center r c))
        0 cols st.2))
    (lo rank rows size) (hi rank rows size - lo rank rows size) (0, fun _ => 0)).2

/-- The body of the pixel loop of the y-direction blur of `gaussian_smooth`:
the value stored for the pixel `(r, c)`. -/
def blur_y_pixel (tempim : Int → K) (rows cols : Nat) (kernel : Int → K) (center : Int)
    (r c : Nat) : Int :=
  let ds : K × K :=
    forLoop (fun j (ds : K × K) =>
        if 0 ≤ (r : Int) + (-center + (j : Int)) ∧ (r : Int) + (-center + (j : Int)) < (rows : Int)
        then
          (ds.1 + tempim (((r : Int) + (-center + (j : Int))) * cols + c)
              * kernel (center + (-center + (j : Int))),
           ds.2 + kernel (center + (-center + (j : Int))))
        else ds)
      0 (2 * center + 1).toNat (0, 0)
  truncCast (ds.1 * 90 / ds.2 + 0.5)

/-- The y-direction blur of `gaussian_smooth` as done by one worker: its
`tempbuffer2`; the loop variable `rr` of the source is `-center + j`. -/
def gaussian_smooth_blur_y (tempim : Int → K) (rows cols : Nat) (kernel : Int → K)
    (center : Int) (rank size : Nat) : Int → Int :=
  forLoop (fun c (tb2 : Int → Int) =>
      forLoop (fun r (tb2 : Int → Int) =>
          setAt tb2 ((r : Int) * cols + c) (blur_y_pixel tempim rows cols kernel center r c))
        0 rows tb2)
    (lo rank cols size) (hi rank cols size - lo rank cols size) (fun _ => 0)

/-- The procedure `gaussian_smooth` run by `size` workers: the `smoothedim`
every worker holds after the final `MPI_Allreduce`. -/
def gaussian_smooth (powf : K → K → K) (sqrtf : K → K) (image : Int → Nat)
    (rows cols : Nat) (sigma : K) (size : Nat) : Int → Int :=
  let kw := make_gaussian_kernel powf sqrtf sigma
  let center : Int := Int.tdiv kw.2 2
  let tempim : Int → K :=
    allgather (rows * cols / size) size
      (fun rank => gaussian_smooth_blur_x image rows cols kw.1 center rank size) (fun _ => 0)
  allreduceShort (rows * cols) size
    (fun rank => gaussian_smooth_blur_y tempim rows cols kw.1 center rank size) (fun _ => 0)

end Smoother

/-! ## Gradient stage -/

/-- The value `derrivative_x_y` stores for `delta_x` at the pixel `(r, c)`:
one-sided differences in the first and last column, the central difference
elsewhere. -/
def dxValue (smoothedim : Int → Int) (cols r c : Nat) : Int :=
  if c = 0 then wrap16 (smoothedim ((r : Int) * cols + 1) - smoothedim ((r : Int) * cols))
  else if c + 1 = cols then
    wrap16 (smoothedim ((r : Int) * cols + c) - smoothedim ((r : Int) * cols + c - 1))
  else wrap16 (smoothedim ((r : Int) * cols + c + 1) - smoothedim ((r : Int) * cols + c - 1))

/-- The value `derrivative_x_y` stores for `delta_y` at the pixel `(r, c)`:
one-sided differences in the first and last row, the central difference
elsewhere. -/
def dyValue (smoothedim : Int → Int) (rows cols r c : Nat) : Int :=
  if r = 0 then wrap16 (smoothedim ((c : Int) + cols) - smoothedim (c : Int))
  else if r + 1 = rows then
    wrap16 (smoothedim ((r : Int) * cols + c) - smoothedim ((r : Int) * cols + c - cols))
  else wrap16 (smoothedim ((r : Int) * cols + c + cols) - smoothedim ((r : Int) * cols + c - cols))

/-- The x-derivative of `derrivative_x_y` as done by one worker: its
`tempbuffer`.  The state of the row loop is `(index, tempbuffer)`, that of the
column loop `(pos, index, tempbuffer)`. -/
def derrivative_x (smoothedim : Int → Int) (rows cols rank size : Nat) : Int → Int :=
  (forLoop (fun r (st : Int × (Int → Int)) =>
      let pos : Int := (r : Int) * cols
      let tb := setAt st.2 st.1 (wrap16 (smoothedim (pos + 1) - smoothedim pos))
      let inner : Int × Int × (Int → Int) :=
        forLoop (fun _ (t : Int × Int × (Int → Int)) =>
            (t.1 + 1, t.2.1 + 1,
             setAt t.2.2 t.2.1 (wrap16 (smoothedim (t.1 + 1) - smoothedim (t.1 - 1)))))
          1 (cols - 1 - 1) (pos + 1, st.1 + 1, tb)
      (inner.2.1 + 1,
       setAt inner.2.2 inner.2.1 (wrap16 (smoothedim inner.1 - smoothedim (inner.1 - 1)))))
    (lo rank rows size) (hi rank rows size - lo rank rows size) (0, fun _ => 0)).2

/-- The y-derivative of `derrivative_x_y` as done by one worker: its
`tempbuffer2`.  The state of the row loop is `(pos, tempbuffer2)`. -/
def derrivative_y (smoothedim : Int → Int) (rows cols rank size : Nat) : Int → Int :=
  forLoop (fun c (tb2 : Int → Int) =>
      let pos : Int := (c : Int)
      let tb := setAt tb2 pos (wrap16 (smoothedim (pos + cols) - smoothedim pos))
      let inner : Int × (Int → Int) :=
        forLoop (fun _ (t : Int × (Int → Int)) =>
            (t.1 + cols,
             setAt t.2 t.1 (wrap16 (smoothedim (t.1 + cols) - smoothedim (t.1 - cols)))))
          1 (rows - 1 - 1) (pos + cols, tb)
      setAt inner.2 inner.1 (wrap16 (smoothedim inner.1 - smoothedim (inner.1 - cols))))
    (lo rank cols size) (hi rank cols size - lo rank cols size) (fun _ => 0)

/-- The procedure `derrivative_x_y` run by `size` workers: `(delta_x, delta_y)`. -/
def derrivative_x_y (smoothedim : Int → Int) (rows cols size : Nat) :
    (Int → Int) × (Int → Int) :=
  (allgather (rows * cols / size) size
      (fun rank => derrivative_x smoothedim rows cols rank size) (fun _ => 0),
   allreduceShort (rows * cols) size
      (fun rank => derrivative_y smoothedim rows cols rank size) (fun _ => 0))

section Magnitude

variable {K : Type} [LinearOrderedField K] [FloorRing K]

/-- The value `magnitude_x_y` stores from the derivatives at the cell `p`,
`(short)(0.5 + sqrt((float)sq1 + (float)sq2))`: the two squares are converted
to `float`, their sum is rounded to `float`, and the truncated value is
stored in a `short` (reduced modulo `2^16` when it does not fit).  The square
root and the addition of `0.5` are done in `double`; their rounding is not
modelled (the argument is an integer below `2^32`, whose square root is
further from every half-integer than a `double` rounding can move it). -/
def magValue (sqrtf : K → K) (delta_x delta_y : Int → Int) (p : Int) : Int :=
  wrap16 (truncCast (0.5 + sqrtf (float32 (float32 ((delta_x p * delta_x p : Int) : K)
    + float32 ((delta_y p * delta_y p : Int) : K)))))

/-- The loop of `magnitude_x_y` as done by one worker: its `tempbuffer`.  The
state is `(pos, index, tempbuffer)`; `sq1` and `sq2` of the source are inside
`magValue`. -/
def magnitude_rank (sqrtf : K → K) (delta_x delta_y : Int → Int) (rows cols rank size : Nat) :
    Int → Int :=
  (forLoop (fun _ (st : Int × Int × (Int → Int)) =>
      forLoop (fun _ (t : Int × Int × (Int → Int)) =>
          (t.1 + 1, t.2.1 + 1, setAt t.2.2 t.2.1 (magValue sqrtf delta_x delta_y t.1)))
        0 cols st)
    (lo rank rows size) (hi rank rows size - lo rank rows size)
    (((rank * rows * cols / size : Nat) : Int), 0, fun _ => 0)).2.2

/-- The procedure `magnitude_x_y` run by `size` workers. -/
def magnitude_x_y (sqrtf : K → K) (delta_x delta_y : Int → Int) (rows cols size : Nat) :
    Int → Int :=
  allgather (rows * cols / size) size
    (fun rank => magnitude_rank sqrtf delta_x delta_y rows cols rank size) (fun _ => 0)

end Magnitude

/-! ## Non-maximum suppression -/

/-- What a `float` variable can hold: a number, an infinity or a NaN.  The
locals `xperp`, `yperp` of `non_max_supp` are not initialised, so they can
hold any of these when the procedure is entered. -/
inductive FloatVal (K : Type) where
  | fin (x : K) : FloatVal K
  | pinf : FloatVal K
  | ninf : FloatVal K
  | nan : FloatVal K

section FloatValOps

variable {K : Type} [LinearOrderedField K]

/-- The product of two `float` values: a NaN gives a NaN, zero times an
infinity is a NaN, and the sign of an infinite product is the product of the
signs. -/
def FloatVal.mul : FloatVal K → FloatVal K → FloatVal K
  | FloatVal.fin a, FloatVal.fin b => FloatVal.fin (a * b)
  | FloatVal.fin a, FloatVal.pinf =>
    if 0 < a then FloatVal.pinf else if a < 0 then FloatVal.ninf else FloatVal.nan
  | FloatVal.fin a, FloatVal.ninf =>
    if 0 < a then FloatVal.ninf else if a < 0 then FloatVal.pinf else FloatVal.nan
  | FloatVal.pinf, FloatVal.fin b =>
    if 0 < b then FloatVal.pinf else if b < 0 then FloatVal.ninf else FloatVal.nan
  | FloatVal.ninf, FloatVal.fin b =>
    if 0 < b then FloatVal.ninf else if b < 0 then FloatVal.pinf else FloatVal.nan
  | FloatVal.pinf, FloatVal.pinf => FloatVal.pinf
  | FloatVal.pinf, FloatVal.ninf => FloatVal.ninf
  | FloatVal.ninf, FloatVal.pinf => FloatVal.ninf
  | FloatVal.ninf, FloatVal.ninf => FloatVal.pinf
  | FloatVal.nan, _ => FloatVal.nan
  | _, FloatVal.nan => FloatVal.nan

/-- The sum of two `float` values: a NaN gives a NaN, and so do two
infinities of opposite signs. -/
def FloatVal.add : FloatVal K → FloatVal K → FloatVal K
  | FloatVal.fin a, FloatVal.fin b => FloatVal.fin (a + b)
  | FloatVal.fin _, FloatVal.pinf => FloatVal.pinf
  | FloatVal.fin _, FloatVal.ninf => FloatVal.ninf
  | FloatVal.pinf, FloatVal.fin _ => FloatVal.pinf
  | FloatVal.ninf, FloatVal.fin _ => FloatVal.ninf
  | FloatVal.pinf, FloatVal.pinf => FloatVal.pinf
  | FloatVal.ninf, FloatVal.ninf => FloatVal.ninf
  | FloatVal.pinf, FloatVal.ninf => FloatVal.nan
  | FloatVal.ninf, FloatVal.pinf => FloatVal.nan
  | FloatVal.nan, _ => FloatVal.nan
  | _, FloatVal.nan => FloatVal.nan

/-- The test `x > 0.0` on a `float` value: false for a NaN. -/
def FloatVal.gtZero : FloatVal K → Bool
  | FloatVal.fin a => decide (0 < a)
  | FloatVal.pinf => true
  | FloatVal.ninf => false
  | FloatVal.nan => false

/-- The test `x == 0.0` on a `float` value: false for a NaN. -/
def FloatVal.eqZero : FloatVal K → Bool
  | FloatVal.fin a => decide (a = 0)
  | _ => false

instance : Mul (FloatVal K) := ⟨FloatVal.mul⟩

instance : Add (FloatVal K) := ⟨FloatVal.add⟩

instance : IntCast (FloatVal K) := ⟨fun n => FloatVal.fin (n : K)⟩

instance : Zero (FloatVal K) := ⟨FloatVal.fin 0⟩

end FloatValOps

/-- The locals `gx`, `gy`, `xperp`, `yperp` of `non_max_supp`, which keep their
value from one pixel to the next. -/
structure NmsRegs (K : Type) where
  gx : Int
  gy : Int
  xperp : FloatVal K
  yperp : FloatVal K

section Nms

variable {K : Type} [LinearOrderedField K] [FloorRing K]

/-- The octant code of `non_max_supp` at the pixel `p`: the pair
`(mag1, mag2)` computed from the centre magnitude `m00`, the gradient
`(gx, gy)` and the weights `xperp`, `yperp`; `z d` is `*(magptr + d)`.  The
arithmetic is that of the type `F` of the weights: numbers (`F = K`) or
`float` values with infinities and NaN (`F = FloatVal K`). -/
def nmsMags {F : Type} [Add F] [Mul F] [IntCast F] (mag : Int → Int) (ncols : Nat)
    (p m00 gx gy : Int) (xperp yperp : F) : F × F :=
  let z : Int → Int := fun d => mag (p + d)
  let n : Int := (ncols : Int)
  if gx ≥ 0 then
    if gy ≥ 0 then
      if gx ≥ gy then
        (((m00 - z (-1) : Int) : F) * xperp + ((z (-n - 1) - z (-1) : Int) : F) * yperp,
         ((m00 - z 1 : Int) : F) * xperp + ((z (n + 1) - z 1 : Int) : F) * yperp)
      else
        (((z (-n) - z (-n - 1) : Int) : F) * xperp + ((z (-n) - m00 : Int) : F) * yperp,
         ((z n - z (n + 1) : Int) : F) * xperp + ((z n - m00 : Int) : F) * yperp)
    else
      if gx ≥ -gy then
        (((m00 - z (-1) : Int) : F) * xperp + ((z (-1) - z (n - 1) : Int) : F) * yperp,
         ((m00 - z 1 : Int) : F) * xperp + ((z 1 - z (-n + 1) : Int) : F) * yperp)
      else
        (((z n - z (n - 1) : Int) : F) * xperp + ((m00 - z n : Int) : F) * yperp,
         ((z (-n) - z (-n + 1) : Int) : F) * xperp + ((m00 - z (-n) : Int) : F) * yperp)
  else
    if gy ≥ 0 then
      if -gx ≥ gy then
        (((z 1 - m00 : Int) : F) * xperp + ((z (-n + 1) - z 1 : Int) : F) * yperp,
         ((z (-1) - m00 : Int) : F) * xperp + ((z (n - 1) - z (-1) : Int) : F) * yperp)
      else
        (((z (-n + 1) - z (-n) : Int) : F) * xperp + ((z (-n) - m00 : Int) : F) * yperp,
         ((z (n - 1) - z n : Int) : F) * xperp + ((z n - m00 : Int) : F) * yperp)
    else
      if -gx > -gy then
        (((z 1 - m00 : Int) : F) * xperp + ((z 1 - z (n + 1) : Int) : F) * yperp,
         ((z (-1) - m00 : Int) : F) * xperp + ((z (-1) - z (-n - 1) : Int) : F) * yperp)
      else
        (((z (n + 1) - z n : Int) : F) * xperp + ((m00 - z n : Int) : F) * yperp,
         ((z (-n - 1) - z (-n) : Int) : F) * xperp + ((m00 - z (-n) : Int) : F) * yperp)

/-- The final test of the pixel loop of `non_max_supp` on a pair
`(mag1, mag2)` of numbers: the byte stored.  (`nmsValueFloat` is the test on
`float` values, which `nmsPixel` uses; the two agree on numbers.) -/
def nmsValue (mags : K × K) : Nat :=
  if mags.1 > 0 ∨ mags.2 > 0 then NOEDGE
  else if mags.2 = 0 then NOEDGE else POSSIBLE_EDGE

/-- The final test of the pixel loop of `non_max_supp` on `float` values: a
NaN fails the three comparisons, so a pair of NaN is stored as
`POSSIBLE_EDGE`. -/
def nmsValueFloat (mags : FloatVal K × FloatVal K) : Nat :=
  if mags.1.gtZero = true ∨ mags.2.gtZero = true then NOEDGE
  else if mags.2.eqZero = true then NOEDGE else POSSIBLE_EDGE

/-- The body of the pixel loop of `non_max_supp` at the pixel `p` (the common
offset of `magptr`, `gxptr`, `gyptr`), storing at `index`.  When `m00` is 0
the registers keep their old values, which for the first pixels of a worker
are those the uninitialised locals had on entry; when `gx < 0` the register
`gy` is read again from `grady`.  The quotients `-gx/m00`, `gy/m00` and the
sums of products of the octant code are numbers computed exactly: their
rounding to `float` is not modelled. -/
def nmsPixel (mag gradx grady : Int → Int) (ncols : Nat) (p index : Int)
    (st : NmsRegs K × (Int → Nat)) : NmsRegs K × (Int → Nat) :=
  let m00 : Int := mag p
  let tb1 : Int → Nat := if m00 = 0 then setAt st.2 index NOEDGE else st.2
  let gx : Int := if m00 = 0 then st.1.gx else gradx p
  let xperp : FloatVal K :=
    if m00 = 0 then st.1.xperp else FloatVal.fin (((-gx : Int) : K) / (m00 : K))
  let gy0 : Int := if m00 = 0 then st.1.gy else grady p
  let yperp : FloatVal K :=
    if m00 = 0 then st.1.yperp else FloatVal.fin ((gy0 : K) / (m00 : K))
  let gy : Int := if gx ≥ 0 then gy0 else grady p
  (⟨gx, gy, xperp, yperp⟩,
   setAt tb1 index (nmsValueFloat (nmsMags mag ncols p m00 gx gy xperp yperp)))

/-- The loops of `non_max_supp` as done by one worker: its `tempbuffer`.
The state of the row loop is `(rowptr, index, registers, tempbuffer)`, where
`rowptr` is the common offset of `magrowptr`, `gxrowptr`, `gyrowptr`; that of
the column loop is `(ptr, index, registers, tempbuffer)`. -/
def non_max_supp_rank (mag gradx grady : Int → Int) (nrows ncols rank size : Nat)
    (regs0 : NmsRegs K) : Int → Nat :=
  let val1 : Nat := if rank = 0 then 1 else 0
  let val2 : Nat := if rank + 1 = size then 2 else 0
  let start : Int :=
    if rank = 0 then ((ncols + 1 : Nat) : Int)
    else ((ncols * rank * nrows / size + 1 : Nat) : Int)
  (forLoop (fun _ (st : Int × Int × NmsRegs K × (Int → Nat)) =>
      let inner : Int × Int × NmsRegs K × (Int → Nat) :=
        forLoop (fun _ (t : Int × Int × NmsRegs K × (Int → Nat)) =>
            let w := nmsPixel mag gradx grady ncols t.1 t.2.1 t.2.2
            (t.1 + 1, t.2.1 + 1, w))
          1 (ncols - 2 - 1) (st.1, st.2.1, st.2.2)
      (st.1 + ncols, inner.2.1 + 3, inner.2.2))
    (val1 + lo rank nrows size) (hi rank nrows size - val2 - (val1 + lo rank nrows size))
    (start, start, regs0, fun _ => 0)).2.2.2

/-- The procedure `non_max_supp` run by `size` workers: the `result` every
worker holds after the `MPI_Allreduce`.  `regs0 rank` is what the locals
`gx`, `gy`, `xperp`, `yperp` of worker `rank` hold on entry. -/
def non_max_supp (mag gradx grady : Int → Int) (nrows ncols size : Nat)
    (regs0 : Nat → NmsRegs K) (result : Int → Nat) : Int → Nat :=
  allreduceUChar (nrows * ncols) size
    (fun rank => non_max_supp_rank mag gradx grady nrows ncols rank size (regs0 rank)) result

end Nms

/-! ## Hysteresis -/

/-- The table `x[8]` of `follow_edges`. -/
def xoff (i : Nat) : Int :=
  match i with
  | 0 => 1 | 1 => 1 | 2 => 0 | 3 => -1 | 4 => -1 | 5 => -1 | 6 => 0 | _ => 1

/-- The table `y[8]` of `follow_edges`. -/
def yoff (i : Nat) : Int :=
  match i with
  | 0 => 0 | 1 => 1 | 2 => 1 | 3 => 1 | 4 => 0 | 5 => -1 | 6 => -1 | _ => -1

/-- The recursive procedure `follow_edges`, called on the pixel at offset `p`
(`edgemapptr = map + p`, `edgemagptr = mag + p`).  `fuel` bounds the depth of
the recursion; `none` means the bound was reached. -/
def follow_edges : Nat → (Int → Nat) → (Int → Int) → Int → Int → Nat → Option (Int → Nat)
  | 0, _, _, _, _, _ => none
  | fuel + 1, map, mag, p, lowval, cols =>
    forLoop (fun i (st : Option (Int → Nat)) =>
        st.bind (fun m =>
          let q : Int := p - yoff i * (cols : Int) + xoff i
          if m q = POSSIBLE_EDGE ∧ mag q > lowval then
            follow_edges fuel (setAt m q EDGE) mag q lowval cols
          else some m))
      0 8 (some map)

/-- The part of `apply_hysteresis` that initialises `tempbuffer`: the worker's
rows are seeded from `nms`, then every worker clears the four borders. -/
def hysteresis_seed (nms : Int → Nat) (rows cols rank size : Nat) : Int → Nat :=
  let tb1 : Int → Nat :=
    rasterLoop (fun pos (tb : Int → Nat) =>
        if nms pos = POSSIBLE_EDGE then setAt tb pos POSSIBLE_EDGE else setAt tb pos NOEDGE)
      ((rank * rows * cols / size : Nat) : Int) (lo rank rows size) (hi rank rows size) cols
      (fun _ => 0)
  let tb2 : Int → Nat :=
    (forLoop (fun _ (st : Int × (Int → Nat)) =>
        (st.1 + cols, setAt (setAt st.2 st.1 NOEDGE) (st.1 + cols - 1) NOEDGE))
      0 rows (0, tb1)).2
  (forLoop (fun c (st : Int × (Int → Nat)) =>
      (st.1 + 1, setAt (setAt st.2 (c : Int) NOEDGE) st.1 NOEDGE))
    0 cols (((rows : Int) - 1) * cols, tb2)).2

/-- The cells in which the two border loops of `apply_hysteresis` store
`NOEDGE`: `c` and `(rows-1)*cols + c` for a column `c`, `r*cols` and
`r*cols + cols - 1` for a row `r`. -/
def borderPos (rows cols : Nat) (j : Int) : Prop :=
  (∃ c : Nat, c < cols ∧ (j = (c : Int) ∨ j = ((rows : Int) - 1) * cols + c)) ∨
  (∃ r : Nat, r < rows ∧ (j = (r : Int) * cols ∨ j = (r : Int) * cols + cols - 1))

instance (rows cols : Nat) (j : Int) : Decidable (borderPos rows cols j) := by
  unfold borderPos
  infer_instance

/-- The cells worker `rank` visits in the loops of `apply_hysteresis` over its
rows: `rows_of_rank * cols` cells from `pos = rank*rows*cols/size` on. -/
def ownPos (rows cols rank size : Nat) (j : Int) : Prop :=
  ((rank * rows * cols / size : Nat) : Int) ≤ j ∧
  j < ((rank * rows * cols / size : Nat) : Int)
        + (((hi rank rows size - lo rank rows size) * cols : Nat) : Int)

instance (rows cols rank size : Nat) (j : Int) : Decidable (ownPos rows cols rank size j) := by
  unfold ownPos
  infer_instance

/-- The relation between a `tempbuffer` and a later state of it during the
tracing of edges: a cell either keeps its value or went from `POSSIBLE_EDGE`
to `EDGE`, and then satisfies `R`. -/
def traceStep (R : Int → Prop) (tb tb' : Int → Nat) : Prop :=
  ∀ j, tb' j = tb j ∨ (tb j = POSSIBLE_EDGE ∧ tb' j = EDGE ∧ R j)

/-- No neighbour of the cell `j`, in the sense of `follow_edges`, is still
`POSSIBLE_EDGE` with a magnitude above `lowval`. -/
def traceClosed (cols : Nat) (mag : Int → Int) (lowval : Int) (tb : Int → Nat) (j : Int) :
    Prop :=
  ∀ i, i < 8 → ¬ (tb (j - yoff i * (cols : Int) + xoff i) = POSSIBLE_EDGE
    ∧ mag (j - yoff i * (cols : Int) + xoff i) > lowval)

/-- Number of cells of `S` that are `POSSIBLE_EDGE`. -/
def possCount (S : Finset Int) (tb : Int → Nat) : Nat :=
  (S.filter (fun j => tb j = POSSIBLE_EDGE)).card

/-- The cells `p` and `q` are two distinct pixels of the `rows × cols` raster
whose rows differ by at most one and whose columns differ by at most one. -/
def neighbours8 (rows cols : Nat) (p q : Int) : Prop :=
  ∃ r c r' c' : Nat, r < rows ∧ c < cols ∧ r' < rows ∧ c' < cols ∧
    p = (r : Int) * cols + c ∧ q = (r' : Int) * cols + c' ∧
    r ≤ r' + 1 ∧ r' ≤ r + 1 ∧ c ≤ c' + 1 ∧ c' ≤ c + 1 ∧ p ≠ q

/-- The part of `apply_hysteresis` that fills the worker's `temphist`. -/
def hysteresis_temphist (mag : Int → Int) (tempbuffer : Int → Nat) (rows cols rank size : Nat) :
    Int → Int :=
  rasterLoop (fun pos (h : Int → Int) =>
      if tempbuffer pos = POSSIBLE_EDGE then setAt h (mag pos) (h (mag pos) + 1) else h)
    ((rank * rows * cols / size : Nat) : Int) (lo rank rows size) (hi rank rows size) cols
    (fun _ => 0)

/-- The loop `for(r=1,numedges=0;r<32768;r++)` of `apply_hysteresis`: the pair
`(maximum_mag, numedges)`; `mm0` is what `maximum_mag` holds on entry. -/
def hysteresis_numedges (hist : Int → Int) (mm0 : Int) : Int × Int :=
  forLoop (fun r (st : Int × Int) =>
      ((if hist (r : Int) ≠ 0 then (r : Int) else st.1), st.2 + hist (r : Int)))
    1 32767 (mm0, 0)

/-- The loop `while((r<(maximum_mag-1)) && (numedges < highcount))` of
`apply_hysteresis`, run for at most `n` iterations from `(r, numedges)`. -/
def hysteresis_highloop (hist : Int → Int) (maximum_mag highcount : Int) :
    Nat → Int → Int → Int
  | 0, r, _ => r
  | n + 1, r, numedges =>
    if r < maximum_mag - 1 ∧ numedges < highcount then
      hysteresis_highloop hist maximum_mag highcount n (r + 1) (numedges + hist (r + 1))
    else r

section Thresholds

variable {K : Type} [LinearOrderedField K] [FloorRing K]

/-- The thresholds of `apply_hysteresis`: `(lowthreshold, highthreshold)`.
The `while` loop starts at `r = 1` and leaves at `r = maximum_mag - 1` at the
latest, so `maximum_mag - 2` iterations are all it can do.  The two products
`numedges * thigh` and `highthreshold * tlow` are `float` products. -/
def hysteresis_thresholds (hist : Int → Int) (tlow thigh : K) (mm0 : Int) : Int × Int :=
  let mn := hysteresis_numedges hist mm0
  let highcount : Int := roundProd mn.2 thigh
  let highthreshold : Int :=
    hysteresis_highloop hist mn.1 highcount (mn.1 - 2).toNat 1 (hist 1)
  (roundProd highthreshold tlow, highthreshold)

end Thresholds

/-- The loop of `apply_hysteresis` that looks for pixels above `highthreshold`
in the worker's rows and calls `follow_edges` on them. -/
def hysteresis_trace (fuel : Nat) (mag : Int → Int) (tempbuffer : Int → Nat)
    (rows cols rank size : Nat) (lowthreshold highthreshold : Int) : Option (Int → Nat) :=
  rasterLoop (fun pos (st : Option (Int → Nat)) =>
      st.bind (fun tb =>
        if tb pos = POSSIBLE_EDGE ∧ mag pos ≥ highthreshold then
          follow_edges fuel (setAt tb pos EDGE) mag pos (wrap16 lowthreshold) cols
        else some tb))
    ((rank * rows * cols / size : Nat) : Int) (lo rank rows size) (hi rank rows size) cols
    (some tempbuffer)

/-- The procedure `follow_edges` with a ghost record of its calls: besides the
map it returns the list of the pixels on which the procedure called itself,
in the order of the calls (each one was set to `EDGE` just before its call). -/
def follow_edges_calls : Nat → (Int → Nat) → (Int → Int) → Int → Int → Nat →
    Option ((Int → Nat) × List Int)
  | 0, _, _, _, _, _ => none
  | fuel + 1, map, mag, p, lowval, cols =>
    forLoop (fun i (st : Option ((Int → Nat) × List Int)) =>
        st.bind (fun m =>
          let q : Int := p - yoff i * (cols : Int) + xoff i
          if m.1 q = POSSIBLE_EDGE ∧ mag q > lowval then
            (follow_edges_calls fuel (setAt m.1 q EDGE) mag q lowval cols).map
              (fun res => (res.1, m.2 ++ q :: res.2))
          else some m))
      0 8 (some (map, []))

/-- The loop of `apply_hysteresis` that sets the remaining possible edges of
the worker's rows to non-edges. -/
def hysteresis_cleanup (tempbuffer : Int → Nat) (rows cols rank size : Nat) : Int → Nat :=
  rasterLoop (fun pos (tb : Int → Nat) => if tb pos ≠ EDGE then setAt tb pos NOEDGE else tb)
    ((rank * rows * cols / size : Nat) : Int) (lo rank rows size) (hi rank rows size) cols
    tempbuffer

section Hysteresis

variable {K : Type} [LinearOrderedField K] [FloorRing K]

/-- The histogram every worker holds after the `MPI_Allreduce` of
`apply_hysteresis`. -/
def hysteresis_hist (mag : Int → Int) (nms : Int → Nat) (rows cols size : Nat) : Int → Int :=
  allreduceInt 32768 size
    (fun rank =>
      hysteresis_temphist mag (hysteresis_seed nms rows cols rank size) rows cols rank size)
    (fun _ => 0)

/-- The `tempbuffer` worker `rank` hands to the final `MPI_Reduce` of
`apply_hysteresis`.  The recursion of `follow_edges` is given the depth
`rows*cols + 1`. -/
def apply_hysteresis_rank (mag : Int → Int) (nms : Int → Nat) (rows cols : Nat)
    (tlow thigh : K) (rank size : Nat) (mm0 : Int) : Option (Int → Nat) :=
  let th := hysteresis_thresholds (hysteresis_hist mag nms rows cols size) tlow thigh mm0
  (hysteresis_trace (rows * cols + 1) mag (hysteresis_seed nms rows cols rank size)
      rows cols rank size th.1 th.2).map
    (fun tb => hysteresis_cleanup tb rows cols rank size)

/-- The procedure `apply_hysteresis` run by `size` workers: the `edge` image of
rank 0 after the `MPI_Reduce`.  `mm0 rank` is what `maximum_mag` of worker
`rank` holds on entry, `edge` the image passed in. -/
def apply_hysteresis (mag : Int → Int) (nms : Int → Nat) (rows cols : Nat)
    (tlow thigh : K) (size : Nat) (mm0 : Nat → Int) (edge : Int → Nat) : Option (Int → Nat) :=
  reduceUChar (rows * cols) size
    (fun rank => apply_hysteresis_rank mag nms rows cols tlow thigh rank size (mm0 rank)) edge

/-! ## The pipeline -/

/-- The magnitude image and the two derivative images `canny` computes. -/
def canny_gradient (powf : K → K → K) (sqrtf : K → K) (image : Int → Nat) (rows cols : Nat)
    (sigma : K) (size : Nat) : (Int → Int) × (Int → Int) × (Int → Int) :=
  let smoothedim := gaussian_smooth powf sqrtf image rows cols sigma size
  let d := derrivative_x_y smoothedim rows cols size
  (magnitude_x_y sqrtf d.1 d.2 rows cols size, d.1, d.2)

/-- The procedure `canny` run by `size` workers (without the optional output
of the gradient direction): the `edge` image of rank 0.  `nms` and `edge` are
allocated with `calloc`. -/
def canny (powf : K → K → K) (sqrtf : K → K) (image : Int → Nat) (rows cols : Nat)
    (sigma tlow thigh : K) (size : Nat) (regs0 : Nat → NmsRegs K) (mm0 : Nat → Int) :
    Option (Int → Nat) :=
  let g := canny_gradient powf sqrtf image rows cols sigma size
  let nms := non_max_supp g.1 g.2.1 g.2.2 rows cols size regs0 (fun _ => 0)
  apply_hysteresis g.1 nms rows cols tlow thigh size mm0 (fun _ => 0)

end Hysteresis

/-! ## Generic facts about loops -/

theorem forLoop_zero {σ : Type} (body : Nat → σ → σ) (a : Nat) (s : σ) :
    forLoop body a 0 s = s := rfl

theorem forLoop_succ {σ : Type} (body : Nat → σ → σ) (a n : Nat) (s : σ) :
    forLoop body a (n + 1) s = forLoop body (a + 1) n (body a s) := rfl

/-- Peeling the last iteration. -/
theorem forLoop_succ_last {σ : Type} (body : Nat → σ → σ) (a n : Nat) (s : σ) :
    forLoop body a (n + 1) s = body (a + n) (forLoop body a n s) := by
  induction n generalizing a s with
  | zero => rfl
  | succ n ih =>
    have e : a + 1 + n = a + (n + 1) := by omega
    rw [forLoop_succ, ih, forLoop_succ, e]

/-- Invariant rule for `forLoop`. -/
theorem forLoop_inv {σ : Type} (body : Nat → σ → σ) (P : Nat → σ → Prop) (a n : Nat) (s : σ)
    (h0 : P a s)
    (hstep : ∀ j t, a ≤ j → j < a + n → P j t → P (j + 1) (body j t)) :
    P (a + n) (forLoop body a n s) := by
  induction n with
  | zero => simpa using h0
  | succ n ih =>
    rw [forLoop_succ_last]
    have h1 := ih (fun j t hj hlt hp => hstep j t hj (by omega) hp)
    have h2 := hstep (a + n) _ (by omega) (by omega) h1
    simpa [Nat.add_assoc] using h2

/-- Two loops that agree on every iteration agree. -/
theorem forLoop_congr {σ : Type} (f g : Nat → σ → σ) (a n : Nat) (s : σ)
    (h : ∀ j t, a ≤ j → j < a + n → f j t = g j t) :
    forLoop f a n s = forLoop g a n s := by
  induction n generalizing a s with
  | zero => rfl
  | succ n ih =>
    rw [forLoop_succ, forLoop_succ, h a s (le_refl _) (by omega)]
    exact ih _ _ (fun j t hj hlt => h j t (by omega) (by omega))

/-- A loop whose body stores at index `i` a value computed from `i` and from
the old content of that cell. -/
theorem forLoop_store {α : Type} (F : Nat → α → α) (a n : Nat) (k0 : Int → α) (j : Int) :
    forLoop (fun i (k : Int → α) => setAt k (i : Int) (F i (k (i : Int)))) a n k0 j
      = if (a : Int) ≤ j ∧ j < (a : Int) + n then F j.toNat (k0 j) else k0 j := by
  induction n generalizing a k0 with
  | zero =>
    have h : ¬ ((a : Int) ≤ j ∧ j < (a : Int) + ((0 : Nat) : Int)) := by omega
    rw [forLoop_zero, if_neg h]
  | succ n ih =>
    rw [forLoop_succ, ih]
    by_cases hj : j = (a : Int)
    · subst hj
      have h1 : ¬ (((a + 1 : Nat) : Int) ≤ (a : Int) ∧ (a : Int) < ((a + 1 : Nat) : Int) + n) := by
        omega
      have h2 : ((a : Int) ≤ (a : Int) ∧ (a : Int) < (a : Int) + ((n + 1 : Nat) : Int)) := by
        omega
      rw [if_neg h1, if_pos h2]
      simp [setAt]
    · by_cases hr : (a : Int) ≤ j ∧ j < (a : Int) + ((n + 1 : Nat) : Int)
      · have h1 : (((a + 1 : Nat) : Int) ≤ j ∧ j < ((a + 1 : Nat) : Int) + n) := by omega
        rw [if_pos h1, if_pos hr]
        simp [setAt, hj]
      · have h1 : ¬ (((a + 1 : Nat) : Int) ≤ j ∧ j < ((a + 1 : Nat) : Int) + n) := by omega
        rw [if_neg h1, if_neg hr]
        simp [setAt, hj]

/-- A loop that accumulates a sum. -/
theorem forLoop_sum {M : Type} [AddCommMonoid M] (g : Nat → M) (a n : Nat) (s0 : M) :
    forLoop (fun i (s : M) => s + g i) a n s0
      = s0 + ∑ i in Finset.range n, g (a + i) := by
  induction n with
  | zero => simp [forLoop_zero]
  | succ n ih => rw [forLoop_succ_last, ih, Finset.sum_range_succ, add_assoc]

/-- A loop on a pair whose components do not interact splits in two loops. -/
theorem forLoop_pair {σ τ : Type} (f : Nat → σ → σ) (g : Nat → τ → τ) (a n : Nat)
    (s : σ) (t : τ) :
    forLoop (fun i (p : σ × τ) => (f i p.1, g i p.2)) a n (s, t)
      = (forLoop f a n s, forLoop g a n t) := by
  induction n generalizing a s t with
  | zero => rfl
  | succ n ih => rw [forLoop_succ, forLoop_succ, forLoop_succ, ih]

/-! ## C10: the partition of rows (columns) among the workers -/

theorem lo_zero (n size : Nat) : lo 0 n size = 0 := by simp [lo]

theorem hi_last (n size : Nat) (hsize : 1 ≤ size) : hi (size - 1) n size = n := by
  unfold hi
  rw [Nat.sub_add_cancel hsize]
  exact Nat.mul_div_cancel_left n (by omega)

theorem hi_eq_lo_succ (rank n size : Nat) : hi rank n size = lo (rank + 1) n size := rfl

theorem lo_mono (n size : Nat) {r s : Nat} (h : r ≤ s) : lo r n size ≤ lo s n size :=
  Nat.div_le_div_right (Nat.mul_le_mul_right n h)

theorem lo_le_hi (rank n size : Nat) : lo rank n size ≤ hi rank n size :=
  lo_mono n size (Nat.le_succ rank)

theorem hi_le (n size rank : Nat) (hsize : 1 ≤ size) (hr : rank < size) :
    hi rank n size ≤ n := by
  have h1 : lo (rank + 1) n size ≤ lo size n size := lo_mono n size hr
  have h2 : lo size n size = n := by
    unfold lo
    exact Nat.mul_div_cancel_left n (by omega)
  rw [hi_eq_lo_succ]
  omega

/-- Membership of `i` in the range of `rank`, in terms of products. -/
theorem mem_range_iff (n size rank i : Nat) (hsize : 1 ≤ size) :
    (lo rank n size ≤ i ∧ i < hi rank n size)
      ↔ (rank * n < (i + 1) * size ∧ (i + 1) * size ≤ (rank + 1) * n) := by
  have hpos : 0 < size := hsize
  unfold lo hi
  constructor
  · rintro ⟨h1, h2⟩
    refine ⟨?_, ?_⟩
    · exact (Nat.div_lt_iff_lt_mul hpos).1 (Nat.lt_succ_of_le h1)
    · exact (Nat.le_div_iff_mul_le hpos).1 h2
  · rintro ⟨h1, h2⟩
    refine ⟨?_, ?_⟩
    · exact Nat.le_of_lt_succ ((Nat.div_lt_iff_lt_mul hpos).2 h1)
    · exact (Nat.le_div_iff_mul_le hpos).2 h2

/-- Every index below `n` lies in the range of some worker. -/
theorem owner_exists (n size i : Nat) (hsize : 1 ≤ size) (hi' : i < n) :
    ∃ rank, rank < size ∧ lo rank n size ≤ i ∧ i < hi rank n size := by
  have hn : 0 < n := by omega
  refine ⟨((i + 1) * size - 1) / n, ?_, ?_⟩
  · rw [Nat.div_lt_iff_lt_mul hn]
    have : (i + 1) * size ≤ n * size := Nat.mul_le_mul_right size hi'
    have h1 : 1 ≤ (i + 1) * size := Nat.mul_pos (by omega) hsize
    rw [Nat.mul_comm size n]
    omega
  · rw [mem_range_iff n size _ i hsize]
    have h1 : 1 ≤ (i + 1) * size := Nat.mul_pos (by omega) hsize
    have h2 := Nat.div_mul_le_self ((i + 1) * size - 1) n
    have h3 := Nat.lt_div_mul_add (a := (i + 1) * size - 1) hn
    generalize (i + 1) * size = m at h1 h2 h3 ⊢
    generalize hq : (m - 1) / n = q at h2 h3 ⊢
    have h4 : (q + 1) * n = q * n + n := by ring
    rw [h4]
    omega

/-- Two workers whose ranges share an index are the same worker. -/
theorem owner_unique (n size i r s : Nat)
    (hr : lo r n size ≤ i ∧ i < hi r n size) (hs : lo s n size ≤ i ∧ i < hi s n size) :
    r = s := by
  by_contra hne
  rcases Nat.lt_or_gt_of_ne hne with h | h
  · have := lo_mono n size (Nat.succ_le_of_lt h)
    rw [← hi_eq_lo_succ] at this
    omega
  · have := lo_mono n size (Nat.succ_le_of_lt h)
    rw [← hi_eq_lo_succ] at this
    omega

/-- C10: for every length `n` and every worker count `size ≥ 1` the ranges
`[rank*n/size, (rank+1)*n/size)` of the ranks `0 .. size-1` are contiguous
(the first starts at 0, each ends where the next starts, the last ends at
`n`), pairwise disjoint, and an index lies in one of them exactly when it is
below `n`: every row (column) has exactly one owner. -/
theorem partition_ranges (n size : Nat) (hsize : 1 ≤ size) :
    lo 0 n size = 0 ∧ hi (size - 1) n size = n ∧
    (∀ rank, lo rank n size ≤ hi rank n size ∧ hi rank n size = lo (rank + 1) n size) ∧
    (∀ r s i, lo r n size ≤ i → i < hi r n size → lo s n size ≤ i → i < hi s n size → r = s) ∧
    (∀ i, i < n ↔ ∃ rank, rank < size ∧ lo rank n size ≤ i ∧ i < hi rank n size) := by
  refine ⟨lo_zero n size, hi_last n size hsize, fun rank => ⟨lo_le_hi rank n size, rfl⟩,
    fun r s i h1 h2 h3 h4 => owner_unique n size i r s ⟨h1, h2⟩ ⟨h3, h4⟩, fun i => ⟨?_, ?_⟩⟩
  · exact owner_exists n size i hsize
  · rintro ⟨rank, hr, -, h2⟩
    exact lt_of_lt_of_le h2 (hi_le n size rank hsize hr)

theorem partition_ranges_witness :
    1 ≤ 3 ∧ (lo 0 7 3 = 0 ∧ hi (3 - 1) 7 3 = 7 ∧
    (∀ rank, lo rank 7 3 ≤ hi rank 7 3 ∧ hi rank 7 3 = lo (rank + 1) 7 3) ∧
    (∀ r s i, lo r 7 3 ≤ i → i < hi r 7 3 → lo s 7 3 ≤ i → i < hi s 7 3 → r = s) ∧
    (∀ i, i < 7 ↔ ∃ rank, rank < 3 ∧ lo rank 7 3 ≤ i ∧ i < hi rank 7 3)) :=
  ⟨by decide, partition_ranges 7 3 (by decide)⟩

/-! ## C9, C8: the kernel builder -/

/-- The array the first loop of `make_gaussian_kernel` leaves, and its `sum`. -/
theorem make_gaussian_kernel_first {K : Type} [LinearOrderedField K] (g : Nat → K) (n : Nat) (k0 : Int → K) (s0 : K) :
    forLoop (fun i (ks : (Int → K) × K) => (setAt ks.1 (i : Int) (g i), ks.2 + g i)) 0 n (k0, s0)
      = (fun j => if 0 ≤ j ∧ j < (n : Int) then g j.toNat else k0 j,
         s0 + ∑ i in Finset.range n, g i) := by
  rw [forLoop_pair (fun i (k : Int → K) => setAt k (i : Int) (g i)) (fun i (s : K) => s + g i)]
  congr 1
  · funext j
    have := forLoop_store (fun i (_ : K) => g i) 0 n k0 j
    simpa using this
  · rw [forLoop_sum]
    simp

theorem gaussFx_pos {K : Type} [LinearOrderedField K] (powf : K → K → K) (sqrtf : K → K) (sigma : K) (center : Int) (i : Nat)
    (hs : 0 < sigma) (hpow : ∀ y, 0 < powf 2.71828 y) (hsqrt : 0 < sqrtf 6.2831853) :
    0 < gaussFx powf sqrtf sigma center i := by
  unfold gaussFx
  exact div_pos (hpow _) (mul_pos hs hsqrt)

section KernelFacts

variable {K : Type} [LinearOrderedField K] [FloorRing K]

theorem make_gaussian_kernel_snd (powf : K → K → K) (sqrtf : K → K) (sigma : K) :
    (make_gaussian_kernel powf sqrtf sigma).2 = windowsize sigma := rfl

theorem windowsize_ge_three (sigma : K) (h : 0 < sigma) : 3 ≤ windowsize sigma := by
  have h1 : 0 < ⌈(2.5 : K) * sigma⌉ := Int.ceil_pos.2 (mul_pos (by norm_num) h)
  unfold windowsize
  omega

theorem windowsize_tdiv (sigma : K) (h : 0 < sigma) :
    Int.tdiv (windowsize sigma) 2 = ⌈(2.5 : K) * sigma⌉ := by
  have h1 : 0 < ⌈(2.5 : K) * sigma⌉ := Int.ceil_pos.2 (mul_pos (by norm_num) h)
  unfold windowsize
  rw [Int.tdiv_eq_ediv (by omega) (by omega)]
  omega

/-- The weights `make_gaussian_kernel` returns: each unnormalised weight
divided by the sum of all of them. -/
theorem make_gaussian_kernel_apply (powf : K → K → K) (sqrtf : K → K) (sigma : K) (j : Int)
    (h0 : 0 ≤ j) (h1 : j < windowsize sigma) :
    (make_gaussian_kernel powf sqrtf sigma).1 j
      = gaussFx powf sqrtf sigma (Int.tdiv (windowsize sigma) 2) j.toNat
        / ∑ i in Finset.range (windowsize sigma).toNat,
            gaussFx powf sqrtf sigma (Int.tdiv (windowsize sigma) 2) i := by
  have hj : 0 ≤ j ∧ j < (((windowsize sigma).toNat : Nat) : Int) := by omega
  unfold make_gaussian_kernel
  simp only []
  rw [make_gaussian_kernel_first]
  have := forLoop_store
    (fun (_ : Nat) (v : K) => v / (0 + ∑ i in Finset.range (windowsize sigma).toNat,
      gaussFx powf sqrtf sigma (Int.tdiv (windowsize sigma) 2) i)) 0 (windowsize sigma).toNat
    (fun j => if 0 ≤ j ∧ j < (((windowsize sigma).toNat : Nat) : Int)
      then gaussFx powf sqrtf sigma (Int.tdiv (windowsize sigma) 2) j.toNat else 0) j
  simp only [Nat.cast_zero, zero_add] at this
  simp only [zero_add]
  rw [this, if_pos hj, if_pos hj]

theorem gaussFx_sum_pos (powf : K → K → K) (sqrtf : K → K) (sigma : K) (center : Int)
    (hs : 0 < sigma) (hpow : ∀ y, 0 < powf 2.71828 y) (hsqrt : 0 < sqrtf 6.2831853) :
    0 < ∑ i in Finset.range (windowsize sigma).toNat, gaussFx powf sqrtf sigma center i := by
  apply Finset.sum_pos
  · intro i _
    exact gaussFx_pos powf sqrtf sigma center i hs hpow hsqrt
  · have := windowsize_ge_three sigma hs
    exact ⟨0, Finset.mem_range.2 (by omega)⟩

/-- Every weight of the kernel is positive. -/
theorem make_gaussian_kernel_pos (powf : K → K → K) (sqrtf : K → K) (sigma : K) (j : Int)
    (hs : 0 < sigma) (hpow : ∀ y, 0 < powf 2.71828 y) (hsqrt : 0 < sqrtf 6.2831853)
    (h0 : 0 ≤ j) (h1 : j < windowsize sigma) :
    0 < (make_gaussian_kernel powf sqrtf sigma).1 j := by
  rw [make_gaussian_kernel_apply powf sqrtf sigma j h0 h1]
  exact div_pos (gaussFx_pos powf sqrtf sigma _ _ hs hpow hsqrt)
    (gaussFx_sum_pos powf sqrtf sigma _ hs hpow hsqrt)

/-- C9: for every `sigma` (in particular every `sigma > 0`),
`make_gaussian_kernel` sets `windowsize = 1 + 2*ceil(2.5*sigma)`, an odd
number, and a larger `sigma` never gives a smaller `windowsize`. -/
theorem windowsize_odd_monotone (powf : K → K → K) (sqrtf : K → K) (sigma1 sigma2 : K)
    (h12 : sigma1 ≤ sigma2) :
    (make_gaussian_kernel powf sqrtf sigma1).2 = 1 + 2 * ⌈(2.5 : K) * sigma1⌉ ∧
    (make_gaussian_kernel powf sqrtf sigma1).2 % 2 = 1 ∧
    (make_gaussian_kernel powf sqrtf sigma1).2 ≤ (make_gaussian_kernel powf sqrtf sigma2).2 := by
  simp only [make_gaussian_kernel_snd, windowsize]
  refine ⟨trivial, by omega, ?_⟩
  have : ⌈(2.5 : K) * sigma1⌉ ≤ ⌈(2.5 : K) * sigma2⌉ :=
    Int.ceil_mono (mul_le_mul_of_nonneg_left h12 (by norm_num))
  omega

theorem windowsize_odd_monotone_witness :
    (1 : ℚ) ≤ 2 ∧
    ((make_gaussian_kernel (fun _ _ => (1 : ℚ)) (fun _ => 1) 1).2 = 1 + 2 * ⌈(2.5 : ℚ) * 1⌉ ∧
    (make_gaussian_kernel (fun _ _ => (1 : ℚ)) (fun _ => 1) 1).2 % 2 = 1 ∧
    (make_gaussian_kernel (fun _ _ => (1 : ℚ)) (fun _ => 1) 1).2
      ≤ (make_gaussian_kernel (fun _ _ => (1 : ℚ)) (fun _ => 1) 2).2) :=
  ⟨by norm_num,
    windowsize_odd_monotone (fun _ _ => (1 : ℚ)) (fun _ => 1) 1 2 (by norm_num)⟩

/-- The weights of the kernel sum to 1. -/
theorem make_gaussian_kernel_sum (powf : K → K → K) (sqrtf : K → K) (sigma : K)
    (hs : 0 < sigma) (hpow : ∀ y, 0 < powf 2.71828 y) (hsqrt : 0 < sqrtf 6.2831853) :
    ∑ i in Finset.range (make_gaussian_kernel powf sqrtf sigma).2.toNat,
      (make_gaussian_kernel powf sqrtf sigma).1 (i : Int) = 1 := by
  rw [make_gaussian_kernel_snd]
  have hS := gaussFx_sum_pos powf sqrtf sigma (Int.tdiv (windowsize sigma) 2) hs hpow hsqrt
  have hw := windowsize_ge_three sigma hs
  have : ∀ i ∈ Finset.range (windowsize sigma).toNat,
      (make_gaussian_kernel powf sqrtf sigma).1 (i : Int)
        = gaussFx powf sqrtf sigma (Int.tdiv (windowsize sigma) 2) i
          / ∑ i in Finset.range (windowsize sigma).toNat,
              gaussFx powf sqrtf sigma (Int.tdiv (windowsize sigma) 2) i := by
    intro i hi
    have hi' := Finset.mem_range.1 hi
    rw [make_gaussian_kernel_apply powf sqrtf sigma (i : Int) (by omega) (by omega)]
    simp
  rw [Finset.sum_congr rfl this, ← Finset.sum_div]
  exact div_self (ne_of_gt hS)

/-- C8: for `sigma > 0` the `windowsize` weights `make_gaussian_kernel`
produces sum to exactly 1, in exact arithmetic, for any `pow` and `sqrt` that
are positive where the procedure calls them (as the real functions are). -/
theorem kernel_sums_to_one (powf : K → K → K) (sqrtf : K → K) (sigma : K)
    (hs : 0 < sigma) (hpow : ∀ y, 0 < powf 2.71828 y) (hsqrt : 0 < sqrtf 6.2831853) :
    ∑ i in Finset.range (make_gaussian_kernel powf sqrtf sigma).2.toNat,
      (make_gaussian_kernel powf sqrtf sigma).1 (i : Int) = 1 :=
  make_gaussian_kernel_sum powf sqrtf sigma hs hpow hsqrt

theorem kernel_sums_to_one_witness :
    (0 : ℚ) < 1 ∧ (∀ y : ℚ, (0 : ℚ) < (fun _ _ => (1 : ℚ)) (2.71828 : ℚ) y) ∧
    (0 : ℚ) < (fun _ => (1 : ℚ)) (6.2831853 : ℚ) ∧
    ∑ i in Finset.range (make_gaussian_kernel (fun _ _ => (1 : ℚ)) (fun _ => 1) 1).2.toNat,
      (make_gaussian_kernel (fun _ _ => (1 : ℚ)) (fun _ => 1) 1).1 (i : Int) = 1 :=
  ⟨by norm_num, fun _ => by norm_num, by norm_num,
    kernel_sums_to_one (fun _ _ => (1 : ℚ)) (fun _ => 1) 1 (by norm_num)
      (fun _ => by norm_num) (by norm_num)⟩

/-- Over the real numbers, with the real power and square root, the weights
of the kernel sum to 1. -/
theorem make_gaussian_kernel_sum_real (sigma : ℝ) (hs : 0 < sigma) :
    ∑ i in Finset.range (make_gaussian_kernel (fun b e : ℝ => b ^ e) Real.sqrt sigma).2.toNat,
      (make_gaussian_kernel (fun b e : ℝ => b ^ e) Real.sqrt sigma).1 (i : Int) = 1 := by
  have hpow : ∀ y : ℝ, 0 < (fun b e : ℝ => b ^ e) 2.71828 y :=
    fun y => Real.rpow_pos_of_pos (by norm_num) y
  have hsqrt : (0 : ℝ) < Real.sqrt 6.2831853 := Real.sqrt_pos.2 (by norm_num)
  simpa using make_gaussian_kernel_sum (fun b e : ℝ => b ^ e) Real.sqrt sigma hs hpow hsqrt

end KernelFacts

theorem forLoop_append {σ : Type} (body : Nat → σ → σ) (a m n : Nat) (s : σ) :
    forLoop body a (m + n) s = forLoop body (a + m) n (forLoop body a m s) := by
  induction n with
  | zero => rfl
  | succ n ih =>
    rw [← Nat.add_assoc, forLoop_succ_last, ih, forLoop_succ_last]
    have e : a + (m + n) = a + m + n := by omega
    rw [e]

/-- A loop none of whose iterations changes the cell `k` leaves it as it was. -/
theorem forLoop_frame {α : Type} (body : Nat → (Int → α) → (Int → α)) (a n : Nat)
    (b0 : Int → α) (k : Int)
    (h : ∀ i tb, a ≤ i → i < a + n → body i tb k = tb k) :
    forLoop body a n b0 k = b0 k :=
  forLoop_inv body (fun _ t => t k = b0 k) a n b0 rfl
    (fun j t hj hlt hp => by
      show body j t k = b0 k
      rw [h j t hj hlt]; exact hp)

/-- A loop whose body stores at `off + i` a value computed from `i` and from
the old content of that cell. -/
theorem forLoop_store_off {α : Type} (F : Nat → α → α) (off : Int) (a n : Nat)
    (k0 : Int → α) (j : Int) :
    forLoop (fun i (k : Int → α) => setAt k (off + (i : Int)) (F i (k (off + (i : Int)))))
        a n k0 j
      = if off + (a : Int) ≤ j ∧ j < off + (a : Int) + n then F (j - off).toNat (k0 j)
        else k0 j := by
  induction n generalizing a k0 with
  | zero =>
    have h : ¬ (off + (a : Int) ≤ j ∧ j < off + (a : Int) + ((0 : Nat) : Int)) := by omega
    rw [forLoop_zero, if_neg h]
  | succ n ih =>
    rw [forLoop_succ, ih]
    by_cases hj : j = off + (a : Int)
    · subst hj
      have h1 : ¬ (off + ((a + 1 : Nat) : Int) ≤ off + (a : Int)
          ∧ off + (a : Int) < off + ((a + 1 : Nat) : Int) + n) := by omega
      have h2 : (off + (a : Int) ≤ off + (a : Int)
          ∧ off + (a : Int) < off + (a : Int) + ((n + 1 : Nat) : Int)) := by omega
      rw [if_neg h1, if_pos h2]
      simp [setAt]
    · by_cases hr : off + (a : Int) ≤ j ∧ j < off + (a : Int) + ((n + 1 : Nat) : Int)
      · have h1 : (off + ((a + 1 : Nat) : Int) ≤ j ∧ j < off + ((a + 1 : Nat) : Int) + n) := by
          omega
        rw [if_pos h1, if_pos hr]
        simp [setAt, hj]
      · have h1 : ¬ (off + ((a + 1 : Nat) : Int) ≤ j ∧ j < off + ((a + 1 : Nat) : Int) + n) := by
          omega
        rw [if_neg h1, if_neg hr]
        simp [setAt, hj]

/-- The two sums a tap loop of `gaussian_smooth` accumulates. -/
theorem tapLoop_eq {K : Type} [Field K] (inb : Nat → Prop) [DecidablePred inb]
    (a w : Nat → K) (n : Nat) :
    forLoop (fun j (ds : K × K) => if inb j then (ds.1 + a j * w j, ds.2 + w j) else ds)
        0 n (0, 0)
      = (∑ j in (Finset.range n).filter inb, a j * w j,
         ∑ j in (Finset.range n).filter inb, w j) := by
  induction n with
  | zero => simp [forLoop_zero]
  | succ n ih =>
    rw [forLoop_succ_last, ih, Finset.range_succ, Finset.filter_insert]
    by_cases h : inb n
    · have hn : n ∉ (Finset.range n).filter inb := by simp
      simp only [Nat.zero_add, h, if_true, Finset.sum_insert hn]
      rw [add_comm (a n * w n), add_comm (w n)]
    · simp only [Nat.zero_add, h, if_false]

/-- A tap loop over a constant signal: `dot = v * sum` and `sum > 0`. -/
theorem tapLoop_const {K : Type} [LinearOrderedField K] (inb : Nat → Prop) [DecidablePred inb]
    (a w : Nat → K) (n : Nat) (v : K) (j0 : Nat)
    (ha : ∀ j, j < n → inb j → a j = v) (hw : ∀ j, j < n → 0 < w j)
    (hj0 : j0 < n) (hin : inb j0) :
    0 < (forLoop (fun j (ds : K × K) => if inb j then (ds.1 + a j * w j, ds.2 + w j) else ds)
        0 n (0, 0)).2 ∧
    (forLoop (fun j (ds : K × K) => if inb j then (ds.1 + a j * w j, ds.2 + w j) else ds)
        0 n (0, 0)).1
      = v * (forLoop (fun j (ds : K × K) => if inb j then (ds.1 + a j * w j, ds.2 + w j) else ds)
        0 n (0, 0)).2 := by
  rw [tapLoop_eq]
  constructor
  · show 0 < ∑ j in (Finset.range n).filter inb, w j
    apply Finset.sum_pos
    · intro j hj
      exact hw j (Finset.mem_range.1 (Finset.mem_filter.1 hj).1)
    · exact ⟨j0, Finset.mem_filter.2 ⟨Finset.mem_range.2 hj0, hin⟩⟩
  · show ∑ j in (Finset.range n).filter inb, a j * w j
      = v * ∑ j in (Finset.range n).filter inb, w j
    rw [Finset.mul_sum]
    apply Finset.sum_congr rfl
    intro j hj
    have := Finset.mem_filter.1 hj
    rw [ha j (Finset.mem_range.1 this.1) this.2]

/-- Sum of the contributions of the workers when only one is non-zero. -/
theorem sumRanks_single {M : Type} [AddCommMonoid M] (size : Nat) (f : Nat → M) (r0 : Nat)
    (h0 : r0 < size) (h : ∀ r, r < size → r ≠ r0 → f r = 0) : sumRanks size f = f r0 := by
  unfold sumRanks
  rw [forLoop_sum]
  simp only [Nat.zero_add, zero_add]
  apply Finset.sum_eq_single r0
  · intro b hb hne
    exact h b (Finset.mem_range.1 hb) hne
  · intro hn
    exact absurd (Finset.mem_range.2 h0) hn

theorem sumRanks_eq_sum {M : Type} [AddCommMonoid M] (size : Nat) (f : Nat → M) :
    sumRanks size f = ∑ r in Finset.range size, f r := by
  unfold sumRanks
  rw [forLoop_sum]
  simp

theorem wrap16_of_range (x : Int) (h0 : -32768 ≤ x) (h1 : x ≤ 32767) : wrap16 x = x := by
  unfold wrap16
  omega

theorem roundHalfEven_intCast {K : Type} [LinearOrderedField K] [FloorRing K] (n : Int) : roundHalfEven (n : K) = n := by
  unfold roundHalfEven
  rw [Int.floor_intCast, sub_self, if_pos (by norm_num)]

theorem roundHalfEven_floor_le {K : Type} [LinearOrderedField K] [FloorRing K] (y : K) : ⌊y⌋ ≤ roundHalfEven y := by
  unfold roundHalfEven
  split_ifs <;> omega

/-- Rounding to the nearest integer does not pass an integer below. -/
theorem roundHalfEven_ge_int {K : Type} [LinearOrderedField K] [FloorRing K] (y : K) (m : Int) (h : (m : K) ≤ y) : m ≤ roundHalfEven y :=
  le_trans (Int.le_floor.2 h) (roundHalfEven_floor_le y)

/-- Rounding to the nearest integer moves a number by at most one half. -/
theorem roundHalfEven_near {K : Type} [LinearOrderedField K] [FloorRing K] (y : K) :
    y - 1 / 2 ≤ (roundHalfEven y : K) ∧ (roundHalfEven y : K) ≤ y + 1 / 2 := by
  have h1 := Int.floor_le y
  have h2 := Int.lt_floor_add_one y
  unfold roundHalfEven
  by_cases c1 : y - ((⌊y⌋ : Int) : K) < 1 / 2
  · rw [if_pos c1]
    constructor <;> linarith
  · rw [if_neg c1]
    by_cases c2 : 1 / 2 < y - ((⌊y⌋ : Int) : K)
    · rw [if_pos c2]
      push_cast
      constructor <;> linarith
    · rw [if_neg c2]
      have e : y - ((⌊y⌋ : Int) : K) = 1 / 2 := le_antisymm (not_lt.1 c2) (not_lt.1 c1)
      split_ifs
      · constructor <;> linarith
      · push_cast
        constructor <;> linarith

theorem float32_zero {K : Type} [LinearOrderedField K] [FloorRing K] : float32 (0 : K) = 0 := by
  unfold float32
  rw [if_pos rfl]

theorem float32_quantum_pos {K : Type} [LinearOrderedField K] [FloorRing K] (x : K) :
    (0 : K) < (2 : K) ^ (max (Int.log 2 |x|) (-126) - 23) :=
  zpow_pos (by norm_num) _

/-- Rounding to `float` keeps the sign: a non-negative number. -/
theorem float32_nonneg {K : Type} [LinearOrderedField K] [FloorRing K] (x : K) (h : 0 ≤ x) : 0 ≤ float32 x := by
  unfold float32
  by_cases e : x = 0
  · rw [if_pos e]
  · rw [if_neg e]
    have hq := float32_quantum_pos x
    have hr : (0 : Int) ≤ roundHalfEven (x / (2 : K) ^ (max (Int.log 2 |x|) (-126) - 23)) :=
      roundHalfEven_ge_int _ 0 (by rw [Int.cast_zero]; exact div_nonneg h hq.le)
    have hr' : (0 : K) ≤ (roundHalfEven (x / (2 : K) ^ (max (Int.log 2 |x|) (-126) - 23)) : K) := by
      exact_mod_cast hr
    exact mul_nonneg hr' hq.le

/-- The exponent of a number between 1 and `2^24`. -/
theorem float32_exponent {K : Type} [LinearOrderedField K] [FloorRing K] (x : K) (h1 : 1 ≤ x) (h2 : x ≤ 2 ^ 24) :
    0 ≤ Int.log 2 |x| ∧ Int.log 2 |x| ≤ 24 ∧
    max (Int.log 2 |x|) (-126) = Int.log 2 |x| ∧
    (2 : K) ^ (Int.log 2 |x|) ≤ x := by
  have hx : 0 < x := lt_of_lt_of_le one_pos h1
  rw [abs_of_pos hx]
  have a1 : 0 ≤ Int.log 2 x := by
    rw [← Int.zpow_le_iff_le_log (by norm_num) hx]
    simpa using h1
  have a2 : Int.log 2 x ≤ 24 := by
    have := Int.log_mono_right (b := 2) hx h2
    have e : Int.log 2 ((2 : K) ^ (24 : Nat)) = 24 := by
      have := Int.log_zpow (R := K) (b := 2) (by norm_num) ((24 : Nat) : Int)
      rw [zpow_natCast] at this
      simpa using this
    rw [e] at this
    exact this
  have a3 := Int.zpow_log_le_self (b := 2) (r := x) (by norm_num) hx
  refine ⟨a1, a2, max_eq_left (by omega), ?_⟩
  simpa using a3

/-- The spacing of the `float`s around a number `x` with exponent `e ≤ 23`
is one over a power of two. -/
theorem float32_quantum_inv {K : Type} [LinearOrderedField K] (e : Int) (h0 : 0 ≤ e) (h1 : e ≤ 23) :
    (2 : K) ^ (e - 23) * (2 : K) ^ (23 - e).toNat = 1 := by
  have h2 : ((23 - e).toNat : Int) = 23 - e := Int.toNat_of_nonneg (by omega)
  rw [← zpow_natCast, h2, ← zpow_add₀ (by norm_num : (2 : K) ≠ 0)]
  have : e - 23 + (23 - e) = 0 := by ring
  rw [this, zpow_zero]

/-- An integer of at most 24 bits is a `float`. -/
theorem float32_intCast {K : Type} [LinearOrderedField K] [FloorRing K] (n : Int) (h : |n| ≤ 2 ^ 24) : float32 (n : K) = (n : K) := by
  by_cases hn : n = 0
  · rw [hn, Int.cast_zero]
    exact float32_zero
  · have hne : (n : K) ≠ 0 := by exact_mod_cast hn
    have habs : |(n : K)| = ((|n| : Int) : K) := by rw [Int.cast_abs]
    have h1 : (1 : K) ≤ ((|n| : Int) : K) := by
      have : 1 ≤ |n| := Int.one_le_abs hn
      exact_mod_cast this
    have h2 : ((|n| : Int) : K) ≤ 2 ^ 24 := by exact_mod_cast h
    obtain ⟨a1, a2, a3, a4⟩ := float32_exponent ((|n| : Int) : K) h1 h2
    rw [abs_of_pos (lt_of_lt_of_le one_pos h1)] at a1 a2 a3 a4
    unfold float32
    rw [if_neg hne, habs, a3]
    generalize Int.log 2 ((|n| : Int) : K) = e at a1 a2 a4
    by_cases he : e ≤ 23
    · have hinv := float32_quantum_inv (K := K) e a1 he
      have hq : (0 : K) < (2 : K) ^ (e - 23) := zpow_pos (by norm_num) _
      have hdiv : (n : K) / (2 : K) ^ (e - 23) = ((n * 2 ^ (23 - e).toNat : Int) : K) := by
        rw [div_eq_iff hq.ne']
        push_cast
        rw [mul_assoc, mul_comm ((2 : K) ^ (23 - e).toNat), hinv, mul_one]
      rw [hdiv, roundHalfEven_intCast]
      push_cast
      rw [mul_assoc, mul_comm ((2 : K) ^ (23 - e).toNat), hinv, mul_one]
    · have e24 : e = 24 := by omega
      subst e24
      have hab : |n| = 2 ^ 24 := by
        apply le_antisymm h
        have : (2 : K) ^ ((24 : Nat) : Int) ≤ ((|n| : Int) : K) := by simpa using a4
        rw [zpow_natCast] at this
        exact_mod_cast this
      have e1 : (2 : K) ^ ((24 : Int) - 23) = 2 := by norm_num
      rw [e1]
      rcases abs_eq (by norm_num : (0 : Int) ≤ 2 ^ 24) |>.1 hab with hv | hv
      · have e2 : (n : K) / 2 = ((2 ^ 23 : Int) : K) := by
          rw [hv]; norm_num
        rw [e2, roundHalfEven_intCast, hv]
        norm_num
      · have e2 : (n : K) / 2 = ((-2 ^ 23 : Int) : K) := by
          rw [hv]; norm_num
        rw [e2, roundHalfEven_intCast, hv]
        norm_num

/-- The relative error of the rounding to `float` of a number of at least 1
is at most `2^-24`. -/
theorem float32_error {K : Type} [LinearOrderedField K] [FloorRing K] (x : K) (h1 : 1 ≤ x) :
    x - x / 2 ^ 24 ≤ float32 x ∧ float32 x ≤ x + x / 2 ^ 24 := by
  have hxp : 0 < x := lt_of_lt_of_le one_pos h1
  have a1 : 0 ≤ Int.log 2 x := by
    rw [← Int.zpow_le_iff_le_log (by norm_num) hxp]
    simpa using h1
  have a4 : (2 : K) ^ (Int.log 2 x) ≤ x := by
    have := Int.zpow_log_le_self (b := 2) (r := x) (by norm_num) hxp
    simpa using this
  unfold float32
  rw [if_neg (ne_of_gt hxp), abs_of_pos hxp, max_eq_left (by omega)]
  generalize Int.log 2 x = e at a1 a4
  have hq : (0 : K) < (2 : K) ^ (e - 23) := zpow_pos (by norm_num) _
  obtain ⟨n1, n2⟩ := roundHalfEven_near (x / (2 : K) ^ (e - 23))
  have hsplit : (2 : K) ^ e = (2 : K) ^ (e - 23) * 2 ^ 23 := by
    have : (2 : K) ^ (23 : Nat) = (2 : K) ^ ((23 : Nat) : Int) := (zpow_natCast _ _).symm
    rw [this, ← zpow_add₀ (by norm_num : (2 : K) ≠ 0)]
    congr 1
    omega
  have hqx : (2 : K) ^ (e - 23) / 2 ≤ x / 2 ^ 24 := by
    rw [div_le_div_iff₀ (by norm_num) (by positivity)]
    have : (2 : K) ^ (e - 23) * 2 ^ 23 ≤ x := by rw [← hsplit]; exact a4
    nlinarith
  have m1 := mul_le_mul_of_nonneg_right n1 hq.le
  have m2 := mul_le_mul_of_nonneg_right n2 hq.le
  have ex : x / (2 : K) ^ (e - 23) * (2 : K) ^ (e - 23) = x := div_mul_cancel₀ x hq.ne'
  constructor
  · have : (x / (2 : K) ^ (e - 23) - 1 / 2) * (2 : K) ^ (e - 23) = x - (2 : K) ^ (e - 23) / 2 := by
      rw [sub_mul, ex]; ring
    rw [this] at m1
    linarith
  · have : (x / (2 : K) ^ (e - 23) + 1 / 2) * (2 : K) ^ (e - 23) = x + (2 : K) ^ (e - 23) / 2 := by
      rw [add_mul, ex]; ring
    rw [this] at m2
    linarith

theorem truncCast_int_add_half {K : Type} [LinearOrderedField K] [FloorRing K] (n : Int)
    (h : 0 ≤ n) : truncCast ((n : K) + 0.5) = n := by
  unfold truncCast
  have h0 : (0 : K) ≤ (n : K) + 0.5 := by
    have : (0 : K) ≤ (n : K) := by exact_mod_cast h
    linarith [show (0 : K) < 0.5 by norm_num]
  rw [if_pos h0, Int.floor_eq_iff]
  constructor
  · linarith [show (0 : K) < 0.5 by norm_num]
  · linarith [show (0.5 : K) < 1 by norm_num]

/-- The truncation of a non-negative value is its floor. -/
theorem truncCast_nonneg_eq {K : Type} [LinearOrderedField K] [FloorRing K] (x : K)
    (h : 0 ≤ x) : truncCast x = ⌊x⌋ := by
  unfold truncCast
  rw [if_pos h]

/-- The truncation of a value between an integer and the next is that
integer. -/
theorem truncCast_eq_of_bounds {K : Type} [LinearOrderedField K] [FloorRing K] (x : K)
    (m : Int) (h0 : 0 ≤ m) (h1 : (m : K) ≤ x) (h2 : x < (m : K) + 1) : truncCast x = m := by
  have hm : (0 : K) ≤ (m : K) := by exact_mod_cast h0
  rw [truncCast_nonneg_eq x (le_trans hm h1), Int.floor_eq_iff]
  exact ⟨h1, h2⟩

/-- `(int)(0 * x + 0.5)` is 0. -/
theorem roundProd_zero {K : Type} [LinearOrderedField K] [FloorRing K] (x : K) :
    roundProd 0 x = 0 := by
  unfold roundProd
  rw [Int.cast_zero, float32_zero, zero_mul, float32_zero]
  have := truncCast_int_add_half (K := K) 0 (le_refl _)
  simpa using this

/-- `(int)(n * x + 0.5)` is not negative when `n` and `x` are not. -/
theorem roundProd_nonneg {K : Type} [LinearOrderedField K] [FloorRing K] (n : Int) (x : K)
    (hn : 0 ≤ n) (hx : 0 ≤ x) : 0 ≤ roundProd n x := by
  unfold roundProd
  have h1 : (0 : K) ≤ float32 ((n : K)) := float32_nonneg _ (by exact_mod_cast hn)
  have h2 : (0 : K) ≤ float32 (float32 ((n : K)) * x) := float32_nonneg _ (mul_nonneg h1 hx)
  rw [truncCast_nonneg_eq _ (by linarith [show (0 : K) < 0.5 by norm_num])]
  exact Int.floor_nonneg.2 (by linarith [show (0 : K) < 0.5 by norm_num])

/-- `(int)(n * x + 0.5)` when the product `n * x` is itself an integer of at
most 24 bits: no rounding takes place. -/
theorem roundProd_of_int {K : Type} [LinearOrderedField K] [FloorRing K] (n : Int) (x : K)
    (m : Int) (hn : |n| ≤ 2 ^ 24) (hm0 : 0 ≤ m) (hm : m ≤ 2 ^ 24) (h : (n : K) * x = (m : K)) :
    roundProd n x = m := by
  unfold roundProd
  rw [float32_intCast n hn, h, float32_intCast m (by rw [abs_of_nonneg hm0]; exact hm)]
  exact truncCast_int_add_half m hm0

/-- `(int)(n * x + 0.5)` from bounds on the exact product `n * x ≥ 1`: the
rounding of the product to `float` moves it by at most `n * x / 2^24`. -/
theorem roundProd_of_bounds {K : Type} [LinearOrderedField K] [FloorRing K] (n : Int) (x : K)
    (m : Int) (hn : |n| ≤ 2 ^ 24) (hm0 : 0 ≤ m) (h1 : 1 ≤ (n : K) * x)
    (hlo : (m : K) ≤ (n : K) * x - (n : K) * x / 2 ^ 24 + 0.5)
    (hhi : (n : K) * x + (n : K) * x / 2 ^ 24 + 0.5 < (m : K) + 1) :
    roundProd n x = m := by
  unfold roundProd
  rw [float32_intCast n hn]
  obtain ⟨e1, e2⟩ := float32_error ((n : K) * x) h1
  exact truncCast_eq_of_bounds _ m hm0 (by linarith) (by linarith)

/-- Rounding to the nearest integer gives the integer that is less than one
half away. -/
theorem roundHalfEven_of_lt {K : Type} [LinearOrderedField K] [FloorRing K] (y : K) (m : Int)
    (h1 : (m : K) - 1 / 2 < y) (h2 : y < (m : K) + 1 / 2) : roundHalfEven y = m := by
  obtain ⟨n1, n2⟩ := roundHalfEven_near y
  have a : ((m - 1 : Int) : K) < (roundHalfEven y : K) := by push_cast; linarith
  have b : (roundHalfEven y : K) < ((m + 1 : Int) : K) := by push_cast; linarith
  have a' : m - 1 < roundHalfEven y := by exact_mod_cast a
  have b' : roundHalfEven y < m + 1 := by exact_mod_cast b
  omega

/-- The rounding to `float` of a number whose binary exponent `e` is known:
the multiple of `2^(e-23)` nearest to it. -/
theorem float32_of_exponent {K : Type} [LinearOrderedField K] [FloorRing K] (x : K) (e : Int)
    (he : -126 ≤ e) (h0 : 0 < x) (h1 : (2 : K) ^ e ≤ x) (h2 : x < (2 : K) ^ (e + 1)) :
    float32 x = (roundHalfEven (x / (2 : K) ^ (e - 23)) : K) * (2 : K) ^ (e - 23) := by
  have hl : Int.log 2 |x| = e := by
    rw [abs_of_pos h0]
    apply le_antisymm
    · have := (Int.lt_zpow_iff_log_lt (b := 2) (by norm_num) h0).1
        (show x < ((2 : Nat) : K) ^ (e + 1) by simpa using h2)
      omega
    · exact (Int.zpow_le_iff_le_log (b := 2) (by norm_num) h0).1
        (show ((2 : Nat) : K) ^ e ≤ x by simpa using h1)
  unfold float32
  rw [if_neg (ne_of_gt h0), hl, max_eq_left he]

/-- The rounding to `float` of a positive integer: exact up to `2^24`, and
within one part in `2^24` beyond. -/
theorem float32_int_bounds {K : Type} [LinearOrderedField K] [FloorRing K] (s : Int)
    (h : 0 ≤ s) :
    (s ≤ 2 ^ 24 → float32 (s : K) = (s : K)) ∧
    (s : K) - (s : K) / 2 ^ 24 ≤ float32 (s : K) ∧
    float32 (s : K) ≤ (s : K) + (s : K) / 2 ^ 24 := by
  have hs : (0 : K) ≤ (s : K) := by exact_mod_cast h
  have hd : (0 : K) ≤ (s : K) / 2 ^ 24 := div_nonneg hs (by positivity)
  rcases le_or_lt s (2 ^ 24) with c | c
  · have e := float32_intCast (K := K) s (by rw [abs_of_nonneg h]; exact c)
    refine ⟨fun _ => e, ?_, ?_⟩
    · rw [e]; linarith
    · rw [e]; linarith
  · have h1 : (1 : K) ≤ (s : K) := by
      have : (1 : Int) ≤ s := by
        have : (0 : Int) < 2 ^ 24 := by decide
        omega
      exact_mod_cast this
    obtain ⟨a, b⟩ := float32_error (s : K) h1
    exact ⟨fun h' => absurd h' (not_le.2 c), a, b⟩

/-- The argument of the square root in `magnitude_x_y`,
`(float)sq1 + (float)sq2` for two squares `sq1`, `sq2`: not negative, the
exact sum when that is at most `2^24`, within one part in `2^22` of the exact
sum in general, and at least 1 when the exact sum is. -/
theorem float32_sq_sum {K : Type} [LinearOrderedField K] [FloorRing K] (s1 s2 : Int)
    (h1 : 0 ≤ s1) (h2 : 0 ≤ s2) :
    0 ≤ float32 (float32 (s1 : K) + float32 (s2 : K)) ∧
    (s1 + s2 ≤ 2 ^ 24 →
      float32 (float32 (s1 : K) + float32 (s2 : K)) = ((s1 + s2 : Int) : K)) ∧
    ((s1 + s2 : Int) : K) - ((s1 + s2 : Int) : K) / 2 ^ 22
      ≤ float32 (float32 (s1 : K) + float32 (s2 : K)) ∧
    float32 (float32 (s1 : K) + float32 (s2 : K))
      ≤ ((s1 + s2 : Int) : K) + ((s1 + s2 : Int) : K) / 2 ^ 22 ∧
    (1 ≤ s1 + s2 → 1 ≤ float32 (float32 (s1 : K) + float32 (s2 : K))) := by
  have c1 : (0 : K) ≤ (s1 : K) := by exact_mod_cast h1
  have c2 : (0 : K) ≤ (s2 : K) := by exact_mod_cast h2
  obtain ⟨e1, l1, u1⟩ := float32_int_bounds (K := K) s1 h1
  obtain ⟨e2, l2, u2⟩ := float32_int_bounds (K := K) s2 h2
  have n1 : (0 : K) ≤ float32 (s1 : K) := float32_nonneg _ c1
  have n2 : (0 : K) ≤ float32 (s2 : K) := float32_nonneg _ c2
  have n0 : (0 : K) ≤ float32 (float32 (s1 : K) + float32 (s2 : K)) :=
    float32_nonneg _ (add_nonneg n1 n2)
  have hexact : s1 + s2 ≤ 2 ^ 24 →
      float32 (float32 (s1 : K) + float32 (s2 : K)) = ((s1 + s2 : Int) : K) := by
    intro hle
    rw [e1 (by omega), e2 (by omega), ← Int.cast_add]
    exact float32_intCast _ (by rw [abs_of_nonneg (by omega)]; exact hle)
  have hS : (0 : K) ≤ ((s1 + s2 : Int) : K) := by push_cast; linarith
  have hq : (0 : K) ≤ ((s1 + s2 : Int) : K) / 2 ^ 22 := div_nonneg hS (by positivity)
  have key : (s1 + s2 ≤ 2 ^ 24 ∨
      (1 ≤ float32 (s1 : K) + float32 (s2 : K) ∧ (2 : K) ^ 24 ≤ ((s1 + s2 : Int) : K))) := by
    rcases le_or_lt (s1 + s2) (2 ^ 24) with c | c
    · exact Or.inl c
    · right
      have hc : ((2 ^ 24 : Int) : K) ≤ ((s1 + s2 : Int) : K) := by exact_mod_cast c.le
      have hc' : (2 : K) ^ 24 ≤ ((s1 + s2 : Int) : K) := by
        have e : ((2 ^ 24 : Int) : K) = (2 : K) ^ 24 := by norm_num
        rw [← e]; exact hc
      refine ⟨?_, hc'⟩
      have hsum : ((s1 + s2 : Int) : K) - ((s1 + s2 : Int) : K) / 2 ^ 24
          ≤ float32 (s1 : K) + float32 (s2 : K) := by
        push_cast
        have : ((s1 : K) + (s2 : K)) / 2 ^ 24 = (s1 : K) / 2 ^ 24 + (s2 : K) / 2 ^ 24 := by ring
        rw [this]
        linarith
      have : (1 : K) ≤ ((s1 + s2 : Int) : K) - ((s1 + s2 : Int) : K) / 2 ^ 24 := by
        have e : ((s1 + s2 : Int) : K) - ((s1 + s2 : Int) : K) / 2 ^ 24
            = ((s1 + s2 : Int) : K) * (1 - 1 / 2 ^ 24) := by ring
        rw [e]
        have : (2 : K) ^ 24 * (1 - 1 / 2 ^ 24) ≤ ((s1 + s2 : Int) : K) * (1 - 1 / 2 ^ 24) :=
          mul_le_mul_of_nonneg_right hc' (by norm_num)
        have e2 : (2 : K) ^ 24 * (1 - 1 / 2 ^ 24) = 2 ^ 24 - 1 := by
          field_simp
        rw [e2] at this
        linarith [show (1 : K) ≤ 2 ^ 24 - 1 by norm_num]
      linarith
  rcases key with c | ⟨c, c24⟩
  · have e := hexact c
    refine ⟨n0, hexact, ?_, ?_, ?_⟩
    · rw [e]; linarith
    · rw [e]; linarith
    · intro h; rw [e]; exact_mod_cast h
  · obtain ⟨a, b⟩ := float32_error (float32 (s1 : K) + float32 (s2 : K)) c
    have hsum1 : ((s1 + s2 : Int) : K) - ((s1 + s2 : Int) : K) / 2 ^ 24
        ≤ float32 (s1 : K) + float32 (s2 : K) := by
      push_cast
      have : ((s1 : K) + (s2 : K)) / 2 ^ 24 = (s1 : K) / 2 ^ 24 + (s2 : K) / 2 ^ 24 := by ring
      rw [this]
      linarith
    have hsum2 : float32 (s1 : K) + float32 (s2 : K)
        ≤ ((s1 + s2 : Int) : K) + ((s1 + s2 : Int) : K) / 2 ^ 24 := by
      push_cast
      have : ((s1 : K) + (s2 : K)) / 2 ^ 24 = (s1 : K) / 2 ^ 24 + (s2 : K) / 2 ^ 24 := by ring
      rw [this]
      linarith
    have hlo : ((s1 + s2 : Int) : K) - ((s1 + s2 : Int) : K) / 2 ^ 22
        ≤ float32 (float32 (s1 : K) + float32 (s2 : K)) := by
      have t1 : (float32 (s1 : K) + float32 (s2 : K)) / 2 ^ 24
          ≤ (((s1 + s2 : Int) : K) + ((s1 + s2 : Int) : K) / 2 ^ 24) / 2 ^ 24 :=
        div_le_div_of_nonneg_right hsum2 (by positivity)
      have t2 : (((s1 + s2 : Int) : K) + ((s1 + s2 : Int) : K) / 2 ^ 24) / 2 ^ 24
          + ((s1 + s2 : Int) : K) / 2 ^ 24 ≤ ((s1 + s2 : Int) : K) / 2 ^ 22 := by
        have e : ((s1 + s2 : Int) : K) / 2 ^ 22
            - ((((s1 + s2 : Int) : K) + ((s1 + s2 : Int) : K) / 2 ^ 24) / 2 ^ 24
              + ((s1 + s2 : Int) : K) / 2 ^ 24)
            = ((s1 + s2 : Int) : K) * (1 / 2 ^ 22 - 1 / 2 ^ 23 - 1 / 2 ^ 48) := by ring
        have : (0 : K) ≤ ((s1 + s2 : Int) : K) * (1 / 2 ^ 22 - 1 / 2 ^ 23 - 1 / 2 ^ 48) :=
          mul_nonneg hS (by norm_num)
        linarith
      linarith
    have hhi : float32 (float32 (s1 : K) + float32 (s2 : K))
        ≤ ((s1 + s2 : Int) : K) + ((s1 + s2 : Int) : K) / 2 ^ 22 := by
      have t1 : (float32 (s1 : K) + float32 (s2 : K)) / 2 ^ 24
          ≤ (((s1 + s2 : Int) : K) + ((s1 + s2 : Int) : K) / 2 ^ 24) / 2 ^ 24 :=
        div_le_div_of_nonneg_right hsum2 (by positivity)
      have t2 : (((s1 + s2 : Int) : K) + ((s1 + s2 : Int) : K) / 2 ^ 24) / 2 ^ 24
          + ((s1 + s2 : Int) : K) / 2 ^ 24 ≤ ((s1 + s2 : Int) : K) / 2 ^ 22 := by
        have e : ((s1 + s2 : Int) : K) / 2 ^ 22
            - ((((s1 + s2 : Int) : K) + ((s1 + s2 : Int) : K) / 2 ^ 24) / 2 ^ 24
              + ((s1 + s2 : Int) : K) / 2 ^ 24)
            = ((s1 + s2 : Int) : K) * (1 / 2 ^ 22 - 1 / 2 ^ 23 - 1 / 2 ^ 48) := by ring
        have : (0 : K) ≤ ((s1 + s2 : Int) : K) * (1 / 2 ^ 22 - 1 / 2 ^ 23 - 1 / 2 ^ 48) :=
          mul_nonneg hS (by norm_num)
        linarith
      linarith
    refine ⟨n0, hexact, hlo, hhi, ?_⟩
    intro _
    have : (1 : K) ≤ ((s1 + s2 : Int) : K) - ((s1 + s2 : Int) : K) / 2 ^ 22 := by
      have e : ((s1 + s2 : Int) : K) - ((s1 + s2 : Int) : K) / 2 ^ 22
          = ((s1 + s2 : Int) : K) * (1 - 1 / 2 ^ 22) := by ring
      rw [e]
      have : (2 : K) ^ 24 * (1 - 1 / 2 ^ 22) ≤ ((s1 + s2 : Int) : K) * (1 - 1 / 2 ^ 22) :=
        mul_le_mul_of_nonneg_right c24 (by norm_num)
      have e2 : (2 : K) ^ 24 * (1 - 1 / 2 ^ 22) = 2 ^ 24 - 4 := by
        norm_num
      rw [e2] at this
      linarith [show (1 : K) ≤ 2 ^ 24 - 4 by norm_num]
    linarith

/-- The cell `k` after a loop in which iteration `j` stores `v` there and no
later iteration touches it. -/
theorem forLoop_hit {α : Type} (body : Nat → (Int → α) → (Int → α)) (a n : Nat)
    (b0 : Int → α) (k : Int) (j : Nat) (v : α) (hj : a ≤ j) (hjn : j < a + n)
    (hv : ∀ tb, body j tb k = v)
    (hlater : ∀ i tb, j < i → i < a + n → body i tb k = tb k) :
    forLoop body a n b0 k = v := by
  have e : n = (j - a) + (1 + (a + n - j - 1)) := by omega
  rw [e, forLoop_append, forLoop_append]
  have e2 : a + (j - a) = j := by omega
  rw [e2, forLoop_frame]
  · rw [forLoop_succ, forLoop_zero]
    exact hv _
  · intro i tb hi1 hi2
    exact hlater i tb (by omega) (by omega)

/-- Rows written one after the other through a running `index`: the state
`(index, buffer)` after `n` rows. -/
theorem rowLoop_indexed {α : Type} (G : Nat → Nat → α) (cols r0 n : Nat) (i0 : Int)
    (b0 : Int → α) (body : Nat → Int × (Int → α) → Int × (Int → α))
    (hbody : body = fun r st =>
      (st.1 + 1, forLoop (fun c (tb : Int → α) => setAt tb (st.1 * cols + c) (G r c)) 0 cols st.2)) :
    (forLoop body r0 n (i0, b0)).1 = i0 + n ∧
    (∀ idx c, idx < n → c < cols →
      (forLoop body r0 n (i0, b0)).2 ((i0 + idx) * cols + c) = G (r0 + idx) c) ∧
    (∀ k, (k < i0 * cols ∨ (i0 + n) * cols ≤ k) → (forLoop body r0 n (i0, b0)).2 k = b0 k) := by
  induction n with
  | zero =>
    refine ⟨by simp [forLoop_zero], fun idx c h => absurd h (by omega), fun k _ => rfl⟩
  | succ n ih =>
    obtain ⟨h1, h2, h3⟩ := ih
    rw [forLoop_succ_last]
    generalize forLoop body r0 n (i0, b0) = res at h1 h2 h3
    subst hbody
    have hstore : ∀ k, (forLoop (fun c (tb : Int → α) =>
          setAt tb (res.1 * cols + c) (G (r0 + n) c)) 0 cols res.2) k
        = if res.1 * cols + ((0 : Nat) : Int) ≤ k ∧ k < res.1 * cols + ((0 : Nat) : Int) + cols
          then G (r0 + n) (k - res.1 * cols).toNat else res.2 k := fun k =>
      forLoop_store_off (fun c _ => G (r0 + n) c) (res.1 * cols) 0 cols res.2 k
    have hc0 : (0 : Int) ≤ (cols : Int) := Int.natCast_nonneg _
    refine ⟨?_, ?_, ?_⟩
    · show res.1 + 1 = i0 + ((n + 1 : Nat) : Int)
      rw [h1]; push_cast; ring
    · intro idx c hidx hc
      show (forLoop (fun c (tb : Int → α) =>
          setAt tb (res.1 * cols + c) (G (r0 + n) c)) 0 cols res.2) _ = _
      rw [hstore, h1]
      by_cases hlast : idx = n
      · subst hlast
        have hin : (i0 + (idx : Int)) * cols + ((0 : Nat) : Int) ≤ (i0 + idx) * cols + c
            ∧ (i0 + (idx : Int)) * cols + c
              < (i0 + idx) * cols + ((0 : Nat) : Int) + cols := by
          constructor <;> push_cast <;> omega
        rw [if_pos hin]
        congr 1
        simp
      · have hlt : idx < n := by omega
        have hmul : (i0 + (idx : Int) + 1) * cols ≤ (i0 + n) * cols :=
          mul_le_mul_of_nonneg_right (by omega) hc0
        have hout : ¬ ((i0 + (n : Int)) * cols + ((0 : Nat) : Int) ≤ (i0 + idx) * cols + c
            ∧ (i0 + (idx : Int)) * cols + c
              < (i0 + n) * cols + ((0 : Nat) : Int) + cols) := by
          intro hh
          have : (i0 + (idx : Int) + 1) * cols = (i0 + idx) * cols + cols := by ring
          push_cast at hh
          omega
        rw [if_neg hout]
        exact h2 idx c hlt hc
    · intro k hk
      show (forLoop (fun c (tb : Int → α) =>
          setAt tb (res.1 * cols + c) (G (r0 + n) c)) 0 cols res.2) _ = _
      rw [hstore, h1]
      have e1 : (i0 + ((n + 1 : Nat) : Int)) * cols = (i0 + n) * cols + cols := by
        push_cast; ring
      have hmul : i0 * (cols : Int) ≤ (i0 + n) * cols :=
        mul_le_mul_of_nonneg_right (by omega) hc0
      have hout : ¬ ((i0 + (n : Int)) * cols + ((0 : Nat) : Int) ≤ k
            ∧ k < (i0 + n) * cols + ((0 : Nat) : Int) + cols) := by
        intro hh
        push_cast at hh
        omega
      rw [if_neg hout]
      apply h3
      omega

/-- `MPI_Allgather` of buffers that hold the rows of each worker, in order:
the pixel `(r, c)` of the gathered image. -/
theorem allgather_rows {α : Type} (rows cols size : Nat) (hd : size ∣ rows)
    (send : Nat → Int → α) (recv : Int → α) (G : Nat → Nat → α)
    (hsend : ∀ rank idx c, rank < size → idx < hi rank rows size - lo rank rows size → c < cols →
      send rank ((idx : Int) * cols + c) = G (lo rank rows size + idx) c)
    (r c : Nat) (hr : r < rows) (hc : c < cols) :
    allgather (rows * cols / size) size send recv ((r : Int) * cols + c) = G r c := by
  obtain ⟨q, rfl⟩ := hd
  have hsz : 0 < size := by
    rcases Nat.eq_zero_or_pos size with h | h
    · subst h; simp at hr
    · exact h
  have hq : 0 < q := by
    rcases Nat.eq_zero_or_pos q with h | h
    · subst h; simp at hr
    · exact h
  have hcount : size * q * cols / size = q * cols := by
    rw [Nat.mul_assoc]; exact Nat.mul_div_cancel_left _ hsz
  have hlo : ∀ rank, lo rank (size * q) size = rank * q := by
    intro rank
    unfold lo
    rw [← Nat.mul_assoc, Nat.mul_comm rank size, Nat.mul_assoc]
    exact Nat.mul_div_cancel_left _ hsz
  have hhi : ∀ rank, hi rank (size * q) size = (rank + 1) * q := fun rank => hlo (rank + 1)
  have hdm := Nat.div_add_mod r q
  have hml := Nat.mod_lt r hq
  have hrank : r / q < size := by
    rw [Nat.div_lt_iff_lt_mul hq]; exact hr
  have hk : ((r : Int) * cols + c) = ((r % q : Nat) : Int) * cols + c
      + ((q * cols : Nat) : Int) * ((r / q : Nat) : Int) := by
    have : (r : Int) = (q : Int) * ((r / q : Nat) : Int) + ((r % q : Nat) : Int) := by
      exact_mod_cast hdm.symm
    rw [this]; push_cast; ring
  have hpos : (0 : Int) < ((q * cols : Nat) : Int) := by
    have : 0 < q * cols := Nat.mul_pos hq (by omega)
    exact_mod_cast this
  have hrem0 : (0 : Int) ≤ ((r % q : Nat) : Int) * cols + c := by positivity
  have hrem1 : ((r % q : Nat) : Int) * cols + c < ((q * cols : Nat) : Int) := by
    have : (r % q) * cols + c < q * cols := by
      have : (r % q + 1) * cols ≤ q * cols := Nat.mul_le_mul_right cols hml
      rw [Nat.add_mul, Nat.one_mul] at this
      omega
    exact_mod_cast this
  have hdiv := (Int.ediv_emod_unique hpos).2 ⟨hk.symm, hrem0, hrem1⟩
  unfold allgather
  rw [hcount]
  have hin : 0 ≤ (r : Int) * cols + c ∧ (r : Int) * cols + c < ((size * (q * cols) : Nat) : Int) := by
    constructor
    · positivity
    · have : r * cols + c < size * (q * cols) := by
        have : (r + 1) * cols ≤ size * q * cols := Nat.mul_le_mul_right cols hr
        rw [Nat.add_mul, Nat.one_mul, Nat.mul_assoc] at this
        omega
      exact_mod_cast this
  rw [if_pos hin, hdiv.1, hdiv.2, Int.toNat_ofNat]
  rw [hsend (r / q) (r % q) c hrank (by rw [hhi, hlo]; rw [Nat.add_mul]; omega) hc, hlo]
  congr 1
  rw [Nat.mul_comm]; exact hdm

/-- What one worker's x-direction blur leaves in its `tempbuffer`. -/
theorem gaussian_smooth_blur_x_apply {K : Type} [LinearOrderedField K] (image : Int → Nat) (rows cols : Nat) (kernel : Int → K)
    (center : Int) (rank size idx c : Nat)
    (hidx : idx < hi rank rows size - lo rank rows size) (hc : c < cols) :
    gaussian_smooth_blur_x image rows cols kernel center rank size ((idx : Int) * cols + c)
      = blur_x_pixel image cols kernel center (lo rank rows size + idx) c := by
  have h := (rowLoop_indexed (fun r c => blur_x_pixel image cols kernel center r c) cols
    (lo rank rows size) (hi rank rows size - lo rank rows size) 0 (fun _ => (0 : K)) _ rfl).2.1
    idx c hidx hc
  simpa [gaussian_smooth_blur_x] using h

/-- The `tempim` of `gaussian_smooth` after the `MPI_Allgather`. -/
theorem gaussian_smooth_tempim {K : Type} [LinearOrderedField K] (image : Int → Nat) (rows cols : Nat) (kernel : Int → K)
    (center : Int) (size : Nat) (hd : size ∣ rows) (r c : Nat) (hr : r < rows) (hc : c < cols) :
    allgather (rows * cols / size) size
        (fun rank => gaussian_smooth_blur_x image rows cols kernel center rank size)
        (fun _ => 0) ((r : Int) * cols + c)
      = blur_x_pixel image cols kernel center r c :=
  allgather_rows rows cols size hd _ _ (fun r c => blur_x_pixel image cols kernel center r c)
    (fun rank idx c _ hidx hc =>
      gaussian_smooth_blur_x_apply image rows cols kernel center rank size idx c hidx hc)
    r c hr hc

/-- The x-direction blur of a constant row is that constant. -/
theorem blur_x_pixel_const {K : Type} [LinearOrderedField K] (image : Int → Nat) (rows cols : Nat) (kernel : Int → K)
    (center : Int) (v : Nat) (r c : Nat) (hr : r < rows) (hc : c < cols)
    (hcen : 0 ≤ center) (hker : ∀ j : Int, 0 ≤ j → j < 2 * center + 1 → 0 < kernel j)
    (himg : ∀ k : Int, 0 ≤ k → k < (rows : Int) * cols → image k = v) :
    blur_x_pixel image cols kernel center r c = (v : K) := by
  have hcols : (0 : Int) ≤ (cols : Int) := Int.natCast_nonneg _
  have h := tapLoop_const
    (fun j : Nat => 0 ≤ (c : Int) + (-center + (j : Int))
      ∧ (c : Int) + (-center + (j : Int)) < (cols : Int))
    (fun j : Nat => ((image ((r : Int) * cols + ((c : Int) + (-center + (j : Int)))) : Nat) : K))
    (fun j : Nat => kernel (center + (-center + (j : Int))))
    (2 * center + 1).toNat (v : K) center.toNat
    (by
      intro j _ hin
      have : (r : Int) * cols + ((c : Int) + (-center + (j : Int))) < (rows : Int) * cols := by
        have : ((r : Int) + 1) * cols ≤ (rows : Int) * cols :=
          mul_le_mul_of_nonneg_right (by omega) hcols
        have e : ((r : Int) + 1) * cols = (r : Int) * cols + cols := by ring
        omega
      have h0 : 0 ≤ (r : Int) * cols + ((c : Int) + (-center + (j : Int))) := by
        have : 0 ≤ (r : Int) * cols := by positivity
        omega
      simp only []
      rw [himg _ h0 this])
    (by
      intro j hj
      apply hker <;> omega)
    (by omega)
    (by
      show 0 ≤ (c : Int) + (-center + (center.toNat : Int))
        ∧ (c : Int) + (-center + (center.toNat : Int)) < (cols : Int)
      rw [Int.toNat_of_nonneg hcen]; constructor <;> omega)
  have key : ∀ ds : K × K, 0 < ds.2 → ds.1 = (v : K) * ds.2 → ds.1 / ds.2 = (v : K) := by
    intro ds hpos heq
    rw [heq]
    exact mul_div_cancel_right₀ _ (ne_of_gt hpos)
  exact key _ h.1 h.2

/-- The y-direction blur of a constant column is 90 times that constant. -/
theorem blur_y_pixel_const {K : Type} [LinearOrderedField K] [FloorRing K] (tempim : Int → K) (rows cols : Nat) (kernel : Int → K)
    (center : Int) (v : Nat) (r c : Nat) (hr : r < rows) (hc : c < cols)
    (hcen : 0 ≤ center) (hker : ∀ j : Int, 0 ≤ j → j < 2 * center + 1 → 0 < kernel j)
    (him : ∀ r' c' : Nat, r' < rows → c' < cols → tempim ((r' : Int) * cols + c') = (v : K)) :
    blur_y_pixel tempim rows cols kernel center r c = 90 * (v : Int) := by
  have h := tapLoop_const
    (fun j : Nat => 0 ≤ (r : Int) + (-center + (j : Int))
      ∧ (r : Int) + (-center + (j : Int)) < (rows : Int))
    (fun j : Nat => tempim (((r : Int) + (-center + (j : Int))) * cols + c))
    (fun j : Nat => kernel (center + (-center + (j : Int))))
    (2 * center + 1).toNat (v : K) center.toNat
    (by
      intro j _ hin
      have e : (r : Int) + (-center + (j : Int))
          = (((r : Int) + (-center + (j : Int))).toNat : Int) :=
        (Int.toNat_of_nonneg hin.1).symm
      simp only []
      rw [e]
      exact him _ c (by omega) hc)
    (by
      intro j hj
      apply hker <;> omega)
    (by omega)
    (by
      show 0 ≤ (r : Int) + (-center + (center.toNat : Int))
        ∧ (r : Int) + (-center + (center.toNat : Int)) < (rows : Int)
      rw [Int.toNat_of_nonneg hcen]; constructor <;> omega)
  have key : ∀ ds : K × K, 0 < ds.2 → ds.1 = (v : K) * ds.2 →
      truncCast (ds.1 * 90 / ds.2 + 0.5) = 90 * (v : Int) := by
    intro ds hpos heq
    have e : ds.1 * 90 / ds.2 = (((90 * (v : Int) : Int)) : K) := by
      rw [heq, mul_assoc, mul_comm ds.2 (90 : K), ← mul_assoc,
        mul_div_cancel_right₀ _ (ne_of_gt hpos)]
      push_cast; ring
    rw [e]
    exact truncCast_int_add_half _ (by positivity)
  exact key _ h.1 h.2

/-- Columns written one after the other, each from the top row to the bottom
row: the pixel `(r, c)` of the buffer after the columns `c0 .. c0+n-1`. -/
theorem colLoop_store {α : Type} (V : Nat → Nat → α) (rows cols c0 n : Nat) (b0 : Int → α)
    (hn : c0 + n ≤ cols) (r c : Nat) (hr : r < rows) (hc : c < cols) :
    forLoop (fun c' (tb : Int → α) =>
        forLoop (fun r' (tb : Int → α) => setAt tb ((r' : Int) * cols + c') (V r' c')) 0 rows tb)
      c0 n b0 ((r : Int) * cols + c)
      = if c0 ≤ c ∧ c < c0 + n then V r c else b0 ((r : Int) * cols + c) := by
  have hne : ∀ r' c' : Nat, c' < cols → (r', c') ≠ (r, c) →
      ((r : Int) * cols + c) ≠ ((r' : Int) * cols + c') := by
    intro r' c' hc' hne heq
    apply hne
    have h1 : r * cols + c = r' * cols + c' := by exact_mod_cast heq
    have h2 : (r * cols + c) / cols = (r' * cols + c') / cols := by rw [h1]
    have h3 : (r * cols + c) % cols = (r' * cols + c') % cols := by rw [h1]
    have hpos : 0 < cols := by omega
    rw [Nat.mul_comm r, Nat.mul_comm r', Nat.mul_add_div hpos, Nat.mul_add_div hpos,
      Nat.div_eq_of_lt hc, Nat.div_eq_of_lt hc'] at h2
    rw [Nat.mul_comm r, Nat.mul_comm r', Nat.mul_add_mod, Nat.mul_add_mod,
      Nat.mod_eq_of_lt hc, Nat.mod_eq_of_lt hc'] at h3
    simp only [Nat.add_zero] at h2
    rw [h2, h3]
  by_cases hin : c0 ≤ c ∧ c < c0 + n
  · rw [if_pos hin]
    apply forLoop_hit _ c0 n b0 _ c (V r c) hin.1 hin.2
    · intro tb
      apply forLoop_hit _ 0 rows tb _ r (V r c) (Nat.zero_le _) (by omega)
      · intro tb'; simp [setAt]
      · intro i tb' hi _
        have := hne i c hc (by intro h; cases h; omega)
        simp [setAt, this]
    · intro i tb hi hi2
      apply forLoop_frame
      intro r' tb' _ _
      have := hne r' i (by omega) (by intro h; cases h; omega)
      simp [setAt, this]
  · rw [if_neg hin]
    apply forLoop_frame
    intro i tb hi hi2
    apply forLoop_frame
    intro r' tb' _ _
    have := hne r' i (by omega) (by intro h; cases h; omega)
    simp [setAt, this]

/-- `MPI_Allreduce` with `MPI_SUM` of buffers that hold the columns of each
worker and are zero elsewhere: the pixel `(r, c)` of the result. -/
theorem allreduceShort_cols (rows cols size : Nat) (hs : 1 ≤ size)
    (send : Nat → Int → Int) (recv : Int → Int) (V : Nat → Nat → Int)
    (hsend : ∀ rank r c, rank < size → r < rows → c < cols →
      send rank ((r : Int) * cols + c)
        = if lo rank cols size ≤ c ∧ c < hi rank cols size then V r c else 0)
    (r c : Nat) (hr : r < rows) (hc : c < cols) :
    allreduceShort (rows * cols) size send recv ((r : Int) * cols + c) = wrap16 (V r c) := by
  unfold allreduceShort
  have hin : 0 ≤ (r : Int) * cols + c ∧ (r : Int) * cols + c < ((rows * cols : Nat) : Int) := by
    constructor
    · positivity
    · have : r * cols + c < rows * cols := by
        have : (r + 1) * cols ≤ rows * cols := Nat.mul_le_mul_right cols hr
        rw [Nat.add_mul, Nat.one_mul] at this
        omega
      exact_mod_cast this
  rw [if_pos hin]
  obtain ⟨r0, hr0, hlo, hhi⟩ := owner_exists cols size c hs hc
  rw [sumRanks_single size _ r0 hr0, hsend r0 r c hr0 hr hc, if_pos ⟨hlo, hhi⟩]
  intro rank hrank hne
  rw [hsend rank r c hrank hr hc, if_neg]
  intro h
  exact hne (owner_unique cols size c rank r0 h ⟨hlo, hhi⟩)

/-- What one worker's y-direction blur leaves in its `tempbuffer2`. -/
theorem gaussian_smooth_blur_y_apply {K : Type} [LinearOrderedField K] [FloorRing K]
    (tempim : Int → K) (rows cols : Nat) (kernel : Int → K)
    (center : Int) (rank size : Nat) (hs : 1 ≤ size) (hrank : rank < size)
    (r c : Nat) (hr : r < rows) (hc : c < cols) :
    gaussian_smooth_blur_y tempim rows cols kernel center rank size ((r : Int) * cols + c)
      = if lo rank cols size ≤ c ∧ c < hi rank cols size
        then blur_y_pixel tempim rows cols kernel center r c else 0 := by
  have hle := lo_le_hi rank cols size
  have hhi := hi_le cols size rank hs hrank
  have h := colLoop_store (fun r c => blur_y_pixel tempim rows cols kernel center r c) rows cols
    (lo rank cols size) (hi rank cols size - lo rank cols size) (fun _ => (0 : Int))
    (by omega) r c hr hc
  have e : lo rank cols size + (hi rank cols size - lo rank cols size) = hi rank cols size := by
    omega
  rw [e] at h
  exact h

/-- The smoothed image of a constant image. -/
theorem gaussian_smooth_const {K : Type} [LinearOrderedField K] [FloorRing K]
    (powf : K → K → K) (sqrtf : K → K) (image : Int → Nat) (rows cols : Nat) (sigma : K)
    (size v : Nat) (hsig : 0 < sigma) (hpow : ∀ y, 0 < powf 2.71828 y)
    (hsqrt : 0 < sqrtf 6.2831853) (hs : 1 ≤ size) (hd : size ∣ rows) (hv : v ≤ 255)
    (himg : ∀ k : Int, 0 ≤ k → k < (rows : Int) * cols → image k = v)
    (r c : Nat) (hr : r < rows) (hc : c < cols) :
    gaussian_smooth powf sqrtf image rows cols sigma size ((r : Int) * cols + c)
      = 90 * (v : Int) := by
  have hcen : Int.tdiv (windowsize sigma) 2 = ⌈(2.5 : K) * sigma⌉ := windowsize_tdiv sigma hsig
  have hcpos : 0 < ⌈(2.5 : K) * sigma⌉ := Int.ceil_pos.2 (mul_pos (by norm_num) hsig)
  have hker : ∀ j : Int, 0 ≤ j → j < 2 * Int.tdiv (windowsize sigma) 2 + 1 →
      0 < (make_gaussian_kernel powf sqrtf sigma).1 j := by
    intro j h0 h1
    apply make_gaussian_kernel_pos powf sqrtf sigma j hsig hpow hsqrt h0
    rw [hcen] at h1
    unfold windowsize
    omega
  unfold gaussian_smooth
  simp only [make_gaussian_kernel_snd]
  rw [allreduceShort_cols rows cols size hs _ _
    (fun r c => blur_y_pixel _ rows cols (make_gaussian_kernel powf sqrtf sigma).1
      (Int.tdiv (windowsize sigma) 2) r c)
    (fun rank r c hrank hr hc =>
      gaussian_smooth_blur_y_apply _ rows cols _ _ rank size hs hrank r c hr hc) r c hr hc]
  rw [blur_y_pixel_const _ rows cols _ _ v r c hr hc (by omega) hker]
  · apply wrap16_of_range <;> omega
  · intro r' c' hr' hc'
    rw [gaussian_smooth_tempim image rows cols _ _ size hd r' c' hr' hc']
    exact blur_x_pixel_const image rows cols _ _ v r' c' hr' hc' (by omega) hker himg

/-- C6: for every `rows`, `cols`, every `sigma > 0`, every worker count that
divides `rows` and every constant image with value `v ≤ 255`, exact arithmetic
(with `pow` and `sqrt` positive where the kernel builder calls them) gives
`smoothedim[r,c] = 90*v` at every pixel, also where the window of the kernel
is cut by the border of the image. -/
theorem gaussian_smooth_constant_image {K : Type} [LinearOrderedField K] [FloorRing K]
    (powf : K → K → K) (sqrtf : K → K) (image : Int → Nat) (rows cols : Nat) (sigma : K)
    (size v : Nat) (hsig : 0 < sigma) (hpow : ∀ y, 0 < powf 2.71828 y)
    (hsqrt : 0 < sqrtf 6.2831853) (hs : 1 ≤ size) (hd : size ∣ rows) (hv : v ≤ 255)
    (himg : ∀ k : Int, 0 ≤ k → k < (rows : Int) * cols → image k = v) :
    ∀ r c : Nat, r < rows → c < cols →
      gaussian_smooth powf sqrtf image rows cols sigma size ((r : Int) * cols + c)
        = 90 * (v : Int) :=
  fun r c hr hc =>
    gaussian_smooth_const powf sqrtf image rows cols sigma size v hsig hpow hsqrt hs hd hv himg
      r c hr hc

theorem gaussian_smooth_constant_image_witness :
    (0 : ℚ) < 1 ∧ (∀ y : ℚ, (0 : ℚ) < (fun _ _ => (1 : ℚ)) (2.71828 : ℚ) y) ∧
    (0 : ℚ) < (fun _ => (1 : ℚ)) (6.2831853 : ℚ) ∧ 1 ≤ 2 ∧ 2 ∣ 4 ∧ 7 ≤ 255 ∧
    (∀ k : Int, 0 ≤ k → k < ((4 : Nat) : Int) * (3 : Nat) → (fun _ : Int => 7) k = 7) ∧
    (∀ r c : Nat, r < 4 → c < 3 →
      gaussian_smooth (fun _ _ => (1 : ℚ)) (fun _ => 1) (fun _ => 7) 4 3 1 2
        ((r : Int) * (3 : Nat) + c) = 90 * ((7 : Nat) : Int)) :=
  ⟨by norm_num, fun _ => by norm_num, by norm_num, by decide, by decide, by decide,
    fun _ _ _ => rfl,
    gaussian_smooth_constant_image (fun _ _ => (1 : ℚ)) (fun _ => 1) (fun _ => 7) 4 3 1 2 7
      (by norm_num) (fun _ => by norm_num) (by norm_num) (by decide) (by decide) (by decide)
      (fun _ _ _ => rfl)⟩

/-- A loop that carries a position advanced by `d` at every iteration. -/
theorem forLoop_counter {σ : Type} (B : Nat → Int → σ → σ) (d : Int) (n : Nat) (p : Int)
    (s : σ) :
    forLoop (fun i (st : Int × σ) => (st.1 + d, B i st.1 st.2)) 0 n (p, s)
      = (p + n * d, forLoop (fun i s => B i (p + i * d) s) 0 n s) := by
  induction n with
  | zero => simp [forLoop_zero]
  | succ n ih =>
    rw [forLoop_succ_last, ih, forLoop_succ_last]
    simp only [Nat.zero_add]
    congr 1
    push_cast; ring

theorem forLoop_shift {σ : Type} (f : Nat → σ → σ) (a d n : Nat) (s : σ) :
    forLoop f (a + d) n s = forLoop (fun i => f (i + d)) a n s := by
  induction n generalizing a s with
  | zero => rfl
  | succ n ih =>
    rw [forLoop_succ, forLoop_succ]
    have e : a + d + 1 = a + 1 + d := by omega
    rw [e, ih]

/-- The loop nest over the rows of a worker visits the cells
`p0, p0+1, ..., p0 + nrows*cols - 1` in this order. -/
theorem rasterLoop_eq {σ : Type} (body : Int → σ → σ) (p0 : Int) (r0 r1 cols : Nat) (s : σ) :
    rasterLoop body p0 r0 r1 cols s
      = forLoop (fun k s => body (p0 + (k : Int)) s) 0 ((r1 - r0) * cols) s := by
  unfold rasterLoop
  generalize r1 - r0 = m
  have key : forLoop (fun _ (st : Int × σ) =>
        forLoop (fun _ (st : Int × σ) => (st.1 + 1, body st.1 st.2)) 0 cols st) r0 m (p0, s)
      = (p0 + ((m * cols : Nat) : Int),
         forLoop (fun k s => body (p0 + (k : Int)) s) 0 (m * cols) s) := by
    induction m with
    | zero => simp [forLoop_zero]
    | succ m ih =>
      rw [forLoop_succ_last, ih]
      have h := forLoop_counter (fun _ p s => body p s) 1 cols (p0 + ((m * cols : Nat) : Int))
        (forLoop (fun k s => body (p0 + (k : Int)) s) 0 (m * cols) s)
      simp only [] at h
      rw [h]
      congr 1
      · push_cast; ring
      · have e : (m + 1) * cols = m * cols + cols := by ring
        rw [e, forLoop_append, forLoop_shift]
        apply forLoop_congr
        intro j t _ _
        congr 1
        push_cast; ring
  rw [key]

/-- A loop that stores the same value in two cells at every iteration. -/
theorem forLoop_setConst2 {α : Type} (idx1 idx2 : Nat → Int) (v : α) (a n : Nat)
    (b0 : Int → α) (j : Int) :
    forLoop (fun i (tb : Int → α) => setAt (setAt tb (idx1 i) v) (idx2 i) v) a n b0 j
      = if ∃ i, i < a + n ∧ a ≤ i ∧ (j = idx1 i ∨ j = idx2 i) then v else b0 j := by
  induction n with
  | zero =>
    rw [forLoop_zero, if_neg]
    rintro ⟨i, h1, h2, _⟩
    omega
  | succ n ih =>
    rw [forLoop_succ_last]
    by_cases h : j = idx1 (a + n) ∨ j = idx2 (a + n)
    · have hex : ∃ i, i < a + (n + 1) ∧ a ≤ i ∧ (j = idx1 i ∨ j = idx2 i) :=
        ⟨a + n, by omega, by omega, h⟩
      rw [if_pos hex]
      unfold setAt
      rcases h with h | h
      · by_cases h2 : j = idx2 (a + n)
        · simp [h2]
        · simp [h2, h]
      · simp [h]
    · have hj1 : j ≠ idx1 (a + n) := fun e => h (Or.inl e)
      have hj2 : j ≠ idx2 (a + n) := fun e => h (Or.inr e)
      have : setAt (setAt (forLoop (fun i (tb : Int → α) =>
          setAt (setAt tb (idx1 i) v) (idx2 i) v) a n b0) (idx1 (a + n)) v) (idx2 (a + n)) v j
          = forLoop (fun i (tb : Int → α) => setAt (setAt tb (idx1 i) v) (idx2 i) v) a n b0 j := by
        simp [setAt, hj1, hj2]
      rw [this, ih]
      by_cases hex : ∃ i, i < a + n ∧ a ≤ i ∧ (j = idx1 i ∨ j = idx2 i)
      · obtain ⟨i, h1, h2, h3⟩ := hex
        rw [if_pos ⟨i, h1, h2, h3⟩, if_pos ⟨i, by omega, h2, h3⟩]
      · rw [if_neg hex, if_neg]
        rintro ⟨i, h1, h2, h3⟩
        by_cases hi : i = a + n
        · subst hi; exact h h3
        · exact hex ⟨i, by omega, h2, h3⟩

/-- The `tempbuffer` of a worker after the seeding and the border loops of
`apply_hysteresis`. -/
theorem hysteresis_seed_apply (nms : Int → Nat) (rows cols rank size : Nat) (j : Int) :
    hysteresis_seed nms rows cols rank size j
      = if borderPos rows cols j then NOEDGE
        else if ownPos rows cols rank size j then
          (if nms j = POSSIBLE_EDGE then POSSIBLE_EDGE else NOEDGE)
        else 0 := by
  unfold hysteresis_seed
  rw [forLoop_counter (fun c p (tb : Int → Nat) => setAt (setAt tb (c : Int) NOEDGE) p NOEDGE) 1,
    forLoop_counter (fun _ p (tb : Int → Nat) => setAt (setAt tb p NOEDGE) (p + cols - 1) NOEDGE)
      cols]
  simp only []
  rw [forLoop_setConst2 (fun c : Nat => (c : Int))
      (fun c : Nat => ((rows : Int) - 1) * cols + (c : Int) * 1) NOEDGE 0 cols,
    forLoop_setConst2 (fun r : Nat => (0 : Int) + (r : Int) * cols)
      (fun r : Nat => (0 : Int) + (r : Int) * cols + cols - 1) NOEDGE 0 rows,
    rasterLoop_eq]
  have hstore := forLoop_store_off
    (fun (k : Nat) (_ : Nat) =>
      if nms (((rank * rows * cols / size : Nat) : Int) + (k : Int)) = POSSIBLE_EDGE
      then POSSIBLE_EDGE else NOEDGE)
    ((rank * rows * cols / size : Nat) : Int) 0
    ((hi rank rows size - lo rank rows size) * cols) (fun _ => (0 : Nat)) j
  have hbody : (fun (k : Nat) (s : Int → Nat) =>
      if nms (((rank * rows * cols / size : Nat) : Int) + (k : Int)) = POSSIBLE_EDGE
      then setAt s (((rank * rows * cols / size : Nat) : Int) + (k : Int)) POSSIBLE_EDGE
      else setAt s (((rank * rows * cols / size : Nat) : Int) + (k : Int)) NOEDGE)
      = (fun (i : Nat) (k : Int → Nat) =>
        setAt k (((rank * rows * cols / size : Nat) : Int) + (i : Int))
          (if nms (((rank * rows * cols / size : Nat) : Int) + (i : Int)) = POSSIBLE_EDGE
            then POSSIBLE_EDGE else NOEDGE)) := by
    funext k s
    split <;> rfl
  rw [hbody, hstore]
  by_cases hb : borderPos rows cols j
  · rw [if_pos hb]
    rcases hb with ⟨c, hc, hj⟩ | ⟨r, hr, hj⟩
    · rw [if_pos ⟨c, by omega, by omega, by simpa using hj⟩]
    · by_cases h1 : ∃ i, i < 0 + cols ∧ 0 ≤ i ∧
          (j = (i : Int) ∨ j = ((rows : Int) - 1) * cols + (i : Int) * 1)
      · rw [if_pos h1]
      · rw [if_neg h1, if_pos ⟨r, by omega, by omega, by simpa using hj⟩]
  · rw [if_neg hb, if_neg, if_neg]
    · by_cases ho : ownPos rows cols rank size j
      · have ho' := ho
        unfold ownPos at ho'
        rw [if_pos ho, if_pos (by push_cast at ho' ⊢; omega)]
        have e : ((rank * rows * cols / size : Nat) : Int)
            + (((j - ((rank * rows * cols / size : Nat) : Int)).toNat : Nat) : Int) = j := by
          rw [Int.toNat_of_nonneg (by omega)]; ring
        rw [e]
      · have ho' := ho
        unfold ownPos at ho'
        rw [if_neg ho, if_neg (by push_cast at ho' ⊢; omega)]
    · rintro ⟨r, hr, _, hj⟩
      exact hb (Or.inr ⟨r, by omega, by simpa using hj⟩)
    · rintro ⟨c, hc, _, hj⟩
      exact hb (Or.inl ⟨c, by omega, by simpa using hj⟩)

/-- The `temphist` of a worker: bin `b` counts the visited cells that are
`POSSIBLE_EDGE` in `tempbuffer` and have magnitude `b`. -/
theorem hysteresis_temphist_apply (mag : Int → Int) (tb : Int → Nat) (rows cols rank size : Nat)
    (b : Int) :
    hysteresis_temphist mag tb rows cols rank size b
      = ∑ k in Finset.range ((hi rank rows size - lo rank rows size) * cols),
          (if tb (((rank * rows * cols / size : Nat) : Int) + (k : Int)) = POSSIBLE_EDGE
              ∧ mag (((rank * rows * cols / size : Nat) : Int) + (k : Int)) = b
            then (1 : Int) else 0) := by
  unfold hysteresis_temphist
  rw [rasterLoop_eq]
  generalize (hi rank rows size - lo rank rows size) * cols = n
  generalize ((rank * rows * cols / size : Nat) : Int) = p0
  induction n with
  | zero => simp [forLoop_zero]
  | succ n ih =>
    rw [forLoop_succ_last, Finset.sum_range_succ, ← ih]
    simp only [Nat.zero_add]
    by_cases h1 : tb (p0 + (n : Int)) = POSSIBLE_EDGE
    · by_cases h2 : mag (p0 + (n : Int)) = b
      · simp [h1, h2, setAt]
      · have h3 : b ≠ mag (p0 + (n : Int)) := fun e => h2 e.symm
        simp [h1, h2, h3, setAt]
    · simp [h1]

/-- The `numedges` of `apply_hysteresis`. -/
theorem hysteresis_numedges_snd (hist : Int → Int) (mm0 : Int) :
    (hysteresis_numedges hist mm0).2 = ∑ r in Finset.range 32767, hist ((1 + r : Nat) : Int) := by
  unfold hysteresis_numedges
  rw [forLoop_pair (fun r (m : Int) => if hist (r : Int) ≠ 0 then (r : Int) else m)
    (fun r (s : Int) => s + hist (r : Int))]
  simp only []
  rw [forLoop_sum]
  simp

/-- The `maximum_mag` of `apply_hysteresis`: what it held on entry when the
bins `1 .. 32767` are all zero, the highest non-zero bin otherwise. -/
theorem hysteresis_numedges_fst (hist : Int → Int) (mm0 : Int) :
    ((hysteresis_numedges hist mm0).1 = mm0 ∧ ∀ r : Int, 1 ≤ r → r < 32768 → hist r = 0) ∨
    (1 ≤ (hysteresis_numedges hist mm0).1 ∧ (hysteresis_numedges hist mm0).1 < 32768 ∧
      hist (hysteresis_numedges hist mm0).1 ≠ 0 ∧
      ∀ r : Int, (hysteresis_numedges hist mm0).1 < r → r < 32768 → hist r = 0) := by
  unfold hysteresis_numedges
  rw [forLoop_pair (fun r (m : Int) => if hist (r : Int) ≠ 0 then (r : Int) else m)
    (fun r (s : Int) => s + hist (r : Int))]
  simp only []
  have h := forLoop_inv (fun r (m : Int) => if hist (r : Int) ≠ 0 then (r : Int) else m)
    (fun n m => (m = mm0 ∧ ∀ r : Int, 1 ≤ r → r < n → hist r = 0) ∨
      (1 ≤ m ∧ m < n ∧ hist m ≠ 0 ∧ ∀ r : Int, m < r → r < n → hist r = 0))
    1 32767 mm0 (Or.inl ⟨rfl, fun r h1 h2 => by omega⟩)
    (by
      intro j m hj _ hp
      by_cases hz : hist (j : Int) = 0
      · beta_reduce
        rw [if_neg (not_not.2 hz)]
        rcases hp with ⟨h1, h2⟩ | ⟨h1, h2, h3, h4⟩
        · refine Or.inl ⟨h1, fun r hr1 hr2 => ?_⟩
          by_cases e : r = (j : Int)
          · rw [e]; exact hz
          · exact h2 r hr1 (by push_cast at hr2; omega)
        · refine Or.inr ⟨h1, by push_cast; omega, h3, fun r hr1 hr2 => ?_⟩
          by_cases e : r = (j : Int)
          · rw [e]; exact hz
          · exact h4 r hr1 (by push_cast at hr2; omega)
      · beta_reduce
        rw [if_pos hz]
        refine Or.inr ⟨by omega, by push_cast; omega, hz, fun r hr1 hr2 => ?_⟩
        push_cast at hr2
        omega)
  simpa using h

/-- The `while` loop of `apply_hysteresis` never moves `r` down and never
moves it beyond `maximum_mag - 1`. -/
theorem hysteresis_highloop_bounds (hist : Int → Int) (mm hc : Int) (n : Nat) (r ne : Int) :
    r ≤ hysteresis_highloop hist mm hc n r ne ∧
    hysteresis_highloop hist mm hc n r ne ≤ max r (mm - 1) := by
  induction n generalizing r ne with
  | zero => exact ⟨le_refl _, le_max_left _ _⟩
  | succ n ih =>
    unfold hysteresis_highloop
    by_cases h : r < mm - 1 ∧ ne < hc
    · rw [if_pos h]
      have := ih (r + 1) (ne + hist (r + 1))
      have e : max (r + 1) (mm - 1) = mm - 1 := max_eq_right (by omega)
      have e2 : max r (mm - 1) = mm - 1 := max_eq_right (by omega)
      rw [e] at this
      rw [e2]
      omega
    · rw [if_neg h]
      exact ⟨le_refl _, le_max_left _ _⟩

/-- A `while` loop whose condition fails at once. -/
theorem hysteresis_highloop_stop (hist : Int → Int) (mm hc : Int) (n : Nat) (r ne : Int)
    (h : ¬ (r < mm - 1 ∧ ne < hc)) : hysteresis_highloop hist mm hc n r ne = r := by
  cases n with
  | zero => rfl
  | succ n => unfold hysteresis_highloop; rw [if_neg h]

/-- The iterations allowed to the `while` loop are enough: on exit its
condition is false. -/
theorem hysteresis_highloop_exit (hist : Int → Int) (mm hc : Int) (n : Nat) (r ne : Int)
    (hn : mm - 1 - r ≤ n) :
    ¬ (hysteresis_highloop hist mm hc n r ne < mm - 1) ∨
    ∃ ne', ¬ (ne' < hc) ∧ hysteresis_highloop hist mm hc n r ne < mm - 1 := by
  induction n generalizing r ne with
  | zero => left; unfold hysteresis_highloop; omega
  | succ n ih =>
    unfold hysteresis_highloop
    by_cases h : r < mm - 1 ∧ ne < hc
    · rw [if_pos h]
      exact ih (r + 1) (ne + hist (r + 1)) (by push_cast at hn; omega)
    · rw [if_neg h]
      by_cases h1 : r < mm - 1
      · right; exact ⟨ne, fun h2 => h ⟨h1, h2⟩, h1⟩
      · left; exact h1

theorem truncCast_half {K : Type} [LinearOrderedField K] [FloorRing K] :
    truncCast ((0 : K) * 0 + 0.5) = 0 := by
  have := truncCast_int_add_half (K := K) 0 (le_refl _)
  simpa using this

theorem traceStep_refl (R : Int → Prop) (tb : Int → Nat) : traceStep R tb tb :=
  fun _ => Or.inl rfl

theorem traceStep_trans (R : Int → Prop) (a b c : Int → Nat)
    (h1 : traceStep R a b) (h2 : traceStep R b c) : traceStep R a c := by
  intro j
  rcases h2 j with e2 | ⟨e2, e3, e4⟩
  · rcases h1 j with e1 | ⟨e1, e1', e1''⟩
    · left; rw [e2, e1]
    · right; exact ⟨e1, by rw [e2, e1'], e1''⟩
  · rcases h1 j with e1 | ⟨e1, e1', _⟩
    · right; exact ⟨by rw [← e1, e2], e3, e4⟩
    · rw [e1'] at e2; exact absurd e2 (by decide)

/-- A cell that is `POSSIBLE_EDGE` later was `POSSIBLE_EDGE` before. -/
theorem traceStep_poss (R : Int → Prop) (a b : Int → Nat) (h : traceStep R a b) (j : Int)
    (hj : b j = POSSIBLE_EDGE) : a j = POSSIBLE_EDGE := by
  rcases h j with e | ⟨_, e, _⟩
  · rw [← e, hj]
  · rw [e] at hj; exact absurd hj (by decide)

theorem possCount_le (R : Int → Prop) (S : Finset Int) (a b : Int → Nat)
    (h : traceStep R a b) : possCount S b ≤ possCount S a := by
  unfold possCount
  apply Finset.card_le_card
  intro j hj
  rw [Finset.mem_filter] at hj ⊢
  exact ⟨hj.1, traceStep_poss R a b h j hj.2⟩

theorem possCount_lt (R : Int → Prop) (S : Finset Int) (a b : Int → Nat)
    (h : traceStep R a b) (q : Int) (hq : q ∈ S) (ha : a q = POSSIBLE_EDGE)
    (hb : b q ≠ POSSIBLE_EDGE) : possCount S b < possCount S a := by
  unfold possCount
  apply Finset.card_lt_card
  rw [Finset.ssubset_iff_of_subset]
  · exact ⟨q, Finset.mem_filter.2 ⟨hq, ha⟩, fun hh => hb (Finset.mem_filter.1 hh).2⟩
  · intro j hj
    rw [Finset.mem_filter] at hj ⊢
    exact ⟨hj.1, traceStep_poss R a b h j hj.2⟩

theorem possCount_le_card (S : Finset Int) (a : Int → Nat) : possCount S a ≤ S.card :=
  Finset.card_filter_le _ _

theorem follow_edges_succ (fuel : Nat) (map : Int → Nat) (mag : Int → Int) (p lowval : Int)
    (cols : Nat) :
    follow_edges (fuel + 1) map mag p lowval cols
      = forLoop (fun i (st : Option (Int → Nat)) =>
          st.bind (fun m =>
            if m (p - yoff i * (cols : Int) + xoff i) = POSSIBLE_EDGE
                ∧ mag (p - yoff i * (cols : Int) + xoff i) > lowval then
              follow_edges fuel (setAt m (p - yoff i * (cols : Int) + xoff i) EDGE) mag
                (p - yoff i * (cols : Int) + xoff i) lowval cols
            else some m))
        0 8 (some map) := rfl

/-- Storing `EDGE` in a `POSSIBLE_EDGE` cell that satisfies `R` is a step of
the tracing. -/
theorem traceStep_setAt (R : Int → Prop) (tb m : Int → Nat) (q : Int)
    (h : traceStep R tb m) (hq : m q = POSSIBLE_EDGE) (hR : R q) :
    traceStep R tb (setAt m q EDGE) := by
  intro j
  by_cases e : j = q
  · subst e
    right
    exact ⟨traceStep_poss R tb m h j hq, by simp [setAt], hR⟩
  · rcases h j with e1 | e1
    · left; simp [setAt, e, e1]
    · right; simpa [setAt, e] using e1

theorem traceClosed_mono (R : Int → Prop) (cols : Nat) (mag : Int → Int) (lowval : Int)
    (a b : Int → Nat) (j : Int) (h : traceStep R a b) (hc : traceClosed cols mag lowval a j) :
    traceClosed cols mag lowval b j :=
  fun i hi hh => hc i hi ⟨traceStep_poss R a b h _ hh.1, hh.2⟩

/-- A cell that is `EDGE` stays `EDGE`. -/
theorem traceStep_edge (R : Int → Prop) (a b : Int → Nat) (h : traceStep R a b) (j : Int)
    (hj : a j = EDGE) : b j = EDGE := by
  rcases h j with e | ⟨e, _, _⟩
  · rw [e, hj]
  · rw [hj] at e; exact absurd e (by decide)

/-- The recursion of `follow_edges` ends within the depth allowed whenever the
depth exceeds the number of `POSSIBLE_EDGE` cells; what it returns is a later
state of the buffer it was given, in which no neighbour of the pixel it was
called on, nor of any pixel it turned into `EDGE`, is still `POSSIBLE_EDGE`
with a magnitude above `lowval`. -/
theorem follow_edges_spec (R : Int → Prop) (mag : Int → Int) (lowval : Int) (cols : Nat)
    (base : Int → Nat) (S : Finset Int)
    (hS : ∀ j, base j = POSSIBLE_EDGE → j ∈ S)
    (hR : ∀ p q i, R p → i < 8 → q = p - yoff i * (cols : Int) + xoff i →
      base q = POSSIBLE_EDGE → mag q > lowval → R q) :
    ∀ (fuel : Nat) (tb : Int → Nat) (p : Int), traceStep R base tb → R p →
      possCount S tb < fuel →
      ∃ tb', follow_edges fuel tb mag p lowval cols = some tb' ∧ traceStep R tb tb' ∧
        traceClosed cols mag lowval tb' p ∧
        ∀ j, tb j = POSSIBLE_EDGE → tb' j = EDGE → traceClosed cols mag lowval tb' j := by
  intro fuel
  induction fuel with
  | zero => intro tb p _ _ h; omega
  | succ fuel ih =>
    intro tb p hbase hp hcount
    rw [follow_edges_succ]
    have h := forLoop_inv
      (fun i (st : Option (Int → Nat)) =>
          st.bind (fun m =>
            if m (p - yoff i * (cols : Int) + xoff i) = POSSIBLE_EDGE
                ∧ mag (p - yoff i * (cols : Int) + xoff i) > lowval then
              follow_edges fuel (setAt m (p - yoff i * (cols : Int) + xoff i) EDGE) mag
                (p - yoff i * (cols : Int) + xoff i) lowval cols
            else some m))
      (fun n st => ∃ m, st = some m ∧ traceStep R tb m ∧
        (∀ i, i < n → ¬ (m (p - yoff i * (cols : Int) + xoff i) = POSSIBLE_EDGE
          ∧ mag (p - yoff i * (cols : Int) + xoff i) > lowval)) ∧
        ∀ j, tb j = POSSIBLE_EDGE → m j = EDGE → traceClosed cols mag lowval m j) 0 8 (some tb)
      ⟨tb, rfl, traceStep_refl R tb, fun i hi => absurd hi (by omega),
        fun j h1 h2 => by rw [h1] at h2; exact absurd h2 (by decide)⟩
      (by
        rintro i st _ hi ⟨m, rfl, hm, hdone, hcl⟩
        beta_reduce
        rw [Option.some_bind]
        by_cases hc : m (p - yoff i * (cols : Int) + xoff i) = POSSIBLE_EDGE
                ∧ mag (p - yoff i * (cols : Int) + xoff i) > lowval
        · rw [if_pos hc]
          have hbm : traceStep R base m := traceStep_trans R base tb m hbase hm
          have hbq : base (p - yoff i * (cols : Int) + xoff i) = POSSIBLE_EDGE :=
            traceStep_poss R base m hbm _ hc.1
          have hRq : R (p - yoff i * (cols : Int) + xoff i) :=
            hR p _ i hp (by omega) rfl hbq hc.2
          have hstep := traceStep_setAt R tb m _ hm hc.1 hRq
          have hmm2 : traceStep R m (setAt m (p - yoff i * (cols : Int) + xoff i) EDGE) :=
            traceStep_setAt R m m _ (traceStep_refl R m) hc.1 hRq
          have hlt : possCount S (setAt m (p - yoff i * (cols : Int) + xoff i) EDGE)
              < possCount S tb :=
            possCount_lt R S tb _ hstep _ (hS _ hbq) (traceStep_poss R tb m hm _ hc.1)
              (by simp [setAt]; decide)
          obtain ⟨m3, h3, h4, h5, h6⟩ := ih _ (p - yoff i * (cols : Int) + xoff i)
            (traceStep_trans R base tb _ hbase hstep) hRq (by omega)
          have hmm3 := traceStep_trans R m _ m3 hmm2 h4
          have hq3 : m3 (p - yoff i * (cols : Int) + xoff i) = EDGE :=
            traceStep_edge R _ m3 h4 _ (by simp [setAt])
          refine ⟨m3, h3, traceStep_trans R tb _ m3 hstep h4, ?_, ?_⟩
          · intro i' hi' hh
            by_cases e : i' = i
            · subst e
              rw [hq3] at hh
              exact absurd hh.1 (by decide)
            · exact hdone i' (by omega) ⟨traceStep_poss R m m3 hmm3 _ hh.1, hh.2⟩
          · intro j hj1 hj3
            by_cases e : j = p - yoff i * (cols : Int) + xoff i
            · rw [e]; exact h5
            · rcases hm j with e1 | ⟨_, e1, _⟩
              · apply h6 j _ hj3
                simp only [setAt, e, if_false]
                rw [e1, hj1]
              · exact traceClosed_mono R cols mag lowval m m3 j hmm3 (hcl j hj1 e1)
        · rw [if_neg hc]
          refine ⟨m, rfl, hm, ?_, hcl⟩
          intro i' hi'
          by_cases e : i' = i
          · subst e; exact hc
          · exact hdone i' (by omega))
    obtain ⟨m, h1, h2, h3, h4⟩ := h
    exact ⟨m, h1, h2, fun i hi => h3 i (by omega), h4⟩

/-- The loop of `apply_hysteresis` that starts the tracing delivers a buffer
(the recursion depth given is enough); that buffer is a later state of the
seeded `tempbuffer`, in which every visited cell that was `POSSIBLE_EDGE`
with a magnitude of at least `highthreshold` is `EDGE`, and in which no
neighbour of a cell turned into `EDGE` is still `POSSIBLE_EDGE` with a
magnitude above the low threshold. -/
theorem hysteresis_trace_spec (R : Int → Prop) (fuel : Nat) (mag : Int → Int)
    (seed : Int → Nat) (rows cols rank size : Nat) (low high : Int) (S : Finset Int)
    (hS : ∀ j, seed j = POSSIBLE_EDGE → j ∈ S) (hcard : S.card < fuel)
    (hstrong : ∀ p, seed p = POSSIBLE_EDGE → mag p ≥ high → R p)
    (hR : ∀ p q i, R p → i < 8 → q = p - yoff i * (cols : Int) + xoff i →
      seed q = POSSIBLE_EDGE → mag q > wrap16 low → R q) :
    ∃ tb, hysteresis_trace fuel mag seed rows cols rank size low high = some tb
      ∧ traceStep R seed tb
      ∧ (∀ k : Nat, k < (hi rank rows size - lo rank rows size) * cols →
          seed (((rank * rows * cols / size : Nat) : Int) + (k : Int)) = POSSIBLE_EDGE →
          mag (((rank * rows * cols / size : Nat) : Int) + (k : Int)) ≥ high →
          tb (((rank * rows * cols / size : Nat) : Int) + (k : Int)) = EDGE)
      ∧ ∀ j, seed j = POSSIBLE_EDGE → tb j = EDGE →
          traceClosed cols mag (wrap16 low) tb j := by
  unfold hysteresis_trace
  rw [rasterLoop_eq]
  have h := forLoop_inv
    (fun (k : Nat) (st : Option (Int → Nat)) =>
      st.bind (fun tb =>
        if tb (((rank * rows * cols / size : Nat) : Int) + (k : Int)) = POSSIBLE_EDGE
            ∧ mag (((rank * rows * cols / size : Nat) : Int) + (k : Int)) ≥ high then
          follow_edges fuel
            (setAt tb (((rank * rows * cols / size : Nat) : Int) + (k : Int)) EDGE) mag
            (((rank * rows * cols / size : Nat) : Int) + (k : Int)) (wrap16 low) cols
        else some tb))
    (fun n st => ∃ m, st = some m ∧ traceStep R seed m ∧
      (∀ k : Nat, k < n →
          seed (((rank * rows * cols / size : Nat) : Int) + (k : Int)) = POSSIBLE_EDGE →
          mag (((rank * rows * cols / size : Nat) : Int) + (k : Int)) ≥ high →
          m (((rank * rows * cols / size : Nat) : Int) + (k : Int)) = EDGE) ∧
      ∀ j, seed j = POSSIBLE_EDGE → m j = EDGE → traceClosed cols mag (wrap16 low) m j) 0
    ((hi rank rows size - lo rank rows size) * cols) (some seed)
    ⟨seed, rfl, traceStep_refl R seed, fun k hk => absurd hk (by omega),
      fun j h1 h2 => by rw [h1] at h2; exact absurd h2 (by decide)⟩
    (by
      rintro k st _ _ ⟨m, rfl, hm, hdone, hcl⟩
      beta_reduce
      rw [Option.some_bind]
      by_cases hc : m (((rank * rows * cols / size : Nat) : Int) + (k : Int)) = POSSIBLE_EDGE
            ∧ mag (((rank * rows * cols / size : Nat) : Int) + (k : Int)) ≥ high
      · rw [if_pos hc]
        have hsq := traceStep_poss R seed m hm _ hc.1
        have hRq := hstrong _ hsq hc.2
        have hstep := traceStep_setAt R seed m _ hm hc.1 hRq
        have hmm2 : traceStep R m
            (setAt m (((rank * rows * cols / size : Nat) : Int) + (k : Int)) EDGE) :=
          traceStep_setAt R m m _ (traceStep_refl R m) hc.1 hRq
        obtain ⟨m3, h3, h4, h5, h6⟩ := follow_edges_spec R mag (wrap16 low) cols seed S hS hR
          fuel _ (((rank * rows * cols / size : Nat) : Int) + (k : Int)) hstep hRq
          (lt_of_le_of_lt (possCount_le_card S _) hcard)
        have hmm3 := traceStep_trans R m _ m3 hmm2 h4
        have hq3 : m3 (((rank * rows * cols / size : Nat) : Int) + (k : Int)) = EDGE :=
          traceStep_edge R _ m3 h4 _ (by simp [setAt])
        refine ⟨m3, h3, traceStep_trans R seed _ m3 hstep h4, ?_, ?_⟩
        · intro k' hk' hs1 hs2
          by_cases e : k' = k
          · subst e; exact hq3
          · exact traceStep_edge R m m3 hmm3 _ (hdone k' (by omega) hs1 hs2)
        · intro j hj1 hj3
          by_cases e : j = ((rank * rows * cols / size : Nat) : Int) + (k : Int)
          · rw [e]; exact h5
          · rcases hm j with e1 | ⟨_, e1, _⟩
            · apply h6 j _ hj3
              simp only [setAt, e, if_false]
              rw [e1, hj1]
            · exact traceClosed_mono R cols mag (wrap16 low) m m3 j hmm3 (hcl j hj1 e1)
      · rw [if_neg hc]
        refine ⟨m, rfl, hm, ?_, hcl⟩
        intro k' hk' hs1 hs2
        by_cases e : k' = k
        · subst e
          rcases hm _ with e1 | ⟨_, e1, _⟩
          · exact absurd ⟨by rw [e1, hs1], hs2⟩ hc
          · exact e1
        · exact hdone k' (by omega) hs1 hs2)
  obtain ⟨m, h1, h2, h3, h4⟩ := h
  exact ⟨m, h1, h2, fun k hk => h3 k (by omega), h4⟩

theorem ownPos_iff (rows cols rank size : Nat) (j : Int) :
    ownPos rows cols rank size j ↔
      (((rank * rows * cols / size : Nat) : Int) + ((0 : Nat) : Int) ≤ j
        ∧ j < ((rank * rows * cols / size : Nat) : Int) + ((0 : Nat) : Int)
          + (((hi rank rows size - lo rank rows size) * cols : Nat) : Int)) := by
  unfold ownPos
  constructor
  · rintro ⟨h1, h2⟩
    constructor <;> omega
  · rintro ⟨h1, h2⟩
    constructor <;> omega

/-- The `tempbuffer` of a worker after the cleanup loop of `apply_hysteresis`. -/
theorem hysteresis_cleanup_apply (tb : Int → Nat) (rows cols rank size : Nat) (j : Int) :
    hysteresis_cleanup tb rows cols rank size j
      = if ownPos rows cols rank size j then (if tb j ≠ EDGE then NOEDGE else tb j)
        else tb j := by
  unfold hysteresis_cleanup
  rw [rasterLoop_eq]
  have hbody : (fun (k : Nat) (s : Int → Nat) =>
      if s (((rank * rows * cols / size : Nat) : Int) + (k : Int)) ≠ EDGE
      then setAt s (((rank * rows * cols / size : Nat) : Int) + (k : Int)) NOEDGE else s)
      = (fun (i : Nat) (k : Int → Nat) =>
        setAt k (((rank * rows * cols / size : Nat) : Int) + (i : Int))
          ((fun (_ : Nat) (v : Nat) => if v ≠ EDGE then NOEDGE else v) i
            (k (((rank * rows * cols / size : Nat) : Int) + (i : Int))))) := by
    funext k s
    by_cases h : s (((rank * rows * cols / size : Nat) : Int) + (k : Int)) ≠ EDGE
    · rw [if_pos h]
      beta_reduce
      rw [if_pos h]
    · rw [if_neg h]
      beta_reduce
      rw [if_neg h]
      funext j
      unfold setAt
      by_cases e : j = ((rank * rows * cols / size : Nat) : Int) + (k : Int)
      · rw [if_pos e, e]
      · rw [if_neg e]
  rw [hbody]
  have hst := forLoop_store_off (fun (_ : Nat) (v : Nat) => if v ≠ EDGE then NOEDGE else v)
    ((rank * rows * cols / size : Nat) : Int) 0
    ((hi rank rows size - lo rank rows size) * cols) tb j
  rw [hst]
  by_cases ho : ownPos rows cols rank size j
  · rw [if_pos ho, if_pos ((ownPos_iff rows cols rank size j).1 ho)]
  · rw [if_neg ho, if_neg (fun h => ho ((ownPos_iff rows cols rank size j).2 h))]

/-- `MPI_Reduce` with `MPI_SUM` on bytes when every worker delivers a buffer. -/
theorem reduceUChar_some (n size : Nat) (send : Nat → Option (Int → Nat))
    (buf : Nat → Int → Nat) (recv : Int → Nat) (h : ∀ r, r < size → send r = some (buf r)) :
    reduceUChar n size send recv
      = some (fun k => if 0 ≤ k ∧ k < (n : Int) then sumRanks size (fun r => buf r k) % 256
          else recv k) := by
  unfold reduceUChar
  have key : forLoop (fun r (acc : Option (Int → Nat)) =>
        acc.bind (fun a => (send r).map (fun b => fun k => a k + b k))) 0 size
        (some (fun _ => 0))
      = some (fun k => sumRanks size (fun r => buf r k)) := by
    induction size with
    | zero => rfl
    | succ m ih =>
      rw [forLoop_succ_last, ih (fun r hr => h r (by omega)), Nat.zero_add, Option.some_bind,
        h m (by omega), Option.map_some']
      congr 1
      funext k
      unfold sumRanks
      rw [forLoop_succ_last, Nat.zero_add]
  rw [key, Option.map_some']

/-- The cells a worker visits are as many as its rows times `cols`. -/
theorem ownPos_finite (rows cols rank size : Nat) :
    ∃ S : Finset Int, S.card = (hi rank rows size - lo rank rows size) * cols ∧
      ∀ j, ownPos rows cols rank size j → j ∈ S := by
  refine ⟨Finset.Ico ((rank * rows * cols / size : Nat) : Int)
    (((rank * rows * cols / size : Nat) : Int)
      + (((hi rank rows size - lo rank rows size) * cols : Nat) : Int)), ?_, ?_⟩
  · rw [Int.card_Ico]
    simp only [add_sub_cancel_left, Int.toNat_ofNat]
  · intro j hj
    rw [Finset.mem_Ico]
    exact hj

theorem hysteresis_seed_poss (nms : Int → Nat) (rows cols rank size : Nat) (j : Int)
    (h : hysteresis_seed nms rows cols rank size j = POSSIBLE_EDGE) :
    ¬ borderPos rows cols j ∧ ownPos rows cols rank size j ∧ nms j = POSSIBLE_EDGE := by
  rw [hysteresis_seed_apply] at h
  by_cases hb : borderPos rows cols j
  · rw [if_pos hb] at h; exact absurd h (by decide)
  · rw [if_neg hb] at h
    by_cases ho : ownPos rows cols rank size j
    · rw [if_pos ho] at h
      by_cases hn : nms j = POSSIBLE_EDGE
      · exact ⟨hb, ho, hn⟩
      · rw [if_neg hn] at h; exact absurd h (by decide)
    · rw [if_neg ho] at h; exact absurd h (by decide)

/-- The tracing loop of a worker, for any property `R` that holds of the
pixels above `highthreshold` and passes from a pixel to its neighbours above
the low threshold: it delivers a buffer, a later state of the seeded one, in
which the visited cells above `highthreshold` are `EDGE` and no neighbour of
an `EDGE` cell is left `POSSIBLE_EDGE` above the low threshold. -/
theorem hysteresis_trace_total (R : Int → Prop) (mag : Int → Int) (nms : Int → Nat)
    (rows cols rank size : Nat) (low high : Int) (hs : 1 ≤ size) (hrank : rank < size)
    (hstrong : ∀ p, hysteresis_seed nms rows cols rank size p = POSSIBLE_EDGE →
      mag p ≥ high → R p)
    (hR : ∀ p q i, R p → i < 8 → q = p - yoff i * (cols : Int) + xoff i →
      hysteresis_seed nms rows cols rank size q = POSSIBLE_EDGE → mag q > wrap16 low → R q) :
    ∃ tb, hysteresis_trace (rows * cols + 1) mag (hysteresis_seed nms rows cols rank size)
        rows cols rank size low high = some tb
      ∧ traceStep R (hysteresis_seed nms rows cols rank size) tb
      ∧ (∀ j, hysteresis_seed nms rows cols rank size j = POSSIBLE_EDGE → mag j ≥ high →
          tb j = EDGE)
      ∧ ∀ j, hysteresis_seed nms rows cols rank size j = POSSIBLE_EDGE → tb j = EDGE →
          traceClosed cols mag (wrap16 low) tb j := by
  obtain ⟨S, hcard, hS⟩ := ownPos_finite rows cols rank size
  have hfuel : S.card < rows * cols + 1 := by
    rw [hcard]
    have h1 := hi_le rows size rank hs hrank
    have h2 : (hi rank rows size - lo rank rows size) * cols ≤ rows * cols :=
      Nat.mul_le_mul_right cols (by omega)
    omega
  obtain ⟨tb, h1, h2, h3, h4⟩ := hysteresis_trace_spec R (rows * cols + 1) mag _ rows cols
    rank size low high S
    (fun j hj => hS j (hysteresis_seed_poss nms rows cols rank size j hj).2.1) hfuel hstrong hR
  refine ⟨tb, h1, h2, ?_, h4⟩
  intro j hj1 hj2
  obtain ⟨g1, g2⟩ := (hysteresis_seed_poss nms rows cols rank size j hj1).2.1
  have e : j = ((rank * rows * cols / size : Nat) : Int)
      + (((j - ((rank * rows * cols / size : Nat) : Int)).toNat : Nat) : Int) := by
    rw [Int.toNat_of_nonneg (by omega)]; ring
  rw [e]
  apply h3
  · have : (((j - ((rank * rows * cols / size : Nat) : Int)).toNat : Nat) : Int)
        < (((hi rank rows size - lo rank rows size) * cols : Nat) : Int) := by
      rw [Int.toNat_of_nonneg (by omega)]; omega
    exact_mod_cast this
  · rw [← e]; exact hj1
  · rw [← e]; exact hj2

/-- Every worker hands a buffer to the final `MPI_Reduce` of
`apply_hysteresis`: the cleaned-up result of its tracing loop. -/
theorem apply_hysteresis_rank_total {K : Type} [LinearOrderedField K] [FloorRing K]
    (mag : Int → Int) (nms : Int → Nat) (rows cols : Nat) (tlow thigh : K) (rank size : Nat)
    (mm0 : Int) (hs : 1 ≤ size) (hrank : rank < size) :
    ∃ tb, apply_hysteresis_rank mag nms rows cols tlow thigh rank size mm0
        = some (hysteresis_cleanup tb rows cols rank size)
      ∧ traceStep (fun _ => True) (hysteresis_seed nms rows cols rank size) tb := by
  obtain ⟨tb, h1, h2, _⟩ := hysteresis_trace_total (fun _ => True) mag nms rows cols rank size
    (hysteresis_thresholds (hysteresis_hist mag nms rows cols size) tlow thigh mm0).1
    (hysteresis_thresholds (hysteresis_hist mag nms rows cols size) tlow thigh mm0).2
    hs hrank (fun _ _ _ => trivial) (fun _ _ _ _ _ _ _ _ => trivial)
  refine ⟨tb, ?_, h2⟩
  unfold apply_hysteresis_rank
  simp only []
  rw [h1, Option.map_some']

/-- What a worker hands to the final `MPI_Reduce`, cell by cell: `NOEDGE` on
the border; `EDGE` or `NOEDGE` on the other cells it visits; 0 elsewhere. -/
theorem apply_hysteresis_rank_cells {K : Type} [LinearOrderedField K] [FloorRing K]
    (mag : Int → Int) (nms : Int → Nat) (rows cols : Nat) (tlow thigh : K) (rank size : Nat)
    (mm0 : Int) (hs : 1 ≤ size) (hrank : rank < size) :
    ∃ buf, apply_hysteresis_rank mag nms rows cols tlow thigh rank size mm0 = some buf ∧
      (∀ j, borderPos rows cols j → buf j = NOEDGE) ∧
      (∀ j, ¬ borderPos rows cols j → ownPos rows cols rank size j →
        buf j = EDGE ∨ buf j = NOEDGE) ∧
      (∀ j, ¬ borderPos rows cols j → ¬ ownPos rows cols rank size j → buf j = 0) := by
  obtain ⟨tb, h1, h2⟩ :=
    apply_hysteresis_rank_total mag nms rows cols tlow thigh rank size mm0 hs hrank
  refine ⟨_, h1, ?_, ?_, ?_⟩
  · intro j hb
    have hseed : hysteresis_seed nms rows cols rank size j = NOEDGE := by
      rw [hysteresis_seed_apply, if_pos hb]
    have htb : tb j = NOEDGE := by
      rcases h2 j with e | ⟨e, _, _⟩
      · rw [e, hseed]
      · rw [hseed] at e; exact absurd e (by decide)
    rw [hysteresis_cleanup_apply, htb]
    by_cases ho : ownPos rows cols rank size j
    · rw [if_pos ho, if_pos (by decide)]
    · rw [if_neg ho]
  · intro j _ ho
    rw [hysteresis_cleanup_apply, if_pos ho]
    by_cases e : tb j ≠ EDGE
    · rw [if_pos e]; right; rfl
    · rw [if_neg e]; left; exact not_not.1 e
  · intro j hb ho
    have hseed : hysteresis_seed nms rows cols rank size j = 0 := by
      rw [hysteresis_seed_apply, if_neg hb, if_neg ho]
    rw [hysteresis_cleanup_apply, if_neg ho]
    rcases h2 j with e | ⟨e, _, _⟩
    · rw [e, hseed]
    · rw [hseed] at e; exact absurd e (by decide)

theorem sumRanks_const (size c : Nat) : sumRanks size (fun _ => c) = size * c := by
  rw [sumRanks_eq_sum]
  simp

/-- Rank 0 receives an edge image from `apply_hysteresis`, and a cell of the
border of that image holds `size * 255` modulo 256: every worker contributes
`NOEDGE` there. -/
theorem apply_hysteresis_border {K : Type} [LinearOrderedField K] [FloorRing K]
    (mag : Int → Int) (nms : Int → Nat) (rows cols : Nat) (tlow thigh : K) (size : Nat)
    (mm0 : Nat → Int) (edge0 : Int → Nat) (hs : 1 ≤ size) :
    ∃ edge, apply_hysteresis mag nms rows cols tlow thigh size mm0 edge0 = some edge ∧
      ∀ j : Int, 0 ≤ j → j < ((rows * cols : Nat) : Int) → borderPos rows cols j →
        edge j = size * 255 % 256 := by
  have hall : ∀ rank, ∃ buf, rank < size →
      (apply_hysteresis_rank mag nms rows cols tlow thigh rank size (mm0 rank) = some buf ∧
        ∀ j, borderPos rows cols j → buf j = NOEDGE) := by
    intro rank
    by_cases hrank : rank < size
    · obtain ⟨buf, h1, h2, _⟩ :=
        apply_hysteresis_rank_cells mag nms rows cols tlow thigh rank size (mm0 rank) hs hrank
      exact ⟨buf, fun _ => ⟨h1, h2⟩⟩
    · exact ⟨fun _ => 0, fun h => absurd h hrank⟩
  choose buf hbuf using hall
  refine ⟨_, reduceUChar_some (rows * cols) size _ buf edge0 (fun r hr => (hbuf r hr).1), ?_⟩
  intro j h0 h1 hb
  rw [if_pos ⟨h0, h1⟩]
  have : sumRanks size (fun r => buf r j) = sumRanks size (fun _ => 255) := by
    rw [sumRanks_eq_sum, sumRanks_eq_sum]
    apply Finset.sum_congr rfl
    intro r hr
    exact (hbuf r (Finset.mem_range.1 hr)).2 j hb
  rw [this, sumRanks_const]

/-- When the worker count divides `rows`, the cells a worker visits are the
cells of its rows. -/
theorem ownPos_of_dvd (rows cols rank size : Nat) (hs : 1 ≤ size) (hd : size ∣ rows) (j : Int) :
    ownPos rows cols rank size j ↔
      ((lo rank rows size * cols : Nat) : Int) ≤ j ∧ j < ((hi rank rows size * cols : Nat) : Int) := by
  obtain ⟨q, rfl⟩ := hd
  have hsz : 0 < size := hs
  have hlo : ∀ rank, lo rank (size * q) size = rank * q := by
    intro rank
    unfold lo
    rw [← Nat.mul_assoc, Nat.mul_comm rank size, Nat.mul_assoc]
    exact Nat.mul_div_cancel_left _ hsz
  have hhi : hi rank (size * q) size = (rank + 1) * q := hlo (rank + 1)
  have hp0 : rank * (size * q) * cols / size = rank * q * cols := by
    have : rank * (size * q) * cols = size * (rank * q * cols) := by ring
    rw [this]
    exact Nat.mul_div_cancel_left _ hsz
  unfold ownPos
  rw [hp0, hhi, hlo]
  have e : ((rank + 1) * q - rank * q) * cols = (rank + 1) * q * cols - rank * q * cols :=
    Nat.sub_mul _ _ _
  have hle : rank * q * cols ≤ (rank + 1) * q * cols :=
    Nat.mul_le_mul_right cols (Nat.mul_le_mul_right q (Nat.le_succ rank))
  rw [e]
  constructor
  · rintro ⟨h1, h2⟩
    constructor <;> omega
  · rintro ⟨h1, h2⟩
    constructor <;> omega

/-- Sums over consecutive blocks add up to the sum over their union. -/
theorem sum_blocks (a : Nat → Nat) (ha : ∀ r, a r ≤ a (r + 1)) (f : Nat → Int) (m : Nat) :
    ∑ r in Finset.range m, ∑ j in Finset.Ico (a r) (a (r + 1)), f j
      = ∑ j in Finset.Ico (a 0) (a m), f j := by
  have hmono : ∀ r, a 0 ≤ a r := by
    intro r
    induction r with
    | zero => exact le_refl _
    | succ r ih => exact le_trans ih (ha r)
  induction m with
  | zero => simp
  | succ m ih =>
    rw [Finset.sum_range_succ, ih, Finset.sum_Ico_consecutive f (hmono m) (ha m)]

/-- The `temphist` of a worker when the worker count divides `rows`, in terms
of the seeded buffer of a single worker. -/
theorem hysteresis_temphist_dvd (mag : Int → Int) (nms : Int → Nat) (rows cols rank size : Nat)
    (hs : 1 ≤ size) (hd : size ∣ rows) (hrank : rank < size) (b : Int) :
    hysteresis_temphist mag (hysteresis_seed nms rows cols rank size) rows cols rank size b
      = ∑ j in Finset.Ico (lo rank rows size * cols) (lo (rank + 1) rows size * cols),
          (if hysteresis_seed nms rows cols 0 1 (j : Int) = POSSIBLE_EDGE ∧ mag (j : Int) = b
            then (1 : Int) else 0) := by
  rw [hysteresis_temphist_apply, Finset.sum_Ico_eq_sum_range]
  have hle : lo rank rows size * cols ≤ lo (rank + 1) rows size * cols :=
    Nat.mul_le_mul_right cols (lo_mono rows size (Nat.le_succ rank))
  have hp0 : ((rank * rows * cols / size : Nat) : Int)
      = ((lo rank rows size * cols : Nat) : Int) := by
    obtain ⟨q, rfl⟩ := hd
    have hsz : 0 < size := hs
    congr 1
    unfold lo
    have : rank * (size * q) * cols = size * (rank * q * cols) := by ring
    rw [this, Nat.mul_div_cancel_left _ hsz]
    have : rank * (size * q) = size * (rank * q) := by ring
    rw [this, Nat.mul_div_cancel_left _ hsz]
  have hn : (hi rank rows size - lo rank rows size) * cols
      = lo (rank + 1) rows size * cols - lo rank rows size * cols := by
    rw [hi_eq_lo_succ, Nat.sub_mul]
  rw [hn]
  apply Finset.sum_congr rfl
  intro k hk
  have hk' := Finset.mem_range.1 hk
  rw [hp0]
  have hj : ((lo rank rows size * cols : Nat) : Int) + (k : Int)
      = ((lo rank rows size * cols + k : Nat) : Int) := by push_cast; ring
  rw [hj]
  have hown : ownPos rows cols rank size ((lo rank rows size * cols + k : Nat) : Int) := by
    rw [ownPos_of_dvd rows cols rank size hs hd, hi_eq_lo_succ]
    constructor
    · exact_mod_cast Nat.le_add_right _ _
    · have : lo rank rows size * cols + k < lo (rank + 1) rows size * cols := by omega
      exact_mod_cast this
  have hown1 : ownPos rows cols 0 1 ((lo rank rows size * cols + k : Nat) : Int) := by
    rw [ownPos_of_dvd rows cols 0 1 (le_refl _) (one_dvd _)]
    have h1 : lo 0 rows 1 = 0 := lo_zero rows 1
    have h2 : hi 0 rows 1 = rows := hi_last rows 1 (le_refl _)
    rw [h1, h2]
    constructor
    · have : 0 * cols ≤ lo rank rows size * cols + k := by omega
      exact_mod_cast this
    · have h3 : lo (rank + 1) rows size ≤ rows := by
        have := hi_le rows size rank hs hrank
        rwa [hi_eq_lo_succ] at this
      have h4 : lo (rank + 1) rows size * cols ≤ rows * cols := Nat.mul_le_mul_right cols h3
      have : lo rank rows size * cols + k < rows * cols := by omega
      exact_mod_cast this
  have hseed : hysteresis_seed nms rows cols rank size ((lo rank rows size * cols + k : Nat) : Int)
      = hysteresis_seed nms rows cols 0 1 ((lo rank rows size * cols + k : Nat) : Int) := by
    rw [hysteresis_seed_apply, hysteresis_seed_apply, if_pos hown, if_pos hown1]
  rw [hseed]

/-- The partial histograms of the workers add up to the histogram of a single
worker when the worker count divides `rows`. -/
theorem hysteresis_temphist_sum (mag : Int → Int) (nms : Int → Nat) (rows cols size : Nat)
    (hs : 1 ≤ size) (hd : size ∣ rows) (b : Int) :
    sumRanks size (fun rank =>
        hysteresis_temphist mag (hysteresis_seed nms rows cols rank size) rows cols rank size b)
      = hysteresis_temphist mag (hysteresis_seed nms rows cols 0 1) rows cols 0 1 b := by
  rw [sumRanks_eq_sum,
    hysteresis_temphist_dvd mag nms rows cols 0 1 (le_refl _) (one_dvd _) (by omega) b]
  have h : ∀ rank ∈ Finset.range size,
      hysteresis_temphist mag (hysteresis_seed nms rows cols rank size) rows cols rank size b
        = ∑ j in Finset.Ico (lo rank rows size * cols) (lo (rank + 1) rows size * cols),
          (if hysteresis_seed nms rows cols 0 1 (j : Int) = POSSIBLE_EDGE ∧ mag (j : Int) = b
            then (1 : Int) else 0) :=
    fun rank hr =>
      hysteresis_temphist_dvd mag nms rows cols rank size hs hd (Finset.mem_range.1 hr) b
  rw [Finset.sum_congr rfl h,
    sum_blocks (fun r => lo r rows size * cols)
      (fun r => Nat.mul_le_mul_right cols (lo_mono rows size (Nat.le_succ r)))]
  have e1 : lo size rows size = rows := by
    have := hi_last rows size hs
    rw [hi_eq_lo_succ, Nat.sub_add_cancel hs] at this
    exact this
  have e2 : lo (0 + 1) rows 1 = rows := by
    have := hi_last rows 1 (le_refl _)
    rw [hi_eq_lo_succ] at this
    exact this
  simp only [lo_zero, e1, e2]

theorem hysteresis_hist_dvd (mag : Int → Int) (nms : Int → Nat) (rows cols size : Nat)
    (hs : 1 ≤ size) (hd : size ∣ rows) :
    hysteresis_hist mag nms rows cols size = hysteresis_hist mag nms rows cols 1 := by
  funext b
  unfold hysteresis_hist allreduceInt
  by_cases hb : 0 ≤ b ∧ b < ((32768 : Nat) : Int)
  · rw [if_pos hb, if_pos hb, hysteresis_temphist_sum mag nms rows cols size hs hd b,
      hysteresis_temphist_sum mag nms rows cols 1 (le_refl _) (one_dvd _) b]
  · rw [if_neg hb, if_neg hb]

theorem borderPos_zero (rows cols : Nat) (hc : 0 < cols) : borderPos rows cols 0 :=
  Or.inl ⟨0, hc, Or.inl rfl⟩

/-- C1 fails on the code: with two workers, on a 4 × 4 image (here with
all-zero magnitude and suppression map, `tlow = 0.3`, `thigh = 0.7`), the
byte of the border pixel (0,0) in the edge raster rank 0 receives is 254,
neither 0 nor 255: both workers store `NOEDGE` on the border and the
`MPI_Reduce` adds the two bytes. -/
theorem apply_hysteresis_two_workers_border :
    ∃ edge, apply_hysteresis (fun _ => 0) (fun _ => 0) 4 4 (0.3 : ℚ) 0.7 2 (fun _ => 0)
        (fun _ => 0) = some edge ∧ edge 0 = 254 := by
  obtain ⟨edge, h1, h2⟩ := apply_hysteresis_border (fun _ => 0) (fun _ => 0) 4 4 (0.3 : ℚ) 0.7 2
    (fun _ => 0) (fun _ => 0) (by decide)
  exact ⟨edge, h1, h2 0 (by decide) (by decide) (borderPos_zero 4 4 (by decide))⟩

/-- The body of the pixel loop of `non_max_supp` stores at `index` only. -/
theorem nmsPixel_frame {K : Type} [LinearOrderedField K] (mag gradx grady : Int → Int)
    (ncols : Nat) (p index : Int) (st : NmsRegs K × (Int → Nat)) (k : Int) (hk : k ≠ index) :
    (nmsPixel mag gradx grady ncols p index st).2 k = st.2 k := by
  unfold nmsPixel
  simp only [setAt, hk, if_false]
  split
  · simp [setAt, hk]
  · rfl

theorem nmsValue_cases {K : Type} [LinearOrderedField K] (mags : K × K) :
    nmsValue mags = NOEDGE ∨ nmsValue mags = POSSIBLE_EDGE := by
  unfold nmsValue
  split
  · left; rfl
  · split
    · left; rfl
    · right; rfl

theorem nmsValueFloat_cases {K : Type} [LinearOrderedField K]
    (mags : FloatVal K × FloatVal K) :
    nmsValueFloat mags = NOEDGE ∨ nmsValueFloat mags = POSSIBLE_EDGE := by
  unfold nmsValueFloat
  split
  · left; rfl
  · split
    · left; rfl
    · right; rfl

/-- On weights that are numbers the `float` arithmetic of the octant code is
the arithmetic of the field. -/
theorem nmsMags_fin {K : Type} [LinearOrderedField K] (mag : Int → Int) (ncols : Nat)
    (p m00 gx gy : Int) (x y : K) :
    nmsMags mag ncols p m00 gx gy (FloatVal.fin x) (FloatVal.fin y)
      = (FloatVal.fin (nmsMags mag ncols p m00 gx gy x y).1,
         FloatVal.fin (nmsMags mag ncols p m00 gx gy x y).2) := by
  unfold nmsMags
  simp only []
  split_ifs <;> rfl

/-- On numbers the final test on `float` values is the test on the field. -/
theorem nmsValueFloat_fin {K : Type} [LinearOrderedField K] (a b : K) :
    nmsValueFloat (FloatVal.fin a, FloatVal.fin b) = nmsValue (a, b) := by
  unfold nmsValueFloat nmsValue
  simp only [FloatVal.gtZero, FloatVal.eqZero, decide_eq_true_eq, gt_iff_lt]

/-- What the body of the pixel loop of `non_max_supp` stores is `NOEDGE` or
`POSSIBLE_EDGE`. -/
theorem nmsPixel_value {K : Type} [LinearOrderedField K] (mag gradx grady : Int → Int)
    (ncols : Nat) (p index : Int) (st : NmsRegs K × (Int → Nat)) :
    (nmsPixel mag gradx grady ncols p index st).2 index = NOEDGE ∨
    (nmsPixel mag gradx grady ncols p index st).2 index = POSSIBLE_EDGE := by
  unfold nmsPixel
  simp only [setAt, if_true]
  exact nmsValueFloat_cases _

/-- Invariant rule for the loops of `non_max_supp` as done by one worker, when
the worker count divides `nrows`: a property of the registers and the buffer
that holds at the start and is kept by the body of the pixel loop at every
pixel the worker tests holds at the end.  The pixel `(row, col)` is tested
with `magptr` and `index` both at `row*ncols + col`. -/
theorem non_max_supp_rank_inv {K : Type} [LinearOrderedField K]
    (mag gradx grady : Int → Int) (nrows ncols rank size : Nat) (regs0 : NmsRegs K)
    (hs : 1 ≤ size) (hd : size ∣ nrows)
    (Q : NmsRegs K × (Int → Nat) → Prop) (h0 : Q (regs0, fun _ => 0))
    (hstep : ∀ (row col : Nat) (w : NmsRegs K × (Int → Nat)),
      (if rank = 0 then 1 else 0) + lo rank nrows size ≤ row →
      row < hi rank nrows size - (if rank + 1 = size then 2 else 0) →
      1 ≤ col → col + 2 < ncols → Q w →
      Q (nmsPixel mag gradx grady ncols ((row : Int) * ncols + col) ((row : Int) * ncols + col) w)) :
    ∃ regs, Q (regs, non_max_supp_rank mag gradx grady nrows ncols rank size regs0) := by
  have hstart : (if rank = 0 then ((ncols + 1 : Nat) : Int)
      else ((ncols * rank * nrows / size + 1 : Nat) : Int))
      = (((if rank = 0 then 1 else 0) + lo rank nrows size : Nat) : Int) * ncols + 1 := by
    by_cases h : rank = 0
    · subst h
      simp [lo_zero]
    · rw [if_neg h, if_neg h]
      obtain ⟨q, rfl⟩ := hd
      have hsz : 0 < size := hs
      have e1 : ncols * rank * (size * q) / size = ncols * rank * q := by
        have : ncols * rank * (size * q) = size * (ncols * rank * q) := by ring
        rw [this, Nat.mul_div_cancel_left _ hsz]
      have e2 : lo rank (size * q) size = rank * q := by
        unfold lo
        have : rank * (size * q) = size * (rank * q) := by ring
        rw [this, Nat.mul_div_cancel_left _ hsz]
      rw [e1, e2]
      push_cast
      ring
  unfold non_max_supp_rank
  simp only []
  rw [hstart]
  have h := forLoop_inv
    (fun _ (st : Int × Int × NmsRegs K × (Int → Nat)) =>
      ((st.1 + ncols,
        (forLoop (fun _ (t : Int × Int × NmsRegs K × (Int → Nat)) =>
            (t.1 + 1, t.2.1 + 1, nmsPixel mag gradx grady ncols t.1 t.2.1 t.2.2))
          1 (ncols - 2 - 1) (st.1, st.2.1, st.2.2)).2.1 + 3,
        (forLoop (fun _ (t : Int × Int × NmsRegs K × (Int → Nat)) =>
            (t.1 + 1, t.2.1 + 1, nmsPixel mag gradx grady ncols t.1 t.2.1 t.2.2))
          1 (ncols - 2 - 1) (st.1, st.2.1, st.2.2)).2.2) :
        Int × Int × NmsRegs K × (Int → Nat)))
    (fun row st => (3 ≤ ncols → st.1 = (row : Int) * ncols + 1 ∧ st.2.1 = (row : Int) * ncols + 1)
      ∧ Q st.2.2)
    ((if rank = 0 then 1 else 0) + lo rank nrows size)
    (hi rank nrows size - (if rank + 1 = size then 2 else 0)
      - ((if rank = 0 then 1 else 0) + lo rank nrows size))
    ((((if rank = 0 then 1 else 0) + lo rank nrows size : Nat) : Int) * ncols + 1,
      (((if rank = 0 then 1 else 0) + lo rank nrows size : Nat) : Int) * ncols + 1,
      regs0, fun _ => 0)
    ⟨fun _ => ⟨rfl, rfl⟩, h0⟩
    (by
      rintro row st hr1 hr2 ⟨hpos, hq⟩
      have hin := forLoop_inv
        (fun _ (t : Int × Int × NmsRegs K × (Int → Nat)) =>
            ((t.1 + 1, t.2.1 + 1, nmsPixel mag gradx grady ncols t.1 t.2.1 t.2.2) :
              Int × Int × NmsRegs K × (Int → Nat)))
        (fun col t => (3 ≤ ncols → t.1 = (row : Int) * ncols + col
            ∧ t.2.1 = (row : Int) * ncols + col) ∧ Q t.2.2)
        1 (ncols - 2 - 1) (st.1, st.2.1, st.2.2)
        ⟨fun h3 => by simpa using hpos h3, hq⟩
        (by
          rintro col t hc1 hc2 ⟨htp, htq⟩
          have h3 : 3 ≤ ncols := by omega
          obtain ⟨e1, e2⟩ := htp h3
          refine ⟨fun _ => ⟨by simp only [e1]; push_cast; ring,
            by simp only [e2]; push_cast; ring⟩, ?_⟩
          show Q (nmsPixel mag gradx grady ncols t.1 t.2.1 t.2.2)
          rw [e1, e2]
          exact hstep row col t.2.2 hr1 (by omega) hc1 (by omega) htq)
      refine ⟨fun h3 => ?_, hin.2⟩
      obtain ⟨-, e2⟩ := hin.1 h3
      obtain ⟨e3, -⟩ := hpos h3
      constructor
      · show st.1 + (ncols : Int) = ((row + 1 : Nat) : Int) * ncols + 1
        rw [e3]; push_cast; ring
      · show _ + 3 = ((row + 1 : Nat) : Int) * ncols + 1
        rw [e2]
        have : ((1 + (ncols - 2 - 1) : Nat) : Int) = (ncols : Int) - 2 := by omega
        rw [this]; push_cast; ring)
  exact ⟨_, h.2⟩

/-- A cell is the cell of one pixel only. -/
theorem pixel_coords_unique (n r c r' c' : Nat) (hc : c < n) (hc' : c' < n)
    (h : (r : Int) * n + c = (r' : Int) * n + c') : r = r' ∧ c = c' := by
  have h1 : r * n + c = r' * n + c' := by exact_mod_cast h
  have hpos : 0 < n := by omega
  have h2 : (r * n + c) / n = (r' * n + c') / n := by rw [h1]
  have h3 : (r * n + c) % n = (r' * n + c') % n := by rw [h1]
  rw [Nat.mul_comm r, Nat.mul_comm r', Nat.mul_add_div hpos, Nat.mul_add_div hpos,
    Nat.div_eq_of_lt hc, Nat.div_eq_of_lt hc'] at h2
  rw [Nat.mul_comm r, Nat.mul_comm r', Nat.mul_add_mod, Nat.mul_add_mod,
    Nat.mod_eq_of_lt hc, Nat.mod_eq_of_lt hc'] at h3
  exact ⟨by simpa using h2, h3⟩

/-- A cell that is not the cell of a pixel the worker tests is 0 in the
`tempbuffer` of `non_max_supp`. -/
theorem non_max_supp_rank_untested {K : Type} [LinearOrderedField K]
    (mag gradx grady : Int → Int) (nrows ncols rank size : Nat) (regs0 : NmsRegs K)
    (hs : 1 ≤ size) (hd : size ∣ nrows) (k : Int)
    (hk : ∀ row col : Nat, (if rank = 0 then 1 else 0) + lo rank nrows size ≤ row →
      row < hi rank nrows size - (if rank + 1 = size then 2 else 0) →
      1 ≤ col → col + 2 < ncols → k ≠ (row : Int) * ncols + col) :
    non_max_supp_rank mag gradx grady nrows ncols rank size regs0 k = 0 := by
  obtain ⟨regs, h⟩ := non_max_supp_rank_inv mag gradx grady nrows ncols rank size regs0 hs hd
    (fun w => w.2 k = 0) rfl
    (by
      intro row col w h1 h2 h3 h4 hq
      show (nmsPixel mag gradx grady ncols _ _ w).2 k = 0
      rw [nmsPixel_frame _ _ _ _ _ _ _ _ (hk row col h1 h2 h3 h4)]
      exact hq)
  exact h

/-- Every cell of the `tempbuffer` of `non_max_supp` holds 0, `NOEDGE` or
`POSSIBLE_EDGE`. -/
theorem non_max_supp_rank_values {K : Type} [LinearOrderedField K]
    (mag gradx grady : Int → Int) (nrows ncols rank size : Nat) (regs0 : NmsRegs K)
    (hs : 1 ≤ size) (hd : size ∣ nrows) (k : Int) :
    non_max_supp_rank mag gradx grady nrows ncols rank size regs0 k = 0 ∨
    non_max_supp_rank mag gradx grady nrows ncols rank size regs0 k = NOEDGE ∨
    non_max_supp_rank mag gradx grady nrows ncols rank size regs0 k = POSSIBLE_EDGE := by
  obtain ⟨regs, h⟩ := non_max_supp_rank_inv mag gradx grady nrows ncols rank size regs0 hs hd
    (fun w => w.2 k = 0 ∨ w.2 k = NOEDGE ∨ w.2 k = POSSIBLE_EDGE) (Or.inl rfl)
    (by
      intro row col w _ _ _ _ hq
      show (nmsPixel mag gradx grady ncols _ _ w).2 k = 0 ∨ _
      by_cases e : k = (row : Int) * ncols + col
      · right
        rw [e]
        exact nmsPixel_value _ _ _ _ _ _ _
      · rw [nmsPixel_frame _ _ _ _ _ _ _ _ e]
        exact hq)
  exact h

theorem pixel_in_image (rows cols r c : Nat) (hr : r < rows) (hc : c < cols) :
    0 ≤ (r : Int) * cols + c ∧ (r : Int) * cols + c < ((rows * cols : Nat) : Int) := by
  constructor
  · positivity
  · have : r * cols + c < rows * cols := by
      have : (r + 1) * cols ≤ rows * cols := Nat.mul_le_mul_right cols hr
      rw [Nat.add_mul, Nat.one_mul] at this
      omega
    exact_mod_cast this

/-- The thresholds when the bins `1 .. 32767` of the histogram are all zero. -/
theorem hysteresis_thresholds_zero {K : Type} [LinearOrderedField K] [FloorRing K]
    (hist : Int → Int) (tlow thigh : K) (mm : Int)
    (hzero : ∀ r : Int, 1 ≤ r → r < 32768 → hist r = 0) :
    hysteresis_thresholds hist tlow thigh mm = (roundProd 1 tlow, 1) := by
  unfold hysteresis_thresholds
  have hn : (hysteresis_numedges hist mm).2 = 0 := by
    rw [hysteresis_numedges_snd]
    apply Finset.sum_eq_zero
    intro r hr
    have := Finset.mem_range.1 hr
    exact hzero _ (by push_cast; omega) (by push_cast; omega)
  have hstop : hysteresis_highloop hist (hysteresis_numedges hist mm).1
      (roundProd (hysteresis_numedges hist mm).2 thigh)
      ((hysteresis_numedges hist mm).1 - 2).toNat 1 (hist 1) = 1 := by
    apply hysteresis_highloop_stop
    rw [hn, hzero 1 (le_refl _) (by norm_num)]
    rw [roundProd_zero]
    omega
  simp only []
  rw [hstop]

/-- `highthreshold` lies between 1 and `maximum_mag - 1`, so between 1 and
32766. -/
theorem hysteresis_thresholds_high {K : Type} [LinearOrderedField K] [FloorRing K]
    (hist : Int → Int) (tlow thigh : K) (mm : Int) :
    1 ≤ (hysteresis_thresholds hist tlow thigh mm).2 ∧
    (hysteresis_thresholds hist tlow thigh mm).2 ≤ 32766 ∧
    (hysteresis_thresholds hist tlow thigh mm).2
      ≤ max 1 ((hysteresis_numedges hist mm).1 - 1) := by
  rcases hysteresis_numedges_fst hist mm with ⟨_, h0⟩ | ⟨a1, a2, _, _⟩
  · rw [hysteresis_thresholds_zero hist tlow thigh mm h0]
    simp
  · have hb := hysteresis_highloop_bounds hist (hysteresis_numedges hist mm).1
      (roundProd (hysteresis_numedges hist mm).2 thigh)
      ((hysteresis_numedges hist mm).1 - 2).toNat 1 (hist 1)
    have e : (hysteresis_thresholds hist tlow thigh mm).2
        = hysteresis_highloop hist (hysteresis_numedges hist mm).1
          (roundProd (hysteresis_numedges hist mm).2 thigh)
          ((hysteresis_numedges hist mm).1 - 2).toNat 1 (hist 1) := by
      unfold hysteresis_thresholds
      simp only []
    rw [e]
    refine ⟨hb.1, ?_, hb.2⟩
    have : max 1 ((hysteresis_numedges hist mm).1 - 1) ≤ 32766 := max_le (by norm_num) (by omega)
    exact le_trans hb.2 this

theorem hysteresis_thresholds_low {K : Type} [LinearOrderedField K] [FloorRing K]
    (hist : Int → Int) (tlow thigh : K) (mm : Int) :
    (hysteresis_thresholds hist tlow thigh mm).1
      = roundProd (hysteresis_thresholds hist tlow thigh mm).2 tlow := by
  unfold hysteresis_thresholds
  simp only []

/-- A cell that is `POSSIBLE_EDGE` after the seeding is the cell of a pixel
of the worker's rows that is not on the border of the image. -/
theorem hysteresis_seed_interior (nms : Int → Nat) (rows cols rank size : Nat)
    (hs : 1 ≤ size) (hd : size ∣ rows) (hrank : rank < size) (p : Int)
    (hp : hysteresis_seed nms rows cols rank size p = POSSIBLE_EDGE) :
    ∃ r c : Nat, p = (r : Int) * cols + c ∧ 1 ≤ r ∧ r + 1 < rows ∧ 1 ≤ c ∧ c + 1 < cols ∧
      lo rank rows size ≤ r ∧ r < hi rank rows size := by
  obtain ⟨hb, ho, _⟩ := hysteresis_seed_poss nms rows cols rank size p hp
  rw [ownPos_of_dvd rows cols rank size hs hd] at ho
  obtain ⟨h1, h2⟩ := ho
  have hp0 : 0 ≤ p := le_trans (Int.natCast_nonneg _) h1
  obtain ⟨n, rfl⟩ := Int.eq_ofNat_of_zero_le hp0
  have h1' : lo rank rows size * cols ≤ n := by exact_mod_cast h1
  have h2' : n < hi rank rows size * cols := by exact_mod_cast h2
  have hcols : 0 < cols := by
    rcases Nat.eq_zero_or_pos cols with h | h
    · subst h; simp at h2'
    · exact h
  have hhi := hi_le rows size rank hs hrank
  have hdm := Nat.div_add_mod n cols
  have hml := Nat.mod_lt n hcols
  have hr2 : n / cols < hi rank rows size := (Nat.div_lt_iff_lt_mul hcols).2 h2'
  have hr1 : lo rank rows size ≤ n / cols := (Nat.le_div_iff_mul_le hcols).2 h1'
  have hpe : ((n : Nat) : Int) = ((n / cols : Nat) : Int) * cols + ((n % cols : Nat) : Int) := by
    have : n = n / cols * cols + n % cols := by rw [Nat.mul_comm]; exact hdm.symm
    exact_mod_cast this
  refine ⟨n / cols, n % cols, hpe, ?_, ?_, ?_, ?_, hr1, hr2⟩
  · by_contra h
    have hz : n / cols = 0 := by omega
    apply hb
    left
    refine ⟨n % cols, hml, Or.inl ?_⟩
    rw [hpe, hz]; simp
  · by_contra h
    have hz : n / cols = rows - 1 := by omega
    apply hb
    left
    refine ⟨n % cols, hml, Or.inr ?_⟩
    rw [hpe, hz]
    have : ((rows - 1 : Nat) : Int) = (rows : Int) - 1 := by omega
    rw [this]
  · by_contra h
    have hz : n % cols = 0 := by omega
    apply hb
    right
    refine ⟨n / cols, by omega, Or.inl ?_⟩
    rw [hpe, hz]; simp
  · by_contra h
    have hz : n % cols = cols - 1 := by omega
    apply hb
    right
    refine ⟨n / cols, by omega, Or.inr ?_⟩
    rw [hpe, hz]
    have : ((cols - 1 : Nat) : Int) = (cols : Int) - 1 := by omega
    rw [this]; ring

theorem sumRanks_one {M : Type} [AddCommMonoid M] (f : Nat → M) : sumRanks 1 f = f 0 := by
  unfold sumRanks
  rw [forLoop_succ, forLoop_zero, zero_add]

/-- With a single worker the edge image of rank 0 is the cleaned-up buffer of
the tracing loop. -/
theorem apply_hysteresis_single {K : Type} [LinearOrderedField K] [FloorRing K]
    (mag : Int → Int) (nms : Int → Nat) (rows cols : Nat) (tlow thigh : K)
    (mm0 : Nat → Int) (edge0 : Int → Nat) (tb : Int → Nat)
    (htb : hysteresis_trace (rows * cols + 1) mag (hysteresis_seed nms rows cols 0 1)
        rows cols 0 1
        (hysteresis_thresholds (hysteresis_hist mag nms rows cols 1) tlow thigh (mm0 0)).1
        (hysteresis_thresholds (hysteresis_hist mag nms rows cols 1) tlow thigh (mm0 0)).2
        = some tb) :
    ∃ edge, apply_hysteresis mag nms rows cols tlow thigh 1 mm0 edge0 = some edge ∧
      ∀ r c : Nat, r < rows → c < cols →
        edge ((r : Int) * cols + c) = (if tb ((r : Int) * cols + c) ≠ EDGE then NOEDGE
          else tb ((r : Int) * cols + c)) % 256 := by
  have hrank : apply_hysteresis_rank mag nms rows cols tlow thigh 0 1 (mm0 0)
      = some (hysteresis_cleanup tb rows cols 0 1) := by
    unfold apply_hysteresis_rank
    simp only []
    rw [htb, Option.map_some']
  refine ⟨_, reduceUChar_some (rows * cols) 1 _ (fun _ => hysteresis_cleanup tb rows cols 0 1)
    edge0 (fun r hr => ?_), ?_⟩
  · have : r = 0 := by omega
    subst this
    exact hrank
  · intro r c hr hc
    have hin := pixel_in_image rows cols r c hr hc
    rw [if_pos hin, sumRanks_one]
    beta_reduce
    rw [hysteresis_cleanup_apply]
    have hown : ownPos rows cols 0 1 ((r : Int) * cols + c) := by
      rw [ownPos_of_dvd rows cols 0 1 (le_refl _) (one_dvd _), lo_zero,
        hi_last rows 1 (le_refl _)]
      exact ⟨by simpa using hin.1, hin.2⟩
    rw [if_pos hown]

/-- Rows written one after the other by a loop whose state carries the index
of the next element: the element `c` of the row `i`. -/
theorem rowLoop_abstract {σ α : Type} (body : Nat → σ → σ) (idx : σ → Int) (buf : σ → Int → α)
    (Inv : Nat → σ → Prop) (G : Nat → Nat → α) (cols r0 n : Nat) (s0 : σ)
    (h0 : Inv r0 s0)
    (hInv : ∀ r st, r0 ≤ r → r < r0 + n → Inv r st → Inv (r + 1) (body r st))
    (hidx : ∀ r st, r0 ≤ r → r < r0 + n → Inv r st → idx (body r st) = idx st + cols)
    (hval : ∀ r st c, r0 ≤ r → r < r0 + n → Inv r st → c < cols →
      buf (body r st) (idx st + c) = G r c)
    (hframe : ∀ r st k, r0 ≤ r → r < r0 + n → Inv r st → (k < idx st ∨ idx st + cols ≤ k) →
      buf (body r st) k = buf st k) :
    ∀ i c, i < n → c < cols →
      buf (forLoop body r0 n s0) (idx s0 + (i : Int) * cols + c) = G (r0 + i) c := by
  have h := forLoop_inv body
    (fun r st => Inv r st ∧ idx st = idx s0 + ((r : Int) - r0) * cols ∧
      ∀ i c, r0 + i < r → c < cols → buf st (idx s0 + (i : Int) * cols + c) = G (r0 + i) c)
    r0 n s0 ⟨h0, by simp, fun i c hi => absurd hi (by omega)⟩
    (by
      rintro r st hr1 hr2 ⟨hi1, hi2, hi3⟩
      refine ⟨hInv r st hr1 hr2 hi1, ?_, ?_⟩
      · rw [hidx r st hr1 hr2 hi1, hi2]; push_cast; ring
      · intro i c hi hc
        have hc0 : (0 : Int) ≤ (cols : Int) := Int.natCast_nonneg _
        by_cases e : r0 + i = r
        · have e' : idx s0 + (i : Int) * cols + c = idx st + c := by
            rw [hi2]
            have : (r : Int) - r0 = i := by omega
            rw [this]
          rw [e', hval r st c hr1 hr2 hi1 hc, e]
        · have hlt : r0 + i < r := by omega
          rw [hframe r st _ hr1 hr2 hi1, hi3 i c hlt hc]
          left
          rw [hi2]
          have h1 : ((i : Int) + 1) * cols ≤ ((r : Int) - r0) * cols :=
            mul_le_mul_of_nonneg_right (by omega) hc0
          have h2 : ((i : Int) + 1) * cols = (i : Int) * cols + cols := by ring
          omega)
  intro i c hi hc
  exact h.2.2 i c (by omega) hc

/-- A loop that advances a position and an index together and stores at the
index a value computed from the position. -/
theorem forLoop_two_counters (F : Int → Int) (a m : Nat) (p i : Int) (tb : Int → Int) :
    forLoop (fun _ (t : Int × Int × (Int → Int)) =>
        (t.1 + 1, t.2.1 + 1, setAt t.2.2 t.2.1 (F t.1))) a m (p, i, tb)
      = (p + m, i + m, fun k => if i ≤ k ∧ k < i + m then F (p + (k - i)) else tb k) := by
  induction m with
  | zero =>
    rw [forLoop_zero]
    simp only [Nat.cast_zero, add_zero]
    congr 2
    funext k
    rw [if_neg (by omega)]
  | succ m ih =>
    rw [forLoop_succ_last, ih]
    simp only []
    congr 1
    · push_cast; ring
    · congr 1
      · push_cast; ring
      · funext k
        unfold setAt
        by_cases e : k = i + (m : Int)
        · rw [if_pos e, if_pos (by push_cast; omega), e]
          congr 1
          ring
        · rw [if_neg e]
          beta_reduce
          by_cases h : i ≤ k ∧ k < i + (m : Int)
          · rw [if_pos h, if_pos (by push_cast; omega)]
          · rw [if_neg h, if_neg (by push_cast; omega)]

/-- One row of the x-derivative loop: the index advances by `cols` and the
`cols` cells from the index on receive the differences of the row. -/
theorem derrivative_x_row (smoothedim : Int → Int) (cols r : Nat) (hcols : 2 ≤ cols)
    (st : Int × (Int → Int)) (inner : Int × Int × (Int → Int))
    (hinner : inner = forLoop (fun _ (t : Int × Int × (Int → Int)) =>
            (t.1 + 1, t.2.1 + 1,
             setAt t.2.2 t.2.1 (wrap16 (smoothedim (t.1 + 1) - smoothedim (t.1 - 1)))))
          1 (cols - 1 - 1) ((r : Int) * cols + 1, st.1 + 1,
            setAt st.2 st.1
              (wrap16 (smoothedim ((r : Int) * cols + 1) - smoothedim ((r : Int) * cols))))) :
    inner.2.1 + 1 = st.1 + cols ∧
    (∀ c : Nat, c < cols →
      setAt inner.2.2 inner.2.1 (wrap16 (smoothedim inner.1 - smoothedim (inner.1 - 1)))
        (st.1 + c) = dxValue smoothedim cols r c) ∧
    (∀ k : Int, (k < st.1 ∨ st.1 + cols ≤ k) →
      setAt inner.2.2 inner.2.1 (wrap16 (smoothedim inner.1 - smoothedim (inner.1 - 1)))
        k = st.2 k) := by
  rw [forLoop_two_counters (fun q => wrap16 (smoothedim (q + 1) - smoothedim (q - 1)))] at hinner
  subst hinner
  have hm : ((cols - 1 - 1 : Nat) : Int) = (cols : Int) - 2 := by omega
  refine ⟨?_, ?_, ?_⟩
  · show st.1 + 1 + ((cols - 1 - 1 : Nat) : Int) + 1 = st.1 + cols
    rw [hm]; ring
  · intro c hc
    show setAt (fun k => if st.1 + 1 ≤ k ∧ k < st.1 + 1 + ((cols - 1 - 1 : Nat) : Int)
        then wrap16 (smoothedim ((r : Int) * cols + 1 + (k - (st.1 + 1)) + 1)
          - smoothedim ((r : Int) * cols + 1 + (k - (st.1 + 1)) - 1))
        else setAt st.2 st.1
          (wrap16 (smoothedim ((r : Int) * cols + 1) - smoothedim ((r : Int) * cols))) k)
      (st.1 + 1 + ((cols - 1 - 1 : Nat) : Int))
      (wrap16 (smoothedim ((r : Int) * cols + 1 + ((cols - 1 - 1 : Nat) : Int))
        - smoothedim ((r : Int) * cols + 1 + ((cols - 1 - 1 : Nat) : Int) - 1))) (st.1 + c) = _
    rw [hm]
    unfold setAt dxValue
    by_cases e1 : c = 0
    · subst e1
      have c1 : ¬ (st.1 + ((0 : Nat) : Int) = st.1 + 1 + ((cols : Int) - 2)) := by omega
      have c2 : ¬ (st.1 + 1 ≤ st.1 + ((0 : Nat) : Int)
          ∧ st.1 + ((0 : Nat) : Int) < st.1 + 1 + ((cols : Int) - 2)) := by omega
      have c3 : st.1 + ((0 : Nat) : Int) = st.1 := by simp
      rw [if_neg c1]
      beta_reduce
      rw [if_neg c2, if_pos c3, if_pos rfl]
    · by_cases e2 : c + 1 = cols
      · have c1 : st.1 + (c : Int) = st.1 + 1 + ((cols : Int) - 2) := by omega
        rw [if_pos c1, if_neg e1, if_pos e2]
        have a1 : (r : Int) * cols + 1 + ((cols : Int) - 2) = (r : Int) * cols + c := by omega
        rw [a1]
      · have c1 : ¬ (st.1 + (c : Int) = st.1 + 1 + ((cols : Int) - 2)) := by omega
        have c2 : st.1 + 1 ≤ st.1 + (c : Int)
            ∧ st.1 + (c : Int) < st.1 + 1 + ((cols : Int) - 2) := by omega
        rw [if_neg c1]
        beta_reduce
        rw [if_pos c2, if_neg e1, if_neg e2]
        have a1 : (r : Int) * cols + 1 + (st.1 + (c : Int) - (st.1 + 1)) + 1
            = (r : Int) * cols + c + 1 := by ring
        have a2 : (r : Int) * cols + 1 + (st.1 + (c : Int) - (st.1 + 1)) - 1
            = (r : Int) * cols + c - 1 := by ring
        rw [a1, a2]
  · intro k hk
    show setAt (fun k => if st.1 + 1 ≤ k ∧ k < st.1 + 1 + ((cols - 1 - 1 : Nat) : Int)
        then wrap16 (smoothedim ((r : Int) * cols + 1 + (k - (st.1 + 1)) + 1)
          - smoothedim ((r : Int) * cols + 1 + (k - (st.1 + 1)) - 1))
        else setAt st.2 st.1
          (wrap16 (smoothedim ((r : Int) * cols + 1) - smoothedim ((r : Int) * cols))) k)
      (st.1 + 1 + ((cols - 1 - 1 : Nat) : Int))
      (wrap16 (smoothedim ((r : Int) * cols + 1 + ((cols - 1 - 1 : Nat) : Int))
        - smoothedim ((r : Int) * cols + 1 + ((cols - 1 - 1 : Nat) : Int) - 1))) k = _
    rw [hm]
    unfold setAt
    have c1 : ¬ (k = st.1 + 1 + ((cols : Int) - 2)) := by omega
    have c2 : ¬ (st.1 + 1 ≤ k ∧ k < st.1 + 1 + ((cols : Int) - 2)) := by omega
    have c3 : ¬ (k = st.1) := by omega
    rw [if_neg c1]
    beta_reduce
    rw [if_neg c2, if_neg c3]

/-- What one worker's x-derivative loop leaves in its `tempbuffer`. -/
theorem derrivative_x_apply (smoothedim : Int → Int) (rows cols rank size idx c : Nat)
    (hcols : 2 ≤ cols) (hidx : idx < hi rank rows size - lo rank rows size) (hc : c < cols) :
    derrivative_x smoothedim rows cols rank size ((idx : Int) * cols + c)
      = dxValue smoothedim cols (lo rank rows size + idx) c := by
  have h := rowLoop_abstract
    (fun r (st : Int × (Int → Int)) =>
      let pos : Int := (r : Int) * cols
      let tb := setAt st.2 st.1 (wrap16 (smoothedim (pos + 1) - smoothedim pos))
      let inner : Int × Int × (Int → Int) :=
        forLoop (fun _ (t : Int × Int × (Int → Int)) =>
            (t.1 + 1, t.2.1 + 1,
             setAt t.2.2 t.2.1 (wrap16 (smoothedim (t.1 + 1) - smoothedim (t.1 - 1)))))
          1 (cols - 1 - 1) (pos + 1, st.1 + 1, tb)
      ((inner.2.1 + 1,
       setAt inner.2.2 inner.2.1 (wrap16 (smoothedim inner.1 - smoothedim (inner.1 - 1)))) :
        Int × (Int → Int)))
    (fun st => st.1) (fun st => st.2) (fun _ _ => True)
    (fun r c => dxValue smoothedim cols r c) cols
    (lo rank rows size) (hi rank rows size - lo rank rows size) (0, fun _ => 0) trivial
    (fun _ _ _ _ _ => trivial)
    (fun r st _ _ _ => (derrivative_x_row smoothedim cols r hcols st _ rfl).1)
    (fun r st c _ _ _ hc => (derrivative_x_row smoothedim cols r hcols st _ rfl).2.1 c hc)
    (fun r st k _ _ _ hk => (derrivative_x_row smoothedim cols r hcols st _ rfl).2.2 k hk)
    idx c hidx hc
  simp only [zero_add] at h
  rw [← h]
  rfl

/-- A loop that advances a position by `d` and stores at the position a value
computed from it. -/
theorem forLoop_stride (F : Int → Int) (d : Int) (a m : Nat) (p : Int)
    (tb : Int → Int) :
    forLoop (fun _ (t : Int × (Int → Int)) => (t.1 + d, setAt t.2 t.1 (F t.1))) a m (p, tb)
      = (p + m * d, fun k => if ∃ j : Nat, j < m ∧ k = p + j * d then F k else tb k) := by
  induction m with
  | zero =>
    rw [forLoop_zero]
    have e : (fun k => if ∃ j : Nat, j < 0 ∧ k = p + j * d then F k else tb k) = tb := by
      funext k
      rw [if_neg]
      rintro ⟨j, hj, _⟩
      omega
    rw [e]
    simp
  | succ m ih =>
    rw [forLoop_succ_last, ih]
    simp only []
    congr 1
    · push_cast; ring
    · funext k
      unfold setAt
      by_cases e : k = p + (m : Int) * d
      · rw [if_pos e, if_pos ⟨m, by omega, e⟩, e]
      · rw [if_neg e]
        beta_reduce
        by_cases h : ∃ j : Nat, j < m ∧ k = p + j * d
        · obtain ⟨j, hj, hk⟩ := h
          rw [if_pos ⟨j, hj, hk⟩, if_pos ⟨j, by omega, hk⟩]
        · rw [if_neg h, if_neg]
          rintro ⟨j, hj, hk⟩
          by_cases ej : j = m
          · subst ej; exact e hk
          · exact h ⟨j, by omega, hk⟩

/-- One column of the y-derivative loop: the cells of the column receive the
differences, the other cells are left as they were. -/
theorem derrivative_y_col (smoothedim : Int → Int) (rows cols c : Nat) (hrows : 2 ≤ rows)
    (hc : c < cols) (tb2 : Int → Int) (inner : Int × (Int → Int))
    (hinner : inner = forLoop (fun _ (t : Int × (Int → Int)) =>
            (t.1 + cols,
             setAt t.2 t.1 (wrap16 (smoothedim (t.1 + cols) - smoothedim (t.1 - cols)))))
          1 (rows - 1 - 1) ((c : Int) + cols,
            setAt tb2 (c : Int) (wrap16 (smoothedim ((c : Int) + cols) - smoothedim (c : Int))))) :
    (∀ r : Nat, r < rows →
      setAt inner.2 inner.1 (wrap16 (smoothedim inner.1 - smoothedim (inner.1 - cols)))
        ((r : Int) * cols + c) = dyValue smoothedim rows cols r c) ∧
    (∀ r c' : Nat, c' < cols → c' ≠ c →
      setAt inner.2 inner.1 (wrap16 (smoothedim inner.1 - smoothedim (inner.1 - cols)))
        ((r : Int) * cols + c') = tb2 ((r : Int) * cols + c')) := by
  rw [forLoop_stride (fun q => wrap16 (smoothedim (q + cols) - smoothedim (q - cols)))
    (cols : Int)] at hinner
  subst hinner
  have hm : ((rows - 1 - 1 : Nat) : Int) = (rows : Int) - 2 := by omega
  have hmul : ∀ a b : Nat, (a : Int) * cols + c = (b : Int) * cols + c → a = b := by
    intro a b h
    exact (pixel_coords_unique cols a c b c hc hc h).1
  refine ⟨?_, ?_⟩
  · intro r hr
    show setAt (fun k => if ∃ j : Nat, j < rows - 1 - 1 ∧ k = (c : Int) + cols + j * cols
        then wrap16 (smoothedim (k + cols) - smoothedim (k - cols))
        else setAt tb2 (c : Int) (wrap16 (smoothedim ((c : Int) + cols) - smoothedim (c : Int))) k)
      ((c : Int) + cols + ((rows - 1 - 1 : Nat) : Int) * cols)
      (wrap16 (smoothedim ((c : Int) + cols + ((rows - 1 - 1 : Nat) : Int) * cols)
        - smoothedim ((c : Int) + cols + ((rows - 1 - 1 : Nat) : Int) * cols - cols)))
      ((r : Int) * cols + c) = _
    have elast : (c : Int) + cols + ((rows - 1 - 1 : Nat) : Int) * cols
        = ((rows - 1 : Nat) : Int) * cols + c := by
      have : ((rows - 1 : Nat) : Int) = (rows : Int) - 1 := by omega
      rw [hm, this]; ring
    rw [elast]
    unfold setAt dyValue
    by_cases e1 : r = 0
    · subst e1
      have c1 : ¬ (((0 : Nat) : Int) * cols + c = ((rows - 1 : Nat) : Int) * cols + c) := by
        intro h; have := hmul _ _ h; omega
      have c2 : ¬ ∃ j : Nat, j < rows - 1 - 1
          ∧ ((0 : Nat) : Int) * cols + c = (c : Int) + cols + j * cols := by
        rintro ⟨j, _, h⟩
        have h' : ((0 : Nat) : Int) * cols + c = ((j + 1 : Nat) : Int) * cols + c := by
          rw [h]; push_cast; ring
        have := hmul _ _ h'
        omega
      have c3 : ((0 : Nat) : Int) * cols + c = (c : Int) := by simp
      rw [if_neg c1]
      beta_reduce
      rw [if_neg c2, if_pos c3, if_pos rfl]
    · by_cases e2 : r + 1 = rows
      · have c1 : (r : Int) * cols + c = ((rows - 1 : Nat) : Int) * cols + c := by
          have : r = rows - 1 := by omega
          rw [← this]
        rw [if_pos c1, if_neg e1, if_pos e2, ← c1]
      · have c1 : ¬ ((r : Int) * cols + c = ((rows - 1 : Nat) : Int) * cols + c) := by
          intro h; have := hmul _ _ h; omega
        have c2 : ∃ j : Nat, j < rows - 1 - 1
            ∧ (r : Int) * cols + c = (c : Int) + cols + j * cols := by
          refine ⟨r - 1, by omega, ?_⟩
          have : ((r - 1 : Nat) : Int) = (r : Int) - 1 := by omega
          rw [this]; ring
        rw [if_neg c1]
        beta_reduce
        rw [if_pos c2, if_neg e1, if_neg e2]
  · intro r c' hc' hne
    show setAt (fun k => if ∃ j : Nat, j < rows - 1 - 1 ∧ k = (c : Int) + cols + j * cols
        then wrap16 (smoothedim (k + cols) - smoothedim (k - cols))
        else setAt tb2 (c : Int) (wrap16 (smoothedim ((c : Int) + cols) - smoothedim (c : Int))) k)
      ((c : Int) + cols + ((rows - 1 - 1 : Nat) : Int) * cols)
      (wrap16 (smoothedim ((c : Int) + cols + ((rows - 1 - 1 : Nat) : Int) * cols)
        - smoothedim ((c : Int) + cols + ((rows - 1 - 1 : Nat) : Int) * cols - cols)))
      ((r : Int) * cols + c') = _
    have hdiff : ∀ b : Nat, (r : Int) * cols + c' ≠ (b : Int) * cols + c := by
      intro b h
      exact hne (pixel_coords_unique cols r c' b c hc' hc h).2
    unfold setAt
    have c1 : ¬ ((r : Int) * cols + c' = (c : Int) + cols + ((rows - 1 - 1 : Nat) : Int) * cols) := by
      intro h
      apply hdiff (rows - 1)
      rw [h]
      have : ((rows - 1 : Nat) : Int) = (rows : Int) - 1 := by omega
      rw [hm, this]; ring
    have c2 : ¬ ∃ j : Nat, j < rows - 1 - 1
        ∧ (r : Int) * cols + c' = (c : Int) + cols + j * cols := by
      rintro ⟨j, _, h⟩
      apply hdiff (j + 1)
      rw [h]; push_cast; ring
    have c3 : ¬ ((r : Int) * cols + c' = (c : Int)) := by
      intro h
      apply hdiff 0
      rw [h]; simp
    rw [if_neg c1]
    beta_reduce
    rw [if_neg c2, if_neg c3]

/-- Columns written one after the other by a loop whose body fills the cells
of its column and leaves the cells of the other columns. -/
theorem colLoop_abstract {α : Type} (body : Nat → (Int → α) → (Int → α)) (V : Nat → Nat → α)
    (rows cols c0 n : Nat) (b0 : Int → α)
    (hval : ∀ c tb r, c0 ≤ c → c < c0 + n → r < rows → body c tb ((r : Int) * cols + c) = V r c)
    (hframe : ∀ c tb (r : Nat) c', c0 ≤ c → c < c0 + n → c' < cols → c' ≠ c →
      body c tb ((r : Int) * cols + c') = tb ((r : Int) * cols + c'))
    (r c : Nat) (hr : r < rows) (hc : c < cols) :
    forLoop body c0 n b0 ((r : Int) * cols + c)
      = if c0 ≤ c ∧ c < c0 + n then V r c else b0 ((r : Int) * cols + c) := by
  by_cases hin : c0 ≤ c ∧ c < c0 + n
  · rw [if_pos hin]
    apply forLoop_hit body c0 n b0 _ c (V r c) hin.1 hin.2
    · intro tb; exact hval c tb r hin.1 hin.2 hr
    · intro i tb hi hi2
      exact hframe i tb r c (by omega) hi2 hc (by omega)
  · rw [if_neg hin]
    apply forLoop_frame
    intro i tb hi hi2
    exact hframe i tb r c hi hi2 hc (by intro h; subst h; exact hin ⟨hi, hi2⟩)

/-- What one worker's y-derivative loop leaves in its `tempbuffer2`. -/
theorem derrivative_y_apply (smoothedim : Int → Int) (rows cols rank size : Nat)
    (hrows : 2 ≤ rows) (hs : 1 ≤ size) (hrank : rank < size) (r c : Nat) (hr : r < rows)
    (hc : c < cols) :
    derrivative_y smoothedim rows cols rank size ((r : Int) * cols + c)
      = if lo rank cols size ≤ c ∧ c < hi rank cols size then dyValue smoothedim rows cols r c
        else 0 := by
  have hle := lo_le_hi rank cols size
  have hhi := hi_le cols size rank hs hrank
  have h := colLoop_abstract
    (fun c (tb2 : Int → Int) =>
      let pos : Int := (c : Int)
      let tb := setAt tb2 pos (wrap16 (smoothedim (pos + cols) - smoothedim pos))
      let inner : Int × (Int → Int) :=
        forLoop (fun _ (t : Int × (Int → Int)) =>
            (t.1 + cols,
             setAt t.2 t.1 (wrap16 (smoothedim (t.1 + cols) - smoothedim (t.1 - cols)))))
          1 (rows - 1 - 1) (pos + cols, tb)
      setAt inner.2 inner.1 (wrap16 (smoothedim inner.1 - smoothedim (inner.1 - cols))))
    (fun r c => dyValue smoothedim rows cols r c) rows cols
    (lo rank cols size) (hi rank cols size - lo rank cols size) (fun _ => (0 : Int))
    (fun c tb r _ hc2 hr =>
      (derrivative_y_col smoothedim rows cols c hrows (by omega) tb _ rfl).1 r hr)
    (fun c tb r c' _ hc2 hc' hne =>
      (derrivative_y_col smoothedim rows cols c hrows (by omega) tb _ rfl).2 r c' hc' hne)
    r c hr hc
  have e : lo rank cols size + (hi rank cols size - lo rank cols size) = hi rank cols size := by
    omega
  rw [e] at h
  exact h

/-- What one worker's loop of `magnitude_x_y` leaves in its `tempbuffer`, when
the worker count divides `rows`. -/
theorem magnitude_rank_apply {K : Type} [LinearOrderedField K] [FloorRing K] (sqrtf : K → K)
    (delta_x delta_y : Int → Int) (rows cols rank size idx c : Nat)
    (hs : 1 ≤ size) (hd : size ∣ rows)
    (hidx : idx < hi rank rows size - lo rank rows size) (hc : c < cols) :
    magnitude_rank sqrtf delta_x delta_y rows cols rank size ((idx : Int) * cols + c)
      = magValue sqrtf delta_x delta_y (((lo rank rows size + idx : Nat) : Int) * cols + c) := by
  have hp0 : ((rank * rows * cols / size : Nat) : Int) = (lo rank rows size : Int) * cols := by
    obtain ⟨q, rfl⟩ := hd
    have hsz : 0 < size := hs
    unfold lo
    have : rank * (size * q) * cols = size * (rank * q * cols) := by ring
    rw [this, Nat.mul_div_cancel_left _ hsz]
    have : rank * (size * q) = size * (rank * q) := by ring
    rw [this, Nat.mul_div_cancel_left _ hsz]
    push_cast; ring
  have hbody : ∀ st : Int × Int × (Int → Int),
      forLoop (fun _ (t : Int × Int × (Int → Int)) =>
          (t.1 + 1, t.2.1 + 1, setAt t.2.2 t.2.1 (magValue sqrtf delta_x delta_y t.1)))
        0 cols st
      = (st.1 + cols, st.2.1 + cols,
          fun k => if st.2.1 ≤ k ∧ k < st.2.1 + cols
            then magValue sqrtf delta_x delta_y (st.1 + (k - st.2.1)) else st.2.2 k) := by
    intro st
    exact forLoop_two_counters (fun q => magValue sqrtf delta_x delta_y q) 0 cols st.1 st.2.1
      st.2.2
  have h := rowLoop_abstract
    (fun _ (st : Int × Int × (Int → Int)) =>
      forLoop (fun _ (t : Int × Int × (Int → Int)) =>
          (t.1 + 1, t.2.1 + 1, setAt t.2.2 t.2.1 (magValue sqrtf delta_x delta_y t.1)))
        0 cols st)
    (fun st => st.2.1) (fun st => st.2.2)
    (fun r st => st.1 = (r : Int) * cols)
    (fun r c => magValue sqrtf delta_x delta_y ((r : Int) * cols + c)) cols
    (lo rank rows size) (hi rank rows size - lo rank rows size)
    (((rank * rows * cols / size : Nat) : Int), 0, fun _ => 0) hp0
    (by
      intro r st _ _ hinv
      beta_reduce
      rw [hbody]
      show st.1 + (cols : Int) = ((r + 1 : Nat) : Int) * cols
      rw [hinv]; push_cast; ring)
    (by
      intro r st _ _ _
      beta_reduce
      rw [hbody])
    (by
      intro r st c _ _ hinv hc
      beta_reduce
      rw [hbody]
      show (if st.2.1 ≤ st.2.1 + (c : Int) ∧ st.2.1 + (c : Int) < st.2.1 + cols
        then magValue sqrtf delta_x delta_y (st.1 + (st.2.1 + (c : Int) - st.2.1))
        else st.2.2 (st.2.1 + (c : Int))) = _
      have c1 : st.2.1 ≤ st.2.1 + (c : Int) ∧ st.2.1 + (c : Int) < st.2.1 + cols := by
        constructor <;> omega
      rw [if_pos c1, hinv]
      congr 1
      ring)
    (by
      intro r st k _ _ _ hk
      have hk' : k < st.2.1 ∨ st.2.1 + (cols : Int) ≤ k := hk
      beta_reduce
      rw [hbody]
      show (if st.2.1 ≤ k ∧ k < st.2.1 + cols
        then magValue sqrtf delta_x delta_y (st.1 + (k - st.2.1)) else st.2.2 k) = _
      have c1 : ¬ (st.2.1 ≤ k ∧ k < st.2.1 + (cols : Int)) := by omega
      rw [if_neg c1])
    idx c hidx hc
  simp only [zero_add] at h
  rw [show (((lo rank rows size + idx : Nat) : Int)) = ((lo rank rows size + idx : Nat) : Int) from rfl]
  rw [← h]
  rfl

theorem wrap16_wrap16 (x : Int) : wrap16 (wrap16 x) = wrap16 x := by
  unfold wrap16
  omega

theorem dyValue_wrap (s : Int → Int) (rows cols r c : Nat) :
    wrap16 (dyValue s rows cols r c) = dyValue s rows cols r c := by
  unfold dyValue
  split_ifs <;> exact wrap16_wrap16 _

/-- A cell of the image is the cell of a pixel. -/
theorem pixel_of_pos (rows cols : Nat) (k : Int) (h0 : 0 ≤ k)
    (h1 : k < ((rows * cols : Nat) : Int)) :
    ∃ r c : Nat, r < rows ∧ c < cols ∧ k = (r : Int) * cols + c := by
  obtain ⟨n, rfl⟩ := Int.eq_ofNat_of_zero_le h0
  have h1' : n < rows * cols := by exact_mod_cast h1
  have hcols : 0 < cols := by
    rcases Nat.eq_zero_or_pos cols with h | h
    · subst h; simp at h1'
    · exact h
  refine ⟨n / cols, n % cols, (Nat.div_lt_iff_lt_mul hcols).2 h1', Nat.mod_lt n hcols, ?_⟩
  have : n = n / cols * cols + n % cols := by
    rw [Nat.mul_comm]; exact (Nat.div_add_mod n cols).symm
  exact_mod_cast this

/-- The gathered `delta_x` of `derrivative_x_y`, pixel by pixel. -/
theorem delta_x_apply (s : Int → Int) (rows cols size : Nat) (hd : size ∣ rows)
    (hcols : 2 ≤ cols) (r c : Nat) (hr : r < rows) (hc : c < cols) :
    (derrivative_x_y s rows cols size).1 ((r : Int) * cols + c) = dxValue s cols r c := by
  unfold derrivative_x_y
  dsimp only
  exact allgather_rows rows cols size hd _ _ (fun r c => dxValue s cols r c)
    (fun rank idx c _ hidx hc => derrivative_x_apply s rows cols rank size idx c hcols hidx hc)
    r c hr hc

/-- The sum-reduced `delta_y` of `derrivative_x_y`, pixel by pixel. -/
theorem delta_y_apply (s : Int → Int) (rows cols size : Nat) (hs : 1 ≤ size)
    (hrows : 2 ≤ rows) (r c : Nat) (hr : r < rows) (hc : c < cols) :
    (derrivative_x_y s rows cols size).2 ((r : Int) * cols + c) = dyValue s rows cols r c := by
  unfold derrivative_x_y
  dsimp only
  have h := allreduceShort_cols rows cols size hs
    (fun rank => derrivative_y s rows cols rank size) (fun _ => 0)
    (fun r c => dyValue s rows cols r c)
    (fun rank r c hrank hr hc => derrivative_y_apply s rows cols rank size hrows hs hrank r c hr hc)
    r c hr hc
  rw [dyValue_wrap] at h
  exact h

/-- The gathered image of `magnitude_x_y`, pixel by pixel. -/
theorem magnitude_x_y_apply {K : Type} [LinearOrderedField K] [FloorRing K] (sqrtf : K → K)
    (dx dy : Int → Int) (rows cols size : Nat) (hs : 1 ≤ size) (hd : size ∣ rows)
    (r c : Nat) (hr : r < rows) (hc : c < cols) :
    magnitude_x_y sqrtf dx dy rows cols size ((r : Int) * cols + c)
      = magValue sqrtf dx dy ((r : Int) * cols + c) := by
  unfold magnitude_x_y
  exact allgather_rows rows cols size hd _ _
    (fun r c => magValue sqrtf dx dy ((r : Int) * cols + c))
    (fun rank idx c _ hidx hc =>
      magnitude_rank_apply sqrtf dx dy rows cols rank size idx c hs hd hidx hc)
    r c hr hc

/-- Outside the image a gathered buffer is what the receive buffer held. -/
theorem allgather_outside {α : Type} (rows cols size : Nat) (hs : 1 ≤ size) (hd : size ∣ rows)
    (send : Nat → Int → α) (recv : Int → α) (k : Int)
    (hk : ¬ (0 ≤ k ∧ k < ((rows * cols : Nat) : Int))) :
    allgather (rows * cols / size) size send recv k = recv k := by
  unfold allgather
  obtain ⟨q, rfl⟩ := hd
  have hsz : 0 < size := hs
  have e : size * (size * q * cols / size) = size * q * cols := by
    rw [Nat.mul_assoc size q cols, Nat.mul_div_cancel_left _ hsz]
  rw [e, if_neg hk]

/-- An image that is zero at every pixel and gathered into a zeroed buffer is
zero everywhere. -/
theorem allgather_zero (rows cols size : Nat) (hs : 1 ≤ size) (hd : size ∣ rows)
    (send : Nat → Int → Int)
    (h : ∀ r c : Nat, r < rows → c < cols →
      allgather (rows * cols / size) size send (fun _ => 0) ((r : Int) * cols + c) = 0)
    (k : Int) : allgather (rows * cols / size) size send (fun _ => 0) k = 0 := by
  by_cases hk : 0 ≤ k ∧ k < ((rows * cols : Nat) : Int)
  · obtain ⟨r, c, hr, hc, rfl⟩ := pixel_of_pos rows cols k hk.1 hk.2
    exact h r c hr hc
  · rw [allgather_outside rows cols size hs hd send _ k hk]

theorem allreduceShort_zero (rows cols size : Nat) (send : Nat → Int → Int)
    (h : ∀ r c : Nat, r < rows → c < cols →
      allreduceShort (rows * cols) size send (fun _ => 0) ((r : Int) * cols + c) = 0)
    (k : Int) : allreduceShort (rows * cols) size send (fun _ => 0) k = 0 := by
  by_cases hk : 0 ≤ k ∧ k < ((rows * cols : Nat) : Int)
  · obtain ⟨r, c, hr, hc, rfl⟩ := pixel_of_pos rows cols k hk.1 hk.2
    exact h r c hr hc
  · unfold allreduceShort
    rw [if_neg hk]

/-- The x-derivative of an image that is constant on the raster is zero. -/
theorem dxValue_const (s : Int → Int) (rows cols : Nat) (w : Int) (hcols : 2 ≤ cols)
    (hs : ∀ r c : Nat, r < rows → c < cols → s ((r : Int) * cols + c) = w)
    (r c : Nat) (hr : r < rows) (hc : c < cols) : dxValue s cols r c = 0 := by
  have h0 : wrap16 0 = 0 := by decide
  unfold dxValue
  split_ifs with h1 h2
  · have a := hs r 1 hr (by omega)
    have b := hs r 0 hr (by omega)
    simp only [Nat.cast_one, Nat.cast_zero, add_zero] at a b
    rw [a, b, sub_self, h0]
  · have a := hs r c hr hc
    have b := hs r (c - 1) hr (by omega)
    have e : ((c - 1 : Nat) : Int) = (c : Int) - 1 := by omega
    rw [e, ← add_sub_assoc] at b
    rw [a, b, sub_self, h0]
  · have a := hs r (c + 1) hr (by omega)
    have b := hs r (c - 1) hr (by omega)
    have e : ((c - 1 : Nat) : Int) = (c : Int) - 1 := by omega
    rw [e, ← add_sub_assoc] at b
    push_cast at a
    rw [← add_assoc] at a
    rw [a, b, sub_self, h0]

/-- The y-derivative of an image that is constant on the raster is zero. -/
theorem dyValue_const (s : Int → Int) (rows cols : Nat) (w : Int) (hrows : 2 ≤ rows)
    (hs : ∀ r c : Nat, r < rows → c < cols → s ((r : Int) * cols + c) = w)
    (r c : Nat) (hr : r < rows) (hc : c < cols) : dyValue s rows cols r c = 0 := by
  have h0 : wrap16 0 = 0 := by decide
  unfold dyValue
  split_ifs with h1 h2
  · have a := hs 1 c (by omega) hc
    have b := hs 0 c (by omega) hc
    have ea : ((1 : Nat) : Int) * cols + c = (c : Int) + cols := by push_cast; ring
    have eb : ((0 : Nat) : Int) * cols + c = (c : Int) := by push_cast; ring
    rw [ea] at a
    rw [eb] at b
    rw [a, b, sub_self, h0]
  · have a := hs r c hr hc
    have b := hs (r - 1) c (by omega) hc
    have e : ((r - 1 : Nat) : Int) * cols + c = (r : Int) * cols + c - cols := by
      have : ((r - 1 : Nat) : Int) = (r : Int) - 1 := by omega
      rw [this]; ring
    rw [e] at b
    rw [a, b, sub_self, h0]
  · have a := hs (r + 1) c (by omega) hc
    have b := hs (r - 1) c (by omega) hc
    have e : ((r - 1 : Nat) : Int) * cols + c = (r : Int) * cols + c - cols := by
      have : ((r - 1 : Nat) : Int) = (r : Int) - 1 := by omega
      rw [this]; ring
    have e2 : ((r + 1 : Nat) : Int) * cols + c = (r : Int) * cols + c + cols := by
      push_cast; ring
    rw [e] at b
    rw [e2] at a
    rw [a, b, sub_self, h0]

theorem magValue_zero {K : Type} [LinearOrderedField K] [FloorRing K] (sqrtf : K → K)
    (dx dy : Int → Int) (p : Int) (h0 : sqrtf 0 = 0) (hx : dx p = 0) (hy : dy p = 0) :
    magValue sqrtf dx dy p = 0 := by
  unfold magValue
  rw [hx, hy]
  simp only [mul_zero, Int.cast_zero, float32_zero, add_zero, h0]
  have := truncCast_int_add_half (K := K) 0 (le_refl _)
  have e : truncCast (0.5 : K) = 0 := by simpa using this
  rw [e]
  rfl

/-- The gradient images `canny` computes with one worker from a constant
image: both derivatives and the magnitude are zero in every cell. -/
theorem canny_gradient_const {K : Type} [LinearOrderedField K] [FloorRing K]
    (powf : K → K → K) (sqrtf : K → K) (image : Int → Nat) (rows cols : Nat) (sigma : K)
    (v : Nat) (hrows : 2 ≤ rows) (hcols : 2 ≤ cols) (hsig : 0 < sigma)
    (hpow : ∀ y, 0 < powf 2.71828 y) (hsqrt : 0 < sqrtf 6.2831853) (hsqrt0 : sqrtf 0 = 0)
    (hv : v ≤ 255) (himg : ∀ k : Int, 0 ≤ k → k < (rows : Int) * cols → image k = v) :
    (∀ k, (canny_gradient powf sqrtf image rows cols sigma 1).2.1 k = 0) ∧
    (∀ k, (canny_gradient powf sqrtf image rows cols sigma 1).2.2 k = 0) ∧
    (∀ k, (canny_gradient powf sqrtf image rows cols sigma 1).1 k = 0) := by
  have hsm : ∀ r c : Nat, r < rows → c < cols →
      gaussian_smooth powf sqrtf image rows cols sigma 1 ((r : Int) * cols + c)
        = 90 * (v : Int) :=
    fun r c hr hc => gaussian_smooth_const powf sqrtf image rows cols sigma 1 v hsig hpow hsqrt
      (le_refl _) (one_dvd _) hv himg r c hr hc
  have hdx : ∀ k, (derrivative_x_y (gaussian_smooth powf sqrtf image rows cols sigma 1)
      rows cols 1).1 k = 0 := by
    intro k
    refine allgather_zero rows cols 1 (le_refl _) (one_dvd _)
      (fun rank => derrivative_x (gaussian_smooth powf sqrtf image rows cols sigma 1)
        rows cols rank 1) ?_ k
    intro r c hr hc
    have := delta_x_apply (gaussian_smooth powf sqrtf image rows cols sigma 1) rows cols 1
      (one_dvd _) hcols r c hr hc
    unfold derrivative_x_y at this
    refine this.trans ?_
    exact dxValue_const _ rows cols _ hcols hsm r c hr hc
  have hdy : ∀ k, (derrivative_x_y (gaussian_smooth powf sqrtf image rows cols sigma 1)
      rows cols 1).2 k = 0 := by
    intro k
    refine allreduceShort_zero rows cols 1
      (fun rank => derrivative_y (gaussian_smooth powf sqrtf image rows cols sigma 1)
        rows cols rank 1) ?_ k
    intro r c hr hc
    have := delta_y_apply (gaussian_smooth powf sqrtf image rows cols sigma 1) rows cols 1
      (le_refl _) hrows r c hr hc
    unfold derrivative_x_y at this
    refine this.trans ?_
    exact dyValue_const _ rows cols _ hrows hsm r c hr hc
  refine ⟨hdx, hdy, ?_⟩
  intro k
  refine allgather_zero rows cols 1 (le_refl _) (one_dvd _)
    (fun rank => magnitude_rank sqrtf
      (derrivative_x_y (gaussian_smooth powf sqrtf image rows cols sigma 1) rows cols 1).1
      (derrivative_x_y (gaussian_smooth powf sqrtf image rows cols sigma 1) rows cols 1).2
      rows cols rank 1) ?_ k
  intro r c hr hc
  have := magnitude_x_y_apply sqrtf
    (derrivative_x_y (gaussian_smooth powf sqrtf image rows cols sigma 1) rows cols 1).1
    (derrivative_x_y (gaussian_smooth powf sqrtf image rows cols sigma 1) rows cols 1).2
    rows cols 1 (le_refl _) (one_dvd _) r c hr hc
  unfold magnitude_x_y at this
  refine this.trans ?_
  exact magValue_zero sqrtf _ _ _ hsqrt0 (hdx _) (hdy _)

/-- On a magnitude image that is zero everywhere both interpolated
differences of `non_max_supp` are zero, whatever the registers hold. -/
theorem nmsMags_zero {K : Type} [LinearOrderedField K] (mag : Int → Int) (ncols : Nat)
    (p gx gy : Int) (xperp yperp : K) (hmag : ∀ q, mag q = 0) :
    nmsMags mag ncols p 0 gx gy xperp yperp = (0, 0) := by
  unfold nmsMags
  simp only [hmag, sub_self, Int.cast_zero, zero_mul, add_zero]
  split_ifs <;> rfl

theorem nmsValue_zero {K : Type} [LinearOrderedField K] : nmsValue ((0, 0) : K × K) = NOEDGE := by
  unfold nmsValue
  simp

/-- On a magnitude image that is zero everywhere the body of the pixel loop of
`non_max_supp` stores `NOEDGE`, when the weights `xperp`, `yperp` it finds in
the registers are numbers. -/
theorem nmsPixel_zero {K : Type} [LinearOrderedField K] (mag gradx grady : Int → Int)
    (ncols : Nat) (p index : Int) (st : NmsRegs K × (Int → Nat)) (hmag : ∀ q, mag q = 0)
    (hfin : ∃ x y : K, st.1.xperp = FloatVal.fin x ∧ st.1.yperp = FloatVal.fin y) :
    (nmsPixel mag gradx grady ncols p index st).2 index = NOEDGE := by
  obtain ⟨x, y, hx, hy⟩ := hfin
  unfold nmsPixel
  simp only [setAt, if_true, hmag p]
  rw [hx, hy, nmsMags_fin, nmsValueFloat_fin, nmsMags_zero mag ncols p _ _ _ _ hmag]
  exact nmsValue_zero

/-- At a pixel of magnitude zero the body of the pixel loop of `non_max_supp`
leaves the weights `xperp`, `yperp` as it found them. -/
theorem nmsPixel_zero_regs {K : Type} [LinearOrderedField K] (mag gradx grady : Int → Int)
    (ncols : Nat) (p index : Int) (st : NmsRegs K × (Int → Nat)) (hm : mag p = 0) :
    (nmsPixel mag gradx grady ncols p index st).1.xperp = st.1.xperp ∧
    (nmsPixel mag gradx grady ncols p index st).1.yperp = st.1.yperp := by
  unfold nmsPixel
  simp [hm]

/-- On a magnitude image that is zero everywhere the `tempbuffer` of
`non_max_supp` holds only 0 and `NOEDGE`, when the uninitialised weights
`xperp`, `yperp` hold numbers. -/
theorem non_max_supp_rank_zero {K : Type} [LinearOrderedField K]
    (mag gradx grady : Int → Int) (nrows ncols rank size : Nat) (regs0 : NmsRegs K)
    (hs : 1 ≤ size) (hd : size ∣ nrows) (hmag : ∀ q, mag q = 0)
    (hfin : ∃ x y : K, regs0.xperp = FloatVal.fin x ∧ regs0.yperp = FloatVal.fin y) (k : Int) :
    non_max_supp_rank mag gradx grady nrows ncols rank size regs0 k = 0 ∨
    non_max_supp_rank mag gradx grady nrows ncols rank size regs0 k = NOEDGE := by
  obtain ⟨regs, h⟩ := non_max_supp_rank_inv mag gradx grady nrows ncols rank size regs0 hs hd
    (fun w => (∃ x y : K, w.1.xperp = FloatVal.fin x ∧ w.1.yperp = FloatVal.fin y) ∧
      (w.2 k = 0 ∨ w.2 k = NOEDGE)) ⟨hfin, Or.inl rfl⟩
    (by
      intro row col w _ _ _ _ hq
      obtain ⟨e1, e2⟩ := nmsPixel_zero_regs mag gradx grady ncols ((row : Int) * ncols + col)
        ((row : Int) * ncols + col) w (hmag _)
      refine ⟨?_, ?_⟩
      · obtain ⟨x, y, hx, hy⟩ := hq.1
        exact ⟨x, y, e1.trans hx, e2.trans hy⟩
      · show (nmsPixel mag gradx grady ncols _ _ w).2 k = 0 ∨ _
        by_cases e : k = (row : Int) * ncols + col
        · right
          rw [e]
          exact nmsPixel_zero _ _ _ _ _ _ _ hmag hq.1
        · rw [nmsPixel_frame _ _ _ _ _ _ _ _ e]
          exact hq.2)
  exact h.2

/-- With one worker, on a magnitude image that is zero everywhere, the result
of `non_max_supp` in a zeroed buffer has no `POSSIBLE_EDGE`, when the
uninitialised weights `xperp`, `yperp` hold numbers. -/
theorem non_max_supp_zero {K : Type} [LinearOrderedField K]
    (mag gradx grady : Int → Int) (nrows ncols : Nat) (regs0 : Nat → NmsRegs K)
    (hmag : ∀ q, mag q = 0)
    (hfin : ∃ x y : K, (regs0 0).xperp = FloatVal.fin x ∧ (regs0 0).yperp = FloatVal.fin y)
    (k : Int) :
    non_max_supp mag gradx grady nrows ncols 1 regs0 (fun _ => 0) k ≠ POSSIBLE_EDGE := by
  unfold non_max_supp allreduceUChar
  by_cases hk : 0 ≤ k ∧ k < ((nrows * ncols : Nat) : Int)
  · rw [if_pos hk, sumRanks_one]
    beta_reduce
    rcases non_max_supp_rank_zero mag gradx grady nrows ncols 0 1 (regs0 0) (le_refl _)
      (one_dvd _) hmag hfin k with h | h
    · rw [h]; decide
    · rw [h]; decide
  · rw [if_neg hk]
    show (0 : Nat) ≠ POSSIBLE_EDGE
    decide

/-- When the map handed to `apply_hysteresis` has no `POSSIBLE_EDGE`, the
merged histogram is zero in every bin. -/
theorem hysteresis_hist_zero (mag : Int → Int) (nms : Int → Nat) (rows cols size : Nat)
    (hnms : ∀ j, nms j ≠ POSSIBLE_EDGE) (b : Int) :
    hysteresis_hist mag nms rows cols size b = 0 := by
  unfold hysteresis_hist allreduceInt
  split_ifs with hb
  · rw [sumRanks_eq_sum]
    apply Finset.sum_eq_zero
    intro rank _
    beta_reduce
    rw [hysteresis_temphist_apply]
    apply Finset.sum_eq_zero
    intro k _
    rw [if_neg]
    rintro ⟨h, _⟩
    exact hnms _ (hysteresis_seed_poss nms rows cols rank size _ h).2.2
  · rfl

/-- When the map handed to `apply_hysteresis` has no `POSSIBLE_EDGE`, the
single worker delivers an edge image that is `NOEDGE` at every pixel. -/
theorem apply_hysteresis_no_possible {K : Type} [LinearOrderedField K] [FloorRing K]
    (mag : Int → Int) (nms : Int → Nat) (rows cols : Nat) (tlow thigh : K)
    (mm0 : Nat → Int) (edge0 : Int → Nat) (hnms : ∀ j, nms j ≠ POSSIBLE_EDGE) :
    ∃ edge, apply_hysteresis mag nms rows cols tlow thigh 1 mm0 edge0 = some edge ∧
      ∀ r c : Nat, r < rows → c < cols → edge ((r : Int) * cols + c) = NOEDGE := by
  obtain ⟨tb, h1, h2, _, _⟩ := hysteresis_trace_total (fun _ => True) mag nms rows cols 0 1
    (hysteresis_thresholds (hysteresis_hist mag nms rows cols 1) tlow thigh (mm0 0)).1
    (hysteresis_thresholds (hysteresis_hist mag nms rows cols 1) tlow thigh (mm0 0)).2
    (le_refl _) (by decide) (fun _ _ _ => trivial) (fun _ _ _ _ _ _ _ _ => trivial)
  obtain ⟨edge, h3, h4⟩ := apply_hysteresis_single mag nms rows cols tlow thigh mm0 edge0 tb h1
  refine ⟨edge, h3, ?_⟩
  intro r c hr hc
  rw [h4 r c hr hc]
  have hin := pixel_in_image rows cols r c hr hc
  have hseed : hysteresis_seed nms rows cols 0 1 ((r : Int) * cols + c) = NOEDGE := by
    rw [hysteresis_seed_apply]
    by_cases hb : borderPos rows cols ((r : Int) * cols + c)
    · rw [if_pos hb]
    · have hown : ownPos rows cols 0 1 ((r : Int) * cols + c) := by
        rw [ownPos_of_dvd rows cols 0 1 (le_refl _) (one_dvd _), lo_zero,
          hi_last rows 1 (le_refl _)]
        exact ⟨by simpa using hin.1, hin.2⟩
      rw [if_neg hb, if_pos hown, if_neg (hnms _)]
  have htb : tb ((r : Int) * cols + c) = NOEDGE := by
    rcases h2 ((r : Int) * cols + c) with h | ⟨h, _, _⟩
    · rw [h, hseed]
    · rw [hseed] at h; exact absurd h (by decide)
  rw [htb]
  decide

/-- A constant image (value `v ≤ 255`, in particular 0) with `rows, cols ≥ 2`
run through `canny` with a single worker, in exact arithmetic with
`sqrt 0 = 0` (and `pow`, `sqrt` positive where the kernel builder calls
them), when the uninitialised locals `xperp`, `yperp` of `non_max_supp` hold
numbers (no NaN, no infinity), whatever `gx`, `gy` and `maximum_mag` of
`apply_hysteresis` hold on entry: `delta_x`, `delta_y` and the magnitude are
zero in every cell, `non_max_supp` marks no cell `POSSIBLE_EDGE`, the merged
histogram is zero in every bin, and rank 0 gets an edge map that is `NOEDGE`
(255) at every pixel. -/
theorem canny_constant_image_finite {K : Type} [LinearOrderedField K] [FloorRing K]
    (powf : K → K → K) (sqrtf : K → K) (image : Int → Nat) (rows cols : Nat)
    (sigma tlow thigh : K) (v : Nat) (regs0 : Nat → NmsRegs K) (mm0 : Nat → Int)
    (hrows : 2 ≤ rows) (hcols : 2 ≤ cols) (hsig : 0 < sigma)
    (hpow : ∀ y, 0 < powf 2.71828 y) (hsqrt : 0 < sqrtf 6.2831853) (hsqrt0 : sqrtf 0 = 0)
    (hv : v ≤ 255) (himg : ∀ k : Int, 0 ≤ k → k < (rows : Int) * cols → image k = v)
    (hregs : ∃ x y : K, (regs0 0).xperp = FloatVal.fin x ∧ (regs0 0).yperp = FloatVal.fin y) :
    (∀ k, (canny_gradient powf sqrtf image rows cols sigma 1).2.1 k = 0) ∧
    (∀ k, (canny_gradient powf sqrtf image rows cols sigma 1).2.2 k = 0) ∧
    (∀ k, (canny_gradient powf sqrtf image rows cols sigma 1).1 k = 0) ∧
    (∀ k, non_max_supp (canny_gradient powf sqrtf image rows cols sigma 1).1
        (canny_gradient powf sqrtf image rows cols sigma 1).2.1
        (canny_gradient powf sqrtf image rows cols sigma 1).2.2 rows cols 1 regs0 (fun _ => 0) k
      ≠ POSSIBLE_EDGE) ∧
    (∀ b, hysteresis_hist (canny_gradient powf sqrtf image rows cols sigma 1).1
        (non_max_supp (canny_gradient powf sqrtf image rows cols sigma 1).1
          (canny_gradient powf sqrtf image rows cols sigma 1).2.1
          (canny_gradient powf sqrtf image rows cols sigma 1).2.2 rows cols 1 regs0
          (fun _ => 0)) rows cols 1 b = 0) ∧
    ∃ edge, canny powf sqrtf image rows cols sigma tlow thigh 1 regs0 mm0 = some edge ∧
      ∀ r c : Nat, r < rows → c < cols → edge ((r : Int) * cols + c) = NOEDGE := by
  obtain ⟨hdx, hdy, hmag⟩ := canny_gradient_const powf sqrtf image rows cols sigma v hrows hcols
    hsig hpow hsqrt hsqrt0 hv himg
  have hnms := non_max_supp_zero (canny_gradient powf sqrtf image rows cols sigma 1).1
    (canny_gradient powf sqrtf image rows cols sigma 1).2.1
    (canny_gradient powf sqrtf image rows cols sigma 1).2.2 rows cols regs0 hmag hregs
  refine ⟨hdx, hdy, hmag, hnms, hysteresis_hist_zero _ _ rows cols 1 hnms, ?_⟩
  exact apply_hysteresis_no_possible _ _ rows cols tlow thigh mm0 (fun _ => 0) hnms

theorem sumRanks_two {M : Type} [AddCommMonoid M] (f : Nat → M) : sumRanks 2 f = f 0 + f 1 := by
  rw [sumRanks_eq_sum, Finset.sum_range_succ, Finset.sum_range_one]

/-- On a 6 × 4 image whose suppression map has its only `POSSIBLE_EDGE` cells
at 9 and 13 (the pixels (2,1) and (3,1)), the seeded buffer of a worker is
`POSSIBLE_EDGE` exactly at those of the two cells that it visits. -/
theorem cut_seed (nms : Int → Nat) (hnms : ∀ j, nms j = POSSIBLE_EDGE ↔ j = 9 ∨ j = 13)
    (rank size : Nat) (j : Int) :
    hysteresis_seed nms 6 4 rank size j = POSSIBLE_EDGE ↔
      (j = 9 ∨ j = 13) ∧ ownPos 6 4 rank size j := by
  constructor
  · intro h
    obtain ⟨_, h2, h3⟩ := hysteresis_seed_poss nms 6 4 rank size j h
    exact ⟨(hnms j).1 h3, h2⟩
  · rintro ⟨h1, h2⟩
    have hb : ¬ borderPos 6 4 j := by
      rcases h1 with rfl | rfl <;> decide
    rw [hysteresis_seed_apply, if_neg hb, if_pos h2, if_pos ((hnms j).2 h1)]

/-- The histogram of that image when the magnitudes of the two cells are 10
and 5. -/
theorem cut_hist (mag : Int → Int) (nms : Int → Nat)
    (hnms : ∀ j, nms j = POSSIBLE_EDGE ↔ j = 9 ∨ j = 13) (h9 : mag 9 = 10) (h13 : mag 13 = 5)
    (b : Int) :
    hysteresis_hist mag nms 6 4 1 b = (if b = 10 then 1 else 0) + (if b = 5 then 1 else 0) := by
  unfold hysteresis_hist allreduceInt
  by_cases hb : 0 ≤ b ∧ b < ((32768 : Nat) : Int)
  · rw [if_pos hb, sumRanks_one]
    beta_reduce
    rw [hysteresis_temphist_apply]
    have e : ∀ k ∈ Finset.range ((hi 0 6 1 - lo 0 6 1) * 4),
        (if hysteresis_seed nms 6 4 0 1 (((0 * 6 * 4 / 1 : Nat) : Int) + (k : Int))
              = POSSIBLE_EDGE ∧ mag (((0 * 6 * 4 / 1 : Nat) : Int) + (k : Int)) = b
          then (1 : Int) else 0)
        = (if k = 9 then (if b = 10 then 1 else 0) else 0)
          + (if k = 13 then (if b = 5 then 1 else 0) else 0) := by
      intro k hk
      have hk24 : k < 24 := by
        have : (hi 0 6 1 - lo 0 6 1) * 4 = 24 := by decide
        rw [this] at hk
        exact Finset.mem_range.1 hk
      have hz : ((0 * 6 * 4 / 1 : Nat) : Int) + (k : Int) = (k : Int) := by simp
      rw [hz]
      have hown : ownPos 6 4 0 1 (k : Int) := by
        unfold ownPos
        have e1 : ((0 * 6 * 4 / 1 : Nat) : Int) = 0 := by decide
        have e2 : (((hi 0 6 1 - lo 0 6 1) * 4 : Nat) : Int) = 24 := by decide
        rw [e1, e2]
        omega
      by_cases k9 : k = 9
      · subst k9
        have hs : hysteresis_seed nms 6 4 0 1 ((9 : Nat) : Int) = POSSIBLE_EDGE :=
          (cut_seed nms hnms 0 1 _).2 ⟨Or.inl rfl, hown⟩
        have hm : mag ((9 : Nat) : Int) = 10 := h9
        rw [hs, hm]
        by_cases hb10 : b = 10
        · subst hb10; simp
        · have : ¬ ((10 : Int) = b) := fun h => hb10 h.symm
          simp [hb10, this]
      · by_cases k13 : k = 13
        · subst k13
          have hs : hysteresis_seed nms 6 4 0 1 ((13 : Nat) : Int) = POSSIBLE_EDGE :=
            (cut_seed nms hnms 0 1 _).2 ⟨Or.inr rfl, hown⟩
          have hm : mag ((13 : Nat) : Int) = 5 := h13
          rw [hs, hm]
          by_cases hb5 : b = 5
          · subst hb5; simp
          · have : ¬ ((5 : Int) = b) := fun h => hb5 h.symm
            simp [hb5, this]
        · have hs : ¬ (hysteresis_seed nms 6 4 0 1 (k : Int) = POSSIBLE_EDGE) := by
            intro h
            rcases ((cut_seed nms hnms 0 1 _).1 h).1 with h | h <;> omega
          simp [hs, k9, k13]
    rw [Finset.sum_congr rfl e, Finset.sum_add_distrib, Finset.sum_ite_eq', Finset.sum_ite_eq']
    have m9 : 9 ∈ Finset.range ((hi 0 6 1 - lo 0 6 1) * 4) := by decide
    have m13 : 13 ∈ Finset.range ((hi 0 6 1 - lo 0 6 1) * 4) := by decide
    rw [if_pos m9, if_pos m13]
  · rw [if_neg hb]
    have h1 : b ≠ 10 := by
      rintro rfl; exact hb (by decide)
    have h2 : b ≠ 5 := by
      rintro rfl; exact hb (by decide)
    rw [if_neg h1, if_neg h2]
    rfl

/-- The thresholds of that image for `tlow = 0.3`, `thigh = 0.9`:
`lowthreshold = 3`, `highthreshold = 9`. -/
theorem cut_thresholds (mag : Int → Int) (nms : Int → Nat)
    (hnms : ∀ j, nms j = POSSIBLE_EDGE ↔ j = 9 ∨ j = 13) (h9 : mag 9 = 10) (h13 : mag 13 = 5)
    (mm0 : Int) :
    hysteresis_thresholds (hysteresis_hist mag nms 6 4 1) (0.3 : ℚ) 0.9 mm0 = (3, 9) := by
  have hh := cut_hist mag nms hnms h9 h13
  have hmm : (hysteresis_numedges (hysteresis_hist mag nms 6 4 1) mm0).1 = 10 := by
    rcases hysteresis_numedges_fst (hysteresis_hist mag nms 6 4 1) mm0 with
      ⟨_, h0⟩ | ⟨_, _, a3, a4⟩
    · have := h0 10 (by decide) (by decide)
      rw [hh] at this
      exact absurd this (by decide)
    · rw [hh] at a3
      have a5 := a4 10
      rw [hh] at a5
      by_cases e : (hysteresis_numedges (hysteresis_hist mag nms 6 4 1) mm0).1 = 10
      · exact e
      · by_cases e5 : (hysteresis_numedges (hysteresis_hist mag nms 6 4 1) mm0).1 = 5
        · rw [e5] at a5
          exact absurd (a5 (by decide) (by decide)) (by decide)
        · rw [if_neg e, if_neg e5] at a3
          exact absurd rfl a3
  have hne : (hysteresis_numedges (hysteresis_hist mag nms 6 4 1) mm0).2 = 2 := by
    rw [hysteresis_numedges_snd]
    have e : ∀ r ∈ Finset.range 32767, hysteresis_hist mag nms 6 4 1 ((1 + r : Nat) : Int)
        = (if r = 9 then 1 else 0) + (if r = 4 then 1 else 0) := by
      intro r _
      rw [hh]
      have e1 : (((1 + r : Nat) : Int) = 10) ↔ r = 9 := by omega
      have e2 : (((1 + r : Nat) : Int) = 5) ↔ r = 4 := by omega
      simp only [e1, e2]
    rw [Finset.sum_congr rfl e, Finset.sum_add_distrib, Finset.sum_ite_eq', Finset.sum_ite_eq',
      if_pos (Finset.mem_range.2 (by norm_num)), if_pos (Finset.mem_range.2 (by norm_num))]
    rfl
  have hc : roundProd 2 (0.9 : ℚ) = 2 :=
    roundProd_of_bounds 2 0.9 2 (by decide) (by decide) (by norm_num) (by norm_num)
      (by norm_num)
  have hl : roundProd 9 (0.3 : ℚ) = 3 :=
    roundProd_of_bounds 9 0.3 3 (by decide) (by decide) (by norm_num) (by norm_num)
      (by norm_num)
  unfold hysteresis_thresholds
  simp only []
  rw [hmm, hne, hc]
  have hloop : hysteresis_highloop (hysteresis_hist mag nms 6 4 1) 10 2 ((10 : Int) - 2).toNat 1
      (hysteresis_hist mag nms 6 4 1 1) = 9 := by
    have e8 : ((10 : Int) - 2).toNat = 8 := by decide
    rw [e8]
    simp [hysteresis_highloop, hh]
  rw [hloop, hl]

/-- One worker on that image: the border pixel (0,0) is `NOEDGE` and the weak
pixel (3,1), next to the strong pixel (2,1), is `EDGE`. -/
theorem cut_single (mag : Int → Int) (nms : Int → Nat)
    (hnms : ∀ j, nms j = POSSIBLE_EDGE ↔ j = 9 ∨ j = 13) (h9 : mag 9 = 10) (h13 : mag 13 = 5)
    (mm0 : Nat → Int) (edge0 : Int → Nat) :
    ∃ edge, apply_hysteresis mag nms 6 4 (0.3 : ℚ) 0.9 1 mm0 edge0 = some edge ∧
      edge 0 = 255 ∧ edge 13 = EDGE := by
  have hth := cut_thresholds mag nms hnms h9 h13 (mm0 0)
  obtain ⟨tb, t1, t2, t3, t4⟩ := hysteresis_trace_total (fun _ => True) mag nms 6 4 0 1
    (hysteresis_thresholds (hysteresis_hist mag nms 6 4 1) (0.3 : ℚ) 0.9 (mm0 0)).1
    (hysteresis_thresholds (hysteresis_hist mag nms 6 4 1) (0.3 : ℚ) 0.9 (mm0 0)).2
    (le_refl _) (by decide) (fun _ _ _ => trivial) (fun _ _ _ _ _ _ _ _ => trivial)
  obtain ⟨edge, e1, e2⟩ := apply_hysteresis_single mag nms 6 4 (0.3 : ℚ) 0.9 mm0 edge0 tb t1
  rw [hth] at t3 t4
  have hs9 : hysteresis_seed nms 6 4 0 1 9 = POSSIBLE_EDGE :=
    (cut_seed nms hnms 0 1 9).2 ⟨Or.inl rfl, by decide⟩
  have hs13 : hysteresis_seed nms 6 4 0 1 13 = POSSIBLE_EDGE :=
    (cut_seed nms hnms 0 1 13).2 ⟨Or.inr rfl, by decide⟩
  have hs0 : hysteresis_seed nms 6 4 0 1 0 = NOEDGE := by
    rw [hysteresis_seed_apply, if_pos (borderPos_zero 6 4 (by decide))]
  have tb9 : tb 9 = EDGE := t3 9 hs9 (by rw [h9]; decide)
  have hcl := t4 9 hs9 tb9 6 (by decide)
  have ecell : (9 : Int) - yoff 6 * ((4 : Nat) : Int) + xoff 6 = 13 := by decide
  rw [ecell, h13] at hcl
  have tb13 : tb 13 = EDGE := by
    rcases t2 13 with h | ⟨_, h, _⟩
    · rw [hs13] at h
      exact absurd ⟨h, by decide⟩ hcl
    · exact h
  have tb0 : tb 0 = NOEDGE := by
    rcases t2 0 with h | ⟨h, _, _⟩
    · rw [h, hs0]
    · rw [hs0] at h; exact absurd h (by decide)
  refine ⟨edge, e1, ?_, ?_⟩
  · have := e2 0 0 (by decide) (by decide)
    have e00 : ((0 : Nat) : Int) * ((4 : Nat) : Int) + ((0 : Nat) : Int) = 0 := by decide
    rw [e00, tb0] at this
    rw [this]
    decide
  · have := e2 3 1 (by decide) (by decide)
    have e31 : ((3 : Nat) : Int) * ((4 : Nat) : Int) + ((1 : Nat) : Int) = 13 := by decide
    rw [e31, tb13] at this
    rw [this]
    decide

/-- Two workers on that image: the border pixel (0,0) gets the byte 254 and
the weak pixel (3,1), in the first row of worker 1, is `NOEDGE`: the strong
pixel (2,1) next to it is in the last row of worker 0, whose trace does not
reach the rows of worker 1. -/
theorem cut_two (mag : Int → Int) (nms : Int → Nat)
    (hnms : ∀ j, nms j = POSSIBLE_EDGE ↔ j = 9 ∨ j = 13) (h9 : mag 9 = 10) (h13 : mag 13 = 5)
    (mm0 : Nat → Int) (edge0 : Int → Nat) :
    ∃ edge, apply_hysteresis mag nms 6 4 (0.3 : ℚ) 0.9 2 mm0 edge0 = some edge ∧
      edge 0 = 254 ∧ edge 13 = NOEDGE := by
  have hhist := hysteresis_hist_dvd mag nms 6 4 2 (by decide) (by decide)
  have hth := cut_thresholds mag nms hnms h9 h13 (mm0 1)
  obtain ⟨buf0, hb0, c1, _, c3⟩ :=
    apply_hysteresis_rank_cells mag nms 6 4 (0.3 : ℚ) 0.9 0 2 (mm0 0) (by decide) (by decide)
  obtain ⟨tb1, t1, t2, _, _⟩ := hysteresis_trace_total (fun _ => False) mag nms 6 4 1 2 3 9
    (by decide) (by decide)
    (by
      intro p hp hm
      obtain ⟨h | h, ho⟩ := (cut_seed nms hnms 1 2 p).1 hp
      · rw [h] at ho
        exact absurd ho (by decide)
      · rw [h, h13] at hm
        exact absurd hm (by decide))
    (fun _ _ _ h _ _ _ _ => h)
  have hb1 : apply_hysteresis_rank mag nms 6 4 (0.3 : ℚ) 0.9 1 2 (mm0 1)
      = some (hysteresis_cleanup tb1 6 4 1 2) := by
    unfold apply_hysteresis_rank
    simp only []
    rw [hhist, hth, t1, Option.map_some']
  have hred := reduceUChar_some (6 * 4) 2
    (fun rank => apply_hysteresis_rank mag nms 6 4 (0.3 : ℚ) 0.9 rank 2 (mm0 rank))
    (fun r => if r = 0 then buf0 else hysteresis_cleanup tb1 6 4 1 2) edge0
    (by
      intro r hr
      have : r = 0 ∨ r = 1 := by omega
      rcases this with rfl | rfl
      · exact hb0
      · exact hb1)
  have hs0 : hysteresis_seed nms 6 4 1 2 0 = NOEDGE := by
    rw [hysteresis_seed_apply, if_pos (borderPos_zero 6 4 (by decide))]
  have hs13 : hysteresis_seed nms 6 4 1 2 13 = POSSIBLE_EDGE :=
    (cut_seed nms hnms 1 2 13).2 ⟨Or.inr rfl, by decide⟩
  have tb0 : tb1 0 = NOEDGE := by
    rcases t2 0 with h | ⟨_, _, h⟩
    · rw [h, hs0]
    · exact h.elim
  have tb13 : tb1 13 = POSSIBLE_EDGE := by
    rcases t2 13 with h | ⟨_, _, h⟩
    · rw [h, hs13]
    · exact h.elim
  have k0 : hysteresis_cleanup tb1 6 4 1 2 0 = 255 := by
    rw [hysteresis_cleanup_apply, if_neg (by decide), tb0]
    rfl
  have k13 : hysteresis_cleanup tb1 6 4 1 2 13 = 255 := by
    rw [hysteresis_cleanup_apply, if_pos (by decide), tb13, if_pos (by decide)]
    rfl
  have b0 : buf0 0 = 255 := c1 0 (borderPos_zero 6 4 (by decide))
  have b13 : buf0 13 = 0 := c3 13 (by decide) (by decide)
  refine ⟨_, hred, ?_, ?_⟩
  · rw [if_pos (by decide), sumRanks_two]
    beta_reduce
    rw [if_pos rfl, if_neg (by decide), b0, k0]
    rfl
  · rw [if_pos (by decide), sumRanks_two]
    beta_reduce
    rw [if_pos rfl, if_neg (by decide), b13, k13]
    rfl

/-- The suppression map of the 6 × 4 image with magnitude and x-gradient 10 at
the pixel (2,1), 5 at the pixel (3,1) and 0 elsewhere, and y-gradient 0: for
one worker and for two workers, the cells 9 and 13 are its only
`POSSIBLE_EDGE` cells. -/
theorem cut_nms (size : Nat) (hsize : size = 1 ∨ size = 2) (j : Int) :
    non_max_supp (K := ℚ) (fun j => if j = 9 then 10 else if j = 13 then 5 else 0)
      (fun j => if j = 9 then 10 else if j = 13 then 5 else 0) (fun _ => 0) 6 4 size
      (fun _ => ⟨0, 0, 0, 0⟩) (fun _ => 0) j = POSSIBLE_EDGE ↔ j = 9 ∨ j = 13 := by
  by_cases hj : 0 ≤ j ∧ j < 24
  · obtain ⟨k, rfl⟩ := Int.eq_ofNat_of_zero_le hj.1
    have hk : k < 24 := by omega
    have key1 : ∀ k : Nat, k < 24 →
        (non_max_supp (K := ℚ) (fun j => if j = 9 then 10 else if j = 13 then 5 else 0)
          (fun j => if j = 9 then 10 else if j = 13 then 5 else 0) (fun _ => 0) 6 4 1
          (fun _ => ⟨0, 0, 0, 0⟩) (fun _ => 0) (k : Int) = POSSIBLE_EDGE
          ↔ (k : Int) = 9 ∨ (k : Int) = 13) := by
      decide!
    have key2 : ∀ k : Nat, k < 24 →
        (non_max_supp (K := ℚ) (fun j => if j = 9 then 10 else if j = 13 then 5 else 0)
          (fun j => if j = 9 then 10 else if j = 13 then 5 else 0) (fun _ => 0) 6 4 2
          (fun _ => ⟨0, 0, 0, 0⟩) (fun _ => 0) (k : Int) = POSSIBLE_EDGE
          ↔ (k : Int) = 9 ∨ (k : Int) = 13) := by
      decide!
    rcases hsize with rfl | rfl
    · exact key1 k hk
    · exact key2 k hk
  · have hne : ¬ (j = 9 ∨ j = 13) := by omega
    unfold non_max_supp allreduceUChar
    rw [if_neg (by simpa using hj)]
    simp only [hne, iff_false]
    decide

/-- C2 fails on the code: on a 6 × 4 image (2 divides 6 and 4) with magnitude
and x-gradient 10 at the pixel (2,1), 5 at the pixel (3,1), 0 elsewhere,
y-gradient 0, `tlow = 0.3`, `thigh = 0.9`, the pipeline `non_max_supp` then
`apply_hysteresis` delivers with one worker the byte 255 at the border pixel
(0,0) and `EDGE` at the pixel (3,1), and with two workers the byte 254 at
(0,0) and `NOEDGE` at (3,1). -/
theorem pipeline_two_workers_differs :
    2 ∣ 6 ∧ 2 ∣ 4 ∧
    ∃ e1 e2 : Int → Nat,
      apply_hysteresis (fun j => if j = 9 then 10 else if j = 13 then 5 else 0)
        (non_max_supp (K := ℚ) (fun j => if j = 9 then 10 else if j = 13 then 5 else 0)
          (fun j => if j = 9 then 10 else if j = 13 then 5 else 0) (fun _ => 0) 6 4 1
          (fun _ => ⟨0, 0, 0, 0⟩) (fun _ => 0))
        6 4 (0.3 : ℚ) 0.9 1 (fun _ => 0) (fun _ => 0) = some e1 ∧
      apply_hysteresis (fun j => if j = 9 then 10 else if j = 13 then 5 else 0)
        (non_max_supp (K := ℚ) (fun j => if j = 9 then 10 else if j = 13 then 5 else 0)
          (fun j => if j = 9 then 10 else if j = 13 then 5 else 0) (fun _ => 0) 6 4 2
          (fun _ => ⟨0, 0, 0, 0⟩) (fun _ => 0))
        6 4 (0.3 : ℚ) 0.9 2 (fun _ => 0) (fun _ => 0) = some e2 ∧
      e1 0 = 255 ∧ e2 0 = 254 ∧ e1 13 = EDGE ∧ e2 13 = NOEDGE := by
  obtain ⟨e1, a1, a2, a3⟩ := cut_single (fun j => if j = 9 then 10 else if j = 13 then 5 else 0)
    _ (cut_nms 1 (Or.inl rfl)) rfl rfl (fun _ => 0) (fun _ => 0)
  obtain ⟨e2, b1, b2, b3⟩ := cut_two (fun j => if j = 9 then 10 else if j = 13 then 5 else 0)
    _ (cut_nms 2 (Or.inr rfl)) rfl rfl (fun _ => 0) (fun _ => 0)
  exact ⟨by decide, by decide, e1, e2, a1, b1, a2, b2, a3, b3⟩

/-- The difference of two values between 0 and 32767 is its own conversion to
`short`. -/
theorem wrap16_sub (a b : Int) (ha : 0 ≤ a ∧ a ≤ 32767) (hb : 0 ≤ b ∧ b ≤ 32767) :
    wrap16 (a - b) = a - b :=
  wrap16_of_range _ (by omega) (by omega)

/-- The cell of a pixel is inside the image, in the form used for the range
of the entries of an image. -/
theorem pixel_in_image_int (rows cols r c : Nat) (hr : r < rows) (hc : c < cols) :
    0 ≤ (r : Int) * cols + c ∧ (r : Int) * cols + c < (rows : Int) * cols := by
  have h := pixel_in_image rows cols r c hr hc
  refine ⟨h.1, ?_⟩
  have := h.2
  push_cast at this
  exact this

/-- C11: for every smoothed image `S` (entries between 0 and 32767, as all
outputs of `gaussian_smooth` are), `cols ≥ 2` and every worker count dividing
`rows`, the gathered `delta_x` of `derrivative_x_y` satisfies, in every row:
`delta_x[r,c] = S[r,c+1] - S[r,c-1]` for `1 ≤ c ≤ cols-2`,
`delta_x[r,0] = S[r,1] - S[r,0]`, `delta_x[r,cols-1] = S[r,cols-1] - S[r,cols-2]`;
and for any array `S` of 16-bit entries whatever the gathered value is that
difference converted to `short` (`dxValue`). -/
theorem derrivative_x_differences (S : Int → Int) (rows cols size : Nat) (hcols : 2 ≤ cols)
    (hd : size ∣ rows) (r c : Nat) (hr : r < rows) (hc : c < cols) :
    (derrivative_x_y S rows cols size).1 ((r : Int) * cols + c) = dxValue S cols r c ∧
    ((∀ k : Int, 0 ≤ k → k < (rows : Int) * cols → 0 ≤ S k ∧ S k ≤ 32767) →
      (1 ≤ c → c + 2 ≤ cols →
        (derrivative_x_y S rows cols size).1 ((r : Int) * cols + c)
          = S ((r : Int) * cols + (c + 1 : Nat)) - S ((r : Int) * cols + (c - 1 : Nat))) ∧
      (c = 0 →
        (derrivative_x_y S rows cols size).1 ((r : Int) * cols + c)
          = S ((r : Int) * cols + (1 : Nat)) - S ((r : Int) * cols + (0 : Nat))) ∧
      (c + 1 = cols →
        (derrivative_x_y S rows cols size).1 ((r : Int) * cols + c)
          = S ((r : Int) * cols + (cols - 1 : Nat)) - S ((r : Int) * cols + (cols - 2 : Nat)))) := by
  have hx := delta_x_apply S rows cols size hd hcols r c hr hc
  refine ⟨hx, ?_⟩
  intro hS
  have hin : ∀ c' : Nat, c' < cols →
      0 ≤ S ((r : Int) * cols + c') ∧ S ((r : Int) * cols + c') ≤ 32767 := by
    intro c' hc'
    obtain ⟨h0, h1⟩ := pixel_in_image_int rows cols r c' hr hc'
    exact hS _ h0 h1
  refine ⟨?_, ?_, ?_⟩
  · intro h1 h2
    rw [hx]
    unfold dxValue
    rw [if_neg (by omega), if_neg (by omega)]
    have e1 : (r : Int) * cols + c + 1 = (r : Int) * cols + (c + 1 : Nat) := by
      push_cast; ring
    have e2 : (r : Int) * cols + c - 1 = (r : Int) * cols + (c - 1 : Nat) := by
      have : ((c - 1 : Nat) : Int) = (c : Int) - 1 := by omega
      rw [this]; ring
    rw [e1, e2]
    exact wrap16_sub _ _ (hin _ (by omega)) (hin _ (by omega))
  · intro h0
    rw [hx]
    unfold dxValue
    rw [if_pos h0]
    have e1 : (r : Int) * cols + 1 = (r : Int) * cols + (1 : Nat) := by push_cast; ring
    have e2 : (r : Int) * cols = (r : Int) * cols + (0 : Nat) := by push_cast; ring
    rw [e1]
    nth_rewrite 2 [e2]
    exact wrap16_sub _ _ (hin _ (by omega)) (hin _ (by omega))
  · intro h1
    rw [hx]
    unfold dxValue
    rw [if_neg (by omega), if_pos h1]
    have e1 : (r : Int) * cols + c = (r : Int) * cols + (cols - 1 : Nat) := by
      have : c = cols - 1 := by omega
      rw [this]
    have e2 : (r : Int) * cols + c - 1 = (r : Int) * cols + (cols - 2 : Nat) := by
      have : ((cols - 2 : Nat) : Int) = (c : Int) - 1 := by omega
      rw [this]; ring
    rw [e2, e1]
    exact wrap16_sub _ _ (hin _ (by omega)) (hin _ (by omega))

theorem derrivative_x_differences_witness :
    2 ≤ 3 ∧ 2 ∣ 4 ∧ 2 < 4 ∧ 1 < 3 ∧
    (∀ k : Int, 0 ≤ k → k < ((4 : Nat) : Int) * (3 : Nat) →
      0 ≤ (fun j : Int => j % 7) k ∧ (fun j : Int => j % 7) k ≤ 32767) ∧
    (derrivative_x_y (fun j : Int => j % 7) 4 3 2).1 (((2 : Nat) : Int) * (3 : Nat) + (1 : Nat))
      = (fun j : Int => j % 7) (((2 : Nat) : Int) * (3 : Nat) + ((1 + 1 : Nat) : Int))
        - (fun j : Int => j % 7) (((2 : Nat) : Int) * (3 : Nat) + ((1 - 1 : Nat) : Int)) :=
  have hS : ∀ k : Int, 0 ≤ k → k < ((4 : Nat) : Int) * (3 : Nat) →
      0 ≤ (fun j : Int => j % 7) k ∧ (fun j : Int => j % 7) k ≤ 32767 := by
    intro k _ _
    show 0 ≤ k % 7 ∧ k % 7 ≤ 32767
    omega
  ⟨by decide, by decide, by decide, by decide, hS,
    ((derrivative_x_differences (fun j : Int => j % 7) 4 3 2 (by decide) (by decide) 2 1
      (by decide) (by decide)).2 hS).1 (by decide) (by decide)⟩

/-- A cell of `tempbuffer2` of the y-derivative is non-zero for at most one
worker: the one whose column range holds the column of the cell. -/
theorem derrivative_y_single_owner (S : Int → Int) (rows cols size : Nat) (hrows : 2 ≤ rows)
    (hs : 1 ≤ size) (r c : Nat) (hr : r < rows) (hc : c < cols) (rank1 rank2 : Nat)
    (h1 : rank1 < size) (h2 : rank2 < size)
    (n1 : derrivative_y S rows cols rank1 size ((r : Int) * cols + c) ≠ 0)
    (n2 : derrivative_y S rows cols rank2 size ((r : Int) * cols + c) ≠ 0) : rank1 = rank2 := by
  rw [derrivative_y_apply S rows cols rank1 size hrows hs h1 r c hr hc] at n1
  rw [derrivative_y_apply S rows cols rank2 size hrows hs h2 r c hr hc] at n2
  by_cases o1 : lo rank1 cols size ≤ c ∧ c < hi rank1 cols size
  · by_cases o2 : lo rank2 cols size ≤ c ∧ c < hi rank2 cols size
    · exact owner_unique cols size c rank1 rank2 o1 o2
    · rw [if_neg o2] at n2; exact absurd rfl n2
  · rw [if_neg o1] at n1; exact absurd rfl n1

/-- C12: for every smoothed image `S` (entries between 0 and 32767, as all
outputs of `gaussian_smooth` are), `rows ≥ 2` and every worker count
`size ≥ 1` (whether or not it divides `cols`), the sum-reduced `delta_y` of
`derrivative_x_y` satisfies, in every column:
`delta_y[r,c] = S[r+1,c] - S[r-1,c]` for `1 ≤ r ≤ rows-2`,
`delta_y[0,c] = S[1,c] - S[0,c]`, `delta_y[rows-1,c] = S[rows-1,c] - S[rows-2,c]`;
at most one worker contributes a non-zero value to a pixel; and for any array
`S` of 16-bit entries whatever the reduced value is that difference converted
to `short` (`dyValue`). -/
theorem derrivative_y_differences (S : Int → Int) (rows cols size : Nat) (hrows : 2 ≤ rows)
    (hs : 1 ≤ size) (r c : Nat) (hr : r < rows) (hc : c < cols) :
    (derrivative_x_y S rows cols size).2 ((r : Int) * cols + c) = dyValue S rows cols r c ∧
    (∀ rank1 rank2 : Nat, rank1 < size → rank2 < size →
      derrivative_y S rows cols rank1 size ((r : Int) * cols + c) ≠ 0 →
      derrivative_y S rows cols rank2 size ((r : Int) * cols + c) ≠ 0 → rank1 = rank2) ∧
    ((∀ k : Int, 0 ≤ k → k < (rows : Int) * cols → 0 ≤ S k ∧ S k ≤ 32767) →
      (1 ≤ r → r + 2 ≤ rows →
        (derrivative_x_y S rows cols size).2 ((r : Int) * cols + c)
          = S (((r + 1 : Nat) : Int) * cols + c) - S (((r - 1 : Nat) : Int) * cols + c)) ∧
      (r = 0 →
        (derrivative_x_y S rows cols size).2 ((r : Int) * cols + c)
          = S (((1 : Nat) : Int) * cols + c) - S (((0 : Nat) : Int) * cols + c)) ∧
      (r + 1 = rows →
        (derrivative_x_y S rows cols size).2 ((r : Int) * cols + c)
          = S (((rows - 1 : Nat) : Int) * cols + c)
            - S (((rows - 2 : Nat) : Int) * cols + c))) := by
  have hy := delta_y_apply S rows cols size hs hrows r c hr hc
  refine ⟨hy, ?_, ?_⟩
  · intro rank1 rank2 h1 h2 n1 n2
    exact derrivative_y_single_owner S rows cols size hrows hs r c hr hc rank1 rank2 h1 h2 n1 n2
  intro hS
  have hin : ∀ r' : Nat, r' < rows →
      0 ≤ S ((r' : Int) * cols + c) ∧ S ((r' : Int) * cols + c) ≤ 32767 := by
    intro r' hr'
    obtain ⟨h0, h1⟩ := pixel_in_image_int rows cols r' c hr' hc
    exact hS _ h0 h1
  refine ⟨?_, ?_, ?_⟩
  · intro h1 h2
    rw [hy]
    unfold dyValue
    rw [if_neg (by omega), if_neg (by omega)]
    have e1 : (r : Int) * cols + c + cols = ((r + 1 : Nat) : Int) * cols + c := by
      push_cast; ring
    have e2 : (r : Int) * cols + c - cols = ((r - 1 : Nat) : Int) * cols + c := by
      have : ((r - 1 : Nat) : Int) = (r : Int) - 1 := by omega
      rw [this]; ring
    rw [e1, e2]
    exact wrap16_sub _ _ (hin _ (by omega)) (hin _ (by omega))
  · intro h0
    rw [hy]
    unfold dyValue
    rw [if_pos h0]
    have e1 : (c : Int) + cols = ((1 : Nat) : Int) * cols + c := by push_cast; ring
    have e2 : (c : Int) = ((0 : Nat) : Int) * cols + c := by push_cast; ring
    rw [e1]
    nth_rewrite 2 [e2]
    exact wrap16_sub _ _ (hin _ (by omega)) (hin _ (by omega))
  · intro h1
    rw [hy]
    unfold dyValue
    rw [if_neg (by omega), if_pos h1]
    have e1 : (r : Int) * cols + c = ((rows - 1 : Nat) : Int) * cols + c := by
      have : r = rows - 1 := by omega
      rw [this]
    have e2 : (r : Int) * cols + c - cols = ((rows - 2 : Nat) : Int) * cols + c := by
      have : ((rows - 2 : Nat) : Int) = (r : Int) - 1 := by omega
      rw [this]; ring
    rw [e2, e1]
    exact wrap16_sub _ _ (hin _ (by omega)) (hin _ (by omega))

theorem derrivative_y_differences_witness :
    2 ≤ 4 ∧ 1 ≤ 2 ∧ 2 < 4 ∧ 1 < 3 ∧
    (∀ k : Int, 0 ≤ k → k < ((4 : Nat) : Int) * (3 : Nat) →
      0 ≤ (fun j : Int => j % 7) k ∧ (fun j : Int => j % 7) k ≤ 32767) ∧
    (derrivative_x_y (fun j : Int => j % 7) 4 3 2).2 (((2 : Nat) : Int) * (3 : Nat) + (1 : Nat))
      = (fun j : Int => j % 7) (((2 + 1 : Nat) : Int) * (3 : Nat) + (1 : Nat))
        - (fun j : Int => j % 7) (((2 - 1 : Nat) : Int) * (3 : Nat) + (1 : Nat)) :=
  have hS : ∀ k : Int, 0 ≤ k → k < ((4 : Nat) : Int) * (3 : Nat) →
      0 ≤ (fun j : Int => j % 7) k ∧ (fun j : Int => j % 7) k ≤ 32767 := by
    intro k _ _
    show 0 ≤ k % 7 ∧ k % 7 ≤ 32767
    omega
  ⟨by decide, by decide, by decide, by decide, hS,
    ((derrivative_y_differences (fun j : Int => j % 7) 4 3 2 (by decide) (by decide) 2 1
      (by decide) (by decide)).2.2 hS).1 (by decide) (by decide)⟩

/-- The magnitude with the real square root: the floor of one half plus the
square root of the rounded sum of the squares, converted to `short`. -/
theorem magValue_real_eq (dx dy : Int → Int) (p : Int) :
    magValue Real.sqrt dx dy p
      = wrap16 ⌊(0.5 : ℝ) + Real.sqrt (float32 (float32 ((dx p * dx p : Int) : ℝ)
          + float32 ((dy p * dy p : Int) : ℝ)))⌋ := by
  unfold magValue
  rw [truncCast_nonneg_eq]
  have := Real.sqrt_nonneg (float32 (float32 ((dx p * dx p : Int) : ℝ)
    + float32 ((dy p * dy p : Int) : ℝ)))
  linarith [show (0 : ℝ) < 0.5 by norm_num]

/-- The magnitude with the real square root is the integer `m` of the range
of `short` when the square root of the rounded sum of the squares lies
between `m - 1/2` and `m + 1/2`. -/
theorem magValue_real_of_bounds (dx dy : Int → Int) (p : Int) (m : Int) (hm0 : 0 ≤ m)
    (hm : m ≤ 32767)
    (h1 : (m : ℝ) - 1 / 2 ≤ Real.sqrt (float32 (float32 ((dx p * dx p : Int) : ℝ)
          + float32 ((dy p * dy p : Int) : ℝ))))
    (h2 : Real.sqrt (float32 (float32 ((dx p * dx p : Int) : ℝ)
          + float32 ((dy p * dy p : Int) : ℝ))) < (m : ℝ) + 1 / 2) :
    magValue Real.sqrt dx dy p = m := by
  rw [magValue_real_eq]
  have e : ⌊(0.5 : ℝ) + Real.sqrt (float32 (float32 ((dx p * dx p : Int) : ℝ)
          + float32 ((dy p * dy p : Int) : ℝ)))⌋ = m := by
    rw [Int.floor_eq_iff]
    constructor
    · have : (0.5 : ℝ) = 1 / 2 := by norm_num
      linarith
    · have : (0.5 : ℝ) = 1 / 2 := by norm_num
      linarith
  rw [e]
  exact wrap16_of_range m (by omega) hm

/-- The magnitude at a cell where `delta_y` is zero and `delta_x` is between 0
and 32767, with the real square root: `delta_x` itself (the rounding of the
square to `float` does not reach the next half-integer). -/
theorem magValue_real_horizontal (dx dy : Int → Int) (p : Int) (hx : 0 ≤ dx p)
    (hx1 : dx p ≤ 32767) (hy : dy p = 0) :
    magValue Real.sqrt dx dy p = dx p := by
  obtain ⟨v0, vex, vlo, vhi, v1⟩ := float32_sq_sum (K := ℝ) (dx p * dx p) (dy p * dy p)
    (mul_self_nonneg _) (mul_self_nonneg _)
  have e : ((dx p * dx p + dy p * dy p : Int) : ℝ) = (dx p : ℝ) ^ 2 := by
    rw [hy]; push_cast; ring
  rw [e] at vlo vhi
  have hd0 : (0 : ℝ) ≤ (dx p : ℝ) := by exact_mod_cast hx
  have hd1 : (dx p : ℝ) ≤ 32767 := by exact_mod_cast hx1
  have hq : (dx p : ℝ) ^ 2 / 2 ^ 22 ≤ (dx p : ℝ) / 128 := by
    have : (dx p : ℝ) ^ 2 ≤ (dx p : ℝ) * 32767 := by nlinarith
    have e1 : (dx p : ℝ) ^ 2 / 2 ^ 22 ≤ (dx p : ℝ) * 32767 / 2 ^ 22 :=
      div_le_div_of_nonneg_right this (by positivity)
    have e2 : (dx p : ℝ) * 32767 / 2 ^ 22 ≤ (dx p : ℝ) / 128 := by
      have : (dx p : ℝ) / 128 - (dx p : ℝ) * 32767 / 2 ^ 22
          = (dx p : ℝ) * (1 / 128 - 32767 / 2 ^ 22) := by ring
      have : (0 : ℝ) ≤ (dx p : ℝ) * (1 / 128 - 32767 / 2 ^ 22) := mul_nonneg hd0 (by norm_num)
      linarith
    linarith
  apply magValue_real_of_bounds dx dy p (dx p) hx hx1
  · rcases le_or_lt (dx p) 0 with c | c
    · have : (dx p : ℝ) ≤ 0 := by exact_mod_cast c
      have := Real.sqrt_nonneg (float32 (float32 ((dx p * dx p : Int) : ℝ)
        + float32 ((dy p * dy p : Int) : ℝ)))
      linarith
    · have c1 : (1 : ℝ) ≤ (dx p : ℝ) := by exact_mod_cast c
      rw [Real.le_sqrt (by linarith) v0]
      have : ((dx p : ℝ) - 1 / 2) ^ 2 = (dx p : ℝ) ^ 2 - (dx p : ℝ) + 1 / 4 := by ring
      rw [this]
      linarith
  · rw [Real.sqrt_lt' (by linarith)]
    have : ((dx p : ℝ) + 1 / 2) ^ 2 = (dx p : ℝ) ^ 2 + (dx p : ℝ) + 1 / 4 := by ring
    rw [this]
    linarith

/-- The `while` loop of `apply_hysteresis` started at `r` with the running
total `hist[1] + ... + hist[r]`: it stops at the first index at which the
running total is no longer below `highcount`, and at `maximum_mag - 1` at the
latest. -/
theorem hysteresis_highloop_first (hist : Int → Int) (mm hc : Int) (n r : Nat)
    (hn : mm - 1 - r ≤ n)
    (hbelow : ∀ k : Nat, 1 ≤ k → k < r → ∑ i in Finset.range k, hist ((i + 1 : Nat) : Int) < hc) :
    ∃ H : Nat, hysteresis_highloop hist mm hc n r
        (∑ i in Finset.range r, hist ((i + 1 : Nat) : Int)) = (H : Int) ∧
      r ≤ H ∧ (H : Int) ≤ max (r : Int) (mm - 1) ∧
      (∀ k : Nat, 1 ≤ k → k < H → ∑ i in Finset.range k, hist ((i + 1 : Nat) : Int) < hc) ∧
      ((H : Int) < mm - 1 → hc ≤ ∑ i in Finset.range H, hist ((i + 1 : Nat) : Int)) := by
  induction n generalizing r with
  | zero =>
    refine ⟨r, rfl, le_refl _, le_max_left _ _, hbelow, ?_⟩
    intro h
    simp only [Nat.cast_zero] at hn
    omega
  | succ n ih =>
    unfold hysteresis_highloop
    by_cases h : (r : Int) < mm - 1 ∧ ∑ i in Finset.range r, hist ((i + 1 : Nat) : Int) < hc
    · rw [if_pos h]
      have e : ∑ i in Finset.range r, hist ((i + 1 : Nat) : Int) + hist ((r : Int) + 1)
          = ∑ i in Finset.range (r + 1), hist ((i + 1 : Nat) : Int) := by
        rw [Finset.sum_range_succ]
        push_cast
        rfl
      have e' : ((r : Int) + 1) = ((r + 1 : Nat) : Int) := by push_cast; rfl
      rw [e, e']
      obtain ⟨H, h1, h2, h3, h4, h5⟩ := ih (r + 1) (by push_cast at hn ⊢; omega)
        (by
          intro k hk1 hk2
          by_cases hk : k < r
          · exact hbelow k hk1 hk
          · have : k = r := by omega
            rw [this]
            exact h.2)
      refine ⟨H, h1, by omega, ?_, h4, h5⟩
      have m1 : max ((r + 1 : Nat) : Int) (mm - 1) = mm - 1 := max_eq_right (by push_cast; omega)
      have m2 : max (r : Int) (mm - 1) = mm - 1 := max_eq_right (by omega)
      rw [m1] at h3
      rw [m2]
      exact h3
    · rw [if_neg h]
      refine ⟨r, rfl, le_refl _, le_max_left _ _, hbelow, ?_⟩
      intro h1
      by_contra h2
      exact h ⟨h1, lt_of_not_le h2⟩

/-- What `apply_hysteresis` computes from a histogram with a non-zero bin
above index 0, in terms of the highest non-zero bin `M`. -/
theorem hysteresis_thresholds_first {K : Type} [LinearOrderedField K] [FloorRing K]
    (hist : Int → Int) (tlow thigh : K) (mm0 : Int)
    (hne : ∃ b : Int, 1 ≤ b ∧ b < 32768 ∧ hist b ≠ 0) :
    ∃ M H : Nat, 1 ≤ M ∧ M < 32768 ∧ hist (M : Int) ≠ 0 ∧
      (∀ b : Int, (M : Int) < b → b < 32768 → hist b = 0) ∧
      (hysteresis_numedges hist mm0).1 = (M : Int) ∧
      (hysteresis_numedges hist mm0).2
        = ∑ i in Finset.range 32767, hist ((i + 1 : Nat) : Int) ∧
      (hysteresis_thresholds hist tlow thigh mm0).2 = (H : Int) ∧
      1 ≤ H ∧ H ≤ max 1 (M - 1) ∧
      (∀ k : Nat, 1 ≤ k → k < H → ∑ i in Finset.range k, hist ((i + 1 : Nat) : Int)
        < roundProd (∑ i in Finset.range 32767, hist ((i + 1 : Nat) : Int)) thigh) ∧
      (H + 1 < M →
        roundProd (∑ i in Finset.range 32767, hist ((i + 1 : Nat) : Int)) thigh
          ≤ ∑ i in Finset.range H, hist ((i + 1 : Nat) : Int)) ∧
      (hysteresis_thresholds hist tlow thigh mm0).1 = roundProd (H : Int) tlow := by
  have hsnd : (hysteresis_numedges hist mm0).2
      = ∑ i in Finset.range 32767, hist ((i + 1 : Nat) : Int) := by
    rw [hysteresis_numedges_snd]
    apply Finset.sum_congr rfl
    intro i _
    rw [Nat.add_comm]
  rcases hysteresis_numedges_fst hist mm0 with ⟨_, h0⟩ | ⟨a1, a2, a3, a4⟩
  · obtain ⟨b, b1, b2, b3⟩ := hne
    exact absurd (h0 b b1 b2) b3
  · obtain ⟨M, hM⟩ := Int.eq_ofNat_of_zero_le (show 0 ≤ (hysteresis_numedges hist mm0).1 by omega)
    rw [hM] at a1 a2 a3 a4
    have e1 : ∑ i in Finset.range 1, hist ((i + 1 : Nat) : Int) = hist 1 := by
      simp
    obtain ⟨H, h1, h2, h3, h4, h5⟩ := hysteresis_highloop_first hist (M : Int)
      (roundProd (hysteresis_numedges hist mm0).2 thigh)
      ((M : Int) - 2).toNat 1 (by push_cast; omega)
      (by intro k hk1 hk2; omega)
    rw [e1, Nat.cast_one] at h1
    have hhigh : (hysteresis_thresholds hist tlow thigh mm0).2 = (H : Int) := by
      rw [← h1]
      unfold hysteresis_thresholds
      simp only []
      rw [hM]
    refine ⟨M, H, by omega, by omega, a3, a4, hM, hsnd, hhigh, h2, ?_, ?_, ?_, ?_⟩
    · have : (H : Int) ≤ max 1 ((M : Int) - 1) := by
        simpa using h3
      rcases le_max_iff.1 this with h | h
      · exact le_max_of_le_left (by omega)
      · exact le_max_of_le_right (by omega)
    · rw [← hsnd]
      exact h4
    · intro hlt
      rw [← hsnd]
      exact h5 (by omega)
    · rw [hysteresis_thresholds_low, hhigh]

/-- `(int)(n * x + 0.5)` for `n` and `x` that are not negative: the floor of
the `float` product plus one half. -/
theorem roundProd_eq_floor {K : Type} [LinearOrderedField K] [FloorRing K] (n : Int) (x : K)
    (hn : 0 ≤ n) (hx : 0 ≤ x) : roundProd n x = ⌊float32 (float32 (n : K) * x) + 0.5⌋ := by
  unfold roundProd
  apply truncCast_nonneg_eq
  have h1 : (0 : K) ≤ float32 ((n : K)) := float32_nonneg _ (by exact_mod_cast hn)
  have h2 : (0 : K) ≤ float32 (float32 ((n : K)) * x) := float32_nonneg _ (mul_nonneg h1 hx)
  linarith [show (0 : K) < 0.5 by norm_num]

/-- C14 (amended): for every histogram of non-negative counts with a non-zero
bin above index 0 and every `thigh`, `tlow` in (0,1], with `M` the highest
non-zero bin: `numedges = hist[1] + ... + hist[32767]`,
`highcount = floor(fl(numedges*thigh) + 0.5)`, where `fl` is the `float`
product (`numedges` converted to `float`, the product rounded to `float`),
`highthreshold` is the first index `H ≥ 1` at which the running total
`hist[1] + ... + hist[H]` reaches `highcount`, or `max(1, M - 1)` (one below
the highest non-zero bin) if that index comes first, and
`lowthreshold = floor(fl(highthreshold*tlow) + 0.5)`. -/
theorem hysteresis_thresholds_scan {K : Type} [LinearOrderedField K] [FloorRing K]
    (hist : Int → Int) (tlow thigh : K) (mm0 : Int)
    (hne : ∃ b : Int, 1 ≤ b ∧ b < 32768 ∧ hist b ≠ 0) (hpos : ∀ b, 0 ≤ hist b)
    (hth : 0 < thigh ∧ thigh ≤ 1) (htl : 0 < tlow ∧ tlow ≤ 1) :
    ∃ M H : Nat, 1 ≤ M ∧ M < 32768 ∧ hist (M : Int) ≠ 0 ∧
      (∀ b : Int, (M : Int) < b → b < 32768 → hist b = 0) ∧
      (hysteresis_numedges hist mm0).2
        = ∑ i in Finset.range 32767, hist ((i + 1 : Nat) : Int) ∧
      (hysteresis_thresholds hist tlow thigh mm0).2 = (H : Int) ∧
      1 ≤ H ∧ H ≤ max 1 (M - 1) ∧
      (∀ k : Nat, 1 ≤ k → k < H → ∑ i in Finset.range k, hist ((i + 1 : Nat) : Int)
        < ⌊float32 (float32 ((∑ i in Finset.range 32767, hist ((i + 1 : Nat) : Int) : Int) : K)
            * thigh) + 0.5⌋) ∧
      (H + 1 < M →
        ⌊float32 (float32 ((∑ i in Finset.range 32767, hist ((i + 1 : Nat) : Int) : Int) : K)
            * thigh) + 0.5⌋
          ≤ ∑ i in Finset.range H, hist ((i + 1 : Nat) : Int)) ∧
      (hysteresis_thresholds hist tlow thigh mm0).1
        = ⌊float32 (float32 ((H : Int) : K) * tlow) + 0.5⌋ := by
  obtain ⟨M, H, h1, h2, h3, h4, _, h6, h7, h8, h9, h10, h11, h12⟩ :=
    hysteresis_thresholds_first hist tlow thigh mm0 hne
  have hsum : (0 : Int) ≤ ∑ i in Finset.range 32767, hist ((i + 1 : Nat) : Int) :=
    Finset.sum_nonneg (fun i _ => hpos _)
  rw [roundProd_eq_floor _ _ hsum hth.1.le] at h10 h11
  rw [roundProd_eq_floor _ _ (Int.natCast_nonneg H) htl.1.le] at h12
  exact ⟨M, H, h1, h2, h3, h4, h6, h7, h8, h9, h10, h11, h12⟩

theorem hysteresis_thresholds_scan_witness :
    (∃ b : Int, 1 ≤ b ∧ b < 32768 ∧ (fun j : Int => if j = 3 then (2 : Int) else 0) b ≠ 0) ∧
    (∀ b, 0 ≤ (fun j : Int => if j = 3 then (2 : Int) else 0) b) ∧
    ((0 : ℚ) < 3 / 4 ∧ (3 / 4 : ℚ) ≤ 1) ∧ ((0 : ℚ) < 1 / 4 ∧ (1 / 4 : ℚ) ≤ 1) ∧
    ∃ M H : Nat, 1 ≤ M ∧ M < 32768 ∧ (fun j : Int => if j = 3 then (2 : Int) else 0) (M : Int) ≠ 0 ∧
      (hysteresis_thresholds (fun j : Int => if j = 3 then (2 : Int) else 0) (1 / 4 : ℚ) (3 / 4)
        0).2 = (H : Int) ∧ 1 ≤ H ∧ H ≤ max 1 (M - 1) :=
  have hne : ∃ b : Int, 1 ≤ b ∧ b < 32768 ∧ (fun j : Int => if j = 3 then (2 : Int) else 0) b ≠ 0 :=
    ⟨3, by decide, by decide, by decide⟩
  have hpos : ∀ b, 0 ≤ (fun j : Int => if j = 3 then (2 : Int) else 0) b := by
    intro b
    show (0 : Int) ≤ if b = 3 then 2 else 0
    split <;> decide
  have h := hysteresis_thresholds_scan (fun j : Int => if j = 3 then (2 : Int) else 0)
    (1 / 4 : ℚ) (3 / 4) 0 hne hpos ⟨by norm_num, by norm_num⟩ ⟨by norm_num, by norm_num⟩
  ⟨hne, hpos, ⟨by norm_num, by norm_num⟩, ⟨by norm_num, by norm_num⟩,
    h.elim (fun M hM => hM.elim (fun H hH =>
      ⟨M, H, hH.1, hH.2.1, hH.2.2.1, hH.2.2.2.2.2.1, hH.2.2.2.2.2.2.1, hH.2.2.2.2.2.2.2.1⟩))⟩

/-- The `float` product of 5 and `0.7f = 11744051/2^24`: the exact product
`3.49999994...` is rounded to `3.5`, and `(int)(3.5 + 0.5)` is 4. -/
theorem roundProd_five_thigh : roundProd 5 (11744051 / 16777216 : ℚ) = 4 := by
  unfold roundProd
  rw [float32_intCast 5 (by decide)]
  have e : ((5 : Int) : ℚ) * (11744051 / 16777216) = 58720255 / 16777216 := by norm_num
  rw [e, float32_of_exponent (58720255 / 16777216 : ℚ) 1 (by decide) (by norm_num)
    (by norm_num) (by norm_num)]
  have e2 : roundHalfEven ((58720255 / 16777216 : ℚ) / (2 : ℚ) ^ ((1 : Int) - 23)) = 14680064 := by
    apply roundHalfEven_of_lt
    · norm_num
    · norm_num
  rw [e2]
  apply truncCast_eq_of_bounds _ 4 (by decide)
  · norm_num
  · norm_num

/-- C14 as stated fails in three ways.  (a) For the histogram whose only
non-zero bin is `hist[10] = 1`, with `thigh = 1` and `tlow = 1/2`,
`round(numedges*thigh)` is 1 and the running total reaches it at the bin 10,
which is also the highest non-zero bin, but `highthreshold` is 9, where the
running total is still 0 and the bin is empty.  (b) For the histogram
`hist[1] = 3`, `hist[2] = 1`, `hist[3] = 1` with `thigh = 0.7f = 11744051/2^24`
and `tlow = 1/2`, `round(numedges*thigh) = round(3.4999999...)` is 3 and the
running total reaches it at the bin 1, but the `float` product is `3.5`,
`highcount` is 4 and `highthreshold` is 2.  (c) For the histogram
`hist[5] = 1`, `hist[7] = 1` with `thigh = 1/2` and `tlow = 0.7f`,
`highthreshold` is 5, as the claim says (`round(numedges*thigh)` is 1 and the
running total reaches it at the bin 5), but `lowthreshold` is 4, while
`round(highthreshold*tlow) = round(3.4999999...)` is 3. -/
theorem hysteresis_thresholds_scan_counterexample :
    ((hysteresis_thresholds (fun j : Int => if j = 10 then (1 : Int) else 0) (1 / 2 : ℚ) 1 0).2 = 9 ∧
      (fun j : Int => if j = 10 then (1 : Int) else 0) 9 = 0 ∧
      (fun j : Int => if j = 10 then (1 : Int) else 0) 10 = 1 ∧
      (∀ b : Int, 10 < b → (fun j : Int => if j = 10 then (1 : Int) else 0) b = 0) ∧
      ⌊((∑ i in Finset.range 32767,
          (fun j : Int => if j = 10 then (1 : Int) else 0) ((i + 1 : Nat) : Int) : Int) : ℚ) * 1
          + 1 / 2⌋ = 1 ∧
      (∀ k : Nat, k < 10 → ∑ i in Finset.range k,
          (fun j : Int => if j = 10 then (1 : Int) else 0) ((i + 1 : Nat) : Int) = 0)) ∧
    ((hysteresis_thresholds
          (fun j : Int => if j = 1 then (3 : Int) else if j = 2 ∨ j = 3 then 1 else 0)
          (1 / 2 : ℚ) (11744051 / 16777216) 0).2 = 2 ∧
      ⌊((∑ i in Finset.range 32767,
          (fun j : Int => if j = 1 then (3 : Int) else if j = 2 ∨ j = 3 then 1 else 0)
            ((i + 1 : Nat) : Int) : Int) : ℚ) * (11744051 / 16777216) + 1 / 2⌋ = 3 ∧
      ∑ i in Finset.range 1,
          (fun j : Int => if j = 1 then (3 : Int) else if j = 2 ∨ j = 3 then 1 else 0)
            ((i + 1 : Nat) : Int) = 3) ∧
    ((hysteresis_thresholds (fun j : Int => if j = 5 ∨ j = 7 then (1 : Int) else 0)
          (11744051 / 16777216 : ℚ) (1 / 2) 0) = (4, 5) ∧
      ⌊((∑ i in Finset.range 32767,
          (fun j : Int => if j = 5 ∨ j = 7 then (1 : Int) else 0)
            ((i + 1 : Nat) : Int) : Int) : ℚ) * (1 / 2) + 1 / 2⌋ = 1 ∧
      ∑ i in Finset.range 4,
          (fun j : Int => if j = 5 ∨ j = 7 then (1 : Int) else 0) ((i + 1 : Nat) : Int) = 0 ∧
      ∑ i in Finset.range 5,
          (fun j : Int => if j = 5 ∨ j = 7 then (1 : Int) else 0) ((i + 1 : Nat) : Int) = 1 ∧
      ⌊((5 : Int) : ℚ) * (11744051 / 16777216) + 1 / 2⌋ = 3) := by
  refine ⟨?_, ?_, ?_⟩
  · have hsum : ∑ i in Finset.range 32767,
        (fun j : Int => if j = 10 then (1 : Int) else 0) ((i + 1 : Nat) : Int) = 1 := by
      rw [Finset.sum_eq_single 9]
      · decide
      · intro b _ hb
        have : ¬ (((b + 1 : Nat) : Int) = 10) := by omega
        simp only [this, if_false]
      · intro h
        exact absurd (Finset.mem_range.2 (by norm_num)) h
    have hrun : ∀ k : Nat, k < 10 → ∑ i in Finset.range k,
        (fun j : Int => if j = 10 then (1 : Int) else 0) ((i + 1 : Nat) : Int) = 0 := by
      intro k hk
      apply Finset.sum_eq_zero
      intro i hi
      have hi' := Finset.mem_range.1 hi
      have : ¬ (((i + 1 : Nat) : Int) = 10) := by omega
      simp only [this, if_false]
    have hc : roundProd (∑ i in Finset.range 32767,
          (fun j : Int => if j = 10 then (1 : Int) else 0) ((i + 1 : Nat) : Int)) (1 : ℚ) = 1 := by
      rw [hsum]
      exact roundProd_of_int 1 1 1 (by decide) (by decide) (by decide) (by norm_num)
    have hfl : ⌊((∑ i in Finset.range 32767,
          (fun j : Int => if j = 10 then (1 : Int) else 0) ((i + 1 : Nat) : Int) : Int) : ℚ) * 1
          + 1 / 2⌋ = 1 := by
      rw [hsum, Int.floor_eq_iff]
      norm_num
    obtain ⟨M, H, _, _, m3, _, _, _, h7, h8, h9, _, h11, _⟩ :=
      hysteresis_thresholds_first (fun j : Int => if j = 10 then (1 : Int) else 0) (1 / 2 : ℚ) 1 0
        ⟨10, by decide, by decide, by decide⟩
    have hM : M = 10 := by
      by_contra hne
      apply m3
      have : ¬ ((M : Int) = 10) := by omega
      simp only [this, if_false]
    subst hM
    rw [hc] at h11
    have hH : H = 9 := by
      have u : H ≤ 9 := by simpa using h9
      by_contra hne
      have := h11 (by omega)
      rw [hrun H (by omega)] at this
      exact absurd this (by decide)
    subst hH
    refine ⟨h7, by decide, by decide, ?_, hfl, hrun⟩
    intro b hb
    have : ¬ (b = 10) := by omega
    simp only [this, if_false]
  · have hpt : ∀ i ∈ Finset.range 32767,
        (fun j : Int => if j = 1 then (3 : Int) else if j = 2 ∨ j = 3 then 1 else 0)
          ((i + 1 : Nat) : Int)
        = (if i = 0 then 3 else 0) + (if i = 1 then 1 else 0) + (if i = 2 then 1 else 0) := by
      intro i _
      show (if ((i + 1 : Nat) : Int) = 1 then (3 : Int)
        else if ((i + 1 : Nat) : Int) = 2 ∨ ((i + 1 : Nat) : Int) = 3 then 1 else 0) = _
      rcases Nat.lt_or_ge i 3 with h | h
      · interval_cases i <;> decide
      · have a1 : ¬ (((i + 1 : Nat) : Int) = 1) := by omega
        have a2 : ¬ (((i + 1 : Nat) : Int) = 2 ∨ ((i + 1 : Nat) : Int) = 3) := by omega
        have b0 : ¬ (i = 0) := by omega
        have b1 : ¬ (i = 1) := by omega
        have b2 : ¬ (i = 2) := by omega
        rw [if_neg a1, if_neg a2, if_neg b0, if_neg b1, if_neg b2]
        rfl
    have hsum : ∑ i in Finset.range 32767,
        (fun j : Int => if j = 1 then (3 : Int) else if j = 2 ∨ j = 3 then 1 else 0)
          ((i + 1 : Nat) : Int) = 5 := by
      rw [Finset.sum_congr rfl hpt, Finset.sum_add_distrib, Finset.sum_add_distrib,
        Finset.sum_ite_eq', Finset.sum_ite_eq', Finset.sum_ite_eq',
        if_pos (Finset.mem_range.2 (by norm_num)), if_pos (Finset.mem_range.2 (by norm_num)),
        if_pos (Finset.mem_range.2 (by norm_num))]
      rfl
    have hrun1 : ∑ i in Finset.range 1,
        (fun j : Int => if j = 1 then (3 : Int) else if j = 2 ∨ j = 3 then 1 else 0)
          ((i + 1 : Nat) : Int) = 3 := by
      decide
    have hfl : ⌊((∑ i in Finset.range 32767,
          (fun j : Int => if j = 1 then (3 : Int) else if j = 2 ∨ j = 3 then 1 else 0)
            ((i + 1 : Nat) : Int) : Int) : ℚ) * (11744051 / 16777216) + 1 / 2⌋ = 3 := by
      rw [hsum, Int.floor_eq_iff]
      norm_num
    obtain ⟨M, H, _, _, m3, m4, _, _, h7, h8, h9, _, h11, _⟩ :=
      hysteresis_thresholds_first
        (fun j : Int => if j = 1 then (3 : Int) else if j = 2 ∨ j = 3 then 1 else 0)
        (1 / 2 : ℚ) (11744051 / 16777216) 0 ⟨1, by decide, by decide, by decide⟩
    have hM : M = 3 := by
      have hle : M ≤ 3 := by
        by_contra hgt
        apply m3
        show (if (M : Int) = 1 then (3 : Int)
          else if (M : Int) = 2 ∨ (M : Int) = 3 then 1 else 0) = 0
        rw [if_neg (by omega), if_neg (by omega)]
      by_contra hne
      have := m4 3 (by omega) (by decide)
      exact absurd this (by decide)
    subst hM
    rw [hsum, roundProd_five_thigh] at h11
    have hH : H = 2 := by
      have u : H ≤ 2 := by simpa using h9
      by_contra hne
      have hH1 : H = 1 := by omega
      subst hH1
      have := h11 (by decide)
      rw [hrun1] at this
      exact absurd this (by decide)
    subst hH
    exact ⟨h7, hfl, hrun1⟩
  · have hpt : ∀ i ∈ Finset.range 32767,
        (fun j : Int => if j = 5 ∨ j = 7 then (1 : Int) else 0) ((i + 1 : Nat) : Int)
        = (if i = 4 then 1 else 0) + (if i = 6 then 1 else 0) := by
      intro i _
      show (if ((i + 1 : Nat) : Int) = 5 ∨ ((i + 1 : Nat) : Int) = 7 then (1 : Int) else 0) = _
      rcases Nat.lt_or_ge i 7 with h | h
      · interval_cases i <;> decide
      · have a1 : ¬ (((i + 1 : Nat) : Int) = 5 ∨ ((i + 1 : Nat) : Int) = 7) := by omega
        have b0 : ¬ (i = 4) := by omega
        have b1 : ¬ (i = 6) := by omega
        rw [if_neg a1, if_neg b0, if_neg b1]
        rfl
    have hsum : ∑ i in Finset.range 32767,
        (fun j : Int => if j = 5 ∨ j = 7 then (1 : Int) else 0) ((i + 1 : Nat) : Int) = 2 := by
      rw [Finset.sum_congr rfl hpt, Finset.sum_add_distrib,
        Finset.sum_ite_eq', Finset.sum_ite_eq',
        if_pos (Finset.mem_range.2 (by norm_num)), if_pos (Finset.mem_range.2 (by norm_num))]
      rfl
    have hrun4 : ∑ i in Finset.range 4,
        (fun j : Int => if j = 5 ∨ j = 7 then (1 : Int) else 0) ((i + 1 : Nat) : Int) = 0 := by
      decide
    have hrun5 : ∑ i in Finset.range 5,
        (fun j : Int => if j = 5 ∨ j = 7 then (1 : Int) else 0) ((i + 1 : Nat) : Int) = 1 := by
      decide
    have hrun : ∀ k : Nat, k < 5 → ∑ i in Finset.range k,
        (fun j : Int => if j = 5 ∨ j = 7 then (1 : Int) else 0) ((i + 1 : Nat) : Int) = 0 := by
      intro k hk
      apply Finset.sum_eq_zero
      intro i hi
      have hi' := Finset.mem_range.1 hi
      show (if ((i + 1 : Nat) : Int) = 5 ∨ ((i + 1 : Nat) : Int) = 7 then (1 : Int) else 0) = 0
      rw [if_neg (by omega)]
    have hfl : ⌊((∑ i in Finset.range 32767,
          (fun j : Int => if j = 5 ∨ j = 7 then (1 : Int) else 0)
            ((i + 1 : Nat) : Int) : Int) : ℚ) * (1 / 2) + 1 / 2⌋ = 1 := by
      rw [hsum, Int.floor_eq_iff]
      norm_num
    have hfl5 : ⌊((5 : Int) : ℚ) * (11744051 / 16777216) + 1 / 2⌋ = 3 := by
      rw [Int.floor_eq_iff]
      norm_num
    have hc : roundProd 2 (1 / 2 : ℚ) = 1 :=
      roundProd_of_int 2 (1 / 2) 1 (by decide) (by decide) (by decide) (by norm_num)
    obtain ⟨M, H, _, _, m3, m4, _, _, h7, h8, h9, h10, h11, h12⟩ :=
      hysteresis_thresholds_first
        (fun j : Int => if j = 5 ∨ j = 7 then (1 : Int) else 0)
        (11744051 / 16777216 : ℚ) (1 / 2) 0 ⟨5, by decide, by decide, by decide⟩
    have hM : M = 7 := by
      have hle : M ≤ 7 := by
        by_contra hgt
        apply m3
        show (if (M : Int) = 5 ∨ (M : Int) = 7 then (1 : Int) else 0) = 0
        rw [if_neg (by omega)]
      by_contra hne
      have := m4 7 (by omega) (by decide)
      exact absurd this (by decide)
    subst hM
    rw [hsum, hc] at h10 h11
    have hH : H = 5 := by
      have u : H ≤ 6 := by simpa using h9
      by_contra hne
      rcases Nat.lt_or_ge H 5 with hlt | hge
      · have := h11 (by omega)
        rw [hrun H hlt] at this
        exact absurd this (by decide)
      · have := h10 5 (by decide) (by omega)
        rw [hrun5] at this
        exact absurd this (by decide)
    subst hH
    have hlow : (hysteresis_thresholds (fun j : Int => if j = 5 ∨ j = 7 then (1 : Int) else 0)
        (11744051 / 16777216 : ℚ) (1 / 2) 0).1 = 4 := by
      rw [h12]
      exact roundProd_five_thigh
    exact ⟨Prod.ext hlow h7, hfl, hrun4, hrun5, hfl5⟩

/-- The weights of `make_gaussian_kernel` without the factor
`1/(sigma*sqrt(6.2831853))`, which the normalisation cancels. -/
theorem make_gaussian_kernel_ratio {K : Type} [LinearOrderedField K] [FloorRing K]
    (powf : K → K → K) (sqrtf : K → K) (sigma : K)
    (hs : 0 < sigma) (hsqrt : 0 < sqrtf 6.2831853) (j : Int) (h0 : 0 ≤ j)
    (h1 : j < windowsize sigma) :
    (make_gaussian_kernel powf sqrtf sigma).1 j
      = powf 2.71828 (-0.5 * (((j.toNat : Int) - Int.tdiv (windowsize sigma) 2 : Int) : K)
            * (((j.toNat : Int) - Int.tdiv (windowsize sigma) 2 : Int) : K) / (sigma * sigma))
        / ∑ i in Finset.range (windowsize sigma).toNat,
            powf 2.71828 (-0.5 * (((i : Int) - Int.tdiv (windowsize sigma) 2 : Int) : K)
              * (((i : Int) - Int.tdiv (windowsize sigma) 2 : Int) : K) / (sigma * sigma)) := by
  rw [make_gaussian_kernel_apply powf sqrtf sigma j h0 h1]
  have hA : sigma * sqrtf 6.2831853 ≠ 0 := ne_of_gt (mul_pos hs hsqrt)
  unfold gaussFx
  simp only []
  rw [← Finset.sum_div, div_div_div_cancel_right₀ hA]

/-- C15 (amended): for every `sigma > 0` and every index `i` below
`windowsize`, the weight `kernel[i]` of `make_gaussian_kernel`, in exact real
arithmetic with the real power and square root, is `g(i-center)` divided by
the sum of the `g(j-center)`, where
`g(x) = 2.71828^(-0.5*x^2/sigma^2)/(sigma*sqrt(6.2831853))` is the Gaussian
density with the constants of the code in the place of `e` and `2*pi`, and
`center = windowsize/2`; the factor `1/(sigma*sqrt(6.2831853))` cancels. -/
theorem make_gaussian_kernel_weights (sigma : ℝ) (hs : 0 < sigma) (i : Nat)
    (hi : (i : Int) < windowsize sigma) :
    (make_gaussian_kernel (fun x y : ℝ => x ^ y) Real.sqrt sigma).1 (i : Int)
      = ((2.71828 : ℝ) ^ (-0.5 * (((i : Int) - Int.tdiv (windowsize sigma) 2 : Int) : ℝ)
            * (((i : Int) - Int.tdiv (windowsize sigma) 2 : Int) : ℝ) / (sigma * sigma))
          / (sigma * Real.sqrt 6.2831853))
        / ∑ j in Finset.range (windowsize sigma).toNat,
            ((2.71828 : ℝ) ^ (-0.5 * (((j : Int) - Int.tdiv (windowsize sigma) 2 : Int) : ℝ)
              * (((j : Int) - Int.tdiv (windowsize sigma) 2 : Int) : ℝ) / (sigma * sigma))
            / (sigma * Real.sqrt 6.2831853)) ∧
    (make_gaussian_kernel (fun x y : ℝ => x ^ y) Real.sqrt sigma).1 (i : Int)
      = (2.71828 : ℝ) ^ (-0.5 * (((i : Int) - Int.tdiv (windowsize sigma) 2 : Int) : ℝ)
            * (((i : Int) - Int.tdiv (windowsize sigma) 2 : Int) : ℝ) / (sigma * sigma))
        / ∑ j in Finset.range (windowsize sigma).toNat,
            (2.71828 : ℝ) ^ (-0.5 * (((j : Int) - Int.tdiv (windowsize sigma) 2 : Int) : ℝ)
              * (((j : Int) - Int.tdiv (windowsize sigma) 2 : Int) : ℝ) / (sigma * sigma)) := by
  constructor
  · have h := make_gaussian_kernel_apply (fun x y : ℝ => x ^ y) Real.sqrt sigma (i : Int)
      (Int.natCast_nonneg i) hi
    rw [h, Int.toNat_natCast]
    rfl
  · have h := make_gaussian_kernel_ratio (fun x y : ℝ => x ^ y) Real.sqrt sigma hs
      (Real.sqrt_pos.2 (by norm_num)) (i : Int) (Int.natCast_nonneg i) hi
    rw [Int.toNat_natCast] at h
    exact h

theorem make_gaussian_kernel_weights_witness :
    (0 : ℝ) < 1 / 4 ∧ ((1 : Nat) : Int) < windowsize (1 / 4 : ℝ) ∧
    (make_gaussian_kernel (fun x y : ℝ => x ^ y) Real.sqrt (1 / 4)).1 ((1 : Nat) : Int)
      = (2.71828 : ℝ) ^ (-0.5 * ((((1 : Nat) : Int) - Int.tdiv (windowsize (1 / 4 : ℝ)) 2 : Int) : ℝ)
            * ((((1 : Nat) : Int) - Int.tdiv (windowsize (1 / 4 : ℝ)) 2 : Int) : ℝ)
            / ((1 / 4 : ℝ) * (1 / 4)))
        / ∑ j in Finset.range (windowsize (1 / 4 : ℝ)).toNat,
            (2.71828 : ℝ) ^ (-0.5 * (((j : Int) - Int.tdiv (windowsize (1 / 4 : ℝ)) 2 : Int) : ℝ)
              * (((j : Int) - Int.tdiv (windowsize (1 / 4 : ℝ)) 2 : Int) : ℝ)
              / ((1 / 4 : ℝ) * (1 / 4))) :=
  have hw : ((1 : Nat) : Int) < windowsize (1 / 4 : ℝ) := by
    have := windowsize_ge_three (1 / 4 : ℝ) (by norm_num)
    have e : ((1 : Nat) : Int) = 1 := rfl
    omega
  ⟨by norm_num, hw, (make_gaussian_kernel_weights (1 / 4) (by norm_num) 1 hw).2⟩

theorem code_base_lt_exp_one : (2.71828 : ℝ) < Real.exp 1 :=
  lt_trans (by norm_num) Real.exp_one_gt_d9

/-- A negative power of the constant 2.71828 of the code is above the same
power of `e`. -/
theorem code_pow_gt_exp (t : ℝ) (ht : 0 < t) : Real.exp (-t) < (2.71828 : ℝ) ^ (-t) := by
  have hb : (0 : ℝ) < 2.71828 := by norm_num
  rw [Real.rpow_def_of_pos hb]
  apply Real.exp_lt_exp.2
  have hlog : Real.log 2.71828 < 1 := by
    have := Real.log_lt_log hb code_base_lt_exp_one
    rwa [Real.log_exp] at this
  nlinarith

/-- The cells of the border of the image, in pixel coordinates. -/
theorem borderPos_pixel (rows cols r c : Nat) (hr : r < rows) (hc : c < cols) :
    borderPos rows cols ((r : Int) * cols + c) ↔ r = 0 ∨ r + 1 = rows ∨ c = 0 ∨ c + 1 = cols := by
  unfold borderPos
  constructor
  · rintro (⟨c', hc', h | h⟩ | ⟨r', _, h | h⟩)
    · have e : (r : Int) * cols + c = ((0 : Nat) : Int) * cols + c' := by
        rw [h]; push_cast; ring
      exact Or.inl (pixel_coords_unique cols r c 0 c' hc hc' e).1
    · have e : (r : Int) * cols + c = ((rows - 1 : Nat) : Int) * cols + c' := by
        rw [h]
        have : ((rows - 1 : Nat) : Int) = (rows : Int) - 1 := by omega
        rw [this]
      have := (pixel_coords_unique cols r c (rows - 1) c' hc hc' e).1
      exact Or.inr (Or.inl (by omega))
    · have e : (r : Int) * cols + c = (r' : Int) * cols + ((0 : Nat) : Int) := by
        rw [h]; push_cast; ring
      exact Or.inr (Or.inr (Or.inl (pixel_coords_unique cols r c r' 0 hc (by omega) e).2))
    · have e : (r : Int) * cols + c = (r' : Int) * cols + ((cols - 1 : Nat) : Int) := by
        rw [h]
        have : ((cols - 1 : Nat) : Int) = (cols : Int) - 1 := by omega
        rw [this]; ring
      have := (pixel_coords_unique cols r c r' (cols - 1) hc (by omega) e).2
      exact Or.inr (Or.inr (Or.inr (by omega)))
  · rintro (h | h | h | h)
    · subst h
      exact Or.inl ⟨c, hc, Or.inl (by push_cast; ring)⟩
    · refine Or.inl ⟨c, hc, Or.inr ?_⟩
      have : (r : Int) = (rows : Int) - 1 := by omega
      rw [this]
    · subst h
      exact Or.inr ⟨r, hr, Or.inl (by push_cast; ring)⟩
    · refine Or.inr ⟨r, hr, Or.inr ?_⟩
      have : (c : Int) = (cols : Int) - 1 := by omega
      rw [this]; ring

/-- The cells a worker visits in `apply_hysteresis`, in pixel coordinates,
when the worker count divides `rows`: the pixels of its rows. -/
theorem ownPos_pixel (rows cols rank size r c : Nat) (hs : 1 ≤ size) (hd : size ∣ rows)
    (hc : c < cols) :
    ownPos rows cols rank size ((r : Int) * cols + c)
      ↔ lo rank rows size ≤ r ∧ r < hi rank rows size := by
  rw [ownPos_of_dvd rows cols rank size hs hd]
  constructor
  · rintro ⟨h1, h2⟩
    have h1' : lo rank rows size * cols ≤ r * cols + c := by exact_mod_cast h1
    have h2' : r * cols + c < hi rank rows size * cols := by exact_mod_cast h2
    constructor
    · by_contra hlt
      have : (r + 1) * cols ≤ lo rank rows size * cols := Nat.mul_le_mul_right cols (by omega)
      rw [Nat.add_mul, Nat.one_mul] at this
      omega
    · by_contra hge
      have : hi rank rows size * cols ≤ r * cols := Nat.mul_le_mul_right cols (by omega)
      omega
  · rintro ⟨h1, h2⟩
    have a1 : lo rank rows size * cols ≤ r * cols := Nat.mul_le_mul_right cols h1
    have a2 : (r + 1) * cols ≤ hi rank rows size * cols := Nat.mul_le_mul_right cols (by omega)
    rw [Nat.add_mul, Nat.one_mul] at a2
    constructor
    · have : lo rank rows size * cols ≤ r * cols + c := by omega
      exact_mod_cast this
    · have : r * cols + c < hi rank rows size * cols := by omega
      exact_mod_cast this

/-- The seeded buffer of a worker, pixel by pixel, when the worker count
divides `rows`. -/
theorem hysteresis_seed_at (nms : Int → Nat) (rows cols rank size r c : Nat) (hs : 1 ≤ size)
    (hd : size ∣ rows) (hr : r < rows) (hc : c < cols) :
    hysteresis_seed nms rows cols rank size ((r : Int) * cols + c)
      = if r = 0 ∨ r + 1 = rows ∨ c = 0 ∨ c + 1 = cols then NOEDGE
        else if lo rank rows size ≤ r ∧ r < hi rank rows size then
          (if nms ((r : Int) * cols + c) = POSSIBLE_EDGE then POSSIBLE_EDGE else NOEDGE)
        else 0 := by
  rw [hysteresis_seed_apply]
  by_cases hb : r = 0 ∨ r + 1 = rows ∨ c = 0 ∨ c + 1 = cols
  · rw [if_pos ((borderPos_pixel rows cols r c hr hc).2 hb), if_pos hb]
  · rw [if_neg (fun h => hb ((borderPos_pixel rows cols r c hr hc).1 h)), if_neg hb]
    by_cases ho : lo rank rows size ≤ r ∧ r < hi rank rows size
    · rw [if_pos ((ownPos_pixel rows cols rank size r c hs hd hc).2 ho), if_pos ho]
    · rw [if_neg (fun h => ho ((ownPos_pixel rows cols rank size r c hs hd hc).1 h)), if_neg ho]

/-- C18 fails on the code: on the 4 × 5 image with magnitude 5 at the pixels
(1,1) and (0,3), 10 at (2,1) and 0 elsewhere, gradient (-3,-4) at (1,1),
(5,0) at (0,3), (10,0) at (2,1) and (0,0) elsewhere (one worker), the pixel
(1,2), cell 7, has magnitude 0 and is `POSSIBLE_EDGE` in the result of
`non_max_supp`: after storing `NOEDGE` the code goes on to the octant test
with the `gx`, `xperp`, `yperp` of the pixel (1,1) tested before it. -/
theorem non_max_supp_zero_magnitude :
    (fun j : Int => if j = 6 then (5 : Int) else if j = 3 then 5 else if j = 11 then 10 else 0) 7
      = 0 ∧
    non_max_supp (K := ℚ)
      (fun j => if j = 6 then 5 else if j = 3 then 5 else if j = 11 then 10 else 0)
      (fun j => if j = 6 then -3 else if j = 3 then 5 else if j = 11 then 10 else 0)
      (fun j => if j = 6 then -4 else 0) 4 5 1 (fun _ => ⟨0, 0, 0, 0⟩) (fun _ => 0) 7
      = POSSIBLE_EDGE := by
  decide!

/-- Invariant rule for the loops of `non_max_supp` as done by one worker, when
the worker count divides `nrows`, with an invariant that knows the pixel
about to be tested: `Q row col` is a property of the registers and the buffer
just before the pixel `(row, col)` is tested, `Q row (1 + (ncols-2-1))` holds
when the row `row` is done. -/
theorem non_max_supp_rank_scan {K : Type} [LinearOrderedField K]
    (mag gradx grady : Int → Int) (nrows ncols rank size : Nat) (regs0 : NmsRegs K)
    (hs : 1 ≤ size) (hd : size ∣ nrows)
    (Q : Nat → Nat → NmsRegs K × (Int → Nat) → Prop)
    (h0 : Q ((if rank = 0 then 1 else 0) + lo rank nrows size) 1 (regs0, fun _ => 0))
    (hstep : ∀ (row col : Nat) (w : NmsRegs K × (Int → Nat)),
      (if rank = 0 then 1 else 0) + lo rank nrows size ≤ row →
      row < hi rank nrows size - (if rank + 1 = size then 2 else 0) →
      1 ≤ col → col + 2 < ncols → Q row col w →
      Q row (col + 1)
        (nmsPixel mag gradx grady ncols ((row : Int) * ncols + col) ((row : Int) * ncols + col) w))
    (hrow : ∀ (row : Nat) (w : NmsRegs K × (Int → Nat)),
      (if rank = 0 then 1 else 0) + lo rank nrows size ≤ row →
      row < hi rank nrows size - (if rank + 1 = size then 2 else 0) →
      Q row (1 + (ncols - 2 - 1)) w → Q (row + 1) 1 w) :
    ∃ regs, Q ((if rank = 0 then 1 else 0) + lo rank nrows size
        + (hi rank nrows size - (if rank + 1 = size then 2 else 0)
          - ((if rank = 0 then 1 else 0) + lo rank nrows size))) 1
      (regs, non_max_supp_rank mag gradx grady nrows ncols rank size regs0) := by
  have hstart : (if rank = 0 then ((ncols + 1 : Nat) : Int)
      else ((ncols * rank * nrows / size + 1 : Nat) : Int))
      = (((if rank = 0 then 1 else 0) + lo rank nrows size : Nat) : Int) * ncols + 1 := by
    by_cases h : rank = 0
    · subst h
      simp [lo_zero]
    · rw [if_neg h, if_neg h]
      obtain ⟨q, rfl⟩ := hd
      have hsz : 0 < size := hs
      have e1 : ncols * rank * (size * q) / size = ncols * rank * q := by
        have : ncols * rank * (size * q) = size * (ncols * rank * q) := by ring
        rw [this, Nat.mul_div_cancel_left _ hsz]
      have e2 : lo rank (size * q) size = rank * q := by
        unfold lo
        have : rank * (size * q) = size * (rank * q) := by ring
        rw [this, Nat.mul_div_cancel_left _ hsz]
      rw [e1, e2]
      push_cast
      ring
  unfold non_max_supp_rank
  simp only []
  rw [hstart]
  have h := forLoop_inv
    (fun _ (st : Int × Int × NmsRegs K × (Int → Nat)) =>
      ((st.1 + ncols,
        (forLoop (fun _ (t : Int × Int × NmsRegs K × (Int → Nat)) =>
            (t.1 + 1, t.2.1 + 1, nmsPixel mag gradx grady ncols t.1 t.2.1 t.2.2))
          1 (ncols - 2 - 1) (st.1, st.2.1, st.2.2)).2.1 + 3,
        (forLoop (fun _ (t : Int × Int × NmsRegs K × (Int → Nat)) =>
            (t.1 + 1, t.2.1 + 1, nmsPixel mag gradx grady ncols t.1 t.2.1 t.2.2))
          1 (ncols - 2 - 1) (st.1, st.2.1, st.2.2)).2.2) :
        Int × Int × NmsRegs K × (Int → Nat)))
    (fun row st => (3 ≤ ncols → st.1 = (row : Int) * ncols + 1 ∧ st.2.1 = (row : Int) * ncols + 1)
      ∧ Q row 1 st.2.2)
    ((if rank = 0 then 1 else 0) + lo rank nrows size)
    (hi rank nrows size - (if rank + 1 = size then 2 else 0)
      - ((if rank = 0 then 1 else 0) + lo rank nrows size))
    ((((if rank = 0 then 1 else 0) + lo rank nrows size : Nat) : Int) * ncols + 1,
      (((if rank = 0 then 1 else 0) + lo rank nrows size : Nat) : Int) * ncols + 1,
      regs0, fun _ => 0)
    ⟨fun _ => ⟨rfl, rfl⟩, h0⟩
    (by
      rintro row st hr1 hr2 ⟨hpos, hq⟩
      have hin := forLoop_inv
        (fun _ (t : Int × Int × NmsRegs K × (Int → Nat)) =>
            ((t.1 + 1, t.2.1 + 1, nmsPixel mag gradx grady ncols t.1 t.2.1 t.2.2) :
              Int × Int × NmsRegs K × (Int → Nat)))
        (fun col t => (3 ≤ ncols → t.1 = (row : Int) * ncols + col
            ∧ t.2.1 = (row : Int) * ncols + col) ∧ Q row col t.2.2)
        1 (ncols - 2 - 1) (st.1, st.2.1, st.2.2)
        ⟨fun h3 => by simpa using hpos h3, hq⟩
        (by
          rintro col t hc1 hc2 ⟨htp, htq⟩
          have h3 : 3 ≤ ncols := by omega
          obtain ⟨e1, e2⟩ := htp h3
          refine ⟨fun _ => ⟨by simp only [e1]; push_cast; ring,
            by simp only [e2]; push_cast; ring⟩, ?_⟩
          show Q row (col + 1) (nmsPixel mag gradx grady ncols t.1 t.2.1 t.2.2)
          rw [e1, e2]
          exact hstep row col t.2.2 hr1 (by omega) hc1 (by omega) htq)
      refine ⟨fun h3 => ?_, hrow row _ hr1 (by omega) hin.2⟩
      obtain ⟨-, e2⟩ := hin.1 h3
      obtain ⟨e3, -⟩ := hpos h3
      constructor
      · show st.1 + (ncols : Int) = ((row + 1 : Nat) : Int) * ncols + 1
        rw [e3]; push_cast; ring
      · show _ + 3 = ((row + 1 : Nat) : Int) * ncols + 1
        rw [e2]
        have : ((1 + (ncols - 2 - 1) : Nat) : Int) = (ncols : Int) - 2 := by omega
        rw [this]; push_cast; ring)
  exact ⟨_, h.2⟩

/-- A pixel the worker tests holds, in the `tempbuffer` of `non_max_supp`,
what the body of the pixel loop stored when the pixel was tested. -/
theorem non_max_supp_rank_tested {K : Type} [LinearOrderedField K]
    (mag gradx grady : Int → Int) (nrows ncols rank size : Nat) (regs0 : NmsRegs K)
    (hs : 1 ≤ size) (hd : size ∣ nrows) (r c : Nat)
    (hr1 : (if rank = 0 then 1 else 0) + lo rank nrows size ≤ r)
    (hr2 : r < hi rank nrows size - (if rank + 1 = size then 2 else 0))
    (hc1 : 1 ≤ c) (hc2 : c + 2 < ncols) :
    ∃ w : NmsRegs K × (Int → Nat),
      non_max_supp_rank mag gradx grady nrows ncols rank size regs0 ((r : Int) * ncols + c)
        = (nmsPixel mag gradx grady ncols ((r : Int) * ncols + c) ((r : Int) * ncols + c) w).2
            ((r : Int) * ncols + c) := by
  have hfin : r < (if rank = 0 then 1 else 0) + lo rank nrows size
      + (hi rank nrows size - (if rank + 1 = size then 2 else 0)
        - ((if rank = 0 then 1 else 0) + lo rank nrows size)) := by
    generalize (if rank = 0 then 1 else 0) + lo rank nrows size = a at hr1 ⊢
    generalize hi rank nrows size - (if rank + 1 = size then 2 else 0) = b at hr2 ⊢
    omega
  obtain ⟨regs, h⟩ := non_max_supp_rank_scan mag gradx grady nrows ncols rank size regs0 hs hd
    (fun row col w => (r < row ∨ (row = r ∧ c < col)) →
      ∃ w' : NmsRegs K × (Int → Nat), w.2 ((r : Int) * ncols + c)
        = (nmsPixel mag gradx grady ncols ((r : Int) * ncols + c) ((r : Int) * ncols + c) w').2
            ((r : Int) * ncols + c))
    (by
      intro h
      omega)
    (by
      intro row col w _ _ _ h4 hq hlt
      by_cases e : row = r ∧ col = c
      · obtain ⟨rfl, rfl⟩ := e
        exact ⟨w, rfl⟩
      · have hne : (r : Int) * ncols + c ≠ (row : Int) * ncols + col := by
          intro heq
          have := pixel_coords_unique ncols r c row col (by omega) (by omega) heq
          exact e ⟨this.1.symm, this.2.symm⟩
        rw [nmsPixel_frame _ _ _ _ _ _ _ _ hne]
        apply hq
        omega)
    (by
      intro row w _ _ hq hlt
      apply hq
      omega)
  exact h (Or.inl hfin)

/-- With a non-zero centre magnitude the body of the pixel loop of
`non_max_supp` does not read the registers: it stores the result of the test
on `xperp = -gx/m00`, `yperp = gy/m00` of the pixel itself. -/
theorem nmsPixel_nonzero {K : Type} [LinearOrderedField K] (mag gradx grady : Int → Int)
    (ncols : Nat) (p : Int) (w : NmsRegs K × (Int → Nat)) (hm : mag p ≠ 0) :
    (nmsPixel mag gradx grady ncols p p w).2 p
      = nmsValue (nmsMags mag ncols p (mag p) (gradx p) (grady p)
          (((-gradx p : Int) : K) / (mag p : K)) ((grady p : K) / (mag p : K))) := by
  unfold nmsPixel
  simp only [setAt, if_true, if_neg hm]
  by_cases hx : gradx p ≥ 0
  · rw [if_pos hx, nmsMags_fin, nmsValueFloat_fin]
  · rw [if_neg hx, nmsMags_fin, nmsValueFloat_fin]

/-- The final test of `non_max_supp` on two numbers that are a positive
multiple of `A - m` and `B - m`. -/
theorem nmsValue_scaled {K : Type} [LinearOrderedField K] (g A B m : K) (hg : 0 < g) :
    (nmsValue (g * (A - m), g * (B - m)) = NOEDGE ↔ A > m ∨ B > m ∨ B = m) ∧
    (nmsValue (g * (A - m), g * (B - m)) = POSSIBLE_EDGE ↔ ¬ (A > m ∨ B > m ∨ B = m)) := by
  have h1 : g * (A - m) > 0 ↔ A > m := by
    constructor
    · intro h
      have := (mul_pos_iff_of_pos_left hg).1 h
      linarith
    · intro h
      exact mul_pos hg (by linarith)
  have h2 : g * (B - m) > 0 ↔ B > m := by
    constructor
    · intro h
      have := (mul_pos_iff_of_pos_left hg).1 h
      linarith
    · intro h
      exact mul_pos hg (by linarith)
  have h3 : g * (B - m) = 0 ↔ B = m := by
    constructor
    · intro h
      rcases mul_eq_zero.1 h with h | h
      · exact absurd h (ne_of_gt hg)
      · linarith
    · intro h
      rw [h, sub_self, mul_zero]
  unfold nmsValue
  simp only [h1, h2, h3]
  by_cases c1 : A > m ∨ B > m
  · rw [if_pos c1]
    have c2 : A > m ∨ B > m ∨ B = m := by
      rcases c1 with h | h
      · exact Or.inl h
      · exact Or.inr (Or.inl h)
    exact ⟨⟨fun _ => c2, fun _ => rfl⟩, ⟨fun h => absurd h (by decide), fun h => absurd c2 h⟩⟩
  · rw [if_neg c1]
    by_cases c3 : B = m
    · rw [if_pos c3]
      have c2 : A > m ∨ B > m ∨ B = m := Or.inr (Or.inr c3)
      exact ⟨⟨fun _ => c2, fun _ => rfl⟩, ⟨fun h => absurd h (by decide), fun h => absurd c2 h⟩⟩
    · rw [if_neg c3]
      have c2 : ¬ (A > m ∨ B > m ∨ B = m) := by
        rintro (h | h | h)
        · exact c1 (Or.inl h)
        · exact c1 (Or.inr h)
        · exact c3 h
      exact ⟨⟨fun h => absurd h (by decide), fun h => absurd h c2⟩, ⟨fun _ => c2, fun _ => rfl⟩⟩

/-- The merged result of `non_max_supp` at a pixel a worker tests is what the
body of the pixel loop stored there. -/
theorem non_max_supp_tested {K : Type} [LinearOrderedField K]
    (mag gradx grady : Int → Int) (nrows ncols rank size : Nat) (regs0 : Nat → NmsRegs K)
    (result : Int → Nat) (hs : 1 ≤ size) (hd : size ∣ nrows) (hrank : rank < size) (r c : Nat)
    (hr1 : (if rank = 0 then 1 else 0) + lo rank nrows size ≤ r)
    (hr2 : r < hi rank nrows size - (if rank + 1 = size then 2 else 0))
    (hc1 : 1 ≤ c) (hc2 : c + 2 < ncols) :
    ∃ w : NmsRegs K × (Int → Nat),
      non_max_supp mag gradx grady nrows ncols size regs0 result ((r : Int) * ncols + c)
        = (nmsPixel mag gradx grady ncols ((r : Int) * ncols + c) ((r : Int) * ncols + c) w).2
            ((r : Int) * ncols + c) := by
  obtain ⟨w, hw⟩ := non_max_supp_rank_tested mag gradx grady nrows ncols rank size (regs0 rank)
    hs hd r c hr1 hr2 hc1 hc2
  refine ⟨w, ?_⟩
  have hrow : r < nrows := by
    have := hi_le nrows size rank hs hrank
    omega
  have hown : lo rank nrows size ≤ r ∧ r < hi rank nrows size := by
    constructor <;> omega
  unfold non_max_supp allreduceUChar
  rw [if_pos (pixel_in_image nrows ncols r c hrow (by omega)), sumRanks_eq_sum,
    Finset.sum_eq_single rank]
  · beta_reduce
    rw [hw]
    rcases nmsPixel_value mag gradx grady ncols ((r : Int) * ncols + c) ((r : Int) * ncols + c) w
      with h | h
    · rw [h]; rfl
    · rw [h]; rfl
  · intro rank' _ hne
    apply non_max_supp_rank_untested mag gradx grady nrows ncols rank' size (regs0 rank') hs hd
    intro row col h1 h2 h3 h4 e
    obtain ⟨e1, _⟩ := pixel_coords_unique ncols r c row col (by omega) (by omega) e
    subst e1
    have hown' : lo rank' nrows size ≤ r ∧ r < hi rank' nrows size := by
      constructor <;> omega
    exact hne (owner_unique nrows size r rank' rank hown' hown)
  · intro h
    exact absurd (Finset.mem_range.2 hrank) h

/-- A pixel 8-adjacent to a non-border pixel is one of the eight cells
`follow_edges` looks at from it. -/
theorem neighbours8_offset (rows cols r c : Nat) (h4 : c + 1 < cols)
    (q : Int) (hq : neighbours8 rows cols ((r : Int) * cols + c) q) :
    ∃ i, i < 8 ∧ q = (r : Int) * cols + c - yoff i * (cols : Int) + xoff i := by
  obtain ⟨r1, c1, r2, c2, _, hc1, _, _, e1, e2, b1, b2, b3, b4, hne⟩ := hq
  obtain ⟨er, ec⟩ := pixel_coords_unique cols r c r1 c1 (by omega) hc1 e1
  subst er
  subst ec
  have hrc : r2 ≠ r ∨ c2 ≠ c := by
    by_contra h
    push_neg at h
    apply hne
    rw [e2, h.1, h.2]
  have x0 : xoff 0 = 1 := rfl
  have y0 : yoff 0 = 0 := rfl
  have x1 : xoff 1 = 1 := rfl
  have y1 : yoff 1 = 1 := rfl
  have x2 : xoff 2 = 0 := rfl
  have y2 : yoff 2 = 1 := rfl
  have x3 : xoff 3 = -1 := rfl
  have y3 : yoff 3 = 1 := rfl
  have x4 : xoff 4 = -1 := rfl
  have y4 : yoff 4 = 0 := rfl
  have x5 : xoff 5 = -1 := rfl
  have y5 : yoff 5 = -1 := rfl
  have x6 : xoff 6 = 0 := rfl
  have y6 : yoff 6 = -1 := rfl
  have x7 : xoff 7 = 1 := rfl
  have y7 : yoff 7 = -1 := rfl
  have hr : r2 + 1 = r ∨ r2 = r ∨ r2 = r + 1 := by omega
  have hc : c2 + 1 = c ∨ c2 = c ∨ c2 = c + 1 := by omega
  rcases hr with hr | hr | hr <;> rcases hc with hc | hc | hc
  · refine ⟨3, by decide, ?_⟩
    have a : (r : Int) = (r2 : Int) + 1 := by omega
    have b : (c : Int) = (c2 : Int) + 1 := by omega
    rw [e2, x3, y3, a, b]; ring
  · refine ⟨2, by decide, ?_⟩
    have a : (r : Int) = (r2 : Int) + 1 := by omega
    rw [e2, x2, y2, a, hc]; ring
  · refine ⟨1, by decide, ?_⟩
    have a : (r : Int) = (r2 : Int) + 1 := by omega
    have b : (c2 : Int) = (c : Int) + 1 := by omega
    rw [e2, x1, y1, a, b]; ring
  · refine ⟨4, by decide, ?_⟩
    have b : (c : Int) = (c2 : Int) + 1 := by omega
    rw [e2, x4, y4, hr, b]; ring
  · exact absurd hc (by omega)
  · refine ⟨0, by decide, ?_⟩
    have b : (c2 : Int) = (c : Int) + 1 := by omega
    rw [e2, x0, y0, hr, b]; ring
  · refine ⟨5, by decide, ?_⟩
    have a : (r2 : Int) = (r : Int) + 1 := by omega
    have b : (c : Int) = (c2 : Int) + 1 := by omega
    rw [e2, x5, y5, a, b]; ring
  · refine ⟨6, by decide, ?_⟩
    have a : (r2 : Int) = (r : Int) + 1 := by omega
    rw [e2, x6, y6, a, hc]; ring
  · refine ⟨7, by decide, ?_⟩
    have a : (r2 : Int) = (r : Int) + 1 := by omega
    have b : (c2 : Int) = (c : Int) + 1 := by omega
    rw [e2, x7, y7, a, b]; ring

/-- A magnitude above `lowthreshold` is above the `short` that `follow_edges`
receives for it, when `lowthreshold` is not below the range of `short`. -/
theorem below_lowval (low m : Int) (hlow : -32768 ≤ low) (h : m > low) : m > wrap16 low := by
  unfold wrap16
  omega

/-- `lowthreshold` is not negative when `tlow` is not. -/
theorem hysteresis_thresholds_low_nonneg {K : Type} [LinearOrderedField K] [FloorRing K]
    (hist : Int → Int) (tlow thigh : K) (mm : Int) (ht : 0 ≤ tlow) :
    0 ≤ (hysteresis_thresholds hist tlow thigh mm).1 := by
  rw [hysteresis_thresholds_low]
  have h1 := (hysteresis_thresholds_high hist tlow thigh mm).1
  exact roundProd_nonneg _ _ (by omega) ht

/-- With one worker, the final edge map in terms of the buffer the tracing
loop leaves: a pixel is `EDGE` exactly when it is `EDGE` in that buffer. -/
theorem apply_hysteresis_single_edge {K : Type} [LinearOrderedField K] [FloorRing K]
    (mag : Int → Int) (nms : Int → Nat) (rows cols : Nat) (tlow thigh : K)
    (mm0 : Nat → Int) (edge0 : Int → Nat) (tb : Int → Nat)
    (htb : hysteresis_trace (rows * cols + 1) mag (hysteresis_seed nms rows cols 0 1)
        rows cols 0 1
        (hysteresis_thresholds (hysteresis_hist mag nms rows cols 1) tlow thigh (mm0 0)).1
        (hysteresis_thresholds (hysteresis_hist mag nms rows cols 1) tlow thigh (mm0 0)).2
        = some tb) :
    ∃ edge, apply_hysteresis mag nms rows cols tlow thigh 1 mm0 edge0 = some edge ∧
      ∀ r c : Nat, r < rows → c < cols →
        (edge ((r : Int) * cols + c) = EDGE ↔ tb ((r : Int) * cols + c) = EDGE) ∧
        (edge ((r : Int) * cols + c) = EDGE ∨ edge ((r : Int) * cols + c) = NOEDGE) := by
  obtain ⟨edge, h1, h2⟩ := apply_hysteresis_single mag nms rows cols tlow thigh mm0 edge0 tb htb
  refine ⟨edge, h1, ?_⟩
  intro r c hr hc
  rw [h2 r c hr hc]
  by_cases e : tb ((r : Int) * cols + c) = EDGE
  · rw [if_neg (not_not.2 e), e]
    exact ⟨⟨fun _ => rfl, fun _ => rfl⟩, Or.inl rfl⟩
  · rw [if_pos e]
    exact ⟨⟨fun h => absurd h (by decide), fun h => absurd h e⟩, Or.inr rfl⟩

/-- C20: with a single worker, for every magnitude image, NMS map, `thigh`
and every `tlow ≥ 0` (the thresholds are documented as fractions between 0
and 1): rank 0 gets an edge map in which every seeded
`POSSIBLE_EDGE` pixel with magnitude at least `highthreshold` is `EDGE`, and
in which every seeded `POSSIBLE_EDGE` pixel with magnitude above
`lowthreshold` that is 8-adjacent to an `EDGE` pixel is `EDGE` too. -/
theorem hysteresis_single_closed {K : Type} [LinearOrderedField K] [FloorRing K]
    (mag : Int → Int) (nms : Int → Nat) (rows cols : Nat) (tlow thigh : K)
    (mm0 : Nat → Int) (edge0 : Int → Nat) (ht : 0 ≤ tlow) :
    ∃ edge, apply_hysteresis mag nms rows cols tlow thigh 1 mm0 edge0 = some edge ∧
      (∀ p : Int, hysteresis_seed nms rows cols 0 1 p = POSSIBLE_EDGE →
        mag p ≥ (hysteresis_thresholds (hysteresis_hist mag nms rows cols 1) tlow thigh
          (mm0 0)).2 → edge p = EDGE) ∧
      (∀ p q : Int, neighbours8 rows cols p q → edge p = EDGE →
        hysteresis_seed nms rows cols 0 1 q = POSSIBLE_EDGE →
        mag q > (hysteresis_thresholds (hysteresis_hist mag nms rows cols 1) tlow thigh
          (mm0 0)).1 → edge q = EDGE) := by
  obtain ⟨tb, t1, t2, t3, t4⟩ := hysteresis_trace_total (fun _ => True) mag nms rows cols 0 1
    (hysteresis_thresholds (hysteresis_hist mag nms rows cols 1) tlow thigh (mm0 0)).1
    (hysteresis_thresholds (hysteresis_hist mag nms rows cols 1) tlow thigh (mm0 0)).2
    (le_refl _) (by decide) (fun _ _ _ => trivial) (fun _ _ _ _ _ _ _ _ => trivial)
  obtain ⟨edge, e1, e2⟩ :=
    apply_hysteresis_single_edge mag nms rows cols tlow thigh mm0 edge0 tb t1
  have hlow := hysteresis_thresholds_low_nonneg (hysteresis_hist mag nms rows cols 1) tlow thigh
    (mm0 0) ht
  refine ⟨edge, e1, ?_, ?_⟩
  · intro p hp hm
    obtain ⟨r, c, rfl, _, _, _, _, _, _⟩ :=
      hysteresis_seed_interior nms rows cols 0 1 (le_refl _) (one_dvd _) (by decide) p hp
    exact (e2 r c (by omega) (by omega)).1.2 (t3 _ hp hm)
  · intro p q hpq hp hq hm
    obtain ⟨r1, c1, r2, c2, hr1, hc1, hr2, hc2, rfl, rfl, _⟩ := id hpq
    have tbp : tb ((r1 : Int) * cols + c1) = EDGE := (e2 r1 c1 hr1 hc1).1.1 hp
    have seedp : hysteresis_seed nms rows cols 0 1 ((r1 : Int) * cols + c1) = POSSIBLE_EDGE := by
      rcases t2 ((r1 : Int) * cols + c1) with h | ⟨h, _, _⟩
      · rw [tbp] at h
        have hs := hysteresis_seed_at nms rows cols 0 1 r1 c1 (le_refl _) (one_dvd _) hr1 hc1
        rw [← h] at hs
        exfalso
        by_cases hb : r1 = 0 ∨ r1 + 1 = rows ∨ c1 = 0 ∨ c1 + 1 = cols
        · rw [if_pos hb] at hs
          exact absurd hs (by decide)
        · have ho : lo 0 rows 1 ≤ r1 ∧ r1 < hi 0 rows 1 := by
            rw [lo_zero, hi_last rows 1 (le_refl _)]
            exact ⟨Nat.zero_le _, hr1⟩
          rw [if_neg hb, if_pos ho] at hs
          by_cases hn : nms ((r1 : Int) * cols + c1) = POSSIBLE_EDGE
          · rw [if_pos hn] at hs
            exact absurd hs (by decide)
          · rw [if_neg hn] at hs
            exact absurd hs (by decide)
      · exact h
    obtain ⟨r, c, er, _, _, _, h4, _, _⟩ :=
      hysteresis_seed_interior nms rows cols 0 1 (le_refl _) (one_dvd _) (by decide) _ seedp
    obtain ⟨e3, e4⟩ := pixel_coords_unique cols r1 c1 r c hc1 (by omega) er
    subst e3
    subst e4
    obtain ⟨i, hi8, hqi⟩ := neighbours8_offset rows cols r1 c1 h4 _ hpq
    have hcl := t4 _ seedp tbp i hi8
    rw [← hqi] at hcl
    have hmq := below_lowval _ _ (by omega) hm
    have tbq : tb ((r2 : Int) * cols + c2) = EDGE := by
      rcases t2 ((r2 : Int) * cols + c2) with h | ⟨_, h, _⟩
      · rw [hq] at h
        exact absurd ⟨h, hmq⟩ hcl
      · exact h
    exact (e2 r2 c2 hr2 hc2).1.2 tbq

/-- `highthreshold` does not depend on `tlow`. -/
theorem hysteresis_thresholds_snd_indep {K : Type} [LinearOrderedField K] [FloorRing K]
    (hist : Int → Int) (tlow tlow2 thigh : K) (mm : Int) :
    (hysteresis_thresholds hist tlow thigh mm).2 = (hysteresis_thresholds hist tlow2 thigh mm).2 := by
  unfold hysteresis_thresholds
  simp only []

theorem hysteresis_single_closed_witness :
    (0 : ℚ) ≤ 1 / 4 ∧
    ∃ edge, apply_hysteresis (fun j => if j = 4 then 7 else 0) (fun j => if j = 4 then 128 else 0)
        3 3 (1 / 4 : ℚ) (3 / 4) 1 (fun _ => 0) (fun _ => 0) = some edge ∧
      (∀ p : Int, hysteresis_seed (fun j => if j = 4 then 128 else 0) 3 3 0 1 p = POSSIBLE_EDGE →
        (fun j : Int => if j = 4 then (7 : Int) else 0) p
          ≥ (hysteresis_thresholds (hysteresis_hist (fun j => if j = 4 then 7 else 0)
              (fun j => if j = 4 then 128 else 0) 3 3 1) (1 / 4 : ℚ) (3 / 4)
              ((fun _ => 0) 0)).2 → edge p = EDGE) ∧
      (∀ p q : Int, neighbours8 3 3 p q → edge p = EDGE →
        hysteresis_seed (fun j => if j = 4 then 128 else 0) 3 3 0 1 q = POSSIBLE_EDGE →
        (fun j : Int => if j = 4 then (7 : Int) else 0) q
          > (hysteresis_thresholds (hysteresis_hist (fun j => if j = 4 then 7 else 0)
              (fun j => if j = 4 then 128 else 0) 3 3 1) (1 / 4 : ℚ) (3 / 4)
              ((fun _ => 0) 0)).1 → edge q = EDGE) :=
  ⟨by norm_num,
    hysteresis_single_closed (fun j => if j = 4 then 7 else 0) (fun j => if j = 4 then 128 else 0)
      3 3 (1 / 4 : ℚ) (3 / 4) (fun _ => 0) (fun _ => 0) (by norm_num)⟩

theorem windowsize_one : windowsize (1 : ℝ) = 7 := by
  unfold windowsize
  have : ⌈(2.5 : ℝ) * 1⌉ = 3 := by
    rw [Int.ceil_eq_iff]
    norm_num
  rw [this]
  rfl

/-- A power of the constant 2.71828 of the code with an exponent that is not
positive is at least the same power of `e`. -/
theorem code_pow_ge_exp (y : ℝ) (hy : y ≤ 0) : Real.exp y ≤ (2.71828 : ℝ) ^ y := by
  rcases lt_or_eq_of_le hy with h | h
  · have := code_pow_gt_exp (-y) (by linarith)
    rw [neg_neg] at this
    exact this.le
  · rw [h, Real.exp_zero, Real.rpow_zero]

/-- C15 as stated fails: for `sigma = 1` (`windowsize = 7`, `center = 3`) the
centre weight `kernel[3]` of `make_gaussian_kernel`, in exact real arithmetic,
differs from `G(0)/(G(-3) + ... + G(3))` for the true Gaussian density
`G(x) = exp(-0.5*x^2/sigma^2)/(sigma*sqrt(2*pi))`: the code raises 2.71828,
which is below `e`, to the power, so every other weight is larger than with
`e` and the centre weight is smaller. -/
theorem make_gaussian_kernel_weights_counterexample :
    windowsize (1 : ℝ) = 7 ∧ Int.tdiv (windowsize (1 : ℝ)) 2 = 3 ∧
    (make_gaussian_kernel (fun x y : ℝ => x ^ y) Real.sqrt 1).1 3
      ≠ (Real.exp (-0.5 * ((3 : ℝ) - 3) ^ 2 / 1 ^ 2) / (1 * Real.sqrt (2 * Real.pi)))
        / ∑ j in Finset.range 7,
            (Real.exp (-0.5 * ((j : ℝ) - 3) ^ 2 / 1 ^ 2)
              / (1 * Real.sqrt (2 * Real.pi))) := by
  refine ⟨windowsize_one, by rw [windowsize_one]; rfl, ?_⟩
  have h := make_gaussian_kernel_ratio (fun x y : ℝ => x ^ y) Real.sqrt (1 : ℝ) (by norm_num)
    (Real.sqrt_pos.2 (by norm_num)) 3 (by decide) (by rw [windowsize_one]; decide)
  rw [h, windowsize_one]
  have e7 : (7 : Int).toNat = 7 := rfl
  have et : Int.tdiv 7 2 = 3 := rfl
  have e3 : (3 : Int).toNat = 3 := rfl
  rw [e7, et, e3]
  beta_reduce
  have hB : (1 : ℝ) * Real.sqrt (2 * Real.pi) ≠ 0 :=
    ne_of_gt (mul_pos (by norm_num) (Real.sqrt_pos.2 (by positivity)))
  rw [← Finset.sum_div, div_div_div_cancel_right₀ hB]
  have hexp : ∀ j : Nat,
      -0.5 * ((((j : Int) - 3 : Int) : ℝ)) * ((((j : Int) - 3 : Int) : ℝ)) / (1 * 1)
        = -0.5 * ((j : ℝ) - 3) ^ 2 / 1 ^ 2 := by
    intro j
    push_cast
    ring
  have hneg : ∀ j : Nat, -0.5 * ((j : ℝ) - 3) ^ 2 / 1 ^ 2 ≤ 0 := by
    intro j
    have := sq_nonneg ((j : ℝ) - 3)
    have e : -0.5 * ((j : ℝ) - 3) ^ 2 / 1 ^ 2 = -(0.5 * ((j : ℝ) - 3) ^ 2) := by ring
    rw [e]
    have : (0 : ℝ) ≤ 0.5 * ((j : ℝ) - 3) ^ 2 := mul_nonneg (by norm_num) this
    linarith
  have hsum : ∑ j in Finset.range 7, Real.exp (-0.5 * ((j : ℝ) - 3) ^ 2 / 1 ^ 2)
      < ∑ i in Finset.range 7,
          (2.71828 : ℝ) ^ (-0.5 * ((((i : Int) - 3 : Int) : ℝ)) * ((((i : Int) - 3 : Int) : ℝ))
            / (1 * 1)) := by
    apply Finset.sum_lt_sum
    · intro i _
      rw [hexp i]
      exact code_pow_ge_exp _ (hneg i)
    · refine ⟨0, Finset.mem_range.2 (by norm_num), ?_⟩
      rw [hexp 0]
      have e : -0.5 * (((0 : Nat) : ℝ) - 3) ^ 2 / 1 ^ 2 = -(9 / 2 : ℝ) := by norm_num
      rw [e]
      exact code_pow_gt_exp (9 / 2) (by norm_num)
  have hpos : (0 : ℝ) < ∑ j in Finset.range 7, Real.exp (-0.5 * ((j : ℝ) - 3) ^ 2 / 1 ^ 2) :=
    Finset.sum_pos (fun j _ => Real.exp_pos _) ⟨0, Finset.mem_range.2 (by norm_num)⟩
  have n1 : (2.71828 : ℝ) ^ (-0.5 * ((((3 : Nat) : Int) - 3 : Int) : ℝ)
      * ((((3 : Nat) : Int) - 3 : Int) : ℝ) / (1 * 1)) = 1 := by
    rw [hexp 3]
    norm_num
  have n2 : Real.exp (-0.5 * ((3 : ℝ) - 3) ^ 2 / 1 ^ 2) = 1 := by norm_num
  rw [n1, n2]
  apply ne_of_lt
  exact one_div_lt_one_div_of_lt hpos hsum

/-- The number `u = 2.71828^(-1/2)`: the kernel weights for `sigma = 1` are
its powers `u^(x^2)`. -/
theorem step_u : 0 < (2.71828 : ℝ) ^ (-(1 / 2) : ℝ) ∧
    ((2.71828 : ℝ) ^ (-(1 / 2) : ℝ)) ^ 2 = 100000 / 271828 ∧
    (606530 / 1000000 : ℝ) < (2.71828 : ℝ) ^ (-(1 / 2) : ℝ) ∧
    (2.71828 : ℝ) ^ (-(1 / 2) : ℝ) < 606531 / 1000000 := by
  have hb : (0 : ℝ) < 2.71828 := by norm_num
  have hpos : 0 < (2.71828 : ℝ) ^ (-(1 / 2) : ℝ) := Real.rpow_pos_of_pos hb _
  have hsq : ((2.71828 : ℝ) ^ (-(1 / 2) : ℝ)) ^ 2 = 100000 / 271828 := by
    rw [← Real.rpow_natCast, ← Real.rpow_mul hb.le]
    norm_num
  refine ⟨hpos, hsq, ?_, ?_⟩
  · by_contra h
    push_neg at h
    have : ((2.71828 : ℝ) ^ (-(1 / 2) : ℝ)) ^ 2 ≤ (606530 / 1000000 : ℝ) ^ 2 :=
      pow_le_pow_left₀ hpos.le h 2
    rw [hsq] at this
    norm_num at this
  · by_contra h
    push_neg at h
    have : (606531 / 1000000 : ℝ) ^ 2 ≤ ((2.71828 : ℝ) ^ (-(1 / 2) : ℝ)) ^ 2 :=
      pow_le_pow_left₀ (by norm_num) h 2
    rw [hsq] at this
    norm_num at this

theorem step_pow (n : ℕ) :
    (2.71828 : ℝ) ^ (-(n : ℝ) / 2) = ((2.71828 : ℝ) ^ (-(1 / 2) : ℝ)) ^ n := by
  have hb : (0 : ℝ) < 2.71828 := by norm_num
  rw [← Real.rpow_natCast, ← Real.rpow_mul hb.le]
  congr 1
  ring

/-- The unnormalised kernel weight at the distance `x` from the centre, for
`sigma = 1`. -/
theorem step_weight (x : Int) :
    (fun a b : ℝ => a ^ b) 2.71828 (-0.5 * (x : ℝ) * (x : ℝ) / (1 * 1))
      = ((2.71828 : ℝ) ^ (-(1 / 2) : ℝ)) ^ (x.natAbs ^ 2) := by
  rw [← step_pow]
  show (2.71828 : ℝ) ^ (-0.5 * (x : ℝ) * (x : ℝ) / (1 * 1)) = _
  congr 1
  push_cast
  rw [Nat.cast_natAbs, Int.cast_abs, sq_abs]
  ring

/-- The kernel of `make_gaussian_kernel` for `sigma = 1`: seven weights
`u^9, u^4, u, 1, u, u^4, u^9` over their sum. -/
theorem step_kernel (j : Nat) (hj : j < 7) :
    (make_gaussian_kernel (fun a b : ℝ => a ^ b) Real.sqrt 1).1 (j : Int)
      = ((2.71828 : ℝ) ^ (-(1 / 2) : ℝ)) ^ (((j : Int) - 3).natAbs ^ 2)
        / (1 + 2 * (2.71828 : ℝ) ^ (-(1 / 2) : ℝ) + 2 * ((2.71828 : ℝ) ^ (-(1 / 2) : ℝ)) ^ 4
            + 2 * ((2.71828 : ℝ) ^ (-(1 / 2) : ℝ)) ^ 9) := by
  have h := make_gaussian_kernel_ratio (fun a b : ℝ => a ^ b) Real.sqrt (1 : ℝ) (by norm_num)
    (Real.sqrt_pos.2 (by norm_num)) (j : Int) (Int.natCast_nonneg j)
    (by rw [windowsize_one]; omega)
  rw [h, windowsize_one]
  have e7 : (7 : Int).toNat = 7 := rfl
  have et : Int.tdiv 7 2 = 3 := rfl
  rw [e7, et, Int.toNat_natCast]
  simp only [step_weight]
  rw [Finset.sum_range_succ, Finset.sum_range_succ, Finset.sum_range_succ, Finset.sum_range_succ,
    Finset.sum_range_succ, Finset.sum_range_succ, Finset.sum_range_one]
  congr 1
  norm_num
  ring

/-- The x-direction blur of a row `10 10 10 10 200 200 200 200` with the
kernel `u^9, u^4, u, 1, u, u^4, u^9` over `Z`. -/
theorem step_blur_x (image : Int → Nat) (kernel : Int → ℝ) (u Z : ℝ) (hZ : 0 < Z) (hu : 0 < u)
    (r : Nat)
    (i0 : image ((r : Int) * 8) = 10) (i1 : image ((r : Int) * 8 + 1) = 10)
    (i2 : image ((r : Int) * 8 + 2) = 10) (i3 : image ((r : Int) * 8 + 3) = 10)
    (i4 : image ((r : Int) * 8 + 4) = 200) (i5 : image ((r : Int) * 8 + 5) = 200)
    (i6 : image ((r : Int) * 8 + 6) = 200) (i7 : image ((r : Int) * 8 + 7) = 200)
    (k0 : kernel 0 = u ^ 9 / Z) (k1 : kernel 1 = u ^ 4 / Z) (k2 : kernel 2 = u / Z)
    (k3 : kernel 3 = 1 / Z) (k4 : kernel 4 = u / Z) (k5 : kernel 5 = u ^ 4 / Z)
    (k6 : kernel 6 = u ^ 9 / Z) :
    blur_x_pixel image 8 kernel 3 r 0 = 10 ∧
    blur_x_pixel image 8 kernel 3 r 1 = 10 + 190 * (u ^ 9 / (1 + 2 * u + u ^ 4 + u ^ 9)) ∧
    blur_x_pixel image 8 kernel 3 r 2
      = 10 + 190 * ((u ^ 4 + u ^ 9) / (1 + 2 * u + 2 * u ^ 4 + u ^ 9)) ∧
    blur_x_pixel image 8 kernel 3 r 3
      = 10 + 190 * ((u + u ^ 4 + u ^ 9) / (1 + 2 * u + 2 * u ^ 4 + 2 * u ^ 9)) ∧
    blur_x_pixel image 8 kernel 3 r 4
      = 200 - 190 * ((u + u ^ 4 + u ^ 9) / (1 + 2 * u + 2 * u ^ 4 + 2 * u ^ 9)) ∧
    blur_x_pixel image 8 kernel 3 r 5
      = 200 - 190 * ((u ^ 4 + u ^ 9) / (1 + 2 * u + 2 * u ^ 4 + u ^ 9)) ∧
    blur_x_pixel image 8 kernel 3 r 6 = 200 - 190 * (u ^ 9 / (1 + 2 * u + u ^ 4 + u ^ 9)) ∧
    blur_x_pixel image 8 kernel 3 r 7 = 200 := by
  have e7 : (2 * (3 : Int) + 1).toNat = 7 := rfl
  have hZ0 : Z ≠ 0 := ne_of_gt hZ
  have p4 : 0 < u ^ 4 := pow_pos hu 4
  have p9 : 0 < u ^ 9 := pow_pos hu 9
  have d1 : 1 + 2 * u + u ^ 4 + u ^ 9 ≠ 0 := by positivity
  have d2 : 1 + 2 * u + 2 * u ^ 4 + u ^ 9 ≠ 0 := by positivity
  have d3 : 1 + 2 * u + 2 * u ^ 4 + 2 * u ^ 9 ≠ 0 := by positivity
  have d0 : 1 + u + u ^ 4 + u ^ 9 ≠ 0 := by positivity
  unfold blur_x_pixel
  rw [e7]
  simp only [forLoop]
  norm_num
  rw [i0, i1, i2, i3, i4, i5, i6, i7, k0, k1, k2, k3, k4, k5, k6]
  push_cast
  simp only [← mul_div_assoc, ← add_div, div_div_div_cancel_right₀ hZ0]
  refine ⟨?_, ?_, ?_, ?_, ?_, ?_, ?_, ?_⟩
  · rw [div_eq_iff (by positivity)]
    ring
  · rw [div_eq_iff (by positivity)]
    field_simp
    ring
  · rw [div_eq_iff (by positivity)]
    field_simp
    ring
  · rw [div_eq_iff (by positivity)]
    field_simp
    ring
  · rw [div_eq_iff (by positivity)]
    field_simp
    ring
  · rw [div_eq_iff (by positivity)]
    field_simp
    ring
  · rw [div_eq_iff (by positivity)]
    field_simp
    ring
  · rw [div_eq_iff (by positivity)]
    ring

/-- The y-direction blur of a column on which `tempim` is constant. -/
theorem blur_y_pixel_column {K : Type} [LinearOrderedField K] [FloorRing K] (tempim : Int → K)
    (rows cols : Nat) (kernel : Int → K) (center : Int) (t : K) (r c : Nat) (hr : r < rows)
    (hcen : 0 ≤ center) (hker : ∀ j : Int, 0 ≤ j → j < 2 * center + 1 → 0 < kernel j)
    (him : ∀ r' : Nat, r' < rows → tempim ((r' : Int) * cols + c) = t) :
    blur_y_pixel tempim rows cols kernel center r c = truncCast (t * 90 + 0.5) := by
  have h := tapLoop_const
    (fun j : Nat => 0 ≤ (r : Int) + (-center + (j : Int))
      ∧ (r : Int) + (-center + (j : Int)) < (rows : Int))
    (fun j : Nat => tempim (((r : Int) + (-center + (j : Int))) * cols + c))
    (fun j : Nat => kernel (center + (-center + (j : Int))))
    (2 * center + 1).toNat t center.toNat
    (by
      intro j _ hin
      have e : (r : Int) + (-center + (j : Int))
          = (((r : Int) + (-center + (j : Int))).toNat : Int) :=
        (Int.toNat_of_nonneg hin.1).symm
      simp only []
      rw [e]
      exact him _ (by omega))
    (by
      intro j hj
      apply hker <;> omega)
    (by omega)
    (by
      show 0 ≤ (r : Int) + (-center + (center.toNat : Int))
        ∧ (r : Int) + (-center + (center.toNat : Int)) < (rows : Int)
      rw [Int.toNat_of_nonneg hcen]; constructor <;> omega)
  have key : ∀ ds : K × K, 0 < ds.2 → ds.1 = t * ds.2 →
      truncCast (ds.1 * 90 / ds.2 + 0.5) = truncCast (t * 90 + 0.5) := by
    intro ds hpos heq
    have e : ds.1 * 90 / ds.2 = t * 90 := by
      rw [heq, mul_assoc, mul_comm ds.2 (90 : K), ← mul_assoc,
        mul_div_cancel_right₀ _ (ne_of_gt hpos)]
    rw [e]
  exact key _ h.1 h.2

/-- Bounds on the three quotients of the blurred step, for `u` between
0.606530 and 0.606531. -/
theorem step_quotients (u : ℝ) (hlo : 606530 / 1000000 < u) (hhi : u < 606531 / 1000000) :
    (80.5 / 17100 < u ^ 9 / (1 + 2 * u + u ^ 4 + u ^ 9) ∧
      u ^ 9 / (1 + 2 * u + u ^ 4 + u ^ 9) < 81.5 / 17100) ∧
    (1003.5 / 17100 < (u ^ 4 + u ^ 9) / (1 + 2 * u + 2 * u ^ 4 + u ^ 9) ∧
      (u ^ 4 + u ^ 9) / (1 + 2 * u + 2 * u ^ 4 + u ^ 9) < 1004.5 / 17100) ∧
    (5137.5 / 17100 < (u + u ^ 4 + u ^ 9) / (1 + 2 * u + 2 * u ^ 4 + 2 * u ^ 9) ∧
      (u + u ^ 4 + u ^ 9) / (1 + 2 * u + 2 * u ^ 4 + 2 * u ^ 9) < 5138.5 / 17100) := by
  have hu : 0 < u := lt_trans (by norm_num) hlo
  have h4l : (606530 / 1000000 : ℝ) ^ 4 ≤ u ^ 4 := pow_le_pow_left₀ (by norm_num) hlo.le 4
  have h4h : u ^ 4 ≤ (606531 / 1000000 : ℝ) ^ 4 := pow_le_pow_left₀ hu.le hhi.le 4
  have h9l : (606530 / 1000000 : ℝ) ^ 9 ≤ u ^ 9 := pow_le_pow_left₀ (by norm_num) hlo.le 9
  have h9h : u ^ 9 ≤ (606531 / 1000000 : ℝ) ^ 9 := pow_le_pow_left₀ hu.le hhi.le 9
  norm_num at h4l h4h h9l h9h
  have p4 : 0 < u ^ 4 := pow_pos hu 4
  have p9 : 0 < u ^ 9 := pow_pos hu 9
  have d1 : 0 < 1 + 2 * u + u ^ 4 + u ^ 9 := by positivity
  have d2 : 0 < 1 + 2 * u + 2 * u ^ 4 + u ^ 9 := by positivity
  have d3 : 0 < 1 + 2 * u + 2 * u ^ 4 + 2 * u ^ 9 := by positivity
  refine ⟨⟨?_, ?_⟩, ⟨?_, ?_⟩, ⟨?_, ?_⟩⟩
  · rw [lt_div_iff₀ d1]; linarith
  · rw [div_lt_iff₀ d1]; linarith
  · rw [lt_div_iff₀ d2]; linarith
  · rw [div_lt_iff₀ d2]; linarith
  · rw [lt_div_iff₀ d3]; linarith
  · rw [div_lt_iff₀ d3]; linarith

/-- The seven weights of the kernel for `sigma = 1`. -/
theorem step_kernel_vals :
    (make_gaussian_kernel (fun a b : ℝ => a ^ b) Real.sqrt 1).1 0
      = ((2.71828 : ℝ) ^ (-(1 / 2) : ℝ)) ^ 9
        / (1 + 2 * (2.71828 : ℝ) ^ (-(1 / 2) : ℝ) + 2 * ((2.71828 : ℝ) ^ (-(1 / 2) : ℝ)) ^ 4
            + 2 * ((2.71828 : ℝ) ^ (-(1 / 2) : ℝ)) ^ 9) ∧
    (make_gaussian_kernel (fun a b : ℝ => a ^ b) Real.sqrt 1).1 1
      = ((2.71828 : ℝ) ^ (-(1 / 2) : ℝ)) ^ 4
        / (1 + 2 * (2.71828 : ℝ) ^ (-(1 / 2) : ℝ) + 2 * ((2.71828 : ℝ) ^ (-(1 / 2) : ℝ)) ^ 4
            + 2 * ((2.71828 : ℝ) ^ (-(1 / 2) : ℝ)) ^ 9) ∧
    (make_gaussian_kernel (fun a b : ℝ => a ^ b) Real.sqrt 1).1 2
      = (2.71828 : ℝ) ^ (-(1 / 2) : ℝ)
        / (1 + 2 * (2.71828 : ℝ) ^ (-(1 / 2) : ℝ) + 2 * ((2.71828 : ℝ) ^ (-(1 / 2) : ℝ)) ^ 4
            + 2 * ((2.71828 : ℝ) ^ (-(1 / 2) : ℝ)) ^ 9) ∧
    (make_gaussian_kernel (fun a b : ℝ => a ^ b) Real.sqrt 1).1 3
      = 1
        / (1 + 2 * (2.71828 : ℝ) ^ (-(1 / 2) : ℝ) + 2 * ((2.71828 : ℝ) ^ (-(1 / 2) : ℝ)) ^ 4
            + 2 * ((2.71828 : ℝ) ^ (-(1 / 2) : ℝ)) ^ 9) ∧
    (make_gaussian_kernel (fun a b : ℝ => a ^ b) Real.sqrt 1).1 4
      = (2.71828 : ℝ) ^ (-(1 / 2) : ℝ)
        / (1 + 2 * (2.71828 : ℝ) ^ (-(1 / 2) : ℝ) + 2 * ((2.71828 : ℝ) ^ (-(1 / 2) : ℝ)) ^ 4
            + 2 * ((2.71828 : ℝ) ^ (-(1 / 2) : ℝ)) ^ 9) ∧
    (make_gaussian_kernel (fun a b : ℝ => a ^ b) Real.sqrt 1).1 5
      = ((2.71828 : ℝ) ^ (-(1 / 2) : ℝ)) ^ 4
        / (1 + 2 * (2.71828 : ℝ) ^ (-(1 / 2) : ℝ) + 2 * ((2.71828 : ℝ) ^ (-(1 / 2) : ℝ)) ^ 4
            + 2 * ((2.71828 : ℝ) ^ (-(1 / 2) : ℝ)) ^ 9) ∧
    (make_gaussian_kernel (fun a b : ℝ => a ^ b) Real.sqrt 1).1 6
      = ((2.71828 : ℝ) ^ (-(1 / 2) : ℝ)) ^ 9
        / (1 + 2 * (2.71828 : ℝ) ^ (-(1 / 2) : ℝ) + 2 * ((2.71828 : ℝ) ^ (-(1 / 2) : ℝ)) ^ 4
            + 2 * ((2.71828 : ℝ) ^ (-(1 / 2) : ℝ)) ^ 9) := by
  have h0 := step_kernel 0 (by decide)
  have h1 := step_kernel 1 (by decide)
  have h2 := step_kernel 2 (by decide)
  have h3 := step_kernel 3 (by decide)
  have h4 := step_kernel 4 (by decide)
  have h5 := step_kernel 5 (by decide)
  have h6 := step_kernel 6 (by decide)
  have e0 : (((0 : Nat) : Int) - 3).natAbs ^ 2 = 9 := by decide
  have e1 : (((1 : Nat) : Int) - 3).natAbs ^ 2 = 4 := by decide
  have e2 : (((2 : Nat) : Int) - 3).natAbs ^ 2 = 1 := by decide
  have e3 : (((3 : Nat) : Int) - 3).natAbs ^ 2 = 0 := by decide
  have e4 : (((4 : Nat) : Int) - 3).natAbs ^ 2 = 1 := by decide
  have e5 : (((5 : Nat) : Int) - 3).natAbs ^ 2 = 4 := by decide
  have e6 : (((6 : Nat) : Int) - 3).natAbs ^ 2 = 9 := by decide
  rw [e0] at h0
  rw [e1] at h1
  rw [e2, pow_one] at h2
  rw [e3, pow_zero] at h3
  rw [e4, pow_one] at h4
  rw [e5] at h5
  rw [e6] at h6
  exact ⟨h0, h1, h2, h3, h4, h5, h6⟩

/-- The x-direction blur of the step image with the kernel for `sigma = 1`:
the eight values of a row. -/
theorem step_tempim (image : Int → Nat)
    (himg : ∀ r c : Nat, r < 8 → c < 8 → image ((r : Int) * 8 + c) = if c < 4 then 10 else 200)
    (u : ℝ) (hu : u = (2.71828 : ℝ) ^ (-(1 / 2) : ℝ)) (r : Nat) (hr : r < 8) :
    blur_x_pixel image 8 (make_gaussian_kernel (fun a b : ℝ => a ^ b) Real.sqrt 1).1 3 r 0
      = 10 ∧
    blur_x_pixel image 8 (make_gaussian_kernel (fun a b : ℝ => a ^ b) Real.sqrt 1).1 3 r 1
      = 10 + 190 * (u ^ 9 / (1 + 2 * u + u ^ 4 + u ^ 9)) ∧
    blur_x_pixel image 8 (make_gaussian_kernel (fun a b : ℝ => a ^ b) Real.sqrt 1).1 3 r 2
      = 10 + 190 * ((u ^ 4 + u ^ 9) / (1 + 2 * u + 2 * u ^ 4 + u ^ 9)) ∧
    blur_x_pixel image 8 (make_gaussian_kernel (fun a b : ℝ => a ^ b) Real.sqrt 1).1 3 r 3
      = 10 + 190 * ((u + u ^ 4 + u ^ 9) / (1 + 2 * u + 2 * u ^ 4 + 2 * u ^ 9)) ∧
    blur_x_pixel image 8 (make_gaussian_kernel (fun a b : ℝ => a ^ b) Real.sqrt 1).1 3 r 4
      = 200 - 190 * ((u + u ^ 4 + u ^ 9) / (1 + 2 * u + 2 * u ^ 4 + 2 * u ^ 9)) ∧
    blur_x_pixel image 8 (make_gaussian_kernel (fun a b : ℝ => a ^ b) Real.sqrt 1).1 3 r 5
      = 200 - 190 * ((u ^ 4 + u ^ 9) / (1 + 2 * u + 2 * u ^ 4 + u ^ 9)) ∧
    blur_x_pixel image 8 (make_gaussian_kernel (fun a b : ℝ => a ^ b) Real.sqrt 1).1 3 r 6
      = 200 - 190 * (u ^ 9 / (1 + 2 * u + u ^ 4 + u ^ 9)) ∧
    blur_x_pixel image 8 (make_gaussian_kernel (fun a b : ℝ => a ^ b) Real.sqrt 1).1 3 r 7
      = 200 := by
  have hup : 0 < u := by rw [hu]; exact step_u.1
  have hZ : 0 < 1 + 2 * u + 2 * u ^ 4 + 2 * u ^ 9 := by positivity
  obtain ⟨k0, k1, k2, k3, k4, k5, k6⟩ := step_kernel_vals
  rw [← hu] at k0 k1 k2 k3 k4 k5 k6
  have i0 : image ((r : Int) * 8) = 10 := by
    have := himg r 0 hr (by decide)
    rw [Nat.cast_zero, add_zero] at this
    exact this
  exact step_blur_x image _ u _ hZ hup r i0 (himg r 1 hr (by decide)) (himg r 2 hr (by decide))
    (himg r 3 hr (by decide)) (himg r 4 hr (by decide)) (himg r 5 hr (by decide))
    (himg r 6 hr (by decide)) (himg r 7 hr (by decide)) k0 k1 k2 k3 k4 k5 k6

/-- The smoothed value of a pixel of an 8 × 8 image whose x-direction blur is the same
value `t` down the column of the pixel, for `sigma = 1` and one worker. -/
theorem step_smoothed_of_tempim (image : Int → Nat) (r c : Nat) (hr : r < 8) (hc : c < 8)
    (t : ℝ) (n : Int)
    (ht : ∀ r1 : Nat, r1 < 8 → blur_x_pixel image 8
        (make_gaussian_kernel (fun a b : ℝ => a ^ b) Real.sqrt 1).1 3 r1 c = t)
    (h1 : (n : ℝ) ≤ t * 90 + 0.5) (h2 : t * 90 + 0.5 < (n : ℝ) + 1) (h3 : 0 ≤ n)
    (h4 : n ≤ 32767) :
    gaussian_smooth (fun a b : ℝ => a ^ b) Real.sqrt image 8 8 1 1 ((r : Int) * (8 : Nat) + c)
      = n := by
  have hker : ∀ j : Int, 0 ≤ j → j < 2 * 3 + 1 →
      0 < (make_gaussian_kernel (fun a b : ℝ => a ^ b) Real.sqrt 1).1 j := by
    intro j h0 h1
    apply make_gaussian_kernel_pos (fun a b : ℝ => a ^ b) Real.sqrt 1 j (by norm_num)
      (fun y => Real.rpow_pos_of_pos (by norm_num) y) (Real.sqrt_pos.2 (by norm_num)) h0
    rw [windowsize_one]
    omega
  unfold gaussian_smooth
  simp only [make_gaussian_kernel_snd]
  rw [windowsize_one]
  have et : Int.tdiv 7 2 = 3 := rfl
  rw [et]
  rw [allreduceShort_cols 8 8 1 (le_refl _) _ _
    (fun r c => blur_y_pixel _ 8 8 (make_gaussian_kernel (fun a b : ℝ => a ^ b) Real.sqrt 1).1
      3 r c)
    (fun rank r c hrank hr hc =>
      gaussian_smooth_blur_y_apply _ 8 8 _ _ rank 1 (le_refl _) hrank r c hr hc) r c hr hc]
  rw [blur_y_pixel_column _ 8 8 _ 3 t r c hr (by decide) hker]
  · have hn : truncCast (t * 90 + 0.5) = n := by
      unfold truncCast
      have h0 : (0 : ℝ) ≤ t * 90 + 0.5 := by
        have : (0 : ℝ) ≤ (n : ℝ) := by exact_mod_cast h3
        linarith
      rw [if_pos h0, Int.floor_eq_iff]
      exact ⟨h1, h2⟩
    rw [hn]
    exact wrap16_of_range _ (by omega) (by omega)
  · intro r1 hr1
    rw [gaussian_smooth_tempim image 8 8 _ _ 1 (one_dvd _) r1 c hr1 hc]
    exact ht r1 hr1

set_option maxHeartbeats 1000000 in
/-- The smoothed image of the 8 × 8 step image (10 on columns 0..3, 200 on columns 4..7)
for `sigma = 1` and one worker: the value depends on the column only. -/
theorem step_smoothed (image : Int → Nat)
    (himg : ∀ r c : Nat, r < 8 → c < 8 → image ((r : Int) * 8 + c) = if c < 4 then 10 else 200)
    (r : Nat) (hr : r < 8) :
    gaussian_smooth (fun a b : ℝ => a ^ b) Real.sqrt image 8 8 1 1 ((r : Int) * (8 : Nat) + (0 : Nat)) = 900 ∧
    gaussian_smooth (fun a b : ℝ => a ^ b) Real.sqrt image 8 8 1 1 ((r : Int) * (8 : Nat) + (1 : Nat)) = 981 ∧
    gaussian_smooth (fun a b : ℝ => a ^ b) Real.sqrt image 8 8 1 1 ((r : Int) * (8 : Nat) + (2 : Nat)) = 1904 ∧
    gaussian_smooth (fun a b : ℝ => a ^ b) Real.sqrt image 8 8 1 1 ((r : Int) * (8 : Nat) + (3 : Nat)) = 6038 ∧
    gaussian_smooth (fun a b : ℝ => a ^ b) Real.sqrt image 8 8 1 1 ((r : Int) * (8 : Nat) + (4 : Nat)) = 12862 ∧
    gaussian_smooth (fun a b : ℝ => a ^ b) Real.sqrt image 8 8 1 1 ((r : Int) * (8 : Nat) + (5 : Nat)) = 16996 ∧
    gaussian_smooth (fun a b : ℝ => a ^ b) Real.sqrt image 8 8 1 1 ((r : Int) * (8 : Nat) + (6 : Nat)) = 17919 ∧
    gaussian_smooth (fun a b : ℝ => a ^ b) Real.sqrt image 8 8 1 1 ((r : Int) * (8 : Nat) + (7 : Nat)) = 18000 := by
  obtain ⟨_, _, hlo, hhi⟩ := step_u
  have hT := fun (r1 : Nat) (hr1 : r1 < 8) =>
    step_tempim image himg ((2.71828 : ℝ) ^ (-(1 / 2) : ℝ)) rfl r1 hr1
  obtain ⟨⟨a1, a2⟩, ⟨b1, b2⟩, ⟨c1, c2⟩⟩ :=
    step_quotients ((2.71828 : ℝ) ^ (-(1 / 2) : ℝ)) hlo hhi
  refine ⟨?_, ?_, ?_, ?_, ?_, ?_, ?_, ?_⟩
  · exact step_smoothed_of_tempim image r 0 hr (by decide) 10 900
      (fun r1 hr1 => (hT r1 hr1).1) (by norm_num) (by norm_num) (by decide) (by decide)
  · refine step_smoothed_of_tempim image r 1 hr (by decide) _ 981
      (fun r1 hr1 => (hT r1 hr1).2.1) ?_ ?_ (by decide) (by decide)
    · push_cast; linarith
    · push_cast; linarith
  · refine step_smoothed_of_tempim image r 2 hr (by decide) _ 1904
      (fun r1 hr1 => (hT r1 hr1).2.2.1) ?_ ?_ (by decide) (by decide)
    · push_cast; linarith
    · push_cast; linarith
  · refine step_smoothed_of_tempim image r 3 hr (by decide) _ 6038
      (fun r1 hr1 => (hT r1 hr1).2.2.2.1) ?_ ?_ (by decide) (by decide)
    · push_cast; linarith
    · push_cast; linarith
  · refine step_smoothed_of_tempim image r 4 hr (by decide) _ 12862
      (fun r1 hr1 => (hT r1 hr1).2.2.2.2.1) ?_ ?_ (by decide) (by decide)
    · push_cast; linarith
    · push_cast; linarith
  · refine step_smoothed_of_tempim image r 5 hr (by decide) _ 16996
      (fun r1 hr1 => (hT r1 hr1).2.2.2.2.2.1) ?_ ?_ (by decide) (by decide)
    · push_cast; linarith
    · push_cast; linarith
  · refine step_smoothed_of_tempim image r 6 hr (by decide) _ 17919
      (fun r1 hr1 => (hT r1 hr1).2.2.2.2.2.2.1) ?_ ?_ (by decide) (by decide)
    · push_cast; linarith
    · push_cast; linarith
  · exact step_smoothed_of_tempim image r 7 hr (by decide) 200 18000
      (fun r1 hr1 => (hT r1 hr1).2.2.2.2.2.2.2) (by norm_num) (by norm_num) (by decide)
      (by decide)

/-- On an image whose value depends on the column only, `delta_x` is the
difference of the column values. -/
theorem dxValue_columns (S : Int → Int) (rows cols : Nat) (f : Nat → Int)
    (hS : ∀ r c : Nat, r < rows → c < cols → S ((r : Int) * cols + c) = f c)
    (r c : Nat) (hr : r < rows) (hc : c < cols) (hcols : 2 ≤ cols) :
    dxValue S cols r c
      = if c = 0 then wrap16 (f 1 - f 0)
        else if c + 1 = cols then wrap16 (f c - f (c - 1))
        else wrap16 (f (c + 1) - f (c - 1)) := by
  have e0 : (r : Int) * cols = (r : Int) * cols + ((0 : Nat) : Int) := by
    rw [Nat.cast_zero, add_zero]
  have e1 : (r : Int) * cols + 1 = (r : Int) * cols + ((1 : Nat) : Int) := by
    rw [Nat.cast_one]
  unfold dxValue
  by_cases h0 : c = 0
  · rw [if_pos h0, if_pos h0, e1, hS r 1 hr (by omega)]
    rw [e0, hS r 0 hr (by omega)]
  · rw [if_neg h0, if_neg h0]
    have em : (r : Int) * cols + c - 1 = (r : Int) * cols + ((c - 1 : Nat) : Int) := by
      have : ((c - 1 : Nat) : Int) = (c : Int) - 1 := by omega
      rw [this]; ring
    have ep : (r : Int) * cols + c + 1 = (r : Int) * cols + ((c + 1 : Nat) : Int) := by
      push_cast; ring
    by_cases h1 : c + 1 = cols
    · rw [if_pos h1, if_pos h1, em, hS r c hr hc, hS r (c - 1) hr (by omega)]
    · rw [if_neg h1, if_neg h1, em, ep, hS r (c + 1) hr (by omega), hS r (c - 1) hr (by omega)]

/-- On an image whose value depends on the column only, `delta_y` is zero. -/
theorem dyValue_columns (S : Int → Int) (rows cols : Nat) (f : Nat → Int)
    (hS : ∀ r c : Nat, r < rows → c < cols → S ((r : Int) * cols + c) = f c)
    (r c : Nat) (hr : r < rows) (hc : c < cols) (hrows : 2 ≤ rows) :
    dyValue S rows cols r c = 0 := by
  have w0 : ∀ x : Int, wrap16 (x - x) = 0 := by
    intro x
    rw [sub_self]
    rfl
  have e0 : ((c : Int)) = ((0 : Nat) : Int) * cols + c := by
    rw [Nat.cast_zero, zero_mul, zero_add]
  have e1 : (c : Int) + cols = ((1 : Nat) : Int) * cols + c := by
    rw [Nat.cast_one, one_mul, add_comm]
  unfold dyValue
  by_cases h0 : r = 0
  · rw [if_pos h0, e1, hS 1 c (by omega) hc]
    rw [e0, hS 0 c (by omega) hc]
    exact w0 _
  · rw [if_neg h0]
    have em : (r : Int) * cols + c - cols = ((r - 1 : Nat) : Int) * cols + c := by
      have : ((r - 1 : Nat) : Int) = (r : Int) - 1 := by omega
      rw [this]; ring
    have ep : (r : Int) * cols + c + cols = ((r + 1 : Nat) : Int) * cols + c := by
      push_cast; ring
    by_cases h1 : r + 1 = rows
    · rw [if_pos h1, em, hS r c hr hc, hS (r - 1) c (by omega) hc]
      exact w0 _
    · rw [if_neg h1, em, ep, hS (r + 1) c (by omega) hc, hS (r - 1) c (by omega) hc]
      exact w0 _

/-- The derivatives and the magnitude of the 8 × 8 step image for `sigma = 1`
and one worker: `delta_y` is zero, `delta_x` and the magnitude depend on the
column only. -/
theorem step_gradient (image : Int → Nat)
    (himg : ∀ r c : Nat, r < 8 → c < 8 → image ((r : Int) * 8 + c) = if c < 4 then 10 else 200)
    (r c : Nat) (hr : r < 8) (hc : c < 8) :
    (canny_gradient (fun a b : ℝ => a ^ b) Real.sqrt image 8 8 1 1).2.1 ((r : Int) * (8 : Nat) + c)
      = ([81, 1004, 5057, 10958, 10958, 5057, 1004, 81] : List Int).getD c 0 ∧
    (canny_gradient (fun a b : ℝ => a ^ b) Real.sqrt image 8 8 1 1).2.2 ((r : Int) * (8 : Nat) + c)
      = 0 ∧
    (canny_gradient (fun a b : ℝ => a ^ b) Real.sqrt image 8 8 1 1).1 ((r : Int) * (8 : Nat) + c)
      = ([81, 1004, 5057, 10958, 10958, 5057, 1004, 81] : List Int).getD c 0 := by
  have hS : ∀ r c : Nat, r < 8 → c < 8 →
      gaussian_smooth (fun a b : ℝ => a ^ b) Real.sqrt image 8 8 1 1 ((r : Int) * (8 : Nat) + c)
        = ([900, 981, 1904, 6038, 12862, 16996, 17919, 18000] : List Int).getD c 0 := by
    intro r c hr hc
    obtain ⟨s0, s1, s2, s3, s4, s5, s6, s7⟩ := step_smoothed image himg r hr
    interval_cases c
    · exact s0
    · exact s1
    · exact s2
    · exact s3
    · exact s4
    · exact s5
    · exact s6
    · exact s7
  have hdx : (canny_gradient (fun a b : ℝ => a ^ b) Real.sqrt image 8 8 1 1).2.1
        ((r : Int) * (8 : Nat) + c)
      = ([81, 1004, 5057, 10958, 10958, 5057, 1004, 81] : List Int).getD c 0 := by
    unfold canny_gradient
    simp only []
    rw [delta_x_apply _ 8 8 1 (one_dvd _) (by decide) r c hr hc,
      dxValue_columns _ 8 8 _ hS r c hr hc (by decide)]
    interval_cases c <;> rfl
  have hdy : (canny_gradient (fun a b : ℝ => a ^ b) Real.sqrt image 8 8 1 1).2.2
        ((r : Int) * (8 : Nat) + c) = 0 := by
    unfold canny_gradient
    simp only []
    rw [delta_y_apply _ 8 8 1 (le_refl _) (by decide) r c hr hc]
    exact dyValue_columns _ 8 8 _ hS r c hr hc (by decide)
  refine ⟨hdx, hdy, ?_⟩
  have hmag : (canny_gradient (fun a b : ℝ => a ^ b) Real.sqrt image 8 8 1 1).1
      = magnitude_x_y Real.sqrt
          (canny_gradient (fun a b : ℝ => a ^ b) Real.sqrt image 8 8 1 1).2.1
          (canny_gradient (fun a b : ℝ => a ^ b) Real.sqrt image 8 8 1 1).2.2 8 8 1 := rfl
  rw [hmag, magnitude_x_y_apply Real.sqrt _ _ 8 8 1 (le_refl _) (one_dvd _) r c hr hc,
    magValue_real_horizontal _ _ _ _ _ hdy, hdx]
  · rw [hdx]
    interval_cases c <;> decide
  · rw [hdx]
    interval_cases c <;> decide

/-- The test of `non_max_supp` at a pixel with a positive centre magnitude and
a gradient pointing along the row (`gx > 0`, `gy = 0`): the pixel is
`NOEDGE` when its left neighbour is larger or its right neighbour is at least
as large as the centre, `POSSIBLE_EDGE` otherwise. -/
theorem nmsValue_horizontal {K : Type} [LinearOrderedField K] (mag : Int → Int) (ncols : Nat)
    (p m00 gx : Int) (hm : 0 < m00) (hg : 0 < gx) :
    nmsValue (nmsMags mag ncols p m00 gx 0 (((-gx : Int) : K) / (m00 : K))
        (((0 : Int) : K) / (m00 : K)))
      = if mag (p - 1) > m00 ∨ mag (p + 1) ≥ m00 then NOEDGE else POSSIBLE_EDGE := by
  have hmK : (0 : K) < (m00 : K) := by exact_mod_cast hm
  have hgK : (0 : K) < (gx : K) := by exact_mod_cast hg
  have ha : (0 : K) < (gx : K) / (m00 : K) := div_pos hgK hmK
  have e1 : ((m00 - mag (p + -1) : Int) : K) * (((-gx : Int) : K) / (m00 : K))
      = (gx : K) / (m00 : K) * ((mag (p - 1) : K) - (m00 : K)) := by
    rw [← sub_eq_add_neg]
    push_cast
    ring
  have e2 : ((m00 - mag (p + 1) : Int) : K) * (((-gx : Int) : K) / (m00 : K))
      = (gx : K) / (m00 : K) * ((mag (p + 1) : K) - (m00 : K)) := by
    push_cast
    ring
  unfold nmsMags
  simp only []
  rw [if_pos (show gx ≥ 0 from hg.le), if_pos (show (0 : Int) ≥ 0 from le_refl _),
    if_pos (show gx ≥ 0 from hg.le), Int.cast_zero, zero_div, mul_zero, mul_zero, add_zero,
    add_zero, e1, e2]
  obtain ⟨s1, s2⟩ := nmsValue_scaled ((gx : K) / (m00 : K)) (mag (p - 1) : K) (mag (p + 1) : K)
    (m00 : K) ha
  have c1 : ((mag (p - 1) : K) > (m00 : K)) ↔ mag (p - 1) > m00 := by
    constructor
    · intro h; exact_mod_cast h
    · intro h; exact_mod_cast h
  have c2 : ((mag (p + 1) : K) > (m00 : K)) ↔ mag (p + 1) > m00 := by
    constructor
    · intro h; exact_mod_cast h
    · intro h; exact_mod_cast h
  have c3 : ((mag (p + 1) : K) = (m00 : K)) ↔ mag (p + 1) = m00 := by
    constructor
    · intro h; exact_mod_cast h
    · intro h; exact_mod_cast h
  rw [c1, c2, c3] at s1 s2
  by_cases h : mag (p - 1) > m00 ∨ mag (p + 1) ≥ m00
  · rw [if_pos h]
    apply s1.2
    rcases h with h | h
    · exact Or.inl h
    · rcases lt_or_eq_of_le h with h | h
      · exact Or.inr (Or.inl h)
      · exact Or.inr (Or.inr h.symm)
  · rw [if_neg h]
    apply s2.2
    rintro (h1 | h1 | h1)
    · exact h (Or.inl h1)
    · exact h (Or.inr h1.le)
    · exact h (Or.inr h1.ge)

/-- A single worker stores nothing outside the rows `1 .. nrows-3` and the
columns `1 .. ncols-3`: the result of `non_max_supp` holds 0 there. -/
theorem non_max_supp_single_untested {K : Type} [LinearOrderedField K]
    (mag gradx grady : Int → Int) (nrows ncols : Nat) (regs0 : Nat → NmsRegs K)
    (result : Int → Nat) (r c : Nat) (hr : r < nrows) (hc : c < ncols)
    (hu : ¬ (1 ≤ r ∧ r + 2 < nrows ∧ 1 ≤ c ∧ c + 2 < ncols)) :
    non_max_supp mag gradx grady nrows ncols 1 regs0 result ((r : Int) * ncols + c) = 0 := by
  unfold non_max_supp allreduceUChar
  rw [if_pos (pixel_in_image nrows ncols r c hr hc), sumRanks_one]
  beta_reduce
  rw [non_max_supp_rank_untested mag gradx grady nrows ncols 0 1 (regs0 0) (le_refl _)
    (one_dvd _)]
  intro row col h1 h2 h3 h4 e
  obtain ⟨e1, e2⟩ := pixel_coords_unique ncols r c row col hc (by omega) e
  have l0 : lo 0 nrows 1 = 0 := lo_zero nrows 1
  have l1 : hi 0 nrows 1 = nrows := by simp [hi]
  rw [l0] at h1
  rw [l1] at h2
  simp only [if_true, zero_add] at h1 h2
  apply hu
  subst e1 e2
  exact ⟨h1, by omega, h3, h4⟩

/-- The histogram of a single worker: a bin is non-zero exactly when some
seeded `POSSIBLE_EDGE` cell has that magnitude. -/
theorem hysteresis_hist_single_ne_zero (mag : Int → Int) (nms : Int → Nat) (rows cols : Nat)
    (b : Int) (h0 : 0 ≤ b) (h1 : b < 32768) :
    hysteresis_hist mag nms rows cols 1 b ≠ 0 ↔
      ∃ p, hysteresis_seed nms rows cols 0 1 p = POSSIBLE_EDGE ∧ mag p = b := by
  have hb : 0 ≤ b ∧ b < ((32768 : Nat) : Int) := ⟨h0, by exact_mod_cast h1⟩
  unfold hysteresis_hist allreduceInt
  rw [if_pos hb, sumRanks_one]
  beta_reduce
  rw [hysteresis_temphist_apply]
  constructor
  · intro h
    obtain ⟨k, _, hk⟩ := Finset.exists_ne_zero_of_sum_ne_zero h
    by_cases e : hysteresis_seed nms rows cols 0 1 (((0 * rows * cols / 1 : Nat) : Int) + (k : Int))
        = POSSIBLE_EDGE ∧ mag (((0 * rows * cols / 1 : Nat) : Int) + (k : Int)) = b
    · exact ⟨_, e⟩
    · rw [if_neg e] at hk
      exact absurd rfl hk
  · rintro ⟨p, hp, hm⟩
    obtain ⟨_, ⟨o1, o2⟩, _⟩ := hysteresis_seed_poss nms rows cols 0 1 p hp
    have e : p = ((0 * rows * cols / 1 : Nat) : Int)
        + (((p - ((0 * rows * cols / 1 : Nat) : Int)).toNat : Nat) : Int) := by
      rw [Int.toNat_of_nonneg (by omega)]; ring
    have hmem : (p - ((0 * rows * cols / 1 : Nat) : Int)).toNat
        ∈ Finset.range ((hi 0 rows 1 - lo 0 rows 1) * cols) := by
      rw [Finset.mem_range]
      have : (((p - ((0 * rows * cols / 1 : Nat) : Int)).toNat : Nat) : Int)
          < (((hi 0 rows 1 - lo 0 rows 1) * cols : Nat) : Int) := by
        rw [Int.toNat_of_nonneg (by omega)]; omega
      exact_mod_cast this
    have hle := Finset.single_le_sum
      (f := fun k : Nat =>
        (if hysteresis_seed nms rows cols 0 1 (((0 * rows * cols / 1 : Nat) : Int) + (k : Int))
              = POSSIBLE_EDGE ∧ mag (((0 * rows * cols / 1 : Nat) : Int) + (k : Int)) = b
          then (1 : Int) else 0))
      (fun k _ => by
        beta_reduce
        split_ifs
        · decide
        · exact le_refl _) hmem
    beta_reduce at hle
    rw [← e, if_pos ⟨hp, hm⟩] at hle
    omega

/-- A single worker on a suppression map whose seeded `POSSIBLE_EDGE` cells
all have the same magnitude `m`, `1 ≤ m < 32768`: whatever `tlow` and `thigh`
are, `highthreshold` is at most `m`, and rank 0 gets an edge map that is `EDGE`
exactly at the seeded cells and `NOEDGE` at every other pixel. -/
theorem apply_hysteresis_uniform {K : Type} [LinearOrderedField K] [FloorRing K]
    (mag : Int → Int) (nms : Int → Nat) (rows cols : Nat) (tlow thigh : K)
    (mm0 : Nat → Int) (edge0 : Int → Nat) (m : Int) (hm1 : 1 ≤ m) (hm2 : m < 32768)
    (hall : ∀ p, hysteresis_seed nms rows cols 0 1 p = POSSIBLE_EDGE → mag p = m)
    (hex : ∃ p, hysteresis_seed nms rows cols 0 1 p = POSSIBLE_EDGE) :
    ∃ edge, apply_hysteresis mag nms rows cols tlow thigh 1 mm0 edge0 = some edge ∧
      ∀ r c : Nat, r < rows → c < cols →
        edge ((r : Int) * cols + c)
          = if hysteresis_seed nms rows cols 0 1 ((r : Int) * cols + c) = POSSIBLE_EDGE
            then EDGE else NOEDGE := by
  obtain ⟨p0, hp0⟩ := hex
  have hne : ∃ b : Int, 1 ≤ b ∧ b < 32768 ∧ hysteresis_hist mag nms rows cols 1 b ≠ 0 :=
    ⟨m, hm1, hm2, (hysteresis_hist_single_ne_zero mag nms rows cols m (by omega) hm2).2
      ⟨p0, hp0, hall p0 hp0⟩⟩
  obtain ⟨M, H, M1, M2, M3, _, _, _, H1, _, H3, _⟩ :=
    hysteresis_thresholds_first (hysteresis_hist mag nms rows cols 1) tlow thigh (mm0 0) hne
  have hM : (M : Int) = m := by
    obtain ⟨p, hp, hmp⟩ := (hysteresis_hist_single_ne_zero mag nms rows cols (M : Int)
      (by omega) (by exact_mod_cast M2)).1 M3
    rw [← hmp]
    exact hall p hp
  have hH : (H : Int) ≤ m := by
    rw [← hM]
    have : H ≤ M := by
      rcases le_max_iff.1 H3 with h | h <;> omega
    exact_mod_cast this
  obtain ⟨tb, t1, t2, t3, _⟩ := hysteresis_trace_total (fun _ => True) mag nms rows cols 0 1
    (hysteresis_thresholds (hysteresis_hist mag nms rows cols 1) tlow thigh (mm0 0)).1
    (hysteresis_thresholds (hysteresis_hist mag nms rows cols 1) tlow thigh (mm0 0)).2
    (le_refl _) (by decide) (fun _ _ _ => trivial) (fun _ _ _ _ _ _ _ _ => trivial)
  obtain ⟨edge, e1, e2⟩ := apply_hysteresis_single mag nms rows cols tlow thigh mm0 edge0 tb t1
  refine ⟨edge, e1, ?_⟩
  intro r c hr hc
  rw [e2 r c hr hc]
  by_cases hp : hysteresis_seed nms rows cols 0 1 ((r : Int) * cols + c) = POSSIBLE_EDGE
  · have : tb ((r : Int) * cols + c) = EDGE := by
      apply t3 _ hp
      rw [H1, hall _ hp]
      exact hH
    rw [if_pos hp, this]
    decide
  · have hs : hysteresis_seed nms rows cols 0 1 ((r : Int) * cols + c) = NOEDGE := by
      have h := hysteresis_seed_at nms rows cols 0 1 r c (le_refl _) (one_dvd _) hr hc
      have l0 : lo 0 rows 1 = 0 := lo_zero rows 1
      have l1 : hi 0 rows 1 = rows := by simp [hi]
      have hown : 0 ≤ r ∧ r < rows := ⟨Nat.zero_le _, hr⟩
      rw [l0, l1] at h
      rw [h] at hp ⊢
      by_cases hb : r = 0 ∨ r + 1 = rows ∨ c = 0 ∨ c + 1 = cols
      · rw [if_pos hb]
      · rw [if_neg hb, if_pos hown] at hp ⊢
        by_cases hn : nms ((r : Int) * cols + c) = POSSIBLE_EDGE
        · rw [if_pos hn] at hp
          exact absurd rfl hp
        · rw [if_neg hn]
    have : tb ((r : Int) * cols + c) = NOEDGE := by
      rcases t2 ((r : Int) * cols + c) with h | ⟨h, _, _⟩
      · rw [h, hs]
      · exact absurd h hp
    rw [if_neg hp, this]
    decide

/-- The suppression map of a single worker on an 8 × 8 gradient with
`delta_y = 0` and `delta_x` = magnitude = 81, 1004, 5057, 10958, 10958, 5057,
1004, 81 along every row: `POSSIBLE_EDGE` exactly at column 4 of the rows
1..5. -/
theorem step_nms_of_gradient {K : Type} [LinearOrderedField K] (mag gradx grady : Int → Int)
    (hg : ∀ r c : Nat, r < 8 → c < 8 →
      gradx ((r : Int) * (8 : Nat) + c)
        = ([81, 1004, 5057, 10958, 10958, 5057, 1004, 81] : List Int).getD c 0 ∧
      grady ((r : Int) * (8 : Nat) + c) = 0 ∧
      mag ((r : Int) * (8 : Nat) + c)
        = ([81, 1004, 5057, 10958, 10958, 5057, 1004, 81] : List Int).getD c 0)
    (regs0 : Nat → NmsRegs K) (result : Int → Nat) (r c : Nat) (hr : r < 8) (hc : c < 8) :
    non_max_supp mag gradx grady 8 8 1 regs0 result ((r : Int) * (8 : Nat) + c) = POSSIBLE_EDGE
      ↔ 1 ≤ r ∧ r ≤ 5 ∧ c = 4 := by
  by_cases ht : 1 ≤ r ∧ r + 2 < 8 ∧ 1 ≤ c ∧ c + 2 < 8
  · obtain ⟨t1, t2, t3, t4⟩ := ht
    obtain ⟨w, hw⟩ := non_max_supp_tested mag gradx grady 8 8 0 1 regs0 result (le_refl _)
      (one_dvd _) (by decide) r c (by show 1 + 0 ≤ r; omega) (by show r < 8 - 2; omega) t3 t4
    obtain ⟨gx, gy, gm⟩ := hg r c hr hc
    have gl := (hg r (c - 1) hr (by omega)).2.2
    have gr := (hg r (c + 1) hr (by omega)).2.2
    have em : (r : Int) * (8 : Nat) + c - 1 = (r : Int) * (8 : Nat) + ((c - 1 : Nat) : Int) := by
      have : ((c - 1 : Nat) : Int) = (c : Int) - 1 := by omega
      rw [this]; ring
    have ep : (r : Int) * (8 : Nat) + c + 1 = (r : Int) * (8 : Nat) + ((c + 1 : Nat) : Int) := by
      push_cast; ring
    have hpos : 0 < ([81, 1004, 5057, 10958, 10958, 5057, 1004, 81] : List Int).getD c 0 := by
      interval_cases c <;> decide
    have hm : mag ((r : Int) * (8 : Nat) + c) ≠ 0 := by
      rw [gm]; exact hpos.ne.symm
    rw [hw, nmsPixel_nonzero mag gradx grady 8 _ w hm, gx, gy, gm,
      nmsValue_horizontal mag 8 _ _ _ hpos hpos, em, ep, gl, gr]
    have key : (if ([81, 1004, 5057, 10958, 10958, 5057, 1004, 81] : List Int).getD (c - 1) 0
            > ([81, 1004, 5057, 10958, 10958, 5057, 1004, 81] : List Int).getD c 0
          ∨ ([81, 1004, 5057, 10958, 10958, 5057, 1004, 81] : List Int).getD (c + 1) 0
            ≥ ([81, 1004, 5057, 10958, 10958, 5057, 1004, 81] : List Int).getD c 0
          then NOEDGE else POSSIBLE_EDGE) = POSSIBLE_EDGE ↔ c = 4 := by
      interval_cases c <;> decide
    rw [key]
    constructor
    · intro h; exact ⟨t1, by omega, h⟩
    · intro h; exact h.2.2
  · rw [non_max_supp_single_untested mag gradx grady 8 8 regs0 result r c hr hc ht]
    constructor
    · intro h; exact absurd h (by decide)
    · rintro ⟨h1, h2, h3⟩
      exact absurd ⟨h1, by omega, by omega, by omega⟩ ht

/-- The edge map of a single worker on that gradient, whatever `tlow` and
`thigh` are: `EDGE` at column 4 of the rows 1..5, `NOEDGE` elsewhere. -/
theorem step_edges_of_gradient {K : Type} [LinearOrderedField K] [FloorRing K]
    (mag gradx grady : Int → Int)
    (hg : ∀ r c : Nat, r < 8 → c < 8 →
      gradx ((r : Int) * (8 : Nat) + c)
        = ([81, 1004, 5057, 10958, 10958, 5057, 1004, 81] : List Int).getD c 0 ∧
      grady ((r : Int) * (8 : Nat) + c) = 0 ∧
      mag ((r : Int) * (8 : Nat) + c)
        = ([81, 1004, 5057, 10958, 10958, 5057, 1004, 81] : List Int).getD c 0)
    (tlow thigh : K) (regs0 : Nat → NmsRegs K) (mm0 : Nat → Int) (result edge0 : Int → Nat) :
    ∃ edge, apply_hysteresis mag (non_max_supp mag gradx grady 8 8 1 regs0 result) 8 8
        tlow thigh 1 mm0 edge0 = some edge ∧
      ∀ r c : Nat, r < 8 → c < 8 →
        edge ((r : Int) * (8 : Nat) + c) = if 1 ≤ r ∧ r ≤ 5 ∧ c = 4 then EDGE else NOEDGE := by
  have hnms := step_nms_of_gradient mag gradx grady hg regs0 result
  have hseed : ∀ r c : Nat, r < 8 → c < 8 →
      (hysteresis_seed (non_max_supp mag gradx grady 8 8 1 regs0 result) 8 8 0 1
          ((r : Int) * (8 : Nat) + c) = POSSIBLE_EDGE ↔ 1 ≤ r ∧ r ≤ 5 ∧ c = 4) := by
    intro r c hr hc
    rw [hysteresis_seed_at _ 8 8 0 1 r c (le_refl _) (one_dvd _) hr hc]
    have hown : lo 0 8 1 ≤ r ∧ r < hi 0 8 1 := ⟨by show 0 ≤ r; omega, by show r < 8; omega⟩
    by_cases hb : r = 0 ∨ r + 1 = 8 ∨ c = 0 ∨ c + 1 = 8
    · rw [if_pos hb]
      constructor
      · intro h; exact absurd h (by decide)
      · rintro ⟨h1, h2, h3⟩; omega
    · rw [if_neg hb, if_pos hown]
      by_cases hn : non_max_supp mag gradx grady 8 8 1 regs0 result ((r : Int) * (8 : Nat) + c)
          = POSSIBLE_EDGE
      · rw [if_pos hn]
        exact ⟨fun _ => (hnms r c hr hc).1 hn, fun _ => rfl⟩
      · rw [if_neg hn]
        constructor
        · intro h; exact absurd h (by decide)
        · intro h; exact absurd ((hnms r c hr hc).2 h) hn
  obtain ⟨edge, e1, e2⟩ := apply_hysteresis_uniform mag
    (non_max_supp mag gradx grady 8 8 1 regs0 result) 8 8 tlow thigh mm0 edge0 10958
    (by decide) (by decide)
    (by
      intro p hp
      obtain ⟨_, ⟨o1, o2⟩, _⟩ := hysteresis_seed_poss _ 8 8 0 1 p hp
      have o1' : 0 ≤ p := o1
      have o2' : p < ((8 * 8 : Nat) : Int) := by
        have : ((0 * 8 * 8 / 1 : Nat) : Int) + (((hi 0 8 1 - lo 0 8 1) * 8 : Nat) : Int)
            = ((8 * 8 : Nat) : Int) := by decide
        rw [← this]; exact o2
      obtain ⟨r, c, hr, hc, rfl⟩ := pixel_of_pos 8 8 p o1' o2'
      obtain ⟨_, _, h4⟩ := (hseed r c hr hc).1 hp
      rw [(hg r c hr hc).2.2, h4]
      rfl)
    ⟨((1 : Nat) : Int) * (8 : Nat) + ((4 : Nat) : Int),
      (hseed 1 4 (by decide) (by decide)).2 ⟨by decide, by decide, rfl⟩⟩
  refine ⟨edge, e1, ?_⟩
  intro r c hr hc
  rw [e2 r c hr hc]
  by_cases h : 1 ≤ r ∧ r ≤ 5 ∧ c = 4
  · rw [if_pos h, if_pos ((hseed r c hr hc).2 h)]
  · rw [if_neg h, if_neg (fun h2 => h ((hseed r c hr hc).1 h2))]

/-- C16: for every image that is 10 in the columns 0..3 and 200 in the columns
4..7 of an 8 × 8 raster, run through `canny` with `sigma = 1`, `tlow = 0.3`,
`thigh = 0.7` and a single worker, in exact real arithmetic (the real power
and square root), whatever the locals `gx`, `gy`, `xperp`, `yperp` of
`non_max_supp` and `maximum_mag` of `apply_hysteresis` hold on entry: rank 0
gets an edge map whose `EDGE` (0) pixels are the pixels of column 4 in the
rows 1..5, one vertical line at the step, and every other pixel is `NOEDGE`
(255). -/
theorem canny_step_image (image : Int → Nat)
    (himg : ∀ r c : Nat, r < 8 → c < 8 → image ((r : Int) * 8 + c) = if c < 4 then 10 else 200)
    (regs0 : Nat → NmsRegs ℝ) (mm0 : Nat → Int) :
    ∃ edge, canny (fun a b : ℝ => a ^ b) Real.sqrt image 8 8 1 0.3 0.7 1 regs0 mm0 = some edge ∧
      ∀ r c : Nat, r < 8 → c < 8 →
        edge ((r : Int) * 8 + c) = if 1 ≤ r ∧ r ≤ 5 ∧ c = 4 then EDGE else NOEDGE := by
  unfold canny
  simp only []
  exact step_edges_of_gradient _ _ _ (fun r c hr hc => step_gradient image himg r c hr hc)
    0.3 0.7 regs0 mm0 _ _

theorem canny_step_image_witness :
    (∀ r c : Nat, r < 8 → c < 8 →
      (fun k : Int => if k % 8 < 4 then 10 else 200) ((r : Int) * 8 + c)
        = if c < 4 then 10 else 200) ∧
    ∃ edge, canny (fun a b : ℝ => a ^ b) Real.sqrt (fun k : Int => if k % 8 < 4 then 10 else 200)
        8 8 1 0.3 0.7 1 (fun _ => ⟨0, 0, 0, 0⟩) (fun _ => 0) = some edge ∧
      ∀ r c : Nat, r < 8 → c < 8 →
        edge ((r : Int) * 8 + c) = if 1 ≤ r ∧ r ≤ 5 ∧ c = 4 then EDGE else NOEDGE :=
  have h : ∀ r c : Nat, r < 8 → c < 8 →
      (fun k : Int => if k % 8 < 4 then 10 else 200) ((r : Int) * 8 + c)
        = if c < 4 then 10 else 200 := by
    intro r c _ hc
    have e : ((r : Int) * 8 + c) % 8 = (c : Int) := by omega
    beta_reduce
    rw [e]
    by_cases h4 : c < 4
    · rw [if_pos h4, if_pos (by omega)]
    · rw [if_neg h4, if_neg (by omega)]
  ⟨h, canny_step_image _ h (fun _ => ⟨0, 0, 0, 0⟩) (fun _ => 0)⟩

/-- C21: for every magnitude image, suppression map, thresholds and value of
`maximum_mag` on entry, every worker count `size ≥ 1` (whether or not it
divides `rows`) and every rank: the worker's tracing ends, and in the buffer
it holds after the cleanup loop of `apply_hysteresis` (what it hands to the
final `MPI_Reduce`) no cell is `POSSIBLE_EDGE` (128): every cell is `EDGE` (0)
or `NOEDGE` (255).  In the rows of the other workers the 0 is the byte left
by `calloc`. -/
theorem hysteresis_cleanup_resolved {K : Type} [LinearOrderedField K] [FloorRing K]
    (mag : Int → Int) (nms : Int → Nat) (rows cols : Nat) (tlow thigh : K) (rank size : Nat)
    (mm0 : Int) (hs : 1 ≤ size) (hrank : rank < size) :
    ∃ buf, apply_hysteresis_rank mag nms rows cols tlow thigh rank size mm0 = some buf ∧
      ∀ j, buf j ≠ POSSIBLE_EDGE ∧ (buf j = EDGE ∨ buf j = NOEDGE) := by
  obtain ⟨buf, h1, h2, h3, h4⟩ :=
    apply_hysteresis_rank_cells mag nms rows cols tlow thigh rank size mm0 hs hrank
  refine ⟨buf, h1, ?_⟩
  intro j
  have key : buf j = EDGE ∨ buf j = NOEDGE := by
    by_cases hb : borderPos rows cols j
    · exact Or.inr (h2 j hb)
    · by_cases ho : ownPos rows cols rank size j
      · exact h3 j hb ho
      · exact Or.inl (h4 j hb ho)
  refine ⟨?_, key⟩
  rcases key with e | e <;> rw [e] <;> decide

theorem hysteresis_cleanup_resolved_witness :
    1 ≤ 2 ∧ 1 < 2 ∧
    ∃ buf, apply_hysteresis_rank (fun j => if j = 9 then 10 else 5)
        (fun j => if j = 9 ∨ j = 13 then 128 else 255) 6 4 (3 / 10 : ℚ) (9 / 10) 1 2 0
        = some buf ∧
      ∀ j, buf j ≠ POSSIBLE_EDGE ∧ (buf j = EDGE ∨ buf j = NOEDGE) :=
  ⟨by decide, by decide,
    hysteresis_cleanup_resolved (fun j => if j = 9 then 10 else 5)
      (fun j => if j = 9 ∨ j = 13 then 128 else 255) 6 4 (3 / 10 : ℚ) (9 / 10) 1 2 0
      (by decide) (by decide)⟩

/-- A sum over the loop counter `j` of the tap loops of `gaussian_smooth`,
restricted to the taps in bounds, as a sum over the tap offset
`cc = -center + j`. -/
theorem tap_sum_reindex {K : Type} [Field K] (center : Int) (P : Int → Prop) [DecidablePred P]
    (f : Int → K) :
    ∑ j in (Finset.range (2 * center + 1).toNat).filter (fun j : Nat => P (-center + (j : Int))),
        f (-center + (j : Int))
      = ∑ cc in (Finset.Icc (-center) center).filter P, f cc := by
  apply Finset.sum_bij (fun (j : Nat) _ => -center + (j : Int))
  · intro j hj
    rw [Finset.mem_filter, Finset.mem_range] at hj
    rw [Finset.mem_filter, Finset.mem_Icc]
    refine ⟨⟨by omega, by omega⟩, hj.2⟩
  · intro j1 _ j2 _ h
    omega
  · intro cc hcc
    rw [Finset.mem_filter, Finset.mem_Icc] at hcc
    have e : -center + (((cc + center).toNat : Nat) : Int) = cc := by
      rw [Int.toNat_of_nonneg (by omega)]; ring
    refine ⟨(cc + center).toNat, ?_, e⟩
    rw [Finset.mem_filter, Finset.mem_range, e]
    refine ⟨by omega, hcc.2⟩
  · intro j _
    rfl

/-- The value the x-direction blur of `gaussian_smooth` stores for a pixel:
the sum of `image * kernel` over the taps in bounds, divided by the sum of the
weights of those taps. -/
theorem blur_x_pixel_taps {K : Type} [LinearOrderedField K] (image : Int → Nat) (cols : Nat)
    (kernel : Int → K) (center : Int) (r c : Nat) :
    blur_x_pixel image cols kernel center r c
      = (∑ cc in (Finset.Icc (-center) center).filter
            (fun cc : Int => 0 ≤ (c : Int) + cc ∧ (c : Int) + cc < (cols : Int)),
          ((image ((r : Int) * cols + ((c : Int) + cc)) : Nat) : K) * kernel (center + cc))
        / (∑ cc in (Finset.Icc (-center) center).filter
            (fun cc : Int => 0 ≤ (c : Int) + cc ∧ (c : Int) + cc < (cols : Int)),
          kernel (center + cc)) := by
  unfold blur_x_pixel
  simp only []
  rw [tapLoop_eq
    (fun j : Nat => 0 ≤ (c : Int) + (-center + (j : Int))
      ∧ (c : Int) + (-center + (j : Int)) < (cols : Int))
    (fun j : Nat => ((image ((r : Int) * cols + ((c : Int) + (-center + (j : Int)))) : Nat) : K))
    (fun j : Nat => kernel (center + (-center + (j : Int))))]
  simp only []
  rw [tap_sum_reindex center
      (fun cc : Int => 0 ≤ (c : Int) + cc ∧ (c : Int) + cc < (cols : Int))
      (fun cc : Int => ((image ((r : Int) * cols + ((c : Int) + cc)) : Nat) : K)
        * kernel (center + cc)),
    tap_sum_reindex center
      (fun cc : Int => 0 ≤ (c : Int) + cc ∧ (c : Int) + cc < (cols : Int))
      (fun cc : Int => kernel (center + cc))]

/-- C22: for every image, kernel, half-width `center` and worker count that
divides `rows`, the buffer `tempim` gathered after the x-direction blur of
`gaussian_smooth` holds at every pixel `(r, c)` the sum of
`image[r, c+cc] * kernel[center+cc]` over the taps `cc` in `[-center, center]`
with `0 ≤ c + cc < cols`, divided by the sum of `kernel[center+cc]` over the
same taps: the taps outside the image are dropped and the divisor is the sum
of the weights used. -/
theorem gaussian_smooth_horizontal_taps {K : Type} [LinearOrderedField K] (image : Int → Nat)
    (rows cols : Nat) (kernel : Int → K) (center : Int) (size : Nat) (hd : size ∣ rows)
    (r c : Nat) (hr : r < rows) (hc : c < cols) :
    allgather (rows * cols / size) size
        (fun rank => gaussian_smooth_blur_x image rows cols kernel center rank size)
        (fun _ => 0) ((r : Int) * cols + c)
      = (∑ cc in (Finset.Icc (-center) center).filter
            (fun cc : Int => 0 ≤ (c : Int) + cc ∧ (c : Int) + cc < (cols : Int)),
          ((image ((r : Int) * cols + ((c : Int) + cc)) : Nat) : K) * kernel (center + cc))
        / (∑ cc in (Finset.Icc (-center) center).filter
            (fun cc : Int => 0 ≤ (c : Int) + cc ∧ (c : Int) + cc < (cols : Int)),
          kernel (center + cc)) := by
  rw [gaussian_smooth_tempim image rows cols kernel center size hd r c hr hc]
  exact blur_x_pixel_taps image cols kernel center r c

theorem gaussian_smooth_horizontal_taps_witness :
    2 ∣ 2 ∧ 1 < 2 ∧ 0 < 3 ∧
    allgather (2 * 3 / 2) 2
        (fun rank => gaussian_smooth_blur_x (fun k => k.toNat) 2 3
          (fun j => if j = 1 then (1 / 2 : ℚ) else 1 / 4) 1 rank 2)
        (fun _ => 0) (((1 : Nat) : Int) * (3 : Nat) + (0 : Nat))
      = (∑ cc in (Finset.Icc (-1 : Int) 1).filter
            (fun cc : Int => 0 ≤ ((0 : Nat) : Int) + cc ∧ ((0 : Nat) : Int) + cc < ((3 : Nat) : Int)),
          ((((fun k : Int => k.toNat) (((1 : Nat) : Int) * (3 : Nat) + (((0 : Nat) : Int) + cc))) : Nat) : ℚ)
            * (fun j : Int => if j = 1 then (1 / 2 : ℚ) else 1 / 4) (1 + cc))
        / (∑ cc in (Finset.Icc (-1 : Int) 1).filter
            (fun cc : Int => 0 ≤ ((0 : Nat) : Int) + cc ∧ ((0 : Nat) : Int) + cc < ((3 : Nat) : Int)),
          (fun j : Int => if j = 1 then (1 / 2 : ℚ) else 1 / 4) (1 + cc)) :=
  ⟨by decide, by decide, by decide,
    gaussian_smooth_horizontal_taps (fun k => k.toNat) 2 3
      (fun j => if j = 1 then (1 / 2 : ℚ) else 1 / 4) 1 2 (by decide) 1 0 (by decide) (by decide)⟩

/-- C23: for every merged x-blurred buffer `tempim`, kernel and half-width,
every worker count `size ≥ 1` (whether or not it divides `cols`) and every
pixel `(r, c)`: exactly one worker has column `c` in its range; its
`tempbuffer2` holds the blurred value of the pixel, the `tempbuffer2` of every
other worker holds 0 there, and the 16-bit sum of the `MPI_Allreduce` over the
`size` workers equals what a single worker computes. -/
theorem gaussian_smooth_vertical_partition {K : Type} [LinearOrderedField K] [FloorRing K]
    (tempim : Int → K) (rows cols : Nat) (kernel : Int → K) (center : Int) (size : Nat)
    (recv : Int → Int) (hs : 1 ≤ size) (r c : Nat) (hr : r < rows) (hc : c < cols) :
    (∃ owner, owner < size ∧
      (∀ rank, rank < size → (lo rank cols size ≤ c ∧ c < hi rank cols size ↔ rank = owner)) ∧
      gaussian_smooth_blur_y tempim rows cols kernel center owner size ((r : Int) * cols + c)
        = blur_y_pixel tempim rows cols kernel center r c ∧
      ∀ rank, rank < size → rank ≠ owner →
        gaussian_smooth_blur_y tempim rows cols kernel center rank size ((r : Int) * cols + c)
          = 0) ∧
    allreduceShort (rows * cols) size
        (fun rank => gaussian_smooth_blur_y tempim rows cols kernel center rank size) recv
        ((r : Int) * cols + c)
      = allreduceShort (rows * cols) 1
        (fun rank => gaussian_smooth_blur_y tempim rows cols kernel center rank 1) recv
        ((r : Int) * cols + c) := by
  obtain ⟨owner, ho1, ho2⟩ := owner_exists cols size c hs hc
  have hiff : ∀ rank, rank < size →
      (lo rank cols size ≤ c ∧ c < hi rank cols size ↔ rank = owner) := by
    intro rank _
    constructor
    · intro h
      exact owner_unique cols size c rank owner h ho2
    · intro h
      rw [h]
      exact ho2
  refine ⟨⟨owner, ho1, hiff, ?_, ?_⟩, ?_⟩
  · rw [gaussian_smooth_blur_y_apply tempim rows cols kernel center owner size hs ho1 r c hr hc,
      if_pos ho2]
  · intro rank hrank hne
    rw [gaussian_smooth_blur_y_apply tempim rows cols kernel center rank size hs hrank r c hr hc,
      if_neg (fun h => hne ((hiff rank hrank).1 h))]
  · rw [allreduceShort_cols rows cols size hs _ recv
        (fun r c => blur_y_pixel tempim rows cols kernel center r c)
        (fun rank r c hrank hr hc =>
          gaussian_smooth_blur_y_apply tempim rows cols kernel center rank size hs hrank r c hr hc)
        r c hr hc,
      allreduceShort_cols rows cols 1 (le_refl _) _ recv
        (fun r c => blur_y_pixel tempim rows cols kernel center r c)
        (fun rank r c hrank hr hc =>
          gaussian_smooth_blur_y_apply tempim rows cols kernel center rank 1 (le_refl _) hrank
            r c hr hc)
        r c hr hc]

theorem gaussian_smooth_vertical_partition_witness :
    1 ≤ 2 ∧ 1 < 2 ∧ 2 < 3 ∧
    ((∃ owner, owner < 2 ∧
      (∀ rank, rank < 2 → (lo rank 3 2 ≤ 2 ∧ 2 < hi rank 3 2 ↔ rank = owner)) ∧
      gaussian_smooth_blur_y (fun k : Int => (k : ℚ)) 2 3 (fun _ => 1) 1 owner 2
          (((1 : Nat) : Int) * (3 : Nat) + (2 : Nat))
        = blur_y_pixel (fun k : Int => (k : ℚ)) 2 3 (fun _ => 1) 1 1 2 ∧
      ∀ rank, rank < 2 → rank ≠ owner →
        gaussian_smooth_blur_y (fun k : Int => (k : ℚ)) 2 3 (fun _ => 1) 1 rank 2
          (((1 : Nat) : Int) * (3 : Nat) + (2 : Nat)) = 0) ∧
    allreduceShort (2 * 3) 2
        (fun rank => gaussian_smooth_blur_y (fun k : Int => (k : ℚ)) 2 3 (fun _ => 1) 1 rank 2)
        (fun _ => 0) (((1 : Nat) : Int) * (3 : Nat) + (2 : Nat))
      = allreduceShort (2 * 3) 1
        (fun rank => gaussian_smooth_blur_y (fun k : Int => (k : ℚ)) 2 3 (fun _ => 1) 1 rank 1)
        (fun _ => 0) (((1 : Nat) : Int) * (3 : Nat) + (2 : Nat))) :=
  ⟨by decide, by decide, by decide,
    gaussian_smooth_vertical_partition (fun k : Int => (k : ℚ)) 2 3 (fun _ => 1) 1 2 (fun _ => 0)
      (by decide) 1 2 (by decide) (by decide)⟩

/-- A map that commutes with the bodies of two loops carries the result of the
one to the result of the other. -/
theorem forLoop_fuse {σ τ : Type} (g : σ → τ) (b1 : Nat → σ → σ) (b2 : Nat → τ → τ)
    (h : ∀ i s, g (b1 i s) = b2 i (g s)) (a n : Nat) (s : σ) :
    g (forLoop b1 a n s) = forLoop b2 a n (g s) := by
  induction n generalizing a s with
  | zero => rfl
  | succ n ih => rw [forLoop_succ, forLoop_succ, ih, h]

theorem follow_edges_calls_succ (fuel : Nat) (map : Int → Nat) (mag : Int → Int)
    (p lowval : Int) (cols : Nat) :
    follow_edges_calls (fuel + 1) map mag p lowval cols
      = forLoop (fun i (st : Option ((Int → Nat) × List Int)) =>
          st.bind (fun m =>
            if m.1 (p - yoff i * (cols : Int) + xoff i) = POSSIBLE_EDGE
                ∧ mag (p - yoff i * (cols : Int) + xoff i) > lowval then
              (follow_edges_calls fuel (setAt m.1 (p - yoff i * (cols : Int) + xoff i) EDGE) mag
                (p - yoff i * (cols : Int) + xoff i) lowval cols).map
                (fun res => (res.1, m.2 ++ (p - yoff i * (cols : Int) + xoff i) :: res.2))
            else some m))
        0 8 (some (map, [])) := rfl

/-- The ghost record does not change what `follow_edges` computes. -/
theorem follow_edges_calls_fst (mag : Int → Int) (lowval : Int) (cols : Nat) :
    ∀ (fuel : Nat) (map : Int → Nat) (p : Int),
      (follow_edges_calls fuel map mag p lowval cols).map Prod.fst
        = follow_edges fuel map mag p lowval cols := by
  intro fuel
  induction fuel with
  | zero => intro map p; rfl
  | succ fuel ih =>
    intro map p
    rw [follow_edges_calls_succ, follow_edges_succ]
    refine forLoop_fuse (Option.map Prod.fst) _ _ ?_ 0 8 (some (map, []))
    intro i st
    cases st with
    | none => rfl
    | some m =>
      rw [Option.some_bind, Option.map_some', Option.some_bind]
      by_cases hc : m.1 (p - yoff i * (cols : Int) + xoff i) = POSSIBLE_EDGE
          ∧ mag (p - yoff i * (cols : Int) + xoff i) > lowval
      · rw [if_pos hc, if_pos hc, Option.map_map, ← ih]
        rfl
      · rw [if_neg hc, if_neg hc]
        rfl

/-- Turning one `POSSIBLE_EDGE` cell of `S` into `EDGE` lowers the number of
`POSSIBLE_EDGE` cells of `S` by exactly one. -/
theorem possCount_setAt (S : Finset Int) (m : Int → Nat) (q : Int) (hq : q ∈ S)
    (hm : m q = POSSIBLE_EDGE) : possCount S (setAt m q EDGE) + 1 = possCount S m := by
  unfold possCount
  have e : S.filter (fun j => setAt m q EDGE j = POSSIBLE_EDGE)
      = (S.filter (fun j => m j = POSSIBLE_EDGE)).erase q := by
    ext j
    rw [Finset.mem_filter, Finset.mem_erase, Finset.mem_filter]
    by_cases hj : j = q
    · subst hj
      simp [setAt]
      intro _
      decide
    · simp [setAt, hj]
  rw [e, Finset.card_erase_of_mem (Finset.mem_filter.2 ⟨hq, hm⟩)]
  have : 0 < (S.filter (fun j => m j = POSSIBLE_EDGE)).card :=
    Finset.card_pos.2 ⟨q, Finset.mem_filter.2 ⟨hq, hm⟩⟩
  omega

/-- The recursion of `follow_edges` with its ghost record: it ends within the
depth allowed whenever the depth exceeds the number of `POSSIBLE_EDGE` cells,
every pixel it called itself on satisfies `R`, was `POSSIBLE_EDGE` before and
is `EDGE` after, and the number of `POSSIBLE_EDGE` cells went down by the
number of those calls. -/
theorem follow_edges_calls_spec (R : Int → Prop) (mag : Int → Int) (lowval : Int) (cols : Nat)
    (base : Int → Nat) (S : Finset Int)
    (hS : ∀ j, base j = POSSIBLE_EDGE → j ∈ S)
    (hR : ∀ p q i, R p → i < 8 → q = p - yoff i * (cols : Int) + xoff i →
      base q = POSSIBLE_EDGE → mag q > lowval → R q) :
    ∀ (fuel : Nat) (tb : Int → Nat) (p : Int), traceStep R base tb → R p →
      possCount S tb < fuel →
      ∃ (tb' : Int → Nat) (L : List Int),
        follow_edges_calls fuel tb mag p lowval cols = some (tb', L) ∧ traceStep R tb tb' ∧
        (∀ q, q ∈ L → R q ∧ tb q = POSSIBLE_EDGE ∧ tb' q = EDGE) ∧
        possCount S tb' + L.length = possCount S tb := by
  intro fuel
  induction fuel with
  | zero => intro tb p _ _ h; omega
  | succ fuel ih =>
    intro tb p hbase hp hcount
    rw [follow_edges_calls_succ]
    have h := forLoop_inv
      (fun i (st : Option ((Int → Nat) × List Int)) =>
          st.bind (fun m =>
            if m.1 (p - yoff i * (cols : Int) + xoff i) = POSSIBLE_EDGE
                ∧ mag (p - yoff i * (cols : Int) + xoff i) > lowval then
              (follow_edges_calls fuel (setAt m.1 (p - yoff i * (cols : Int) + xoff i) EDGE) mag
                (p - yoff i * (cols : Int) + xoff i) lowval cols).map
                (fun res => (res.1, m.2 ++ (p - yoff i * (cols : Int) + xoff i) :: res.2))
            else some m))
      (fun _ st => ∃ (m : Int → Nat) (L : List Int), st = some (m, L) ∧ traceStep R tb m ∧
        (∀ q, q ∈ L → R q ∧ tb q = POSSIBLE_EDGE ∧ m q = EDGE) ∧
        possCount S m + L.length = possCount S tb) 0 8 (some (tb, []))
      ⟨tb, [], rfl, traceStep_refl R tb, fun q hq => absurd hq (List.not_mem_nil q), rfl⟩
      (by
        rintro i st _ hi ⟨m, L, rfl, hm, hL, hcnt⟩
        beta_reduce
        rw [Option.some_bind]
        dsimp only
        by_cases hc : m (p - yoff i * (cols : Int) + xoff i) = POSSIBLE_EDGE
                ∧ mag (p - yoff i * (cols : Int) + xoff i) > lowval
        · rw [if_pos hc]
          have hbm : traceStep R base m := traceStep_trans R base tb m hbase hm
          have hbq : base (p - yoff i * (cols : Int) + xoff i) = POSSIBLE_EDGE :=
            traceStep_poss R base m hbm _ hc.1
          have hRq : R (p - yoff i * (cols : Int) + xoff i) :=
            hR p _ i hp (by omega) rfl hbq hc.2
          have hstep := traceStep_setAt R tb m _ hm hc.1 hRq
          have hmm2 : traceStep R m (setAt m (p - yoff i * (cols : Int) + xoff i) EDGE) :=
            traceStep_setAt R m m _ (traceStep_refl R m) hc.1 hRq
          have hone := possCount_setAt S m _ (hS _ hbq) hc.1
          obtain ⟨m3, L3, h3, h4, h5, h6⟩ := ih _ (p - yoff i * (cols : Int) + xoff i)
            (traceStep_trans R base tb _ hbase hstep) hRq (by omega)
          have hmm3 := traceStep_trans R m _ m3 hmm2 h4
          have hq3 : m3 (p - yoff i * (cols : Int) + xoff i) = EDGE :=
            traceStep_edge R _ m3 h4 _ (by simp [setAt])
          refine ⟨m3, L ++ (p - yoff i * (cols : Int) + xoff i) :: L3, ?_,
            traceStep_trans R tb _ m3 hstep h4, ?_, ?_⟩
          · rw [h3, Option.map_some']
          · intro x hx
            rcases List.mem_append.1 hx with hx | hx
            · obtain ⟨a1, a2, a3⟩ := hL x hx
              exact ⟨a1, a2, traceStep_edge R m m3 hmm3 x a3⟩
            · rcases List.mem_cons.1 hx with hx | hx
              · rw [hx]
                exact ⟨hRq, traceStep_poss R tb m hm _ hc.1, hq3⟩
              · obtain ⟨a1, a2, a3⟩ := h5 x hx
                refine ⟨a1, ?_, a3⟩
                apply traceStep_poss R tb _ hstep x a2
          · rw [List.length_append, List.length_cons]
            omega
        · rw [if_neg hc]
          exact ⟨m, L, rfl, hm, hL, hcnt⟩)
    obtain ⟨m, L, h1, h2, h3, h4⟩ := h
    exact ⟨m, L, h1, h2, h3, h4⟩

/-- C26: for every edge map whose `POSSIBLE_EDGE` cells lie in a finite set
`S` (the cells of the buffer), every magnitude image, start pixel and low
value: `follow_edges` returns as soon as the recursion depth allowed exceeds
the number of `POSSIBLE_EDGE` cells.  Every pixel it calls itself on was
`POSSIBLE_EDGE` before and is `EDGE` after, no cell that was not
`POSSIBLE_EDGE` becomes so, the number of `POSSIBLE_EDGE` cells goes down by
exactly the number of recursive calls, and so that number is at most the
initial number of `POSSIBLE_EDGE` cells.  `follow_edges_calls` is
`follow_edges` with the list of the recursive calls as a ghost result. -/
theorem follow_edges_terminates (map : Int → Nat) (mag : Int → Int) (p lowval : Int)
    (cols : Nat) (S : Finset Int) (hS : ∀ j, map j = POSSIBLE_EDGE → j ∈ S) (fuel : Nat)
    (hfuel : possCount S map < fuel) :
    ∃ (map' : Int → Nat) (L : List Int),
      follow_edges_calls fuel map mag p lowval cols = some (map', L) ∧
      follow_edges fuel map mag p lowval cols = some map' ∧
      (∀ q, q ∈ L → map q = POSSIBLE_EDGE ∧ map' q = EDGE) ∧
      (∀ j, map' j = POSSIBLE_EDGE → map j = POSSIBLE_EDGE) ∧
      possCount S map' + L.length = possCount S map ∧
      L.length ≤ possCount S map := by
  obtain ⟨map', L, h1, h2, h3, h4⟩ := follow_edges_calls_spec (fun _ => True) mag lowval cols
    map S hS (fun _ _ _ _ _ _ _ _ => trivial) fuel map p (traceStep_refl _ map) trivial hfuel
  refine ⟨map', L, h1, ?_, fun q hq => (h3 q hq).2, ?_, h4, by omega⟩
  · rw [← follow_edges_calls_fst, h1]
    rfl
  · intro j hj
    exact traceStep_poss _ map map' h2 j hj

theorem follow_edges_terminates_witness :
    (∀ j : Int, (fun j : Int => if j = 5 ∨ j = 6 then 128 else 255) j = POSSIBLE_EDGE
      → j ∈ ({5, 6} : Finset Int)) ∧
    possCount ({5, 6} : Finset Int) (fun j : Int => if j = 5 ∨ j = 6 then 128 else 255) < 3 ∧
    ∃ (map' : Int → Nat) (L : List Int),
      follow_edges_calls 3 (fun j : Int => if j = 5 ∨ j = 6 then 128 else 255) (fun _ => 10)
        9 3 4 = some (map', L) ∧
      follow_edges 3 (fun j : Int => if j = 5 ∨ j = 6 then 128 else 255) (fun _ => 10)
        9 3 4 = some map' ∧
      (∀ q, q ∈ L → (fun j : Int => if j = 5 ∨ j = 6 then 128 else 255) q = POSSIBLE_EDGE
        ∧ map' q = EDGE) ∧
      (∀ j, map' j = POSSIBLE_EDGE
        → (fun j : Int => if j = 5 ∨ j = 6 then 128 else 255) j = POSSIBLE_EDGE) ∧
      possCount ({5, 6} : Finset Int) map' + L.length
        = possCount ({5, 6} : Finset Int) (fun j : Int => if j = 5 ∨ j = 6 then 128 else 255) ∧
      L.length
        ≤ possCount ({5, 6} : Finset Int) (fun j : Int => if j = 5 ∨ j = 6 then 128 else 255) :=
  have hS : ∀ j : Int, (fun j : Int => if j = 5 ∨ j = 6 then 128 else 255) j = POSSIBLE_EDGE
      → j ∈ ({5, 6} : Finset Int) := by
    intro j hj
    beta_reduce at hj
    by_cases h : j = 5 ∨ j = 6
    · rcases h with h | h <;> rw [h] <;> decide
    · rw [if_neg h] at hj
      exact absurd hj (by decide)
  have hc : possCount ({5, 6} : Finset Int)
      (fun j : Int => if j = 5 ∨ j = 6 then 128 else 255) < 3 := by decide
  ⟨hS, hc, follow_edges_terminates _ (fun _ => 10) 9 3 4 _ hS 3 hc⟩

/-- C28: with a single worker, for every `nrows × ncols` input and whatever
the locals of `non_max_supp` and the `result` buffer hold on entry: the
worker's `tempbuffer` is 0 in every cell other than those of the pixels with
`1 ≤ row ≤ nrows-3` and `1 ≤ column ≤ ncols-3`; the result holds 0, hence
neither `POSSIBLE_EDGE` nor `NOEDGE`, at every pixel outside that range, in
particular in the row `nrows-2` and in the column `ncols-2`; at the pixels of
the range it holds what the test stored, `NOEDGE` or `POSSIBLE_EDGE`. -/
theorem non_max_supp_single_frame {K : Type} [LinearOrderedField K]
    (mag gradx grady : Int → Int) (nrows ncols : Nat) (regs0 : Nat → NmsRegs K)
    (result : Int → Nat) (r c : Nat) (hr : r < nrows) (hc : c < ncols) :
    (∀ k : Int, (∀ row col : Nat, 1 ≤ row → row + 3 ≤ nrows → 1 ≤ col → col + 3 ≤ ncols →
        k ≠ (row : Int) * ncols + col) →
      non_max_supp_rank mag gradx grady nrows ncols 0 1 (regs0 0) k = 0) ∧
    (¬ (1 ≤ r ∧ r + 3 ≤ nrows ∧ 1 ≤ c ∧ c + 3 ≤ ncols) →
      non_max_supp mag gradx grady nrows ncols 1 regs0 result ((r : Int) * ncols + c) = 0 ∧
      non_max_supp mag gradx grady nrows ncols 1 regs0 result ((r : Int) * ncols + c)
        ≠ POSSIBLE_EDGE) ∧
    (r + 2 = nrows ∨ c + 2 = ncols →
      non_max_supp mag gradx grady nrows ncols 1 regs0 result ((r : Int) * ncols + c) = 0) ∧
    (1 ≤ r ∧ r + 3 ≤ nrows ∧ 1 ≤ c ∧ c + 3 ≤ ncols →
      non_max_supp mag gradx grady nrows ncols 1 regs0 result ((r : Int) * ncols + c) = NOEDGE ∨
      non_max_supp mag gradx grady nrows ncols 1 regs0 result ((r : Int) * ncols + c)
        = POSSIBLE_EDGE) := by
  have l0 : lo 0 nrows 1 = 0 := lo_zero nrows 1
  have l1 : hi 0 nrows 1 = nrows := by simp [hi]
  have hz : ∀ r c : Nat, r < nrows → c < ncols →
      ¬ (1 ≤ r ∧ r + 3 ≤ nrows ∧ 1 ≤ c ∧ c + 3 ≤ ncols) →
      non_max_supp mag gradx grady nrows ncols 1 regs0 result ((r : Int) * ncols + c) = 0 := by
    intro r c hr hc hu
    exact non_max_supp_single_untested mag gradx grady nrows ncols regs0 result r c hr hc
      (fun h => hu ⟨h.1, by omega, h.2.2.1, by omega⟩)
  refine ⟨?_, ?_, ?_, ?_⟩
  · intro k hk
    apply non_max_supp_rank_untested mag gradx grady nrows ncols 0 1 (regs0 0) (le_refl _)
      (one_dvd _)
    intro row col h1 h2 h3 h4
    rw [l0] at h1
    rw [l1] at h2
    simp only [if_true, zero_add] at h1 h2
    exact hk row col (by omega) (by omega) h3 (by omega)
  · intro hu
    have h := hz r c hr hc hu
    refine ⟨h, ?_⟩
    rw [h]
    decide
  · intro h
    exact hz r c hr hc (by omega)
  · rintro ⟨h1, h2, h3, h4⟩
    obtain ⟨w, hw⟩ := non_max_supp_tested mag gradx grady nrows ncols 0 1 regs0 result
      (le_refl _) (one_dvd _) (by decide) r c
      (by rw [l0]; simp only [if_true]; omega)
      (by rw [l1]; simp only [zero_add, if_true]; omega) h3 (by omega)
    rw [hw]
    exact nmsPixel_value mag gradx grady ncols _ _ w

theorem non_max_supp_single_frame_witness :
    3 < 5 ∧ 2 < 5 ∧
    ((∀ k : Int, (∀ row col : Nat, 1 ≤ row → row + 3 ≤ 5 → 1 ≤ col → col + 3 ≤ 5 →
        k ≠ (row : Int) * (5 : Nat) + col) →
      non_max_supp_rank (fun j => j) (fun _ => 1) (fun _ => 1) 5 5 0 1
        ((fun _ => (⟨0, 0, 0, 0⟩ : NmsRegs ℚ)) 0) k = 0) ∧
    (¬ (1 ≤ 3 ∧ 3 + 3 ≤ 5 ∧ 1 ≤ 2 ∧ 2 + 3 ≤ 5) →
      non_max_supp (fun j => j) (fun _ => 1) (fun _ => 1) 5 5 1
          (fun _ => (⟨0, 0, 0, 0⟩ : NmsRegs ℚ)) (fun _ => 7)
          (((3 : Nat) : Int) * (5 : Nat) + (2 : Nat)) = 0 ∧
      non_max_supp (fun j => j) (fun _ => 1) (fun _ => 1) 5 5 1
          (fun _ => (⟨0, 0, 0, 0⟩ : NmsRegs ℚ)) (fun _ => 7)
          (((3 : Nat) : Int) * (5 : Nat) + (2 : Nat)) ≠ POSSIBLE_EDGE) ∧
    (3 + 2 = 5 ∨ 2 + 2 = 5 →
      non_max_supp (fun j => j) (fun _ => 1) (fun _ => 1) 5 5 1
          (fun _ => (⟨0, 0, 0, 0⟩ : NmsRegs ℚ)) (fun _ => 7)
          (((3 : Nat) : Int) * (5 : Nat) + (2 : Nat)) = 0) ∧
    (1 ≤ 3 ∧ 3 + 3 ≤ 5 ∧ 1 ≤ 2 ∧ 2 + 3 ≤ 5 →
      non_max_supp (fun j => j) (fun _ => 1) (fun _ => 1) 5 5 1
          (fun _ => (⟨0, 0, 0, 0⟩ : NmsRegs ℚ)) (fun _ => 7)
          (((3 : Nat) : Int) * (5 : Nat) + (2 : Nat)) = NOEDGE ∨
      non_max_supp (fun j => j) (fun _ => 1) (fun _ => 1) 5 5 1
          (fun _ => (⟨0, 0, 0, 0⟩ : NmsRegs ℚ)) (fun _ => 7)
          (((3 : Nat) : Int) * (5 : Nat) + (2 : Nat)) = POSSIBLE_EDGE)) :=
  ⟨by decide, by decide,
    non_max_supp_single_frame (fun j => j) (fun _ => 1) (fun _ => 1) 5 5
      (fun _ => (⟨0, 0, 0, 0⟩ : NmsRegs ℚ)) (fun _ => 7) 3 2 (by decide) (by decide)⟩

/-- On a magnitude image that is zero everywhere a single worker delivers an
edge image that is `NOEDGE` at every pixel, whatever the suppression map
holds: no pixel reaches `highthreshold ≥ 1`, so nothing is traced. -/
theorem apply_hysteresis_zero_mag {K : Type} [LinearOrderedField K] [FloorRing K]
    (mag : Int → Int) (nms : Int → Nat) (rows cols : Nat) (tlow thigh : K)
    (mm0 : Nat → Int) (edge0 : Int → Nat) (hmag : ∀ q, mag q = 0) :
    ∃ edge, apply_hysteresis mag nms rows cols tlow thigh 1 mm0 edge0 = some edge ∧
      ∀ r c : Nat, r < rows → c < cols → edge ((r : Int) * cols + c) = NOEDGE := by
  have hhigh := (hysteresis_thresholds_high (hysteresis_hist mag nms rows cols 1) tlow thigh
    (mm0 0)).1
  obtain ⟨tb, h1, h2, _, _⟩ := hysteresis_trace_total (fun _ => False) mag nms rows cols 0 1
    (hysteresis_thresholds (hysteresis_hist mag nms rows cols 1) tlow thigh (mm0 0)).1
    (hysteresis_thresholds (hysteresis_hist mag nms rows cols 1) tlow thigh (mm0 0)).2
    (le_refl _) (by decide)
    (fun p _ hp => by
      rw [hmag p] at hp
      omega)
    (fun _ _ _ h _ _ _ _ => h)
  obtain ⟨edge, h3, h4⟩ := apply_hysteresis_single mag nms rows cols tlow thigh mm0 edge0 tb h1
  refine ⟨edge, h3, ?_⟩
  intro r c hr hc
  rw [h4 r c hr hc]
  have hin := pixel_in_image rows cols r c hr hc
  have hseed : hysteresis_seed nms rows cols 0 1 ((r : Int) * cols + c) = NOEDGE ∨
      hysteresis_seed nms rows cols 0 1 ((r : Int) * cols + c) = POSSIBLE_EDGE := by
    rw [hysteresis_seed_apply]
    by_cases hb : borderPos rows cols ((r : Int) * cols + c)
    · rw [if_pos hb]
      exact Or.inl rfl
    · have hown : ownPos rows cols 0 1 ((r : Int) * cols + c) := by
        rw [ownPos_of_dvd rows cols 0 1 (le_refl _) (one_dvd _), lo_zero,
          hi_last rows 1 (le_refl _)]
        exact ⟨by simpa using hin.1, hin.2⟩
      rw [if_neg hb, if_pos hown]
      by_cases hn : nms ((r : Int) * cols + c) = POSSIBLE_EDGE
      · rw [if_pos hn]
        exact Or.inr rfl
      · rw [if_neg hn]
        exact Or.inl rfl
  rcases h2 ((r : Int) * cols + c) with h | ⟨_, _, hf⟩
  · rcases hseed with e | e
    · rw [h, e]
      decide
    · rw [h, e]
      decide
  · exact absurd hf id

/-- On a magnitude image that is zero everywhere the histogram of a single
worker is zero in every bin above 0, whatever the suppression map holds. -/
theorem hysteresis_hist_zero_mag (mag : Int → Int) (nms : Int → Nat) (rows cols : Nat)
    (hmag : ∀ q, mag q = 0) (b : Int) (h0 : 1 ≤ b) (h1 : b < 32768) :
    hysteresis_hist mag nms rows cols 1 b = 0 := by
  by_contra h
  obtain ⟨p, _, hp⟩ := (hysteresis_hist_single_ne_zero mag nms rows cols b (by omega) h1).1 h
  rw [hmag p] at hp
  omega

/-- A constant image (value `v ≤ 255`) with `rows, cols ≥ 2` run through
`canny` with a single worker, whatever the uninitialised locals of
`non_max_supp` hold (NaN and infinities included): the merged histogram is
zero in every bin above 0 and rank 0 gets an edge map that is `NOEDGE` at
every pixel. -/
theorem canny_constant_image_any {K : Type} [LinearOrderedField K] [FloorRing K]
    (powf : K → K → K) (sqrtf : K → K) (image : Int → Nat) (rows cols : Nat)
    (sigma tlow thigh : K) (v : Nat) (regs0 : Nat → NmsRegs K) (mm0 : Nat → Int)
    (hrows : 2 ≤ rows) (hcols : 2 ≤ cols) (hsig : 0 < sigma)
    (hpow : ∀ y, 0 < powf 2.71828 y) (hsqrt : 0 < sqrtf 6.2831853) (hsqrt0 : sqrtf 0 = 0)
    (hv : v ≤ 255) (himg : ∀ k : Int, 0 ≤ k → k < (rows : Int) * cols → image k = v) :
    (∀ b : Int, 1 ≤ b → b < 32768 →
      hysteresis_hist (canny_gradient powf sqrtf image rows cols sigma 1).1
        (non_max_supp (canny_gradient powf sqrtf image rows cols sigma 1).1
          (canny_gradient powf sqrtf image rows cols sigma 1).2.1
          (canny_gradient powf sqrtf image rows cols sigma 1).2.2 rows cols 1 regs0
          (fun _ => 0)) rows cols 1 b = 0) ∧
    ∃ edge, canny powf sqrtf image rows cols sigma tlow thigh 1 regs0 mm0 = some edge ∧
      ∀ r c : Nat, r < rows → c < cols → edge ((r : Int) * cols + c) = NOEDGE := by
  obtain ⟨_, _, hmag⟩ := canny_gradient_const powf sqrtf image rows cols sigma v hrows hcols
    hsig hpow hsqrt hsqrt0 hv himg
  exact ⟨fun b h0 h1 => hysteresis_hist_zero_mag _ _ rows cols hmag b h0 h1,
    apply_hysteresis_zero_mag _ _ rows cols tlow thigh mm0 (fun _ => 0) hmag⟩

/-- The result of `non_max_supp` on the all-zero 4 × 4 magnitude and gradient
images with one worker, when the uninitialised weights `xperp`, `yperp` hold
NaN: the one tested pixel (1,1), cell 5, is `POSSIBLE_EDGE`. -/
theorem non_max_supp_zero_nan :
    non_max_supp (K := ℝ) (fun _ => 0) (fun _ => 0) (fun _ => 0) 4 4 1
      (fun _ => ⟨0, 0, FloatVal.nan, FloatVal.nan⟩) (fun _ => 0) 5 = POSSIBLE_EDGE := by
  decide!

/-- C7 fails on the code: on the all-zero 4 × 4 image (`sigma = 1`, one
worker, the real power and square root), when the uninitialised `float`
locals `xperp`, `yperp` of `non_max_supp` hold NaN, `delta_x`, `delta_y` and
the magnitude are zero in every cell, and yet `non_max_supp` marks the tested
pixel (1,1), cell 5, `POSSIBLE_EDGE`: for `m00 == 0` the code stores `NOEDGE`
and goes on to the octant test with the weights it never assigned, `0 * NaN`
is NaN, the three comparisons of the final test fail, and the `else` branch
stores `POSSIBLE_EDGE`. -/
theorem canny_constant_image_nan :
    (∀ k, (canny_gradient (fun a b : ℝ => a ^ b) Real.sqrt (fun _ => 0) 4 4 1 1).2.1 k = 0) ∧
    (∀ k, (canny_gradient (fun a b : ℝ => a ^ b) Real.sqrt (fun _ => 0) 4 4 1 1).2.2 k = 0) ∧
    (∀ k, (canny_gradient (fun a b : ℝ => a ^ b) Real.sqrt (fun _ => 0) 4 4 1 1).1 k = 0) ∧
    non_max_supp (K := ℝ)
        (canny_gradient (fun a b : ℝ => a ^ b) Real.sqrt (fun _ => 0) 4 4 1 1).1
        (canny_gradient (fun a b : ℝ => a ^ b) Real.sqrt (fun _ => 0) 4 4 1 1).2.1
        (canny_gradient (fun a b : ℝ => a ^ b) Real.sqrt (fun _ => 0) 4 4 1 1).2.2 4 4 1
        (fun _ => ⟨0, 0, FloatVal.nan, FloatVal.nan⟩) (fun _ => 0) 5
      = POSSIBLE_EDGE := by
  obtain ⟨hdx, hdy, hmag⟩ := canny_gradient_const (fun a b : ℝ => a ^ b) Real.sqrt (fun _ => 0)
    4 4 1 0 (by decide) (by decide) (by norm_num)
    (fun y => Real.rpow_pos_of_pos (by norm_num) y) (Real.sqrt_pos.2 (by norm_num))
    Real.sqrt_zero (by decide) (fun _ _ _ => rfl)
  refine ⟨hdx, hdy, hmag, ?_⟩
  have e1 : (canny_gradient (fun a b : ℝ => a ^ b) Real.sqrt (fun _ => 0) 4 4 1 1).1
      = fun _ => 0 := funext hmag
  have e2 : (canny_gradient (fun a b : ℝ => a ^ b) Real.sqrt (fun _ => 0) 4 4 1 1).2.1
      = fun _ => 0 := funext hdx
  have e3 : (canny_gradient (fun a b : ℝ => a ^ b) Real.sqrt (fun _ => 0) 4 4 1 1).2.2
      = fun _ => 0 := funext hdy
  rw [e1, e2, e3]
  exact non_max_supp_zero_nan

end Canny
